import Mathlib

/-! Spatial indexes over axis-aligned boxes: linear scan, octree, quadtree.

A shallow embedding of `maths.h`, `acceleration_structure.h`,
`linear_acceleration_structure.h`, `octree_acceleration_structure.h`,
`quadtree_acceleration_structure.h` and `count_allocator.h`, followed by theorems
about it.

Conventions of the embedding.

* A value of the C++ type `float` is a rational number.  Every operation `+`, `-`,
  `*`, `/` on two such values is the exact operation followed by a rounding, in the
  order in which the source applies the operations: `fadd`, `fsub`, `fmul`,
  `fdiv`.  The rounding is the field `round` of the class `FloatArithmetic`.
  Where a statement names no arithmetic, it is the arithmetic of the machine,
  `binary32_arithmetic`: IEEE 754 binary32, round to nearest, ties to even, with
  subnormal numbers.  A result of magnitude `2 ^ 128` or more, for which the
  machine gives an infinity, is left as it is: overflow, infinities and NaN are
  outside the embedding.  `std::abs` and the comparisons are exact.
* A theorem that says "exact arithmetic" is stated for every arithmetic of the
  class `FloatArithmetic.Exact`, in which `round` changes nothing.
* A primitive is identified by its address, a `Nat`.  The primitives live in the
  caller's memory; a state holds their members as maps from addresses.
* A reference to a tree node (`OctreeNode&`, the `void* m_node` back-reference)
  is the list of child indices leading from the root to that node; a null
  `m_node` is `none`.
* An `assert` that fails, or a dereference of a reference that names no node,
  makes the operation return `none`.
* A `std::vector` is a `List`, `push_back` appends at the end.
* A `size_t` is a `Nat` taken modulo `2 ^ size_bits`, where the width `size_bits`
  of the platform is a parameter.
* `std::sqrt` is a parameter `sqrt` of the functions that call it; what a
  theorem needs of it is a hypothesis of that theorem.
-/

/-! ## The arithmetic of `float` -/

/-- The arithmetic of the type `float`: `round` gives the value of type `float`
that an operation returns for an exact result. -/
class FloatArithmetic (K : Type) where
  round : K → K

/-- Exact arithmetic: no result is changed by the rounding. -/
class FloatArithmetic.Exact (K : Type) [FloatArithmetic K] : Prop where
  round_eq : ∀ x : K, FloatArithmetic.round x = x

/-- The operation `a + b` on two values of type `float`. -/
def fadd {K : Type} [Add K] [FloatArithmetic K] (a b : K) : K :=
  FloatArithmetic.round (a + b)

/-- The operation `a - b` on two values of type `float`. -/
def fsub {K : Type} [Sub K] [FloatArithmetic K] (a b : K) : K :=
  FloatArithmetic.round (a - b)

/-- The operation `a * b` on two values of type `float`. -/
def fmul {K : Type} [Mul K] [FloatArithmetic K] (a b : K) : K :=
  FloatArithmetic.round (a * b)

/-- The operation `a / b` on two values of type `float`. -/
def fdiv {K : Type} [Div K] [FloatArithmetic K] (a b : K) : K :=
  FloatArithmetic.round (a / b)

/-- The power `2 ^ k` of an integer exponent. -/
def pow2 (k : ℤ) : ℚ :=
  if 0 ≤ k then ((2 ^ k.toNat : ℕ) : ℚ) else 1 / ((2 ^ (-k).toNat : ℕ) : ℚ)

/-- The integer nearest to `x`, the even one of the two when `x` is halfway
between two integers. -/
def round_half_even (x : ℚ) : ℤ :=
  if x - ⌊x⌋ < 1 / 2 then ⌊x⌋
  else if 1 / 2 < x - ⌊x⌋ then ⌊x⌋ + 1
  else if ⌊x⌋ % 2 = 0 then ⌊x⌋ else ⌊x⌋ + 1

/-- Binary search for the exponent: `e` goes up by each step of the list for
which `2 ^ (e + step) ≤ x`. -/
def exponent_search (x : ℚ) : List ℤ → ℤ → ℤ
  | [], e => e
  | step :: rest, e =>
    if pow2 (e + step) ≤ x then exponent_search x rest (e + step) else exponent_search x rest e

/-- The steps leave no gap: no step is negative or larger than one plus the sum
of the steps after it. -/
def steps_cover : List ℤ → Bool
  | [] => true
  | step :: rest => decide (0 ≤ step) && decide (step ≤ rest.sum + 1) && steps_cover rest

/-- The exponent of the binary32 format for `0 ≤ x < 2 ^ 128`: the `e` with
`2 ^ e ≤ x < 2 ^ (e + 1)`, and `-126`, the exponent of the subnormal numbers,
for `x < 2 ^ (-126)`. -/
def float_exponent (x : ℚ) : ℤ :=
  exponent_search x [128, 64, 32, 16, 8, 4, 2, 1] (-126)

/-- The binary32 value nearest to `x ≥ 0`, the one with an even significand when
`x` is halfway between two values: a multiple of `2 ^ (e - 23)`, where `e` is the
exponent of `x`.  From `2 ^ 128` on, `x` is left as it is. -/
def binary32_magnitude (x : ℚ) : ℚ :=
  if pow2 128 ≤ x then x
  else (round_half_even (x / pow2 (float_exponent x - 23)) : ℚ) * pow2 (float_exponent x - 23)

/-- Rounding to binary32: round to nearest, ties to even. -/
def binary32 (x : ℚ) : ℚ :=
  if 0 ≤ x then binary32_magnitude x else -binary32_magnitude (-x)

/-- The arithmetic of the machine. -/
instance binary32_arithmetic : FloatArithmetic ℚ := ⟨binary32⟩

/-- Arithmetic on the rational numbers without rounding. -/
def exact_arithmetic : FloatArithmetic ℚ := ⟨id⟩

/-- The number is a value of the type `float`. -/
def is_binary32 (x : ℚ) : Prop := binary32 x = x ∧ |x| < pow2 128

instance (x : ℚ) : Decidable (is_binary32 x) := by
  unfold is_binary32; infer_instance

/-! ## maths.h

The structures that `frustum_from_float4x4` works on are declared over a number
type `K`, so that the function can be stated in real arithmetic as well; in the
program `K` is the type of the values of `float`, the rational numbers. -/

structure float2 where
  x : ℚ
  y : ℚ
deriving DecidableEq

structure float3_of (K : Type) where
  x : K
  y : K
  z : K
deriving DecidableEq

abbrev float3 := float3_of ℚ

structure float4x4_of (K : Type) where
  data : Fin 4 → Fin 4 → K

abbrev float4x4 := float4x4_of ℚ

structure aabbox2 where
  center : float2
  extent : float2
deriving DecidableEq

structure aabbox3 where
  center : float3
  extent : float3
deriving DecidableEq

structure plane_of (K : Type) where
  normal : float3_of K
  distance : K
deriving DecidableEq

abbrev plane := plane_of ℚ

/-- The six planes `plane data[6]` of a view frustum. -/
structure frustum_of (K : Type) where
  data : Fin 6 → plane_of K

abbrev frustum := frustum_of ℚ

section

variable {K : Type} [Add K] [Sub K] [Mul K] [Div K] [One K] [FloatArithmetic K]

/-- The function `dot` of maths.h. -/
def dot (lhs rhs : float3_of K) : K :=
  fadd (fadd (fmul lhs.x rhs.x) (fmul lhs.y rhs.y)) (fmul lhs.z rhs.z)

/-- The function `length` of maths.h. -/
def length (sqrt : K → K) (value : float3_of K) : K :=
  sqrt (fadd (fadd (fmul value.x value.x) (fmul value.y value.y)) (fmul value.z value.z))

/-- The overload `normalize(const plane&)` of maths.h. -/
def normalize_plane (sqrt : K → K) (value : plane_of K) : plane_of K :=
  let multiplier := fdiv 1 (length sqrt value.normal)
  ⟨⟨fmul value.normal.x multiplier, fmul value.normal.y multiplier,
    fmul value.normal.z multiplier⟩, fmul value.distance multiplier⟩

/-- The function `frustum_from_float4x4` of maths.h: the planes left, right,
bottom, top, near, far. -/
def frustum_from_float4x4 (sqrt : K → K) (view_projection_matrix : float4x4_of K) :
    frustum_of K :=
  ⟨fun i =>
    match i with
    | 0 => normalize_plane sqrt
        ⟨⟨fadd (view_projection_matrix.data 0 3) (view_projection_matrix.data 0 0),
          fadd (view_projection_matrix.data 1 3) (view_projection_matrix.data 1 0),
          fadd (view_projection_matrix.data 2 3) (view_projection_matrix.data 2 0)⟩,
         fadd (view_projection_matrix.data 3 3) (view_projection_matrix.data 3 0)⟩
    | 1 => normalize_plane sqrt
        ⟨⟨fsub (view_projection_matrix.data 0 3) (view_projection_matrix.data 0 0),
          fsub (view_projection_matrix.data 1 3) (view_projection_matrix.data 1 0),
          fsub (view_projection_matrix.data 2 3) (view_projection_matrix.data 2 0)⟩,
         fsub (view_projection_matrix.data 3 3) (view_projection_matrix.data 3 0)⟩
    | 2 => normalize_plane sqrt
        ⟨⟨fadd (view_projection_matrix.data 0 3) (view_projection_matrix.data 0 1),
          fadd (view_projection_matrix.data 1 3) (view_projection_matrix.data 1 1),
          fadd (view_projection_matrix.data 2 3) (view_projection_matrix.data 2 1)⟩,
         fadd (view_projection_matrix.data 3 3) (view_projection_matrix.data 3 1)⟩
    | 3 => normalize_plane sqrt
        ⟨⟨fsub (view_projection_matrix.data 0 3) (view_projection_matrix.data 0 1),
          fsub (view_projection_matrix.data 1 3) (view_projection_matrix.data 1 1),
          fsub (view_projection_matrix.data 2 3) (view_projection_matrix.data 2 1)⟩,
         fsub (view_projection_matrix.data 3 3) (view_projection_matrix.data 3 1)⟩
    | 4 => normalize_plane sqrt
        ⟨⟨view_projection_matrix.data 0 2,
          view_projection_matrix.data 1 2,
          view_projection_matrix.data 2 2⟩,
         view_projection_matrix.data 3 2⟩
    | 5 => normalize_plane sqrt
        ⟨⟨fsub (view_projection_matrix.data 0 3) (view_projection_matrix.data 0 2),
          fsub (view_projection_matrix.data 1 3) (view_projection_matrix.data 1 2),
          fsub (view_projection_matrix.data 2 3) (view_projection_matrix.data 2 2)⟩,
         fsub (view_projection_matrix.data 3 3) (view_projection_matrix.data 3 2)⟩⟩

end

section

variable [FloatArithmetic ℚ]

/-- The overload `intersect(const aabbox2&, const aabbox3&)`: the footprint test. -/
def intersect_aabbox2_aabbox3 (lhs : aabbox2) (rhs : aabbox3) : Bool :=
  decide (|fsub lhs.center.x rhs.center.x| ≤ fadd lhs.extent.x rhs.extent.x) &&
  decide (|fsub lhs.center.y rhs.center.z| ≤ fadd lhs.extent.y rhs.extent.z)

/-- The overload `intersect(const aabbox3&, const aabbox3&)`. -/
def intersect_aabbox3_aabbox3 (lhs rhs : aabbox3) : Bool :=
  decide (|fsub lhs.center.x rhs.center.x| ≤ fadd lhs.extent.x rhs.extent.x) &&
  decide (|fsub lhs.center.y rhs.center.y| ≤ fadd lhs.extent.y rhs.extent.y) &&
  decide (|fsub lhs.center.z rhs.center.z| ≤ fadd lhs.extent.z rhs.extent.z)

/-- One iteration of the loop of `intersect(const aabbox3&, const frustum&)`:
the condition under which the loop returns `false` at this plane. -/
def plane_rejects (lhs : aabbox3) (p : plane) : Bool :=
  let abs_normal : float3 := ⟨|p.normal.x|, |p.normal.y|, |p.normal.z|⟩
  decide (fadd (fadd (dot lhs.center p.normal) p.distance) (dot lhs.extent abs_normal) < 0)

/-- The overload `intersect(const aabbox3&, const frustum&)`: `false` as soon as
one of the six planes rejects the box, `true` otherwise. -/
def intersect_aabbox3_frustum (lhs : aabbox3) (rhs : frustum) : Bool :=
  (List.finRange 6).all (fun i => !plane_rejects lhs (rhs.data i))

end

/-- The closed box described by a center and half-extents, as a set of points. -/
def aabbox3.contains (b : aabbox3) (pt : float3) : Prop :=
  |pt.x - b.center.x| ≤ b.extent.x ∧
  |pt.y - b.center.y| ≤ b.extent.y ∧
  |pt.z - b.center.z| ≤ b.extent.z

/-- All three half-extents of the box are non-negative. -/
def aabbox3.nonneg (b : aabbox3) : Prop :=
  0 ≤ b.extent.x ∧ 0 ≤ b.extent.y ∧ 0 ≤ b.extent.z

instance (b : aabbox3) (pt : float3) : Decidable (b.contains pt) := by
  unfold aabbox3.contains; infer_instance

instance (b : aabbox3) : Decidable b.nonneg := by
  unfold aabbox3.nonneg; infer_instance

/-! ## acceleration_structure.h

The objects of class `AccelerationStructurePrimitive` live in the caller's memory.
They are stored field by field: a state has a map `m_bounds` from the address of
a primitive to its member `m_bounds`, which only the caller writes, and the tree
states have a map `m_node` to its member `m_node`, which only the index writes. -/

/-- The sequence `*it = v.back(); v.pop_back();` after `it = std::find(v.begin(),
v.end(), p)` and `assert(it != v.end())`, used by every `remove` and by the
relocation branch of `update`. -/
def vector_erase_swap (v : List Nat) (p : Nat) : Option (List Nat) :=
  if p ∈ v then
    some ((v.set (v.indexOf p) (v.getLast?.getD p)).dropLast)
  else
    none

/-- The loop `for (primitive : primitives) if (hit(primitive)) output.push_back(primitive)`
shared by all `query` and `collect_primitives` overloads. -/
def push_back_matches (hit : Nat → Bool) (primitives : List Nat) (output : List Nat) : List Nat :=
  primitives.foldl (fun output primitive => if hit primitive then output ++ [primitive] else output)
    output

/-! ## linear_acceleration_structure.h -/

/-- The state seen by the methods of `LinearAccelerationStructure`: its member
`m_primitives` and the bounds of the primitives in the caller's memory. -/
structure LinearAccelerationStructure where
  m_primitives : List Nat
  m_bounds : Nat → aabbox3

namespace LinearAccelerationStructure

variable [FloatArithmetic ℚ]

/-- The constructor: an empty vector. -/
def create (m_bounds : Nat → aabbox3) : LinearAccelerationStructure :=
  ⟨[], m_bounds⟩

def add (s : LinearAccelerationStructure) (primitive : Nat) : Option LinearAccelerationStructure :=
  if primitive ∈ s.m_primitives then none
  else some { s with m_primitives := s.m_primitives ++ [primitive] }

def remove (s : LinearAccelerationStructure) (primitive : Nat) :
    Option LinearAccelerationStructure :=
  match vector_erase_swap s.m_primitives primitive with
  | none => none
  | some primitives => some { s with m_primitives := primitives }

/-- The body of `update` is empty. -/
def update (s : LinearAccelerationStructure) (_primitive : Nat) :
    Option LinearAccelerationStructure :=
  some s

/-- The overload `query(const aabbox3&, output)`. -/
def query_aabbox (s : LinearAccelerationStructure) (aabbox : aabbox3) (output : List Nat) :
    List Nat :=
  push_back_matches (fun primitive => intersect_aabbox3_aabbox3 (s.m_bounds primitive) aabbox)
    s.m_primitives output

/-- The overload `query(const frustum&, output)`. -/
def query_frustum (s : LinearAccelerationStructure) (frustum : frustum) (output : List Nat) :
    List Nat :=
  push_back_matches (fun primitive => intersect_aabbox3_frustum (s.m_bounds primitive) frustum)
    s.m_primitives output

end LinearAccelerationStructure

/-! ## Tree nodes shared by octree_acceleration_structure.h and quadtree_acceleration_structure.h

The two headers are the same text up to the number of axes.  Their common part is
written once, over the number `n` of child slots (8 or 4) and the type `B` of the
node bounds (`aabbox3` or `aabbox2`).  What differs, the computation of the child
index and of the bounds of a new child in `find_node` and the condition of
`update`, is written out for each header and passed in a `TreeShape`. -/

/-- The contents of a `std::unique_ptr<OctreeNode>` (`n = 8`, `B = aabbox3`) or of a
`std::unique_ptr<QuadtreeNode>` (`n = 4`, `B = aabbox2`): `null` for an empty
pointer, `node children primitives bounds` for an allocated node with its three
members. -/
inductive TreeNode (n : Nat) (B : Type) where
  | null : TreeNode n B
  | node (children : Fin n → TreeNode n B) (primitives : List Nat) (bounds : B) : TreeNode n B

abbrev OctreeNode := TreeNode 8 aabbox3
abbrev QuadtreeNode := TreeNode 4 aabbox2

/-- What differs between the octree and the quadtree in `find_node` and `update`. -/
structure TreeShape (n : Nat) (B : Type) where
  /-- The child index computed by `find_node`, `none` where it returns the current node. -/
  child_index : aabbox3 → B → Option (Fin n)
  /-- The bounds given to a child created by `find_node`. -/
  child_bounds : B → Fin n → B
  /-- The condition of the `if` of `update`. -/
  outside : aabbox3 → B → Bool

namespace TreeNode

variable {n : Nat} {B : Type}

/-- The node constructor `OctreeNode(memory_resource)`: no children, no primitives. -/
def fresh (bounds : B) : TreeNode n B :=
  node (fun _ => null) [] bounds

/-- The member `primitives` of the node that a reference names. -/
def primitives_at : TreeNode n B → List (Fin n) → Option (List Nat)
  | null, _ => none
  | node _ primitives _, [] => some primitives
  | node children _ _, i :: rest => (children i).primitives_at rest

/-- The member `bounds` of the node that a reference names. -/
def bounds_at : TreeNode n B → List (Fin n) → Option B
  | null, _ => none
  | node _ _ bounds, [] => some bounds
  | node children _ _, i :: rest => (children i).bounds_at rest

/-- Assignment to the member `primitives` of the node that a reference names. -/
def set_primitives_at : TreeNode n B → List (Fin n) → List Nat → TreeNode n B
  | null, _, _ => null
  | node children _ bounds, [], new_primitives => node children new_primitives bounds
  | node children primitives bounds, i :: rest, new_primitives =>
    node (Function.update children i ((children i).set_primitives_at rest new_primitives))
      primitives bounds

/-- The statement `if (!child) { ... }` of `find_node`: an empty slot gets a new
node with the given bounds, an occupied slot is left as it is. -/
def create_if_null (child : TreeNode n B) (bounds : B) : TreeNode n B :=
  match child with
  | null => fresh bounds
  | child => child

/-- The method `find_node(bounds, node, depth)` (octree lines 112-161, quadtree
lines 118-157).  The result is the tree below `node` after the call, with the
children it created, and the reference to the node it returns, relative to `node`.
The first case is never reached: `find_node` is called on the root and on a child
that has just been created if it was null. -/
def find_node (shape : TreeShape n B) (m_max_depth : Nat) (bounds : aabbox3) :
    TreeNode n B → Nat → TreeNode n B × List (Fin n)
  | null, _ => (null, [])
  | node children primitives node_bounds, depth =>
    if depth ≥ m_max_depth then
      (node children primitives node_bounds, [])
    else
      match shape.child_index bounds node_bounds with
      | none => (node children primitives node_bounds, [])
      | some index =>
        let child := create_if_null (children index) (shape.child_bounds node_bounds index)
        let r := find_node shape m_max_depth bounds child (depth + 1)
        (node (Function.update children index r.1) primitives node_bounds, index :: r.2)
termination_by _ depth => m_max_depth - depth

/-- The method `collect_primitives(node, bounds, output)` (octree lines 163-178,
quadtree lines 177-213); `hit_primitive` is the test `intersect(primitive->get_bounds(),
bounds)` and `hit_node` the test of the bounds of a child against the query shape.
The call of `output.reserve` has no effect on the content of `output`.  The first
case is never reached: the recursive call is guarded by `if (child && ...)`. -/
def collect_primitives (hit_primitive : Nat → Bool) (hit_node : B → Bool) :
    TreeNode n B → List Nat → List Nat
  | null, output => output
  | node children primitives _, output =>
    let output := push_back_matches hit_primitive primitives output
    (List.finRange n).foldl
      (fun output i =>
        match children i with
        | null => output
        | node _ _ child_bounds =>
          if hit_node child_bounds then collect_primitives hit_primitive hit_node (children i) output
          else output)
      output

end TreeNode

/-! ## octree_acceleration_structure.h -/

def OCTREE_POSITIVE_X : Nat := 0
def OCTREE_NEGATIVE_X : Nat := 1 <<< 0
def OCTREE_POSITIVE_Y : Nat := 0
def OCTREE_NEGATIVE_Y : Nat := 1 <<< 1
def OCTREE_POSITIVE_Z : Nat := 0
def OCTREE_NEGATIVE_Z : Nat := 1 <<< 2

def OCTREE_EXTENT_FACTORS (index : Fin 8) : float3 :=
  match index with
  | 0 => ⟨1, 1, 1⟩
  | 1 => ⟨-1, 1, 1⟩
  | 2 => ⟨1, -1, 1⟩
  | 3 => ⟨-1, -1, 1⟩
  | 4 => ⟨1, 1, -1⟩
  | 5 => ⟨-1, 1, -1⟩
  | 6 => ⟨1, -1, -1⟩
  | 7 => ⟨-1, -1, -1⟩

namespace OctreeAccelerationStructure

variable [FloatArithmetic ℚ]

/-- The computation of `index` in `find_node`; `none` where `find_node` returns
`node` because the box straddles the center on some axis. -/
def child_index (bounds node_bounds : aabbox3) : Option (Fin 8) := do
  let index : Nat := 0
  let index ←
    if fsub bounds.center.x bounds.extent.x ≥ node_bounds.center.x then
      some (index ||| OCTREE_POSITIVE_X)
    else if fadd bounds.center.x bounds.extent.x < node_bounds.center.x then
      some (index ||| OCTREE_NEGATIVE_X)
    else none
  let index ←
    if fsub bounds.center.y bounds.extent.y ≥ node_bounds.center.y then
      some (index ||| OCTREE_POSITIVE_Y)
    else if fadd bounds.center.y bounds.extent.y < node_bounds.center.y then
      some (index ||| OCTREE_NEGATIVE_Y)
    else none
  let index ←
    if fsub bounds.center.z bounds.extent.z ≥ node_bounds.center.z then
      some (index ||| OCTREE_POSITIVE_Z)
    else if fadd bounds.center.z bounds.extent.z < node_bounds.center.z then
      some (index ||| OCTREE_NEGATIVE_Z)
    else none
  pure (Fin.ofNat index)

/-- The bounds `find_node` gives to the child it creates in slot `index`. -/
def child_bounds (node_bounds : aabbox3) (index : Fin 8) : aabbox3 :=
  let extent_x := fdiv node_bounds.extent.x 2
  let extent_y := fdiv node_bounds.extent.y 2
  let extent_z := fdiv node_bounds.extent.z 2
  let center_x := fadd node_bounds.center.x (fmul (OCTREE_EXTENT_FACTORS index).x extent_x)
  let center_y := fadd node_bounds.center.y (fmul (OCTREE_EXTENT_FACTORS index).y extent_y)
  let center_z := fadd node_bounds.center.z (fmul (OCTREE_EXTENT_FACTORS index).z extent_z)
  ⟨⟨center_x, center_y, center_z⟩, ⟨extent_x, extent_y, extent_z⟩⟩

/-- The condition of the `if` of `update`. -/
def outside (bounds node_bounds : aabbox3) : Bool :=
  decide (fsub bounds.center.x bounds.extent.x <
    fsub node_bounds.center.x node_bounds.extent.x) ||
  decide (fsub bounds.center.y bounds.extent.y <
    fsub node_bounds.center.y node_bounds.extent.y) ||
  decide (fsub bounds.center.z bounds.extent.z <
    fsub node_bounds.center.z node_bounds.extent.z) ||
  decide (fadd bounds.center.x bounds.extent.x ≥
    fadd node_bounds.center.x node_bounds.extent.x) ||
  decide (fadd bounds.center.y bounds.extent.y ≥
    fadd node_bounds.center.y node_bounds.extent.y) ||
  decide (fadd bounds.center.z bounds.extent.z ≥
    fadd node_bounds.center.z node_bounds.extent.z)

def shape : TreeShape 8 aabbox3 := ⟨child_index, child_bounds, outside⟩

end OctreeAccelerationStructure


/-! ## The methods shared by `OctreeAccelerationStructure` and `QuadtreeAccelerationStructure` -/

/-- The state seen by the methods of a tree index: the index object, which is its
own root node (`root`, by private inheritance) and has the member `m_max_depth`,
and the primitives in the caller's memory. -/
structure TreeAccelerationStructure (n : Nat) (B : Type) where
  root : TreeNode n B
  m_max_depth : Nat
  m_bounds : Nat → aabbox3
  m_node : Nat → Option (List (Fin n))

namespace TreeAccelerationStructure

variable {n : Nat} {B : Type}

/-- The method `add` (octree lines 55-62, quadtree lines 48-55): `none` when the
assertion fails. -/
def add (shape : TreeShape n B) (s : TreeAccelerationStructure n B) (primitive : Nat) :
    Option (TreeAccelerationStructure n B) :=
  let r := s.root.find_node shape s.m_max_depth (s.m_bounds primitive) 0
  match r.1.primitives_at r.2 with
  | none => none
  | some primitives =>
    if primitive ∈ primitives then none
    else
      some { s with
        root := r.1.set_primitives_at r.2 (primitives ++ [primitive])
        m_node := Function.update s.m_node primitive (some r.2) }

/-- The method `remove` (octree lines 64-75, quadtree lines 57-68): `none` when an
assertion fails or the back-reference names no node. -/
def remove (s : TreeAccelerationStructure n B) (primitive : Nat) :
    Option (TreeAccelerationStructure n B) :=
  match s.m_node primitive with
  | none => none
  | some node =>
    match s.root.primitives_at node with
    | none => none
    | some primitives =>
      match vector_erase_swap primitives primitive with
      | none => none
      | some primitives =>
        some { s with
          root := s.root.set_primitives_at node primitives
          m_node := Function.update s.m_node primitive none }

/-- The method `update` (octree lines 77-101, quadtree lines 70-92): `none` when an
assertion fails or the back-reference names no node. -/
def update (shape : TreeShape n B) (s : TreeAccelerationStructure n B) (primitive : Nat) :
    Option (TreeAccelerationStructure n B) :=
  match s.m_node primitive with
  | none => none
  | some node =>
    match s.root.bounds_at node, s.root.primitives_at node with
    | some node_bounds, some primitives =>
      let bounds := s.m_bounds primitive
      if shape.outside bounds node_bounds then
        match vector_erase_swap primitives primitive with
        | none => none
        | some primitives =>
          let root := s.root.set_primitives_at node primitives
          let r := root.find_node shape s.m_max_depth bounds 0
          match r.1.primitives_at r.2 with
          | none => none
          | some primitives =>
            some { s with
              root := r.1.set_primitives_at r.2 (primitives ++ [primitive])
              m_node := Function.update s.m_node primitive (some r.2) }
      else some s
    | _, _ => none

end TreeAccelerationStructure

abbrev OctreeAccelerationStructure := TreeAccelerationStructure 8 aabbox3

namespace OctreeAccelerationStructure

variable [FloatArithmetic ℚ]

/-- The constructor, with its three assertions on the extent. -/
def create (m_bounds : Nat → aabbox3) (m_node : Nat → Option (List (Fin 8)))
    (center extent : float3) (max_depth : Nat) : Option OctreeAccelerationStructure :=
  if extent.x > 0 ∧ extent.y > 0 ∧ extent.z > 0 then
    some ⟨TreeNode.fresh ⟨center, extent⟩, max_depth, m_bounds, m_node⟩
  else none

def add (s : OctreeAccelerationStructure) (primitive : Nat) : Option OctreeAccelerationStructure :=
  TreeAccelerationStructure.add shape s primitive

def remove (s : OctreeAccelerationStructure) (primitive : Nat) :
    Option OctreeAccelerationStructure :=
  TreeAccelerationStructure.remove s primitive

def update (s : OctreeAccelerationStructure) (primitive : Nat) :
    Option OctreeAccelerationStructure :=
  TreeAccelerationStructure.update shape s primitive

/-- The overload `query(const aabbox3&, output)`: `collect_primitives` at the root
with `Bounds = aabbox3`. -/
def query_aabbox (s : OctreeAccelerationStructure) (aabbox : aabbox3) (output : List Nat) :
    List Nat :=
  s.root.collect_primitives
    (fun primitive => intersect_aabbox3_aabbox3 (s.m_bounds primitive) aabbox)
    (fun child_bounds => intersect_aabbox3_aabbox3 child_bounds aabbox) output

/-- The overload `query(const frustum&, output)`: `collect_primitives` at the root
with `Bounds = frustum`. -/
def query_frustum (s : OctreeAccelerationStructure) (frustum : frustum) (output : List Nat) :
    List Nat :=
  s.root.collect_primitives
    (fun primitive => intersect_aabbox3_frustum (s.m_bounds primitive) frustum)
    (fun child_bounds => intersect_aabbox3_frustum child_bounds frustum) output

end OctreeAccelerationStructure

/-! ## quadtree_acceleration_structure.h -/

def QUADTREE_POSITIVE_X : Nat := 0
def QUADTREE_NEGATIVE_X : Nat := 1 <<< 0
def QUADTREE_POSITIVE_Y : Nat := 0
def QUADTREE_NEGATIVE_Y : Nat := 1 <<< 1

def QUADTREE_EXTENT_FACTORS (index : Fin 4) : float2 :=
  match index with
  | 0 => ⟨1, 1⟩
  | 1 => ⟨-1, 1⟩
  | 2 => ⟨1, -1⟩
  | 3 => ⟨-1, -1⟩

abbrev QuadtreeAccelerationStructure := TreeAccelerationStructure 4 aabbox2

namespace QuadtreeAccelerationStructure

variable [FloatArithmetic ℚ]

/-- The computation of `index` in `find_node`; `none` where `find_node` returns
`node` because the box straddles the center on some axis. -/
def child_index (bounds : aabbox3) (node_bounds : aabbox2) : Option (Fin 4) := do
  let index : Nat := 0
  let index ←
    if fsub bounds.center.x bounds.extent.x ≥ node_bounds.center.x then
      some (index ||| QUADTREE_POSITIVE_X)
    else if fadd bounds.center.x bounds.extent.x < node_bounds.center.x then
      some (index ||| QUADTREE_NEGATIVE_X)
    else none
  let index ←
    if fsub bounds.center.z bounds.extent.z ≥ node_bounds.center.y then
      some (index ||| QUADTREE_POSITIVE_Y)
    else if fadd bounds.center.z bounds.extent.z < node_bounds.center.y then
      some (index ||| QUADTREE_NEGATIVE_Y)
    else none
  pure (Fin.ofNat index)

/-- The bounds `find_node` gives to the child it creates in slot `index`. -/
def child_bounds (node_bounds : aabbox2) (index : Fin 4) : aabbox2 :=
  let extent_x := fdiv node_bounds.extent.x 2
  let extent_y := fdiv node_bounds.extent.y 2
  let center_x := fadd node_bounds.center.x (fmul (QUADTREE_EXTENT_FACTORS index).x extent_x)
  let center_y := fadd node_bounds.center.y (fmul (QUADTREE_EXTENT_FACTORS index).y extent_y)
  ⟨⟨center_x, center_y⟩, ⟨extent_x, extent_y⟩⟩

/-- The condition of the `if` of `update`. -/
def outside (bounds : aabbox3) (node_bounds : aabbox2) : Bool :=
  decide (fsub bounds.center.x bounds.extent.x <
    fsub node_bounds.center.x node_bounds.extent.x) ||
  decide (fsub bounds.center.z bounds.extent.z <
    fsub node_bounds.center.y node_bounds.extent.y) ||
  decide (fadd bounds.center.x bounds.extent.x ≥
    fadd node_bounds.center.x node_bounds.extent.x) ||
  decide (fadd bounds.center.z bounds.extent.z ≥
    fadd node_bounds.center.y node_bounds.extent.y)

def shape : TreeShape 4 aabbox2 := ⟨child_index, child_bounds, outside⟩

/-- The constructor, with its two assertions on the extent. -/
def create (m_bounds : Nat → aabbox3) (m_node : Nat → Option (List (Fin 4)))
    (center extent : float2) (max_depth : Nat) : Option QuadtreeAccelerationStructure :=
  if extent.x > 0 ∧ extent.y > 0 then
    some ⟨TreeNode.fresh ⟨center, extent⟩, max_depth, m_bounds, m_node⟩
  else none

def add (s : QuadtreeAccelerationStructure) (primitive : Nat) :
    Option QuadtreeAccelerationStructure :=
  TreeAccelerationStructure.add shape s primitive

def remove (s : QuadtreeAccelerationStructure) (primitive : Nat) :
    Option QuadtreeAccelerationStructure :=
  TreeAccelerationStructure.remove s primitive

def update (s : QuadtreeAccelerationStructure) (primitive : Nat) :
    Option QuadtreeAccelerationStructure :=
  TreeAccelerationStructure.update shape s primitive

/-- The method `find_y`: each product is taken from left to right, then the six
products are added and subtracted from left to right. -/
def find_y (p1 p2 p3 : plane) : ℚ :=
  let det :=
    fsub (fsub (fsub (fadd (fadd
      (fmul (fmul p1.normal.x p2.normal.y) p3.normal.z)
      (fmul (fmul p1.normal.y p2.normal.z) p3.normal.x))
      (fmul (fmul p1.normal.z p2.normal.x) p3.normal.y))
      (fmul (fmul p1.normal.z p2.normal.y) p3.normal.x))
      (fmul (fmul p1.normal.x p2.normal.z) p3.normal.y))
      (fmul (fmul p1.normal.y p2.normal.x) p3.normal.z)
  let det_y :=
    fsub (fsub (fsub (fadd (fadd
      (fmul (fmul p1.normal.z p2.distance) p3.normal.x)
      (fmul (fmul p1.normal.x p2.normal.z) p3.distance))
      (fmul (fmul p1.distance p2.normal.x) p3.normal.z))
      (fmul (fmul p1.normal.x p2.distance) p3.normal.z))
      (fmul (fmul p1.distance p2.normal.z) p3.normal.x))
      (fmul (fmul p1.normal.z p2.normal.x) p3.distance)
  fdiv det_y det

/-- The overload `query(const aabbox3&, output)`: the `collect_primitives` overload
for a box at the root. -/
def query_aabbox (s : QuadtreeAccelerationStructure) (aabbox : aabbox3) (output : List Nat) :
    List Nat :=
  s.root.collect_primitives
    (fun primitive => intersect_aabbox3_aabbox3 (s.m_bounds primitive) aabbox)
    (fun child_bounds => intersect_aabbox2_aabbox3 child_bounds aabbox) output

/-- The box `child_bounds` that the frustum overload of `collect_primitives` builds
from a child's 2D bounds and the shared `y_center`, `y_extent`. -/
def ersatz_bounds (child_bounds : aabbox2) (y_center y_extent : ℚ) : aabbox3 :=
  ⟨⟨child_bounds.center.x, y_center, child_bounds.center.y⟩,
   ⟨child_bounds.extent.x, y_extent, child_bounds.extent.y⟩⟩

/-- The values `y_min` and `y_max` computed by `query(const frustum&, output)`. -/
def y_range (frustum : frustum) : ℚ × ℚ :=
  let y0 := find_y (frustum.data 0) (frustum.data 2) (frustum.data 4)
  let y1 := find_y (frustum.data 1) (frustum.data 2) (frustum.data 4)
  let y2 := find_y (frustum.data 0) (frustum.data 3) (frustum.data 4)
  let y3 := find_y (frustum.data 1) (frustum.data 3) (frustum.data 4)
  let y4 := find_y (frustum.data 0) (frustum.data 2) (frustum.data 5)
  let y5 := find_y (frustum.data 1) (frustum.data 2) (frustum.data 5)
  let y6 := find_y (frustum.data 0) (frustum.data 3) (frustum.data 5)
  let y7 := find_y (frustum.data 1) (frustum.data 3) (frustum.data 5)
  let y_min := min y0 (min y1 (min y2 (min y3 (min y4 (min y5 (min y6 y7))))))
  let y_max := max y0 (max y1 (max y2 (max y3 (max y4 (max y5 (max y6 y7))))))
  (y_min, y_max)

/-- The value `y_center` computed by `query(const frustum&, output)`. -/
def y_center (frustum : frustum) : ℚ :=
  fdiv (fadd (y_range frustum).2 (y_range frustum).1) 2

/-- The value `y_extent` computed by `query(const frustum&, output)`. -/
def y_extent (frustum : frustum) : ℚ :=
  fdiv (fsub (y_range frustum).2 (y_range frustum).1) 2

/-- The overload `query(const frustum&, output)`. -/
def query_frustum (s : QuadtreeAccelerationStructure) (frustum : frustum) (output : List Nat) :
    List Nat :=
  let y_min := (y_range frustum).1
  let y_max := (y_range frustum).2
  let y_center := fdiv (fadd y_max y_min) 2
  let y_extent := fdiv (fsub y_max y_min) 2
  s.root.collect_primitives
    (fun primitive => intersect_aabbox3_frustum (s.m_bounds primitive) frustum)
    (fun child_bounds =>
      intersect_aabbox3_frustum (ersatz_bounds child_bounds y_center y_extent) frustum) output

end QuadtreeAccelerationStructure

/-! ## Call sequences and the contract of the interface -/

/-- What a caller does between two queries: one of the three mutating methods of
`AccelerationStructure`, or a write to the bounds of one of its primitives. -/
inductive Call where
  | add (primitive : Nat)
  | remove (primitive : Nat)
  | update (primitive : Nat)
  | set_bounds (primitive : Nat) (bounds : aabbox3)

namespace LinearAccelerationStructure

def step (s : LinearAccelerationStructure) : Call → Option LinearAccelerationStructure
  | .add primitive => s.add primitive
  | .remove primitive => s.remove primitive
  | .update primitive => s.update primitive
  | .set_bounds primitive bounds =>
    some { s with m_bounds := Function.update s.m_bounds primitive bounds }

/-- The calls are made in order; `none` once an assertion has failed. -/
def run (s : LinearAccelerationStructure) : List Call → Option LinearAccelerationStructure
  | [] => some s
  | call :: calls =>
    match s.step call with
    | none => none
    | some s => s.run calls

end LinearAccelerationStructure

namespace TreeAccelerationStructure

variable {n : Nat} {B : Type}

def step (shape : TreeShape n B) (s : TreeAccelerationStructure n B) :
    Call → Option (TreeAccelerationStructure n B)
  | .add primitive => s.add shape primitive
  | .remove primitive => s.remove primitive
  | .update primitive => s.update shape primitive
  | .set_bounds primitive bounds =>
    some { s with m_bounds := Function.update s.m_bounds primitive bounds }

/-- The calls are made in order; `none` once an assertion has failed. -/
def run (shape : TreeShape n B) (s : TreeAccelerationStructure n B) :
    List Call → Option (TreeAccelerationStructure n B)
  | [] => some s
  | call :: calls =>
    match s.step shape call with
    | none => none
    | some s => s.run shape calls

end TreeAccelerationStructure

/-- The bookkeeping of the contract of the interface, independent of any index:
the bounds of the primitives, the primitives added and not since removed, and
those among them whose bounds were written after their last `add` or `update`. -/
structure Caller where
  m_bounds : Nat → aabbox3
  present : List Nat
  stale : List Nat

namespace Caller

/-- One call under the contract: `add` needs an absent primitive, `remove` and
`update` a present one; `admissible` is what the contract asks of the bounds of
a primitive at `add` and `update`.  `none` when the call breaks the contract. -/
def step (admissible : aabbox3 → Bool) (c : Caller) : Call → Option Caller
  | .add primitive =>
    if primitive ∉ c.present ∧ admissible (c.m_bounds primitive) = true then
      some { c with present := primitive :: c.present }
    else none
  | .remove primitive =>
    if primitive ∈ c.present then
      some { c with
        present := c.present.erase primitive
        stale := c.stale.filter (fun q => q ≠ primitive) }
    else none
  | .update primitive =>
    if primitive ∈ c.present ∧ admissible (c.m_bounds primitive) = true then
      some { c with stale := c.stale.filter (fun q => q ≠ primitive) }
    else none
  | .set_bounds primitive bounds =>
    some { c with
      m_bounds := Function.update c.m_bounds primitive bounds
      stale := if primitive ∈ c.present then primitive :: c.stale else c.stale }

def run (admissible : aabbox3 → Bool) (c : Caller) : List Call → Option Caller
  | [] => some c
  | call :: calls =>
    match c.step admissible call with
    | none => none
    | some c => c.run admissible calls

/-- The call sequence, made on a new index, respects the contract. -/
def respects (admissible : aabbox3 → Bool) (m_bounds : Nat → aabbox3) (calls : List Call) : Bool :=
  (run admissible ⟨m_bounds, [], []⟩ calls).isSome

/-- The call sequence respects the contract and at its end `update` has been
called for every present primitive since its bounds were last written. -/
def settled (admissible : aabbox3 → Bool) (m_bounds : Nat → aabbox3) (calls : List Call) : Bool :=
  match run admissible ⟨m_bounds, [], []⟩ calls with
  | none => false
  | some c => c.stale.isEmpty

/-- The primitives added and not since removed by the call sequence. -/
def present_after (admissible : aabbox3 → Bool) (m_bounds : Nat → aabbox3) (calls : List Call) :
    List Nat :=
  match run admissible ⟨m_bounds, [], []⟩ calls with
  | none => []
  | some c => c.present

/-- The bounds of the primitives after the call sequence. -/
def bounds_after (m_bounds : Nat → aabbox3) : List Call → Nat → aabbox3
  | [] => m_bounds
  | .set_bounds primitive bounds :: calls =>
    bounds_after (Function.update m_bounds primitive bounds) calls
  | _ :: calls => bounds_after m_bounds calls

end Caller

/-- The contract with no condition on the bounds. -/
def any_bounds : aabbox3 → Bool := fun _ => true

/-! ## Notions used to state the theorems -/

namespace TreeNode

variable {n : Nat} {B : Type}

/-- The primitives held in the tree: those of the node, then those of its
children in slot order. -/
def all_primitives : TreeNode n B → List Nat
  | null => []
  | node children primitives _ =>
    primitives ++ (List.finRange n).flatMap (fun i => (children i).all_primitives)

/-- The primitives a query reaches and accepts, in the order it meets them. -/
def query_matches (hit_primitive : Nat → Bool) (hit_node : B → Bool) : TreeNode n B → List Nat
  | null => []
  | node children primitives _ =>
    primitives.filter hit_primitive ++
      (List.finRange n).flatMap (fun i =>
        match children i with
        | null => []
        | node _ _ child_bounds =>
          if hit_node child_bounds then (children i).query_matches hit_primitive hit_node
          else [])

end TreeNode

namespace TreeNode

variable {n : Nat} {B : Type}

/-- What a query appends for one child slot: nothing for an empty slot or a child
whose bounds fail the test, the matches of the child otherwise. -/
def slot_matches (hit_primitive : Nat → Bool) (hit_node : B → Bool) (child : TreeNode n B) :
    List Nat :=
  match child with
  | null => []
  | node _ _ child_bounds =>
    if hit_node child_bounds then child.query_matches hit_primitive hit_node else []

end TreeNode

/-- What the proofs need to know about the geometry of a tree: `inside x b` says
that the box `x` lies in the region of a node with bounds `b`, `good b` that the
bounds `b` are those of a proper node. -/
structure TreeShape.Geometry {n : Nat} {B : Type} (shape : TreeShape n B)
    (inside : aabbox3 → B → Prop) (good : B → Prop) : Prop where
  child_good : ∀ b i, good b → good (shape.child_bounds b i)
  descend : ∀ x b i, inside x b → shape.child_index x b = some i →
    inside x (shape.child_bounds b i)
  ascend : ∀ x b i, good b → inside x (shape.child_bounds b i) → inside x b
  stay : ∀ x b, shape.outside x b = false → inside x b

namespace TreeNode

variable {n : Nat} {B : Type}

/-- Every node has good bounds and every child has the bounds `find_node` gives
to a child it creates in that slot. -/
def Shaped (shape : TreeShape n B) (good : B → Prop) : TreeNode n B → Prop
  | null => True
  | node children _ bounds =>
    good bounds ∧
    ∀ i, (∀ b, (children i).bounds_at [] = some b → b = shape.child_bounds bounds i) ∧
      (children i).Shaped shape good

end TreeNode

namespace TreeAccelerationStructure

variable {n : Nat} {B : Type}

/-- The back-reference of every primitive held by a node names that node. -/
def BackRefs (s : TreeAccelerationStructure n B) : Prop :=
  ∀ r ps, s.root.primitives_at r = some ps → ∀ p ∈ ps, s.m_node p = some r

/-- Every primitive held by a node and not in `stale` lies in the region of the node. -/
def Contained (inside : aabbox3 → B → Prop) (stale : List Nat)
    (s : TreeAccelerationStructure n B) : Prop :=
  ∀ r ps b, s.root.primitives_at r = some ps → s.root.bounds_at r = some b →
    ∀ p ∈ ps, p ∉ stale → inside (s.m_bounds p) b

/-- The relation kept between the bookkeeping of the contract and the state of a
tree index along a call sequence. -/
structure Sim (shape : TreeShape n B) (inside : aabbox3 → B → Prop) (good : B → Prop)
    (root_bounds : B) (max_depth : Nat) (c : Caller) (s : TreeAccelerationStructure n B) :
    Prop where
  bounds_eq : s.m_bounds = c.m_bounds
  perm : s.root.all_primitives.Perm c.present
  nodup : c.present.Nodup
  root_eq : s.root.bounds_at [] = some root_bounds
  depth_eq : s.m_max_depth = max_depth
  back_refs : s.BackRefs
  shaped : s.root.Shaped shape good
  contained : s.Contained inside c.stale

end TreeAccelerationStructure

namespace LinearAccelerationStructure

/-- The relation kept between the bookkeeping of the contract and the state of the
linear index along a call sequence. -/
structure Sim (c : Caller) (s : LinearAccelerationStructure) : Prop where
  bounds_eq : s.m_bounds = c.m_bounds
  perm : s.m_primitives.Perm c.present
  nodup : c.present.Nodup

end LinearAccelerationStructure

/-- The box `x` lies in the closed region of the octree node bounds `b`. -/
def aabbox3.inside (x b : aabbox3) : Prop :=
  b.center.x - b.extent.x ≤ x.center.x - x.extent.x ∧
  x.center.x + x.extent.x ≤ b.center.x + b.extent.x ∧
  b.center.y - b.extent.y ≤ x.center.y - x.extent.y ∧
  x.center.y + x.extent.y ≤ b.center.y + b.extent.y ∧
  b.center.z - b.extent.z ≤ x.center.z - x.extent.z ∧
  x.center.z + x.extent.z ≤ b.center.z + b.extent.z

instance (x b : aabbox3) : Decidable (x.inside b) := by
  unfold aabbox3.inside; infer_instance

/-- The footprint of the box `x` on the axes x and z lies in the closed region of
the quadtree node bounds `b`. -/
def aabbox3.inside_footprint (x : aabbox3) (b : aabbox2) : Prop :=
  b.center.x - b.extent.x ≤ x.center.x - x.extent.x ∧
  x.center.x + x.extent.x ≤ b.center.x + b.extent.x ∧
  b.center.y - b.extent.y ≤ x.center.z - x.extent.z ∧
  x.center.z + x.extent.z ≤ b.center.y + b.extent.y

instance (x : aabbox3) (b : aabbox2) : Decidable (x.inside_footprint b) := by
  unfold aabbox3.inside_footprint; infer_instance

/-- Both half-extents of the 2D box are non-negative. -/
def aabbox2.nonneg (b : aabbox2) : Prop :=
  0 ≤ b.extent.x ∧ 0 ≤ b.extent.y

/-- The determinant of the normals of three planes, the value `det` of `find_y`. -/
def plane.normals_det (p1 p2 p3 : plane) : ℚ :=
  p1.normal.x * p2.normal.y * p3.normal.z +
  p1.normal.y * p2.normal.z * p3.normal.x +
  p1.normal.z * p2.normal.x * p3.normal.y -
  p1.normal.z * p2.normal.y * p3.normal.x -
  p1.normal.x * p2.normal.z * p3.normal.y -
  p1.normal.y * p2.normal.x * p3.normal.z

/-- The frustum is not degenerate: each of the eight triples of planes (left or
right, bottom or top, near or far) that `query` passes to `find_y` has normals
with a non-zero determinant. -/
def frustum.non_degenerate (f : frustum) : Prop :=
  plane.normals_det (f.data 0) (f.data 2) (f.data 4) ≠ 0 ∧
  plane.normals_det (f.data 1) (f.data 2) (f.data 4) ≠ 0 ∧
  plane.normals_det (f.data 0) (f.data 3) (f.data 4) ≠ 0 ∧
  plane.normals_det (f.data 1) (f.data 3) (f.data 4) ≠ 0 ∧
  plane.normals_det (f.data 0) (f.data 2) (f.data 5) ≠ 0 ∧
  plane.normals_det (f.data 1) (f.data 2) (f.data 5) ≠ 0 ∧
  plane.normals_det (f.data 0) (f.data 3) (f.data 5) ≠ 0 ∧
  plane.normals_det (f.data 1) (f.data 3) (f.data 5) ≠ 0

instance (f : frustum) : Decidable f.non_degenerate := by
  unfold frustum.non_degenerate; infer_instance

/-- Every plane of the frustum has a normal of length 1. -/
def frustum.unit_normals (f : frustum) : Prop :=
  ∀ i : Fin 6, (f.data i).normal.x * (f.data i).normal.x +
    (f.data i).normal.y * (f.data i).normal.y + (f.data i).normal.z * (f.data i).normal.z = 1

instance (f : frustum) : Decidable f.unit_normals := by
  unfold frustum.unit_normals; infer_instance

namespace OctreeAccelerationStructure

variable [FloatArithmetic ℚ]

/-- The calls are made in order on the octree; `none` once an assertion has failed. -/
def run (s : OctreeAccelerationStructure) (calls : List Call) : Option OctreeAccelerationStructure :=
  TreeAccelerationStructure.run shape s calls

/-- The state of a new octree after the calls; `none` once an assertion has failed. -/
def reached (m_bounds : Nat → aabbox3) (m_node : Nat → Option (List (Fin 8)))
    (center extent : float3) (max_depth : Nat) (calls : List Call) :
    Option OctreeAccelerationStructure :=
  match create m_bounds m_node center extent max_depth with
  | none => none
  | some s => s.run calls

/-- The contract of the octree with primitives kept inside the root region:
the box lies in the closed region given by `center` and `extent`. -/
def in_region (center extent : float3) : aabbox3 → Bool :=
  fun x => decide (x.inside ⟨center, extent⟩)

end OctreeAccelerationStructure

namespace QuadtreeAccelerationStructure

variable [FloatArithmetic ℚ]

/-- The calls are made in order on the quadtree; `none` once an assertion has failed. -/
def run (s : QuadtreeAccelerationStructure) (calls : List Call) :
    Option QuadtreeAccelerationStructure :=
  TreeAccelerationStructure.run shape s calls

/-- The state of a new quadtree after the calls; `none` once an assertion has failed. -/
def reached (m_bounds : Nat → aabbox3) (m_node : Nat → Option (List (Fin 4)))
    (center extent : float2) (max_depth : Nat) (calls : List Call) :
    Option QuadtreeAccelerationStructure :=
  match create m_bounds m_node center extent max_depth with
  | none => none
  | some s => s.run calls

/-- The contract of the quadtree with primitives kept over the root region: the
footprint of the box lies in the closed region given by `center` and `extent`. -/
def in_region (center extent : float2) : aabbox3 → Bool :=
  fun x => decide (x.inside_footprint ⟨center, extent⟩)

end QuadtreeAccelerationStructure

namespace LinearAccelerationStructure

variable [FloatArithmetic ℚ]

/-- The state of a new linear index after the calls; `none` once an assertion has failed. -/
def reached (m_bounds : Nat → aabbox3) (calls : List Call) : Option LinearAccelerationStructure :=
  (create m_bounds).run calls

end LinearAccelerationStructure
/-! ## count_allocator.h -/

/-- The class `CountMemoryResource`: its member `allocated`, a `size_t`. -/
structure CountMemoryResource where
  allocated : Nat
deriving DecidableEq

namespace CountMemoryResource

/-- The method `allocate(size)`: `allocated += size` in the arithmetic of a `size_t`
of `size_bits` bits.  The block that `std::malloc` returns is not part of the
embedding. -/
def allocate (size_bits : Nat) (memory_resource : CountMemoryResource) (size : Nat) :
    CountMemoryResource :=
  ⟨(memory_resource.allocated + size) % 2 ^ size_bits⟩

/-- The method `deallocate(memory, size)`: `none` when the assertion
`allocated >= size` fails, `allocated -= size` otherwise. -/
def deallocate (memory_resource : CountMemoryResource) (size : Nat) :
    Option CountMemoryResource :=
  if memory_resource.allocated ≥ size then some ⟨memory_resource.allocated - size⟩ else none

end CountMemoryResource

/-! ## What the tree indexes ask of the memory resource

Two kinds of calls reach the memory resource.

`find_node` calls `memory_resource.allocate(sizeof(OctreeNode))` for each child it
creates (octree line 153, quadtree line 149).  No method calls `deallocate` for a
node.

The member `primitives` of each node is a `std::vector` whose allocator is a
`CountAllocator` on the same memory resource.  `push_back` on a vector whose size
equals its capacity makes the vector call `CountAllocator::allocate(count)` for a
buffer of the new capacity and then, if it had a buffer, give it back with
`CountAllocator::deallocate(memory, capacity)`; `push_back` on a vector with room
and `pop_back` call neither.  The new capacity is the choice of the standard
library: it is the function `grow` of the layout, `max (2 * capacity) 1` in
libstdc++.  The capacity of the vector of each node is kept by the reference of
the node, in a function `capacity`, which is 0 for a vector that has no
buffer. -/

/-- The sizes the compiler and the standard library fix: the width of `size_t`,
`sizeof(OctreeNode)` or `sizeof(QuadtreeNode)`, the size of a pointer, and the
capacity `std::vector` takes when it grows from a given capacity. -/
structure MemoryLayout where
  size_bits : Nat
  sizeof_node : Nat
  sizeof_pointer : Nat
  grow : Nat → Nat

namespace CountAllocator

/-- The method `CountAllocator<T>::allocate(count)` for a vector of pointers:
`memory_resource.allocate(sizeof(T) * count)`, the product in `size_t`. -/
def allocate (layout : MemoryLayout) (memory_resource : CountMemoryResource) (count : Nat) :
    CountMemoryResource :=
  memory_resource.allocate layout.size_bits
    ((layout.sizeof_pointer * count) % 2 ^ layout.size_bits)

/-- The method `CountAllocator<T>::deallocate(memory, count)`:
`memory_resource.deallocate(memory, sizeof(T) * count)`. -/
def deallocate (layout : MemoryLayout) (memory_resource : CountMemoryResource) (count : Nat) :
    Option CountMemoryResource :=
  memory_resource.deallocate ((layout.sizeof_pointer * count) % 2 ^ layout.size_bits)

end CountAllocator

/-- The capacity of a vector after `push_back`, from its size and capacity before. -/
def vector_push_back_capacity (layout : MemoryLayout) (size capacity : Nat) : Nat :=
  if size < capacity then capacity else layout.grow capacity

/-- The memory resource after `push_back` on a vector with the given size and
capacity: nothing when there is room; otherwise a buffer of the new capacity is
taken and then the old buffer, if there is one, is given back.  `none` when the
assertion of `deallocate` fails. -/
def vector_push_back_memory (layout : MemoryLayout) (size capacity : Nat)
    (memory_resource : CountMemoryResource) : Option CountMemoryResource :=
  if size < capacity then some memory_resource
  else
    let memory_resource := CountAllocator.allocate layout memory_resource (layout.grow capacity)
    if capacity = 0 then some memory_resource
    else CountAllocator.deallocate layout memory_resource capacity

namespace TreeNode

variable {n : Nat} {B : Type}

/-- The memory resource after `find_node(bounds, node, depth)`: the same descent as
`find_node`, with one `allocate(sizeof_node)` where a child is created. -/
def find_node_memory (size_bits sizeof_node : Nat) (shape : TreeShape n B) (m_max_depth : Nat)
    (bounds : aabbox3) : TreeNode n B → Nat → CountMemoryResource → CountMemoryResource
  | null, _, memory_resource => memory_resource
  | node children _ node_bounds, depth, memory_resource =>
    if depth ≥ m_max_depth then memory_resource
    else
      match shape.child_index bounds node_bounds with
      | none => memory_resource
      | some index =>
        let memory_resource :=
          match children index with
          | null => memory_resource.allocate size_bits sizeof_node
          | node _ _ _ => memory_resource
        let child := create_if_null (children index) (shape.child_bounds node_bounds index)
        find_node_memory size_bits sizeof_node shape m_max_depth bounds child (depth + 1)
          memory_resource
termination_by _ depth _ => m_max_depth - depth

/-- The number of allocated nodes of a tree, its root included. -/
def count_nodes : TreeNode n B → Nat
  | null => 0
  | node children _ _ => 1 + ((List.finRange n).map (fun i => (children i).count_nodes)).sum

/-- The sum of the capacities of the vectors of the nodes of a tree, where
`capacity` gives the capacity by the reference of the node from the root of this
tree. -/
def total_capacity : (List (Fin n) → Nat) → TreeNode n B → Nat
  | _, null => 0
  | capacity, node children _ _ =>
    capacity [] +
      ((List.finRange n).map
        (fun i => total_capacity (fun r => capacity (i :: r)) (children i))).sum

end TreeNode

namespace TreeAccelerationStructure

variable {n : Nat} {B : Type}

/-- The memory resource after the calls of `find_node` in one call on the index in
state `s`: `add` runs `find_node` from the root, `update` runs it when it
relocates the primitive, `remove` and a write to the bounds of a primitive do not
call the memory resource for a node. -/
def memory_after (size_bits sizeof_node : Nat) (shape : TreeShape n B)
    (s : TreeAccelerationStructure n B) (memory_resource : CountMemoryResource) :
    Call → CountMemoryResource
  | .add primitive =>
    s.root.find_node_memory size_bits sizeof_node shape s.m_max_depth (s.m_bounds primitive) 0
      memory_resource
  | .remove _ => memory_resource
  | .update primitive =>
    match s.m_node primitive with
    | none => memory_resource
    | some node =>
      match s.root.bounds_at node, s.root.primitives_at node with
      | some node_bounds, some primitives =>
        let bounds := s.m_bounds primitive
        if shape.outside bounds node_bounds then
          match vector_erase_swap primitives primitive with
          | none => memory_resource
          | some primitives =>
            let root := s.root.set_primitives_at node primitives
            root.find_node_memory size_bits sizeof_node shape s.m_max_depth bounds 0
              memory_resource
        else memory_resource
      | _, _ => memory_resource
  | .set_bounds _ _ => memory_resource

/-- The `push_back` of one call on the index in state `s`: the reference of the
node whose vector receives the primitive, and the size of that vector before the
`push_back`.  `add` pushes to the node `find_node` returns, `update` does so when
it relocates the primitive, after the `pop_back` on the old node; `remove` only
calls `pop_back`. -/
def push_back_at (shape : TreeShape n B) (s : TreeAccelerationStructure n B) :
    Call → Option (List (Fin n) × Nat)
  | .add primitive =>
    let r := s.root.find_node shape s.m_max_depth (s.m_bounds primitive) 0
    (r.1.primitives_at r.2).map (fun primitives => (r.2, primitives.length))
  | .remove _ => none
  | .update primitive =>
    match s.m_node primitive with
    | none => none
    | some node =>
      match s.root.bounds_at node, s.root.primitives_at node with
      | some node_bounds, some primitives =>
        let bounds := s.m_bounds primitive
        if shape.outside bounds node_bounds then
          match vector_erase_swap primitives primitive with
          | none => none
          | some primitives =>
            let root := s.root.set_primitives_at node primitives
            let r := root.find_node shape s.m_max_depth bounds 0
            (r.1.primitives_at r.2).map (fun primitives => (r.2, primitives.length))
        else none
      | _, _ => none
  | .set_bounds _ _ => none

/-- The capacities of the vectors after one call. -/
def capacity_after (layout : MemoryLayout) (shape : TreeShape n B)
    (s : TreeAccelerationStructure n B) (capacity : List (Fin n) → Nat) (call : Call) :
    List (Fin n) → Nat :=
  match s.push_back_at shape call with
  | none => capacity
  | some (r, size) =>
    Function.update capacity r (vector_push_back_capacity layout size (capacity r))

/-- The memory resource after one call: first the calls of `find_node`, then the
`push_back`.  `none` when the assertion of `deallocate` fails. -/
def memory_step (layout : MemoryLayout) (shape : TreeShape n B)
    (s : TreeAccelerationStructure n B) (capacity : List (Fin n) → Nat)
    (memory_resource : CountMemoryResource) (call : Call) : Option CountMemoryResource :=
  let memory_resource :=
    s.memory_after layout.size_bits layout.sizeof_node shape memory_resource call
  match s.push_back_at shape call with
  | none => some memory_resource
  | some (r, size) => vector_push_back_memory layout size (capacity r) memory_resource

/-- The calls are made in order, with the capacities of the vectors carried
along; `none` once an assertion of the index has failed. -/
def run_capacity (layout : MemoryLayout) (shape : TreeShape n B)
    (s : TreeAccelerationStructure n B) (capacity : List (Fin n) → Nat) :
    List Call → Option (TreeAccelerationStructure n B × (List (Fin n) → Nat))
  | [] => some (s, capacity)
  | call :: calls =>
    match s.step shape call with
    | none => none
    | some s' => run_capacity layout shape s' (s.capacity_after layout shape capacity call) calls

/-- The calls are made in order, with the capacities of the vectors and the memory
resource carried along; `none` once an assertion has failed. -/
def run_memory (layout : MemoryLayout) (shape : TreeShape n B)
    (s : TreeAccelerationStructure n B) (capacity : List (Fin n) → Nat)
    (memory_resource : CountMemoryResource) :
    List Call →
      Option (TreeAccelerationStructure n B × (List (Fin n) → Nat) × CountMemoryResource)
  | [] => some (s, capacity, memory_resource)
  | call :: calls =>
    match s.step shape call, s.memory_step layout shape capacity memory_resource call with
    | some s', some memory_resource' =>
      run_memory layout shape s' (s.capacity_after layout shape capacity call)
        memory_resource' calls
    | _, _ => none

/-- The bytes the index holds beyond what the memory resource had counted before:
`sizeof_node` for every node below the root and `sizeof_pointer` for every
element of capacity of a vector. -/
def held_bytes (layout : MemoryLayout) (s : TreeAccelerationStructure n B)
    (capacity : List (Fin n) → Nat) : Nat :=
  layout.sizeof_node * (s.root.count_nodes - 1) +
    layout.sizeof_pointer * s.root.total_capacity capacity

end TreeAccelerationStructure

namespace OctreeAccelerationStructure

variable [FloatArithmetic ℚ]

/-- The state of a new octree and the capacities of its vectors after the calls. -/
def reached_capacity (layout : MemoryLayout) (m_bounds : Nat → aabbox3)
    (m_node : Nat → Option (List (Fin 8))) (center extent : float3) (max_depth : Nat)
    (calls : List Call) :
    Option (OctreeAccelerationStructure × (List (Fin 8) → Nat)) :=
  match create m_bounds m_node center extent max_depth with
  | none => none
  | some s => s.run_capacity layout shape (fun _ => 0) calls

/-- The state of a new octree, the capacities of its vectors and the memory
resource after the calls. -/
def reached_memory (layout : MemoryLayout) (m_bounds : Nat → aabbox3)
    (m_node : Nat → Option (List (Fin 8))) (center extent : float3) (max_depth : Nat)
    (memory_resource : CountMemoryResource) (calls : List Call) :
    Option (OctreeAccelerationStructure × (List (Fin 8) → Nat) × CountMemoryResource) :=
  match create m_bounds m_node center extent max_depth with
  | none => none
  | some s => s.run_memory layout shape (fun _ => 0) memory_resource calls

end OctreeAccelerationStructure

namespace QuadtreeAccelerationStructure

variable [FloatArithmetic ℚ]

/-- The state of a new quadtree and the capacities of its vectors after the
calls. -/
def reached_capacity (layout : MemoryLayout) (m_bounds : Nat → aabbox3)
    (m_node : Nat → Option (List (Fin 4))) (center extent : float2) (max_depth : Nat)
    (calls : List Call) :
    Option (QuadtreeAccelerationStructure × (List (Fin 4) → Nat)) :=
  match create m_bounds m_node center extent max_depth with
  | none => none
  | some s => s.run_capacity layout shape (fun _ => 0) calls

/-- The state of a new quadtree, the capacities of its vectors and the memory
resource after the calls. -/
def reached_memory (layout : MemoryLayout) (m_bounds : Nat → aabbox3)
    (m_node : Nat → Option (List (Fin 4))) (center extent : float2) (max_depth : Nat)
    (memory_resource : CountMemoryResource) (calls : List Call) :
    Option (QuadtreeAccelerationStructure × (List (Fin 4) → Nat) × CountMemoryResource) :=
  match create m_bounds m_node center extent max_depth with
  | none => none
  | some s => s.run_memory layout shape (fun _ => 0) memory_resource calls

end QuadtreeAccelerationStructure

/-! ## The words of the placement rule and of the boundary rule

The lower and the upper end of a box on an axis are the values `center - extent`
and `center + extent` as `find_node` and `update` compute them, `fsub center extent`
and `fadd center extent`; so are the two ends of the range of a node in `fits`. -/

/-- On one axis the box is on the positive side of the center: `lower >= center`. -/
def axis_positive (lower center : ℚ) : Prop := lower ≥ center

/-- On one axis the box is on the negative side of the center: `upper < center`,
for a box that does not count as positive. -/
def axis_negative (lower upper center : ℚ) : Prop := ¬ lower ≥ center ∧ upper < center

/-- On one axis the box straddles the center: `lower < center <= upper`. -/
def axis_straddles (lower upper center : ℚ) : Prop := lower < center ∧ center ≤ upper

instance (lower center : ℚ) : Decidable (axis_positive lower center) := by
  unfold axis_positive; infer_instance

instance (lower upper center : ℚ) : Decidable (axis_negative lower upper center) := by
  unfold axis_negative; infer_instance

instance (lower upper center : ℚ) : Decidable (axis_straddles lower upper center) := by
  unfold axis_straddles; infer_instance

/-- On one axis the box fits in the half-open range of the node:
`node_lower <= lower` and `upper < node_upper`. -/
def axis_fits (lower upper node_lower node_upper : ℚ) : Prop :=
  node_lower ≤ lower ∧ upper < node_upper

instance (lower upper node_lower node_upper : ℚ) :
    Decidable (axis_fits lower upper node_lower node_upper) := by
  unfold axis_fits; infer_instance

/-- On one axis both ends of the box lie strictly inside one half of the range of
the node: the lower half `(center - extent, center)` when `negative`, the upper
half `(center, center + extent)` otherwise. -/
def axis_strictly_in_half (negative : Bool) (lower upper center extent : ℚ) : Prop :=
  lower ≤ upper ∧
    if negative then center - extent < lower ∧ upper < center
    else center < lower ∧ upper < center + extent

instance (negative : Bool) (lower upper center extent : ℚ) :
    Decidable (axis_strictly_in_half negative lower upper center extent) := by
  unfold axis_strictly_in_half; infer_instance

namespace OctreeAccelerationStructure

variable [FloatArithmetic ℚ]

/-- The box straddles the center of the node on at least one of the three axes. -/
def straddles (x b : aabbox3) : Prop :=
  axis_straddles (fsub x.center.x x.extent.x) (fadd x.center.x x.extent.x) b.center.x ∨
  axis_straddles (fsub x.center.y x.extent.y) (fadd x.center.y x.extent.y) b.center.y ∨
  axis_straddles (fsub x.center.z x.extent.z) (fadd x.center.z x.extent.z) b.center.z

instance (x b : aabbox3) : Decidable (straddles x b) := by
  unfold straddles; infer_instance

/-- The child code has its bit set for exactly the axes on which the box is on the
negative side of the center of the node. -/
def negative_bits (x b : aabbox3) (index : Fin 8) : Prop :=
  (index.val.testBit 0 = true ↔
    axis_negative (fsub x.center.x x.extent.x) (fadd x.center.x x.extent.x) b.center.x) ∧
  (index.val.testBit 1 = true ↔
    axis_negative (fsub x.center.y x.extent.y) (fadd x.center.y x.extent.y) b.center.y) ∧
  (index.val.testBit 2 = true ↔
    axis_negative (fsub x.center.z x.extent.z) (fadd x.center.z x.extent.z) b.center.z)

instance (x b : aabbox3) (index : Fin 8) : Decidable (negative_bits x b index) := by
  unfold negative_bits; infer_instance

/-- The box fits in the half-open region of the node on all three axes. -/
def fits (x b : aabbox3) : Prop :=
  axis_fits (fsub x.center.x x.extent.x) (fadd x.center.x x.extent.x)
    (fsub b.center.x b.extent.x) (fadd b.center.x b.extent.x) ∧
  axis_fits (fsub x.center.y x.extent.y) (fadd x.center.y x.extent.y)
    (fsub b.center.y b.extent.y) (fadd b.center.y b.extent.y) ∧
  axis_fits (fsub x.center.z x.extent.z) (fadd x.center.z x.extent.z)
    (fsub b.center.z b.extent.z) (fadd b.center.z b.extent.z)

instance (x b : aabbox3) : Decidable (fits x b) := by
  unfold fits; infer_instance

/-- The box lies strictly inside the octant of the node region that belongs to the
child slot `index`. -/
def strictly_in_octant (b : aabbox3) (index : Fin 8) (x : aabbox3) : Prop :=
  axis_strictly_in_half (index.val.testBit 0) (x.center.x - x.extent.x)
    (x.center.x + x.extent.x) b.center.x b.extent.x ∧
  axis_strictly_in_half (index.val.testBit 1) (x.center.y - x.extent.y)
    (x.center.y + x.extent.y) b.center.y b.extent.y ∧
  axis_strictly_in_half (index.val.testBit 2) (x.center.z - x.extent.z)
    (x.center.z + x.extent.z) b.center.z b.extent.z

instance (b : aabbox3) (index : Fin 8) (x : aabbox3) : Decidable (strictly_in_octant b index x) := by
  unfold strictly_in_octant; infer_instance

end OctreeAccelerationStructure

namespace QuadtreeAccelerationStructure

variable [FloatArithmetic ℚ]

/-- The box straddles the center of the node on at least one of its two axes: the
x axis of the box against the x axis of the node, the z axis of the box against
the y axis of the node. -/
def straddles (x : aabbox3) (b : aabbox2) : Prop :=
  axis_straddles (fsub x.center.x x.extent.x) (fadd x.center.x x.extent.x) b.center.x ∨
  axis_straddles (fsub x.center.z x.extent.z) (fadd x.center.z x.extent.z) b.center.y

instance (x : aabbox3) (b : aabbox2) : Decidable (straddles x b) := by
  unfold straddles; infer_instance

/-- The child code has its bit set for exactly the axes on which the box is on the
negative side of the center of the node. -/
def negative_bits (x : aabbox3) (b : aabbox2) (index : Fin 4) : Prop :=
  (index.val.testBit 0 = true ↔
    axis_negative (fsub x.center.x x.extent.x) (fadd x.center.x x.extent.x) b.center.x) ∧
  (index.val.testBit 1 = true ↔
    axis_negative (fsub x.center.z x.extent.z) (fadd x.center.z x.extent.z) b.center.y)

instance (x : aabbox3) (b : aabbox2) (index : Fin 4) : Decidable (negative_bits x b index) := by
  unfold negative_bits; infer_instance

/-- The footprint of the box fits in the half-open region of the node on both axes. -/
def fits (x : aabbox3) (b : aabbox2) : Prop :=
  axis_fits (fsub x.center.x x.extent.x) (fadd x.center.x x.extent.x)
    (fsub b.center.x b.extent.x) (fadd b.center.x b.extent.x) ∧
  axis_fits (fsub x.center.z x.extent.z) (fadd x.center.z x.extent.z)
    (fsub b.center.y b.extent.y) (fadd b.center.y b.extent.y)

instance (x : aabbox3) (b : aabbox2) : Decidable (fits x b) := by
  unfold fits; infer_instance

end QuadtreeAccelerationStructure

/-! ## Notions used to state the theorems on corner heights and plane extraction -/

/-- The heights of the eight corners of a frustum: `find_y` on every triple of a
plane out of left and right, one out of bottom and top, one out of near and far. -/
def QuadtreeAccelerationStructure.corner_heights [FloatArithmetic ℚ] (f : frustum) : List ℚ :=
  ([0, 1] : List (Fin 6)).flatMap fun a =>
    ([2, 3] : List (Fin 6)).flatMap fun b =>
      ([4, 5] : List (Fin 6)).map fun c =>
        QuadtreeAccelerationStructure.find_y (f.data a) (f.data b) (f.data c)

section

variable {K : Type} [Add K] [Sub K] [Mul K]

/-- Column `j` of the row vector `(p.x, p.y, p.z, 1)` times the matrix. -/
def float4x4_of.clip (m : float4x4_of K) (p : float3_of K) (j : Fin 4) : K :=
  p.x * m.data 0 j + p.y * m.data 1 j + p.z * m.data 2 j + m.data 3 j

/-- The value whose sign tells the side of the point `p` with respect to plane `i`
of the frustum of the matrix: with `(cx, cy, cz, cw)` the row vector
`(p.x, p.y, p.z, 1)` times the matrix, `cw + cx`, `cw - cx`, `cw + cy`, `cw - cy`,
`cz` and `cw - cz` for left, right, bottom, top, near and far. -/
def float4x4_of.side (m : float4x4_of K) (p : float3_of K) (i : Fin 6) : K :=
  match i with
  | 0 => m.clip p 3 + m.clip p 0
  | 1 => m.clip p 3 - m.clip p 0
  | 2 => m.clip p 3 + m.clip p 1
  | 3 => m.clip p 3 - m.clip p 1
  | 4 => m.clip p 2
  | 5 => m.clip p 3 - m.clip p 2

/-- The plane that `frustum_from_float4x4` passes to `normalize` for plane `i`. -/
def float4x4_of.extracted (m : float4x4_of K) (i : Fin 6) : plane_of K :=
  match i with
  | 0 => ⟨⟨m.data 0 3 + m.data 0 0, m.data 1 3 + m.data 1 0, m.data 2 3 + m.data 2 0⟩,
      m.data 3 3 + m.data 3 0⟩
  | 1 => ⟨⟨m.data 0 3 - m.data 0 0, m.data 1 3 - m.data 1 0, m.data 2 3 - m.data 2 0⟩,
      m.data 3 3 - m.data 3 0⟩
  | 2 => ⟨⟨m.data 0 3 + m.data 0 1, m.data 1 3 + m.data 1 1, m.data 2 3 + m.data 2 1⟩,
      m.data 3 3 + m.data 3 1⟩
  | 3 => ⟨⟨m.data 0 3 - m.data 0 1, m.data 1 3 - m.data 1 1, m.data 2 3 - m.data 2 1⟩,
      m.data 3 3 - m.data 3 1⟩
  | 4 => ⟨⟨m.data 0 2, m.data 1 2, m.data 2 2⟩, m.data 3 2⟩
  | 5 => ⟨⟨m.data 0 3 - m.data 0 2, m.data 1 3 - m.data 1 2, m.data 2 3 - m.data 2 2⟩,
      m.data 3 3 - m.data 3 2⟩

/-- The square of the length of the normal that `frustum_from_float4x4` extracts
for plane `i`, before `normalize`; it is zero exactly when the normal is zero. -/
def float4x4_of.normal_length_squared (m : float4x4_of K) (i : Fin 6) : K :=
  (m.extracted i).normal.x * (m.extracted i).normal.x +
  (m.extracted i).normal.y * (m.extracted i).normal.y +
  (m.extracted i).normal.z * (m.extracted i).normal.z

end

/-- The point lies in the closed 2D box. -/
def aabbox2.contains (b : aabbox2) (pt : float2) : Prop :=
  |pt.x - b.center.x| ≤ b.extent.x ∧ |pt.y - b.center.y| ≤ b.extent.y

instance (b : aabbox2) (pt : float2) : Decidable (b.contains pt) := by
  unfold aabbox2.contains; infer_instance

/-! ## Dyadic grids

On a grid of numbers that are multiples of one power of two and not too large,
the operations of the two trees and of the box tests give results that binary32
holds without rounding. -/

/-- The number is a multiple of `2 ^ k` of magnitude at most `2 ^ 22 * 2 ^ k`. -/
def grid_value (k : ℤ) (v : ℚ) : Prop :=
  (v / pow2 k).den = 1 ∧ |v| ≤ 2 ^ 22 * pow2 k

instance (k : ℤ) (v : ℚ) : Decidable (grid_value k v) := by
  unfold grid_value; infer_instance

/-- The six numbers of the box are on the grid of `2 ^ k`. -/
def aabbox3.on_grid (k : ℤ) (x : aabbox3) : Prop :=
  grid_value k x.center.x ∧ grid_value k x.center.y ∧ grid_value k x.center.z ∧
  grid_value k x.extent.x ∧ grid_value k x.extent.y ∧ grid_value k x.extent.z

instance (k : ℤ) (x : aabbox3) : Decidable (x.on_grid k) := by
  unfold aabbox3.on_grid; infer_instance

/-- The four numbers of the 2D box are on the grid of `2 ^ k`. -/
def aabbox2.on_grid (k : ℤ) (x : aabbox2) : Prop :=
  grid_value k x.center.x ∧ grid_value k x.center.y ∧
  grid_value k x.extent.x ∧ grid_value k x.extent.y

instance (k : ℤ) (x : aabbox2) : Decidable (x.on_grid k) := by
  unfold aabbox2.on_grid; infer_instance

/-- The bounds of a root whose extent can be halved `max_depth` times on the grid
of `2 ^ k`: the bounds are on the grid and the extents are multiples of
`2 ^ (k + max_depth)`. -/
def aabbox3.grid_root (k : ℤ) (max_depth : Nat) (b : aabbox3) : Prop :=
  b.on_grid k ∧ (b.extent.x / pow2 (k + max_depth)).den = 1 ∧
  (b.extent.y / pow2 (k + max_depth)).den = 1 ∧ (b.extent.z / pow2 (k + max_depth)).den = 1

instance (k : ℤ) (max_depth : Nat) (b : aabbox3) : Decidable (b.grid_root k max_depth) := by
  unfold aabbox3.grid_root; infer_instance

/-- The bounds of a quadtree root whose extent can be halved `max_depth` times on
the grid of `2 ^ k`. -/
def aabbox2.grid_root (k : ℤ) (max_depth : Nat) (b : aabbox2) : Prop :=
  b.on_grid k ∧ (b.extent.x / pow2 (k + max_depth)).den = 1 ∧
  (b.extent.y / pow2 (k + max_depth)).den = 1

instance (k : ℤ) (max_depth : Nat) (b : aabbox2) : Decidable (b.grid_root k max_depth) := by
  unfold aabbox2.grid_root; infer_instance

/-- The bounds of a node `level` levels above the deepest level of a tree on the
grid of `2 ^ k`: the center is a multiple of `2 ^ k`, the extent a non-negative
multiple of `2 ^ (k + level)`, and the region lies within `2 ^ 23 * 2 ^ k` of zero. -/
def grid_axis (k : ℤ) (level : Nat) (center extent : ℚ) : Prop :=
  (center / pow2 k).den = 1 ∧ (extent / pow2 (k + level)).den = 1 ∧ 0 ≤ extent ∧
  |center| + extent ≤ 2 ^ 23 * pow2 k

/-- The bounds of an octree node `level` levels above the deepest level. -/
def aabbox3.grid_node (k : ℤ) (level : Nat) (b : aabbox3) : Prop :=
  grid_axis k level b.center.x b.extent.x ∧ grid_axis k level b.center.y b.extent.y ∧
  grid_axis k level b.center.z b.extent.z

/-- The bounds of a quadtree node `level` levels above the deepest level. -/
def aabbox2.grid_node (k : ℤ) (level : Nat) (b : aabbox2) : Prop :=
  grid_axis k level b.center.x b.extent.x ∧ grid_axis k level b.center.y b.extent.y

namespace OctreeAccelerationStructure

/-- The contract of the octree on a grid: the box lies in the closed region given
by `center` and `extent` and its six numbers are on the grid of `2 ^ k`. -/
def in_grid_region (k : ℤ) (center extent : float3) : aabbox3 → Bool :=
  fun x => in_region center extent x && decide (x.on_grid k)

end OctreeAccelerationStructure

namespace QuadtreeAccelerationStructure

/-- The contract of the quadtree on a grid: the footprint of the box lies in the
closed region given by `center` and `extent` and the six numbers of the box are on
the grid of `2 ^ k`. -/
def in_grid_region (k : ℤ) (center extent : float2) : aabbox3 → Bool :=
  fun x => in_region center extent x && decide (x.on_grid k)

end QuadtreeAccelerationStructure

/-- The six numbers of the box are binary32 values. -/
def aabbox3.binary32_values (b : aabbox3) : Prop :=
  is_binary32 b.center.x ∧ is_binary32 b.center.y ∧ is_binary32 b.center.z ∧
  is_binary32 b.extent.x ∧ is_binary32 b.extent.y ∧ is_binary32 b.extent.z

instance (b : aabbox3) : Decidable b.binary32_values := by
  unfold aabbox3.binary32_values; infer_instance

/-- The four numbers of the 2D box are binary32 values. -/
def aabbox2.binary32_values (b : aabbox2) : Prop :=
  is_binary32 b.center.x ∧ is_binary32 b.center.y ∧
  is_binary32 b.extent.x ∧ is_binary32 b.extent.y

instance (b : aabbox2) : Decidable b.binary32_values := by
  unfold aabbox2.binary32_values; infer_instance

/-- The four numbers of the plane are binary32 values. -/
def plane.binary32_values (p : plane) : Prop :=
  is_binary32 p.normal.x ∧ is_binary32 p.normal.y ∧ is_binary32 p.normal.z ∧
  is_binary32 p.distance

instance (p : plane) : Decidable p.binary32_values := by
  unfold plane.binary32_values; infer_instance

/-- The numbers of the six planes of the frustum are binary32 values. -/
def frustum.binary32_values (f : frustum) : Prop :=
  ∀ i : Fin 6, plane.binary32_values (f.data i)

instance (f : frustum) : Decidable f.binary32_values := by
  unfold frustum.binary32_values; infer_instance

/-- The contract on a grid without a region: the six numbers of the box are on the
grid of `2 ^ k`. -/
def aabbox3.grid_bounds (k : ℤ) : aabbox3 → Bool :=
  fun x => decide (x.on_grid k)

instance (k : ℤ) (level : Nat) (center extent : ℚ) :
    Decidable (grid_axis k level center extent) := by
  unfold grid_axis; infer_instance

instance (k : ℤ) (level : Nat) (b : aabbox3) : Decidable (b.grid_node k level) := by
  unfold aabbox3.grid_node; infer_instance

instance (k : ℤ) (level : Nat) (b : aabbox2) : Decidable (b.grid_node k level) := by
  unfold aabbox2.grid_node; infer_instance

/-- The lower and the upper end of the box on each axis are computed without
rounding: `center - extent` and `center + extent` are the values the code
computes. -/
def aabbox3.exact_edges (x : aabbox3) : Prop :=
  fsub x.center.x x.extent.x = x.center.x - x.extent.x ∧
  fadd x.center.x x.extent.x = x.center.x + x.extent.x ∧
  fsub x.center.y x.extent.y = x.center.y - x.extent.y ∧
  fadd x.center.y x.extent.y = x.center.y + x.extent.y ∧
  fsub x.center.z x.extent.z = x.center.z - x.extent.z ∧
  fadd x.center.z x.extent.z = x.center.z + x.extent.z

instance (x : aabbox3) : Decidable x.exact_edges := by
  unfold aabbox3.exact_edges; infer_instance

/-- The lower and the upper end of the 2D box on each axis are computed without
rounding. -/
def aabbox2.exact_edges (x : aabbox2) : Prop :=
  fsub x.center.x x.extent.x = x.center.x - x.extent.x ∧
  fadd x.center.x x.extent.x = x.center.x + x.extent.x ∧
  fsub x.center.y x.extent.y = x.center.y - x.extent.y ∧
  fadd x.center.y x.extent.y = x.center.y + x.extent.y

instance (x : aabbox2) : Decidable x.exact_edges := by
  unfold aabbox2.exact_edges; infer_instance

/-- The number is a multiple of `2 ^ e` of magnitude at most `m * 2 ^ e`. -/
def dyadic_within (e : ℤ) (m v : ℚ) : Prop :=
  (v / pow2 e).den = 1 ∧ |v| ≤ m * pow2 e

instance (e : ℤ) (m v : ℚ) : Decidable (dyadic_within e m v) := by
  unfold dyadic_within; infer_instance

/-- The six numbers of the box are multiples of `2 ^ k` of magnitude at most
`2 ^ 11 * 2 ^ k`. -/
def aabbox3.small_grid (k : ℤ) (b : aabbox3) : Prop :=
  dyadic_within k (2 ^ 11) b.center.x ∧ dyadic_within k (2 ^ 11) b.center.y ∧
  dyadic_within k (2 ^ 11) b.center.z ∧ dyadic_within k (2 ^ 11) b.extent.x ∧
  dyadic_within k (2 ^ 11) b.extent.y ∧ dyadic_within k (2 ^ 11) b.extent.z

instance (k : ℤ) (b : aabbox3) : Decidable (b.small_grid k) := by
  unfold aabbox3.small_grid; infer_instance

/-- The three numbers of the normal of the plane are multiples of `2 ^ j` of
magnitude at most `2 ^ 10 * 2 ^ j`, and the distance is a multiple of
`2 ^ (k + j)` of magnitude at most `2 ^ 21 * 2 ^ (k + j)`. -/
def plane.small_grid (k j : ℤ) (p : plane) : Prop :=
  dyadic_within j (2 ^ 10) p.normal.x ∧ dyadic_within j (2 ^ 10) p.normal.y ∧
  dyadic_within j (2 ^ 10) p.normal.z ∧ dyadic_within (k + j) (2 ^ 21) p.distance

instance (k j : ℤ) (p : plane) : Decidable (plane.small_grid k j p) := by
  unfold plane.small_grid; infer_instance

/-- Each of the six planes of the frustum is on the small grid. -/
def frustum.small_grid (k j : ℤ) (f : frustum) : Prop :=
  ∀ i : Fin 6, plane.small_grid k j (f.data i)

instance (k j : ℤ) (f : frustum) : Decidable (frustum.small_grid k j f) := by
  unfold frustum.small_grid; infer_instance

/-- The region of the box lies within `2 ^ 11 * 2 ^ k` of zero on every axis. -/
def aabbox3.small_region (k : ℤ) (b : aabbox3) : Prop :=
  |b.center.x| + b.extent.x ≤ 2 ^ 11 * pow2 k ∧ |b.center.y| + b.extent.y ≤ 2 ^ 11 * pow2 k ∧
  |b.center.z| + b.extent.z ≤ 2 ^ 11 * pow2 k

instance (k : ℤ) (b : aabbox3) : Decidable (b.small_region k) := by
  unfold aabbox3.small_region; infer_instance

/-- A bound on the bytes the index has outstanding at any moment up to the state
`s`, beyond what the memory resource had counted before: the bytes it holds, and
the bytes of the vectors once more, since a vector that grows holds its new and
its old buffer at once. -/
def TreeAccelerationStructure.peak_bytes {n : Nat} {B : Type} (layout : MemoryLayout)
    (s : TreeAccelerationStructure n B) (capacity : List (Fin n) → Nat) : Nat :=
  layout.sizeof_node * (s.root.count_nodes - 1) +
    2 * (layout.sizeof_pointer * s.root.total_capacity capacity)

/-- The layout of a 64-bit build with libstdc++: `size_t` of 64 bits, nodes of
`sizeof_node` bytes, pointers of 8 bytes, and a vector that doubles its capacity,
from 0 to 1. -/
def libstdcxx_layout (sizeof_node : Nat) : MemoryLayout :=
  ⟨64, sizeof_node, 8, fun capacity => max (2 * capacity) 1⟩

/-- Exact arithmetic on the real numbers. -/
def real_arithmetic : FloatArithmetic ℝ := ⟨id⟩

/-! ## Concrete inputs -/

/-- A frustum whose six planes bound the cube `[-1, 1]³`. -/
def unit_cube_frustum : frustum :=
  ⟨fun i => match i with
    | 0 => ⟨⟨1, 0, 0⟩, 1⟩
    | 1 => ⟨⟨-1, 0, 0⟩, 1⟩
    | 2 => ⟨⟨0, 1, 0⟩, 1⟩
    | 3 => ⟨⟨0, -1, 0⟩, 1⟩
    | 4 => ⟨⟨0, 0, 1⟩, 1⟩
    | 5 => ⟨⟨0, 0, -1⟩, 1⟩⟩

/-- The world of main.cpp: center of the octree. -/
def world_center3 : float3 := ⟨0, 0, 0⟩

/-- The world of main.cpp: extent of the octree. -/
def world_extent3 : float3 := ⟨1024, 1024, 1024⟩

/-- The world of main.cpp: center of the quadtree. -/
def world_center2 : float2 := ⟨0, 0⟩

/-- The world of main.cpp: extent of the quadtree. -/
def world_extent2 : float2 := ⟨1024, 1024⟩

/-- Two primitives inside the world: primitive 0 around (3, 5, 7), every other
primitive around (-100, 50, 7). -/
def sample_bounds : Nat → aabbox3 :=
  fun p => if p = 0 then ⟨⟨3, 5, 7⟩, ⟨1, 1, 1⟩⟩ else ⟨⟨-100, 50, 7⟩, ⟨1, 1, 1⟩⟩

/-- Two primitives are added, the first is moved to the opposite octant and
updated, the second is removed. -/
def sample_calls : List Call :=
  [.add 0, .add 1, .set_bounds 0 ⟨⟨-300, -5, -7⟩, ⟨1, 1, 1⟩⟩, .update 0, .remove 1]

/-- A primitive that sticks out of the world on the x axis: it spans
`[1023, 1025]`. -/
def outside_bounds : Nat → aabbox3 :=
  fun _ => ⟨⟨1024, 10, 10⟩, ⟨1, 1, 1⟩⟩

/-- A query box that touches that primitive from outside the world: it spans
`[1025, 1035]` on the x axis. -/
def outside_query : aabbox3 := ⟨⟨1030, 10, 10⟩, ⟨5, 5, 5⟩⟩

/-- A view volume with unit normals: the box `|3x + 4y| ≤ 5`, `|4x - 3y| ≤ 5`,
`|z| ≤ 4`, a cube rolled about the z axis.  Its eight corners have the heights
`±7/5` and `±1/5`. -/
def rolled_frustum : frustum :=
  ⟨fun i => match i with
    | 0 => ⟨⟨3/5, 4/5, 0⟩, 1⟩
    | 1 => ⟨⟨-3/5, -4/5, 0⟩, 1⟩
    | 2 => ⟨⟨-4/5, 3/5, 0⟩, 1⟩
    | 3 => ⟨⟨4/5, -3/5, 0⟩, 1⟩
    | 4 => ⟨⟨0, 0, 1⟩, 4⟩
    | 5 => ⟨⟨0, 0, -1⟩, 4⟩⟩

/-- A tall primitive beside that view volume: it spans `[-11, -9]` on x,
`[-12, 12]` on y and `[1, 2]` on z. -/
def tall_bounds : Nat → aabbox3 :=
  fun _ => ⟨⟨-10, 0, 3/2⟩, ⟨1, 12, 1/2⟩⟩

/-- Every primitive is the box of half-extent 1 around the center of the world; it
straddles the center of the root on every axis. -/
def center_bounds : Nat → aabbox3 :=
  fun _ => ⟨⟨0, 0, 0⟩, ⟨1, 1, 1⟩⟩

/-- Primitive 0 is added, moved to the box of half-extent 1 around
(100, 100, 100), well inside one octant of the world, and updated. -/
def drift_calls : List Call :=
  [.add 0, .set_bounds 0 ⟨⟨100, 100, 100⟩, ⟨1, 1, 1⟩⟩, .update 0]

/-- A primitive of half-extents at most 1 at the edge of the view volume
`shifted_planes`: it spans
`[64, 66]` on x, `[-1/2, 3/2]` on y and `[1, 2]` on z. -/
def edge_bounds : Nat → aabbox3 :=
  fun _ => ⟨⟨65, 1/2, 3/2⟩, ⟨1, 1, 1/2⟩⟩

/-! ## Concrete inputs in binary32 -/

/-- A primitive inside the world of main.cpp with the bounds `(448.3f, 10, 10)` and
the half-extent `0.3f` on every axis.  Its lower x edge is `448 - 205/16777216`;
the subtraction of the code rounds it to `448`. -/
def rounded_bounds : Nat → aabbox3 :=
  fun _ => ⟨⟨7344947/16384, 10, 10⟩,
    ⟨5033165/16777216, 5033165/16777216, 5033165/16777216⟩⟩

/-- A query box with the center `(445, 10, 10)` and the half-extent `2.999995f`:
its upper x edge is `448 - 5/1048576`, between the lower x edge of
`rounded_bounds` and `448`. -/
def rounded_query : aabbox3 :=
  ⟨⟨445, 10, 10⟩, ⟨12582891/4194304, 12582891/4194304, 12582891/4194304⟩⟩

/-- A frustum whose second plane has the binary32 normal `(-(1 + 3 * 2 ^ (-23)), 0, 0)`
and the binary32 distance `448 + 5 * 2 ^ (-15)`; the other five planes are the
faces of the cube of half-extent 2048 about the origin. -/
def rounded_frustum : frustum :=
  ⟨fun i => match i with
    | 0 => ⟨⟨1, 0, 0⟩, 2048⟩
    | 1 => ⟨⟨-8388611/8388608, 0, 0⟩, 14680069/32768⟩
    | 2 => ⟨⟨0, 1, 0⟩, 2048⟩
    | 3 => ⟨⟨0, -1, 0⟩, 2048⟩
    | 4 => ⟨⟨0, 0, 1⟩, 2048⟩
    | 5 => ⟨⟨0, 0, -1⟩, 2048⟩⟩

/-- A view volume with whole-number planes: the box `|3x + 4y| ≤ 5`,
`|4x - 3y| ≤ 5`, `|z| ≤ 4`, a cube rolled about the z axis.  Its eight corners
have the heights `±7/5` and `±1/5`. -/
def rolled_planes : frustum :=
  ⟨fun i => match i with
    | 0 => ⟨⟨3, 4, 0⟩, 5⟩
    | 1 => ⟨⟨-3, -4, 0⟩, 5⟩
    | 2 => ⟨⟨-4, 3, 0⟩, 5⟩
    | 3 => ⟨⟨4, -3, 0⟩, 5⟩
    | 4 => ⟨⟨0, 0, 1⟩, 4⟩
    | 5 => ⟨⟨0, 0, -1⟩, 4⟩⟩

/-- A small box just below the center of the world on every axis: center
`-2 ^ (-15)`, half-extent `2 ^ (-15) - 2 ^ (-39)`; it spans
`[-2 ^ (-14) + 2 ^ (-39), -2 ^ (-39)]`. -/
def below_center_box : aabbox3 :=
  ⟨⟨-1/32768, -1/32768, -1/32768⟩,
    ⟨16777215/549755813888, 16777215/549755813888, 16777215/549755813888⟩⟩

/-- A query box that fills the positive octant of the world up to a margin: center
512, half-extent `512 - 2 ^ (-15)`; it spans `[2 ^ (-15), 1024 - 2 ^ (-15)]`. -/
def positive_octant_query : aabbox3 :=
  ⟨⟨512, 512, 512⟩, ⟨16777215/32768, 16777215/32768, 16777215/32768⟩⟩

/-- A node region with the binary32 center `0.1f` on every axis and the
half-extent 1. -/
def tenth_node : aabbox3 :=
  ⟨⟨13421773/134217728, 13421773/134217728, 13421773/134217728⟩, ⟨1, 1, 1⟩⟩

/-- A box with the binary32 half-extent `0.2f` on the x axis: it spans
`[100 - 0.2f, 100 + 0.2f]` on x. -/
def thin_box : aabbox3 := ⟨⟨100, 0, 0⟩, ⟨13421773/67108864, 1, 1⟩⟩

/-- A box with the binary32 half-extent `2.3f` on the x axis: it spans
`[102.5 - 2.3f, 102.5 + 2.3f]` on x.  Its lower x edge is `3 / 67108864` above
the upper x edge of `thin_box`. -/
def wide_box : aabbox3 := ⟨⟨205/2, 0, 0⟩, ⟨9646899/4194304, 1, 1⟩⟩

/-- The footprint `(100, 0)` with the binary32 half-extents `(0.2f, 1)`. -/
def thin_footprint : aabbox2 := ⟨⟨100, 0⟩, ⟨13421773/67108864, 1⟩⟩

/-- A box around `(512.5, 512.5, 512.5)` with the binary32 half-extents
`(0.5 + 2 ^ (-24), 0.5, 0.5)`: its lower x edge is `512 - 2 ^ (-24)`, and the
subtraction of the code rounds it to `512`. -/
def straddling_box : aabbox3 :=
  ⟨⟨1025/2, 1025/2, 1025/2⟩, ⟨8388609/16777216, 1/2, 1/2⟩⟩

/-- Every primitive is the box around `(511.5, 511.5, 511.5)` with the binary32
half-extent `0.5 - 2 ^ (-25)`: its upper edges are `512 - 2 ^ (-25)`, and the
addition of the code rounds them to `512`. -/
def nested_bounds : Nat → aabbox3 :=
  fun _ => ⟨⟨1023/2, 1023/2, 1023/2⟩,
    ⟨16777215/33554432, 16777215/33554432, 16777215/33554432⟩⟩

/-- A box at the edge of the world with the binary32 half-extents
`(1 - 2 ^ (-24), 1, 1)`: its upper x edge is `1024 - 2 ^ (-24)`, and the addition
of the code rounds it to `1024`. -/
def edge_box : aabbox3 :=
  ⟨⟨1023, 100, 100⟩, ⟨16777215/16777216, 1, 1⟩⟩

/-- Primitive 0 is added around the center of the world, where the root holds it,
its bounds are written to `edge_box`, and it is updated. -/
def edge_calls : List Call :=
  [.add 0, .set_bounds 0 edge_box]

/-- A box with the binary32 center `(930.96027f, -127.67627f, 0)` and the binary32
half-extents `(0.66398f, 0.37092f, 1)`. -/
def grazing_box : aabbox3 :=
  ⟨⟨15252853/16384, -261481/2048, 0⟩, ⟨1392467/2097152, 6223005/16777216, 1⟩⟩

/-- A frustum whose first plane has the binary32 normal `(0.6f, 0.8f, 0)` and the
binary32 distance `-457.13028f`; the other five planes are faces of the cube of
half-extent 2048 about the origin. -/
def grazing_frustum : frustum :=
  ⟨fun i => match i with
    | 0 => ⟨⟨5033165/8388608, 13421773/16777216, 0⟩, -14979245/32768⟩
    | 1 => ⟨⟨-1, 0, 0⟩, 2048⟩
    | 2 => ⟨⟨0, 1, 0⟩, 2048⟩
    | 3 => ⟨⟨0, -1, 0⟩, 2048⟩
    | 4 => ⟨⟨0, 0, 1⟩, 2048⟩
    | 5 => ⟨⟨0, 0, -1⟩, 2048⟩⟩

/-- The corner of `grazing_box` with the largest x and y. -/
def grazing_corner : float3 :=
  ⟨15252853/16384 + 1392467/2097152, -261481/2048 + 6223005/16777216, 0⟩

/-- The view volume `rolled_planes` moved by `987/16` along the x axis: the box
`|3(x - 987/16) + 4y| ≤ 5`, `|4(x - 987/16) - 3y| ≤ 5`, `|z| ≤ 4`.  Every number
is a binary32 value; its eight corners have the heights `±7/5` and `±1/5`. -/
def shifted_planes : frustum :=
  ⟨fun i => match i with
    | 0 => ⟨⟨3, 4, 0⟩, -2881/16⟩
    | 1 => ⟨⟨-3, -4, 0⟩, 3041/16⟩
    | 2 => ⟨⟨-4, 3, 0⟩, 1007/4⟩
    | 3 => ⟨⟨4, -3, 0⟩, -967/4⟩
    | 4 => ⟨⟨0, 0, 1⟩, 4⟩
    | 5 => ⟨⟨0, 0, -1⟩, 4⟩⟩

/-! ## The arithmetic of `float`: exact arithmetic and binary32 -/

section

variable {K : Type} [FloatArithmetic K] [FloatArithmetic.Exact K]

@[simp] theorem fadd_exact [Add K] (a b : K) : fadd a b = a + b :=
  FloatArithmetic.Exact.round_eq _

@[simp] theorem fsub_exact [Sub K] (a b : K) : fsub a b = a - b :=
  FloatArithmetic.Exact.round_eq _

@[simp] theorem fmul_exact [Mul K] (a b : K) : fmul a b = a * b :=
  FloatArithmetic.Exact.round_eq _

@[simp] theorem fdiv_exact [Div K] (a b : K) : fdiv a b = a / b :=
  FloatArithmetic.Exact.round_eq _

end

theorem pow2_eq (k : ℤ) : pow2 k = (2 : ℚ) ^ k := by
  unfold pow2
  split_ifs with h
  · obtain ⟨n, rfl⟩ := Int.eq_ofNat_of_zero_le h
    simp
  · push_neg at h
    obtain ⟨n, hn⟩ := Int.exists_eq_neg_ofNat h.le
    subst hn
    simp

theorem pow2_pos (k : ℤ) : 0 < pow2 k := by
  rw [pow2_eq]; positivity

theorem pow2_add (a b : ℤ) : pow2 (a + b) = pow2 a * pow2 b := by
  simp only [pow2_eq]; exact zpow_add₀ (by norm_num) a b

theorem pow2_le_pow2 {a b : ℤ} (h : a ≤ b) : pow2 a ≤ pow2 b := by
  simp only [pow2_eq]; exact zpow_le_zpow_right₀ (by norm_num) h

theorem pow2_lt_pow2 {a b : ℤ} (h : a < b) : pow2 a < pow2 b := by
  simp only [pow2_eq]; exact zpow_lt_zpow_right₀ (by norm_num) h

theorem steps_cover_sum_nonneg : ∀ steps : List ℤ, steps_cover steps = true → 0 ≤ steps.sum
  | [], _ => by simp
  | step :: rest, h => by
    simp only [steps_cover, Bool.and_eq_true, decide_eq_true_eq] at h
    have := steps_cover_sum_nonneg rest h.2
    simp only [List.sum_cons]
    linarith [h.1.1]

theorem exponent_search_spec (x : ℚ) : ∀ (steps : List ℤ) (e : ℤ), steps_cover steps = true →
    e ≤ exponent_search x steps e ∧
    (exponent_search x steps e = e ∨ pow2 (exponent_search x steps e) ≤ x) ∧
    (x < pow2 (e + steps.sum + 1) → x < pow2 (exponent_search x steps e + 1))
  | [], e, _ => by simp [exponent_search]
  | step :: rest, e, h => by
    simp only [steps_cover, Bool.and_eq_true, decide_eq_true_eq] at h
    have hrest := steps_cover_sum_nonneg rest h.2
    unfold exponent_search
    split_ifs with hle
    · obtain ⟨h1, h2, h3⟩ := exponent_search_spec x rest (e + step) h.2
      refine ⟨by linarith [h.1.1], ?_, ?_⟩
      · rcases h2 with h2 | h2
        · right; rw [h2]; exact hle
        · right; exact h2
      · intro hx
        apply h3
        simpa [List.sum_cons, add_assoc] using hx
    · obtain ⟨h1, h2, h3⟩ := exponent_search_spec x rest e h.2
      refine ⟨h1, h2, ?_⟩
      intro _
      apply h3
      push_neg at hle
      exact lt_of_lt_of_le hle (pow2_le_pow2 (by have := h.1.2; omega))

theorem float_exponent_ge (x : ℚ) : -126 ≤ float_exponent x :=
  (exponent_search_spec x _ _ (by decide)).1

theorem float_exponent_le (x : ℚ) : float_exponent x = -126 ∨ pow2 (float_exponent x) ≤ x :=
  (exponent_search_spec x _ _ (by decide)).2.1

theorem float_exponent_lt (x : ℚ) (h : x < pow2 128) : x < pow2 (float_exponent x + 1) := by
  apply (exponent_search_spec x _ _ (by decide)).2.2
  exact lt_of_lt_of_le h (pow2_le_pow2 (by decide))

theorem float_exponent_mono {x y : ℚ} (h : x ≤ y) (hy : y < pow2 128) :
    float_exponent x ≤ float_exponent y := by
  by_contra hlt
  push_neg at hlt
  have h1 := float_exponent_ge y
  rcases float_exponent_le x with h2 | h2
  · omega
  · have h3 := float_exponent_lt y hy
    have h4 : pow2 (float_exponent y + 1) ≤ pow2 (float_exponent x) := pow2_le_pow2 (by omega)
    linarith

theorem round_half_even_sub_le (x : ℚ) : |(round_half_even x : ℚ) - x| ≤ 1 / 2 := by
  have h1 := Int.floor_le x
  have h2 := Int.lt_floor_add_one x
  unfold round_half_even
  split_ifs with ha hb hc
  · rw [abs_le]; constructor <;> linarith
  · rw [abs_le]; push_cast; constructor <;> linarith
  · rw [abs_le]; push_neg at ha hb; constructor <;> linarith
  · rw [abs_le]; push_neg at ha hb; push_cast; constructor <;> linarith

theorem round_half_even_intCast (n : ℤ) : round_half_even (n : ℚ) = n := by
  unfold round_half_even
  simp

theorem round_half_even_mono {x y : ℚ} (h : x ≤ y) : round_half_even x ≤ round_half_even y := by
  by_contra hlt
  push_neg at hlt
  have hx := round_half_even_sub_le x
  have hy := round_half_even_sub_le y
  rw [abs_le] at hx hy
  have h1 : (round_half_even y : ℚ) + 1 ≤ round_half_even x := by exact_mod_cast hlt
  have hxy : x = y := by linarith
  subst hxy
  exact lt_irrefl _ hlt

theorem pow2_natCast (j : ℕ) : pow2 (j : ℤ) = ((2 ^ j : ℤ) : ℚ) := by
  rw [pow2_eq]; push_cast; simp

theorem binary32_magnitude_zero : binary32_magnitude 0 = 0 := by
  unfold binary32_magnitude
  rw [if_neg (not_le.mpr (pow2_pos 128))]
  simp [round_half_even]

theorem binary32_magnitude_le_pow2 {x : ℚ} (hx : x < pow2 128) :
    binary32_magnitude x ≤ pow2 (float_exponent x + 1) := by
  unfold binary32_magnitude
  rw [if_neg (not_le.mpr hx)]
  have hu := pow2_pos (float_exponent x - 23)
  have h1 : x / pow2 (float_exponent x - 23) ≤ ((2 ^ 24 : ℤ) : ℚ) := by
    rw [div_le_iff₀ hu, ← pow2_natCast 24, ← pow2_add]
    have := float_exponent_lt x hx
    have e : ((24 : ℕ) : ℤ) + (float_exponent x - 23) = float_exponent x + 1 := by push_cast; ring
    rw [e]; exact this.le
  have h2 := round_half_even_mono h1
  rw [round_half_even_intCast] at h2
  have h3 : (round_half_even (x / pow2 (float_exponent x - 23)) : ℚ) ≤ ((2 ^ 24 : ℤ) : ℚ) := by
    exact_mod_cast h2
  calc _ ≤ ((2 ^ 24 : ℤ) : ℚ) * pow2 (float_exponent x - 23) :=
        mul_le_mul_of_nonneg_right h3 hu.le
    _ = pow2 (float_exponent x + 1) := by
        rw [← pow2_natCast 24, ← pow2_add]; congr 1; push_cast; ring

theorem binary32_magnitude_ge_pow2 {x : ℚ} (hx : x < pow2 128)
    (hle : pow2 (float_exponent x) ≤ x) : pow2 (float_exponent x) ≤ binary32_magnitude x := by
  unfold binary32_magnitude
  rw [if_neg (not_le.mpr hx)]
  have hu := pow2_pos (float_exponent x - 23)
  have h1 : ((2 ^ 23 : ℤ) : ℚ) ≤ x / pow2 (float_exponent x - 23) := by
    rw [le_div_iff₀ hu, ← pow2_natCast 23, ← pow2_add]
    have e : ((23 : ℕ) : ℤ) + (float_exponent x - 23) = float_exponent x := by push_cast; ring
    rw [e]; exact hle
  have h2 := round_half_even_mono h1
  rw [round_half_even_intCast] at h2
  have h3 : ((2 ^ 23 : ℤ) : ℚ) ≤ (round_half_even (x / pow2 (float_exponent x - 23)) : ℚ) := by
    exact_mod_cast h2
  calc pow2 (float_exponent x) = ((2 ^ 23 : ℤ) : ℚ) * pow2 (float_exponent x - 23) := by
        rw [← pow2_natCast 23, ← pow2_add]; congr 1; push_cast; ring
    _ ≤ _ := mul_le_mul_of_nonneg_right h3 hu.le

theorem binary32_magnitude_nonneg {x : ℚ} (hx : 0 ≤ x) : 0 ≤ binary32_magnitude x := by
  unfold binary32_magnitude
  split_ifs with h
  · exact hx
  · have hu := pow2_pos (float_exponent x - 23)
    have h1 : (0 : ℚ) ≤ x / pow2 (float_exponent x - 23) := div_nonneg hx hu.le
    have h2 := round_half_even_mono h1
    have h0 : round_half_even 0 = 0 := by simpa using round_half_even_intCast 0
    rw [h0] at h2
    have h3 : (0 : ℚ) ≤ (round_half_even (x / pow2 (float_exponent x - 23)) : ℚ) := by
      exact_mod_cast h2
    exact mul_nonneg h3 hu.le

theorem binary32_magnitude_mono {x y : ℚ} (h : x ≤ y) :
    binary32_magnitude x ≤ binary32_magnitude y := by
  by_cases hy : pow2 128 ≤ y
  · by_cases hx : pow2 128 ≤ x
    · simp only [binary32_magnitude, if_pos hx, if_pos hy]; exact h
    · push_neg at hx
      have h1 := binary32_magnitude_le_pow2 hx
      have h2 : pow2 (float_exponent x + 1) ≤ pow2 128 := by
        apply pow2_le_pow2
        by_contra hc
        push_neg at hc
        rcases float_exponent_le x with h3 | h3
        · omega
        · have : pow2 128 ≤ pow2 (float_exponent x) := pow2_le_pow2 (by omega)
          linarith
      simp only [binary32_magnitude, if_pos hy] at h1 ⊢
      linarith
  · push_neg at hy
    have hx : x < pow2 128 := lt_of_le_of_lt h hy
    have he := float_exponent_mono h hy
    rcases he.lt_or_eq with he | he
    · have h1 := binary32_magnitude_le_pow2 hx
      have h2 : pow2 (float_exponent x + 1) ≤ pow2 (float_exponent y) := pow2_le_pow2 (by omega)
      have h3 : pow2 (float_exponent y) ≤ binary32_magnitude y := by
        apply binary32_magnitude_ge_pow2 hy
        rcases float_exponent_le y with h4 | h4
        · have := float_exponent_ge x; omega
        · exact h4
      linarith
    · unfold binary32_magnitude
      rw [if_neg (not_le.mpr hx), if_neg (not_le.mpr hy), he]
      have hu := pow2_pos (float_exponent y - 23)
      apply mul_le_mul_of_nonneg_right _ hu.le
      exact_mod_cast round_half_even_mono (div_le_div_of_nonneg_right h hu.le)

theorem binary32_zero : binary32 0 = 0 := by
  simp [binary32, binary32_magnitude_zero]

theorem binary32_neg (x : ℚ) : binary32 (-x) = -binary32 x := by
  unfold binary32
  rcases lt_trichotomy x 0 with h | h | h
  · rw [if_pos (by linarith), if_neg (by linarith)]; simp
  · subst h; simp [binary32_magnitude_zero]
  · rw [if_neg (by linarith), if_pos h.le, neg_neg]

theorem binary32_nonneg {x : ℚ} (hx : 0 ≤ x) : 0 ≤ binary32 x := by
  unfold binary32; rw [if_pos hx]; exact binary32_magnitude_nonneg hx

theorem binary32_mono {x y : ℚ} (h : x ≤ y) : binary32 x ≤ binary32 y := by
  unfold binary32
  split_ifs with hx hy hy
  · exact binary32_magnitude_mono h
  · linarith
  · have := binary32_magnitude_nonneg (x := -x) (by linarith)
    have := binary32_magnitude_nonneg hy
    linarith
  · have := binary32_magnitude_mono (x := -y) (y := -x) (by linarith)
    linarith

theorem binary32_abs (x : ℚ) : |binary32 x| = binary32 |x| := by
  rcases le_total 0 x with h | h
  · rw [abs_of_nonneg h, abs_of_nonneg (binary32_nonneg h)]
  · rw [abs_of_nonpos h, binary32_neg, abs_of_nonpos]
    have := binary32_nonneg (x := -x) (by linarith)
    rw [binary32_neg] at this
    linarith

theorem binary32_magnitude_of_multiple (n : ℤ) (k : ℤ) (hk : -149 ≤ k)
    (hn : n < 2 ^ 24) : binary32_magnitude (n * pow2 k) = n * pow2 k := by
  unfold binary32_magnitude
  split_ifs with hbig
  · rfl
  · push_neg at hbig
    have hj : 0 ≤ k - (float_exponent ((n : ℚ) * pow2 k) - 23) := by
      rcases float_exponent_le ((n : ℚ) * pow2 k) with h | h
      · rw [h]; omega
      · have h1 : (n : ℚ) * pow2 k < pow2 (k + 24) := by
          rw [add_comm, pow2_add]
          apply mul_lt_mul_of_pos_right _ (pow2_pos k)
          have h24 : pow2 24 = ((2 ^ 24 : ℤ) : ℚ) := pow2_natCast 24
          rw [h24]
          exact_mod_cast hn
        have h2 : pow2 (float_exponent ((n : ℚ) * pow2 k)) < pow2 (k + 24) := lt_of_le_of_lt h h1
        have h3 : float_exponent ((n : ℚ) * pow2 k) < k + 24 := by
          by_contra hc
          push_neg at hc
          have := pow2_le_pow2 hc
          linarith
        omega
    obtain ⟨j, hj'⟩ := Int.eq_ofNat_of_zero_le hj
    have hk' : k = (j : ℤ) + (float_exponent ((n : ℚ) * pow2 k) - 23) := by omega
    have hdiv : (n : ℚ) * pow2 k / pow2 (float_exponent ((n : ℚ) * pow2 k) - 23) =
        ((n * 2 ^ j : ℤ) : ℚ) := by
      rw [div_eq_iff (pow2_pos _).ne']
      nth_rewrite 1 [hk']
      rw [pow2_add, pow2_natCast]
      push_cast
      ring
    rw [hdiv, round_half_even_intCast]
    nth_rewrite 2 [hk']
    rw [pow2_add, pow2_natCast]
    push_cast
    ring

theorem binary32_of_multiple (n : ℤ) (k : ℤ) (hk : -149 ≤ k) (hn : |n| < 2 ^ 24) :
    binary32 (n * pow2 k) = n * pow2 k := by
  rcases le_total 0 n with h | h
  · have hx : (0 : ℚ) ≤ n * pow2 k := mul_nonneg (by exact_mod_cast h) (pow2_pos k).le
    unfold binary32
    rw [if_pos hx]
    exact binary32_magnitude_of_multiple n k hk (by rwa [abs_of_nonneg h] at hn)
  · have h1 := binary32_magnitude_of_multiple (-n) k hk (by rwa [abs_of_nonpos h] at hn)
    have hx : (0 : ℚ) ≤ ((-n : ℤ) : ℚ) * pow2 k :=
      mul_nonneg (by exact_mod_cast (by omega : 0 ≤ -n)) (pow2_pos k).le
    have h2 : binary32 (((-n : ℤ) : ℚ) * pow2 k) = ((-n : ℤ) : ℚ) * pow2 k := by
      unfold binary32; rw [if_pos hx]; exact h1
    have h3 : ((-n : ℤ) : ℚ) * pow2 k = -((n : ℚ) * pow2 k) := by push_cast; ring
    rw [h3, binary32_neg] at h2
    linarith

theorem fadd_binary32 (a b : ℚ) : fadd a b = binary32 (a + b) := rfl

theorem fsub_binary32 (a b : ℚ) : fsub a b = binary32 (a - b) := rfl

theorem fmul_binary32 (a b : ℚ) : fmul a b = binary32 (a * b) := rfl

theorem fdiv_binary32 (a b : ℚ) : fdiv a b = binary32 (a / b) := rfl

theorem abs_fsub_comm (a b : ℚ) : |fsub a b| = |fsub b a| := by
  rw [fsub_binary32, fsub_binary32, ← neg_sub b a, binary32_neg, abs_neg]

theorem fadd_comm (a b : ℚ) : fadd a b = fadd b a := by
  rw [fadd_binary32, fadd_binary32, add_comm]

theorem exact_arithmetic_exact : @FloatArithmetic.Exact ℚ exact_arithmetic :=
  @FloatArithmetic.Exact.mk ℚ exact_arithmetic (fun _ => rfl)

/-! ## Lemmas: vectors -/

theorem push_back_matches_eq (hit : Nat → Bool) (primitives output : List Nat) :
    push_back_matches hit primitives output = output ++ primitives.filter hit := by
  unfold push_back_matches
  induction primitives generalizing output with
  | nil => simp
  | cons p ps ih =>
    simp only [List.foldl_cons, List.filter_cons]
    rw [ih]
    by_cases h : hit p = true <;> simp [h]

theorem vector_erase_swap_of_not_mem (v : List Nat) (p : Nat) (h : p ∉ v) :
    vector_erase_swap v p = none := by
  simp [vector_erase_swap, h]

theorem vector_erase_swap_concat (v : List Nat) (p : Nat) (h : p ∉ v) :
    vector_erase_swap (v ++ [p]) p = some v := by
  have hi : List.indexOf p (v ++ [p]) = v.length := by
    rw [List.indexOf_append_of_not_mem h]; simp
  simp [vector_erase_swap, hi]

theorem vector_erase_swap_perm (v : List Nat) (p : Nat) (h : p ∈ v) :
    ∃ w, vector_erase_swap v p = some w ∧ w.Perm (v.erase p) := by
  obtain ⟨a, b, rfl, ha⟩ : ∃ a b, v = a ++ p :: b ∧ p ∉ a := by
    obtain ⟨a, b, hv, ha⟩ := List.eq_append_cons_of_mem h
    exact ⟨a, b, hv, ha⟩
  have hi : List.indexOf p (a ++ p :: b) = a.length := by
    rw [List.indexOf_append_of_not_mem ha]; simp
  have he : (a ++ p :: b).erase p = a ++ b := by
    rw [List.erase_append_right _ ha]; simp
  have hv : vector_erase_swap (a ++ p :: b) p =
      some (((a ++ p :: b).set a.length ((a ++ p :: b).getLast?.getD p)).dropLast) := by
    simp only [vector_erase_swap, h, if_true, hi]
  refine ⟨_, hv, ?_⟩
  rw [he]
  have hb : b = [] ∨ ∃ b' l, b = b' ++ [l] := by
    rcases List.eq_nil_or_concat b with hb | ⟨b', l, hb⟩
    · exact Or.inl hb
    · exact Or.inr ⟨b', l, by simpa using hb⟩
  rcases hb with rfl | ⟨b', l, rfl⟩
  · simp
  · have hl : (a ++ p :: (b' ++ [l])).getLast? = some l := by
      rw [show a ++ p :: (b' ++ [l]) = (a ++ p :: b') ++ [l] by simp, List.getLast?_concat]
    rw [hl]
    have hs : (a ++ p :: (b' ++ [l])).set a.length l = a ++ l :: (b' ++ [l]) := by
      rw [List.set_append_right _ _ (le_refl _)]; simp
    simp only [Option.getD_some, hs]
    rw [show a ++ l :: (b' ++ [l]) = (a ++ l :: b') ++ [l] by simp, List.dropLast_concat]
    refine List.Perm.append_left a ?_
    simpa using (List.perm_append_singleton l b').symm

/-! ## Lemmas: node references -/

namespace TreeNode

variable {n : Nat} {B : Type}

@[simp] theorem primitives_at_null (r : List (Fin n)) :
    (null : TreeNode n B).primitives_at r = none := by
  cases r <;> rfl

@[simp] theorem primitives_at_nil (ch : Fin n → TreeNode n B) (ps : List Nat) (b : B) :
    (node ch ps b).primitives_at [] = some ps := rfl

@[simp] theorem primitives_at_cons (ch : Fin n → TreeNode n B) (ps : List Nat) (b : B)
    (i : Fin n) (r : List (Fin n)) :
    (node ch ps b).primitives_at (i :: r) = (ch i).primitives_at r := rfl

@[simp] theorem bounds_at_null (r : List (Fin n)) :
    (null : TreeNode n B).bounds_at r = none := by
  cases r <;> rfl

@[simp] theorem bounds_at_nil (ch : Fin n → TreeNode n B) (ps : List Nat) (b : B) :
    (node ch ps b).bounds_at [] = some b := rfl

@[simp] theorem bounds_at_cons (ch : Fin n → TreeNode n B) (ps : List Nat) (b : B)
    (i : Fin n) (r : List (Fin n)) :
    (node ch ps b).bounds_at (i :: r) = (ch i).bounds_at r := rfl

@[simp] theorem set_primitives_at_null (r : List (Fin n)) (new : List Nat) :
    (null : TreeNode n B).set_primitives_at r new = null := by
  cases r <;> rfl

@[simp] theorem set_primitives_at_nil (ch : Fin n → TreeNode n B) (ps : List Nat) (b : B)
    (new : List Nat) :
    (node ch ps b).set_primitives_at [] new = node ch new b := rfl

@[simp] theorem set_primitives_at_cons (ch : Fin n → TreeNode n B) (ps : List Nat) (b : B)
    (i : Fin n) (r : List (Fin n)) (new : List Nat) :
    (node ch ps b).set_primitives_at (i :: r) new =
      node (Function.update ch i ((ch i).set_primitives_at r new)) ps b := rfl

theorem bounds_at_isSome (t : TreeNode n B) (r : List (Fin n)) :
    (t.bounds_at r).isSome = (t.primitives_at r).isSome := by
  induction r generalizing t with
  | nil => cases t <;> simp
  | cons i r ih => cases t <;> simp [ih]

theorem primitives_at_set_same (t : TreeNode n B) (r : List (Fin n)) (new : List Nat)
    (h : (t.primitives_at r).isSome) :
    (t.set_primitives_at r new).primitives_at r = some new := by
  induction r generalizing t with
  | nil => cases t <;> simp at h ⊢
  | cons i r ih =>
    cases t with
    | null => simp at h
    | node ch ps b => simpa using ih (ch i) (by simpa using h)

theorem primitives_at_set_ne (t : TreeNode n B) (r r' : List (Fin n)) (new : List Nat)
    (h : r' ≠ r) :
    (t.set_primitives_at r new).primitives_at r' = t.primitives_at r' := by
  induction r generalizing t r' with
  | nil =>
    cases t with
    | null => simp
    | node ch ps b =>
      cases r' with
      | nil => exact absurd rfl h
      | cons j r' => simp
  | cons i r ih =>
    cases t with
    | null => simp
    | node ch ps b =>
      cases r' with
      | nil => simp
      | cons j r' =>
        simp only [set_primitives_at_cons, primitives_at_cons]
        by_cases hj : j = i
        · subst hj
          rw [Function.update_same]
          exact ih (ch j) r' (fun e => h (by rw [e]))
        · rw [Function.update_noteq hj]

theorem bounds_at_set (t : TreeNode n B) (r r' : List (Fin n)) (new : List Nat) :
    (t.set_primitives_at r new).bounds_at r' = t.bounds_at r' := by
  induction r generalizing t r' with
  | nil =>
    cases t with
    | null => simp
    | node ch ps b => cases r' <;> simp
  | cons i r ih =>
    cases t with
    | null => simp
    | node ch ps b =>
      cases r' with
      | nil => simp
      | cons j r' =>
        simp only [set_primitives_at_cons, bounds_at_cons]
        by_cases hj : j = i
        · subst hj
          rw [Function.update_same]
          exact ih (ch j) r'
        · rw [Function.update_noteq hj]

theorem set_primitives_at_set (t : TreeNode n B) (r : List (Fin n)) (a b : List Nat) :
    (t.set_primitives_at r a).set_primitives_at r b = t.set_primitives_at r b := by
  induction r generalizing t with
  | nil => cases t <;> simp
  | cons i r ih =>
    cases t with
    | null => simp
    | node ch ps bd => simp [ih]

theorem set_primitives_at_self (t : TreeNode n B) (r : List (Fin n)) (ps : List Nat)
    (h : t.primitives_at r = some ps) : t.set_primitives_at r ps = t := by
  induction r generalizing t with
  | nil =>
    cases t with
    | null => simp
    | node ch ps' b => simp at h; simp [h]
  | cons i r ih =>
    cases t with
    | null => simp
    | node ch ps' b =>
      simp only [primitives_at_cons] at h
      simp [ih (ch i) h]

theorem set_primitives_at_ne_null (t : TreeNode n B) (r : List (Fin n)) (new : List Nat)
    (h : t ≠ null) : t.set_primitives_at r new ≠ null := by
  cases t with
  | null => exact absurd rfl h
  | node ch ps b => cases r <;> simp

end TreeNode

/-! ## Lemmas: `find_node` -/

namespace TreeNode

variable {n : Nat} {B : Type}

@[simp] theorem create_if_null_null (b : B) :
    (null : TreeNode n B).create_if_null b = fresh b := rfl

@[simp] theorem create_if_null_node (ch : Fin n → TreeNode n B) (ps : List Nat) (b b' : B) :
    (node ch ps b).create_if_null b' = node ch ps b := rfl

theorem create_if_null_ne_null (c : TreeNode n B) (b : B) : c.create_if_null b ≠ null := by
  cases c <;> simp [fresh]

theorem create_if_null_of_ne_null (c : TreeNode n B) (b : B) (h : c ≠ null) :
    c.create_if_null b = c := by
  cases c with
  | null => exact absurd rfl h
  | node ch ps b' => rfl

@[simp] theorem find_node_null (shape : TreeShape n B) (D : Nat) (x : aabbox3) (d : Nat) :
    find_node shape D x (null : TreeNode n B) d = (null, []) := by
  rw [find_node]

theorem find_node_depth (shape : TreeShape n B) (D : Nat) (x : aabbox3)
    (ch : Fin n → TreeNode n B) (ps : List Nat) (b : B) (d : Nat) (h : d ≥ D) :
    find_node shape D x (node ch ps b) d = (node ch ps b, []) := by
  rw [find_node, if_pos h]

theorem find_node_straddle (shape : TreeShape n B) (D : Nat) (x : aabbox3)
    (ch : Fin n → TreeNode n B) (ps : List Nat) (b : B) (d : Nat) (h : ¬ d ≥ D)
    (hi : shape.child_index x b = none) :
    find_node shape D x (node ch ps b) d = (node ch ps b, []) := by
  rw [find_node, if_neg h, hi]

theorem find_node_descend (shape : TreeShape n B) (D : Nat) (x : aabbox3)
    (ch : Fin n → TreeNode n B) (ps : List Nat) (b : B) (d : Nat) (h : ¬ d ≥ D)
    (i : Fin n) (hi : shape.child_index x b = some i) :
    find_node shape D x (node ch ps b) d =
      (node (Function.update ch i
          (find_node shape D x ((ch i).create_if_null (shape.child_bounds b i)) (d + 1)).1) ps b,
        i :: (find_node shape D x ((ch i).create_if_null (shape.child_bounds b i)) (d + 1)).2) := by
  rw [find_node, if_neg h, hi]

theorem find_node_ne_null (shape : TreeShape n B) (D : Nat) (x : aabbox3) (t : TreeNode n B)
    (d : Nat) (h : t ≠ null) : (find_node shape D x t d).1 ≠ null := by
  cases t with
  | null => exact absurd rfl h
  | node ch ps b =>
    by_cases hd : d ≥ D
    · rw [find_node_depth _ _ _ _ _ _ _ hd]; simp
    · cases hi : shape.child_index x b with
      | none => rw [find_node_straddle _ _ _ _ _ _ _ hd hi]; simp
      | some i => rw [find_node_descend _ _ _ _ _ _ _ hd i hi]; simp

/-- A node that exists before `find_node` exists after it with the same primitives;
a node that exists only after it has no primitives. -/
theorem primitives_at_find_node (shape : TreeShape n B) (D : Nat) (x : aabbox3)
    (t : TreeNode n B) (d : Nat) (r : List (Fin n)) :
    (find_node shape D x t d).1.primitives_at r = t.primitives_at r ∨
      (t.primitives_at r = none ∧ (find_node shape D x t d).1.primitives_at r = some []) := by
  induction t, d using find_node.induct shape D x generalizing r with
  | case1 d => simp
  | case2 ch ps b d hd => rw [find_node_depth _ _ _ _ _ _ _ hd]; simp
  | case3 ch ps b d hd hi => rw [find_node_straddle _ _ _ _ _ _ _ hd hi]; simp
  | case4 ch ps b d hd i hi child ih =>
    rw [find_node_descend _ _ _ _ _ _ _ hd i hi]
    cases r with
    | nil => simp
    | cons j r =>
      simp only [primitives_at_cons]
      by_cases hj : j = i
      · subst hj
        rw [Function.update_same]
        have ih' := ih r
        simp only [child] at ih'
        cases hc : ch j with
        | null =>
          rw [hc] at ih'
          simp only [create_if_null_null, primitives_at_null] at ih' ⊢
          rcases ih' with h | ⟨_, h2⟩
          · rw [h]
            cases r with
            | nil => right; simp [fresh]
            | cons k r => left; simp [fresh]
          · right; exact ⟨trivial, h2⟩
        | node ch' ps' b' =>
          rw [hc] at ih'
          simpa using ih'
      · rw [Function.update_noteq hj]; simp

/-- The reference returned by `find_node` names a node of the tree it returns. -/
theorem find_node_valid (shape : TreeShape n B) (D : Nat) (x : aabbox3)
    (t : TreeNode n B) (d : Nat) (h : t ≠ null) :
    ((find_node shape D x t d).1.primitives_at (find_node shape D x t d).2).isSome := by
  induction t, d using find_node.induct shape D x with
  | case1 d => exact absurd rfl h
  | case2 ch ps b d hd => rw [find_node_depth _ _ _ _ _ _ _ hd]; simp
  | case3 ch ps b d hd hi => rw [find_node_straddle _ _ _ _ _ _ _ hd hi]; simp
  | case4 ch ps b d hd i hi child ih =>
    rw [find_node_descend _ _ _ _ _ _ _ hd i hi]
    simp only [primitives_at_cons, Function.update_same]
    exact ih (create_if_null_ne_null _ _)

theorem bounds_at_find_node_of_some (shape : TreeShape n B) (D : Nat) (x : aabbox3)
    (t : TreeNode n B) (d : Nat) (r : List (Fin n)) (b : B) (h : t.bounds_at r = some b) :
    (find_node shape D x t d).1.bounds_at r = some b := by
  induction t, d using find_node.induct shape D x generalizing r with
  | case1 d => simp at h
  | case2 ch ps nb d hd => rw [find_node_depth _ _ _ _ _ _ _ hd]; exact h
  | case3 ch ps nb d hd hi => rw [find_node_straddle _ _ _ _ _ _ _ hd hi]; exact h
  | case4 ch ps nb d hd i hi child ih =>
    rw [find_node_descend _ _ _ _ _ _ _ hd i hi]
    cases r with
    | nil => simpa using h
    | cons j r =>
      simp only [bounds_at_cons] at h ⊢
      by_cases hj : j = i
      · subst hj
        rw [Function.update_same]
        apply ih
        cases hc : ch j with
        | null => rw [hc] at h; simp at h
        | node ch' ps' b' => rw [hc] at h; simpa [child, hc] using h
      · rw [Function.update_noteq hj]; exact h

end TreeNode

/-! ## Lemmas: the primitives of a tree and the matches of a query -/

namespace TreeNode

variable {n : Nat} {B : Type}

@[simp] theorem all_primitives_null : (null : TreeNode n B).all_primitives = [] := rfl

theorem all_primitives_node (ch : Fin n → TreeNode n B) (ps : List Nat) (b : B) :
    (node ch ps b).all_primitives =
      ps ++ (List.finRange n).flatMap (fun i => (ch i).all_primitives) := rfl

@[simp] theorem all_primitives_fresh (b : B) : (fresh b : TreeNode n B).all_primitives = [] := by
  simp [fresh, all_primitives_node]

@[simp] theorem all_primitives_create_if_null (c : TreeNode n B) (b : B) :
    (c.create_if_null b).all_primitives = c.all_primitives := by
  cases c <;> simp

@[simp] theorem query_matches_null (hp : Nat → Bool) (hn : B → Bool) :
    (null : TreeNode n B).query_matches hp hn = [] := rfl

theorem query_matches_node (hp : Nat → Bool) (hn : B → Bool) (ch : Fin n → TreeNode n B)
    (ps : List Nat) (b : B) :
    (node ch ps b).query_matches hp hn =
      ps.filter hp ++ (List.finRange n).flatMap (fun i => slot_matches hp hn (ch i)) := rfl

@[simp] theorem query_matches_fresh (hp : Nat → Bool) (hn : B → Bool) (b : B) :
    (fresh b : TreeNode n B).query_matches hp hn = [] := by
  simp [fresh, query_matches_node, slot_matches]

@[simp] theorem slot_matches_null (hp : Nat → Bool) (hn : B → Bool) :
    slot_matches hp hn (null : TreeNode n B) = [] := rfl

theorem find_node_root (shape : TreeShape n B) (D : Nat) (x : aabbox3)
    (ch : Fin n → TreeNode n B) (ps : List Nat) (b : B) (d : Nat) :
    ∃ ch', (find_node shape D x (node ch ps b) d).1 = node ch' ps b := by
  by_cases hd : d ≥ D
  · rw [find_node_depth _ _ _ _ _ _ _ hd]; exact ⟨ch, rfl⟩
  · cases hi : shape.child_index x b with
    | none => rw [find_node_straddle _ _ _ _ _ _ _ hd hi]; exact ⟨ch, rfl⟩
    | some i => rw [find_node_descend _ _ _ _ _ _ _ hd i hi]; exact ⟨_, rfl⟩

theorem all_primitives_find_node (shape : TreeShape n B) (D : Nat) (x : aabbox3)
    (t : TreeNode n B) (d : Nat) :
    (find_node shape D x t d).1.all_primitives = t.all_primitives := by
  induction t, d using find_node.induct shape D x with
  | case1 d => simp
  | case2 ch ps b d hd => rw [find_node_depth _ _ _ _ _ _ _ hd]
  | case3 ch ps b d hd hi => rw [find_node_straddle _ _ _ _ _ _ _ hd hi]
  | case4 ch ps b d hd i hi child ih =>
    rw [find_node_descend _ _ _ _ _ _ _ hd i hi]
    simp only [all_primitives_node]
    congr 2
    funext j
    by_cases hj : j = i
    · subst hj
      rw [Function.update_same, ih]
      simp [child]
    · rw [Function.update_noteq hj]

theorem query_matches_find_node (hp : Nat → Bool) (hn : B → Bool) (shape : TreeShape n B)
    (D : Nat) (x : aabbox3) (t : TreeNode n B) (d : Nat) :
    (find_node shape D x t d).1.query_matches hp hn = t.query_matches hp hn := by
  induction t, d using find_node.induct shape D x with
  | case1 d => simp
  | case2 ch ps b d hd => rw [find_node_depth _ _ _ _ _ _ _ hd]
  | case3 ch ps b d hd hi => rw [find_node_straddle _ _ _ _ _ _ _ hd hi]
  | case4 ch ps b d hd i hi child ih =>
    rw [find_node_descend _ _ _ _ _ _ _ hd i hi]
    simp only [query_matches_node]
    congr 2
    funext j
    by_cases hj : j = i
    · subst hj
      rw [Function.update_same]
      simp only [child] at ih
      cases hc : ch j with
      | null =>
        rw [hc] at ih
        simp only [create_if_null_null] at ih ⊢
        obtain ⟨ch', hr⟩ := find_node_root shape D x (fun _ => null) [] (shape.child_bounds b j)
          (d + 1)
        simp only [fresh] at ih hr ⊢
        rw [hr] at ih ⊢
        simp only [slot_matches, ih]
        simp [query_matches_node, slot_matches]
      | node ch' ps' b' =>
        rw [hc] at ih
        simp only [create_if_null_node] at ih ⊢
        obtain ⟨ch'', hr⟩ := find_node_root shape D x ch' ps' b' (d + 1)
        rw [hr] at ih ⊢
        simp only [slot_matches, ih]
    · rw [Function.update_noteq hj]

theorem foldl_append_flatMap {α : Type} (g : List Nat → α → List Nat) (g' : α → List Nat)
    (hg : ∀ out a, g out a = out ++ g' a) (l : List α) (out : List Nat) :
    l.foldl g out = out ++ l.flatMap g' := by
  induction l generalizing out with
  | nil => simp
  | cons a l ih => simp [List.foldl_cons, ih, hg, List.flatMap_cons]

/-- The method `collect_primitives` appends the matches of the query to `output`. -/
theorem collect_primitives_eq (hp : Nat → Bool) (hn : B → Bool) (t : TreeNode n B)
    (out : List Nat) :
    t.collect_primitives hp hn out = out ++ t.query_matches hp hn := by
  induction t generalizing out with
  | null => simp [collect_primitives]
  | node ch ps b ih =>
    rw [collect_primitives, query_matches_node, push_back_matches_eq]
    rw [foldl_append_flatMap _ (fun i => slot_matches hp hn (ch i))]
    · simp
    · intro out i
      cases hc : ch i with
      | null => simp
      | node ch' ps' b' =>
        simp only [slot_matches]
        by_cases hh : hn b' = true
        · simp only [hh, if_true]
          rw [← hc]; exact ih i out
        · simp [hh]

end TreeNode

namespace TreeNode

variable {n : Nat} {B : Type}

theorem set_primitives_at_root (ch : Fin n → TreeNode n B) (ps : List Nat) (b : B)
    (r : List (Fin n)) (new : List Nat) :
    ∃ ch' ps', (node ch ps b).set_primitives_at r new = node ch' ps' b := by
  cases r with
  | nil => exact ⟨ch, new, rfl⟩
  | cons i r => exact ⟨_, ps, rfl⟩

/-- The descent of `find_node` does not look at the primitives: it commutes with
an assignment to the primitives of an existing node. -/
theorem find_node_set (shape : TreeShape n B) (D : Nat) (x : aabbox3) (t : TreeNode n B)
    (d : Nat) (r : List (Fin n)) (new : List Nat) (h : (t.primitives_at r).isSome) :
    find_node shape D x (t.set_primitives_at r new) d =
      ((find_node shape D x t d).1.set_primitives_at r new, (find_node shape D x t d).2) := by
  induction t, d using find_node.induct shape D x generalizing r with
  | case1 d => simp
  | case2 ch ps b d hd =>
    obtain ⟨ch', ps', hs⟩ := set_primitives_at_root ch ps b r new
    rw [find_node_depth _ _ _ _ _ _ _ hd, hs, find_node_depth _ _ _ _ _ _ _ hd]
  | case3 ch ps b d hd hi =>
    obtain ⟨ch', ps', hs⟩ := set_primitives_at_root ch ps b r new
    rw [find_node_straddle _ _ _ _ _ _ _ hd hi, hs, find_node_straddle _ _ _ _ _ _ _ hd hi]
  | case4 ch ps b d hd i hi child ih =>
    cases r with
    | nil =>
      rw [set_primitives_at_nil, find_node_descend _ _ _ _ _ _ _ hd i hi,
        find_node_descend _ _ _ _ _ _ _ hd i hi, set_primitives_at_nil]
    | cons j r =>
      rw [set_primitives_at_cons, find_node_descend _ _ _ _ _ _ _ hd i hi,
        find_node_descend _ _ _ _ _ _ _ hd i hi, set_primitives_at_cons]
      simp only [primitives_at_cons] at h
      by_cases hj : j = i
      · subst hj
        have hne : ch j ≠ null := by
          intro hc; rw [hc] at h; simp at h
        have hne' : (ch j).set_primitives_at r new ≠ null :=
          set_primitives_at_ne_null _ _ _ hne
        have hchild : child = ch j := create_if_null_of_ne_null _ _ hne
        rw [Function.update_same, create_if_null_of_ne_null _ _ hne',
          create_if_null_of_ne_null _ _ hne]
        have ih' := ih r (by rw [hchild]; exact h)
        rw [hchild] at ih'
        rw [ih']
        simp [Function.update_idem]
      · have hij : i ≠ j := fun e => hj e.symm
        rw [Function.update_noteq hij, Function.update_noteq hj]
        rw [Function.update_comm hij]

/-- A second `find_node` for the same box creates nothing and returns the same node. -/
theorem find_node_idem (shape : TreeShape n B) (D : Nat) (x : aabbox3) (t : TreeNode n B)
    (d : Nat) :
    find_node shape D x (find_node shape D x t d).1 d = find_node shape D x t d := by
  induction t, d using find_node.induct shape D x with
  | case1 d => simp
  | case2 ch ps b d hd => simp [find_node_depth _ _ _ _ _ _ _ hd]
  | case3 ch ps b d hd hi => simp [find_node_straddle _ _ _ _ _ _ _ hd hi]
  | case4 ch ps b d hd i hi child ih =>
    rw [find_node_descend _ _ _ _ _ _ _ hd i hi]
    simp only
    rw [find_node_descend _ _ _ _ _ _ _ hd i hi, Function.update_same]
    have hne : (find_node shape D x child (d + 1)).1 ≠ null :=
      find_node_ne_null _ _ _ _ _ (create_if_null_ne_null _ _)
    rw [create_if_null_of_ne_null _ _ hne]
    simp only [child] at ih hne ⊢
    rw [ih, Function.update_idem]

theorem flatMap_perm_erase {α : Type} [DecidableEq α] (l : List α) (hl : l.Nodup) (i : α)
    (hi : i ∈ l) (f : α → List Nat) :
    (l.flatMap f).Perm (f i ++ (l.erase i).flatMap f) := by
  induction l with
  | nil => simp at hi
  | cons a l ih =>
    rw [List.nodup_cons] at hl
    by_cases ha : a = i
    · subst ha; simp [List.flatMap_cons]
    · have hi' : i ∈ l := by
        rcases List.mem_cons.1 hi with h | h
        · exact absurd h.symm ha
        · exact h
      rw [List.erase_cons_tail (by simpa using ha)]
      simp only [List.flatMap_cons]
      refine ((ih hl.2 hi').append_left (f a)).trans ?_
      rw [← List.append_assoc, ← List.append_assoc]
      exact List.Perm.append_right _ List.perm_append_comm

theorem flatMap_erase_update {α : Type} [DecidableEq α] (l : List α) (hl : l.Nodup) (i : α)
    (f g : α → List Nat) (hfg : ∀ j, j ≠ i → f j = g j) :
    (l.erase i).flatMap f = (l.erase i).flatMap g := by
  have : ∀ j ∈ l.erase i, f j = g j := by
    intro j hj
    exact hfg j (fun e => by subst e; exact (List.Nodup.not_mem_erase hl) hj)
  simp only [List.flatMap_def]
  congr 1
  exact List.map_congr_left this

/-- The primitives of a tree are those of any one of its nodes and a rest that
does not depend on them. -/
theorem all_primitives_split (t : TreeNode n B) (r : List (Fin n)) (old : List Nat)
    (h : t.primitives_at r = some old) :
    ∃ rest, t.all_primitives.Perm (old ++ rest) ∧
      ∀ new, (t.set_primitives_at r new).all_primitives.Perm (new ++ rest) := by
  induction r generalizing t with
  | nil =>
    cases t with
    | null => simp at h
    | node ch ps b =>
      simp only [primitives_at_nil, Option.some.injEq] at h
      subst h
      exact ⟨_, List.Perm.refl _, fun new => List.Perm.refl _⟩
  | cons i r ih =>
    cases t with
    | null => simp at h
    | node ch ps b =>
      simp only [primitives_at_cons] at h
      obtain ⟨rest, h1, h2⟩ := ih (ch i) h
      refine ⟨ps ++ (rest ++ ((List.finRange n).erase i).flatMap
        (fun j => (ch j).all_primitives)), ?_, ?_⟩
      · rw [all_primitives_node]
        have hp := flatMap_perm_erase (List.finRange n) (List.nodup_finRange n) i
          (List.mem_finRange i) (fun j => (ch j).all_primitives)
        refine (hp.append_left ps).trans ?_
        refine ((h1.append_right _).append_left ps).trans ?_
        simp only [List.append_assoc]
        exact List.perm_append_comm_assoc _ _ _
      · intro new
        rw [set_primitives_at_cons, all_primitives_node]
        have hp := flatMap_perm_erase (List.finRange n) (List.nodup_finRange n) i
          (List.mem_finRange i)
          (fun j => (Function.update ch i ((ch i).set_primitives_at r new) j).all_primitives)
        refine (hp.append_left ps).trans ?_
        simp only [Function.update_same]
        rw [flatMap_erase_update (List.finRange n) (List.nodup_finRange n) i _
          (fun j => (ch j).all_primitives)
          (fun j hj => by simp only [Function.update_noteq hj])]
        refine (((h2 new).append_right _).append_left ps).trans ?_
        simp only [List.append_assoc]
        exact List.perm_append_comm_assoc _ _ _

theorem mem_all_primitives_of_primitives_at (t : TreeNode n B) (r : List (Fin n))
    (ps : List Nat) (h : t.primitives_at r = some ps) (p : Nat) (hp : p ∈ ps) :
    p ∈ t.all_primitives := by
  obtain ⟨rest, h1, _⟩ := all_primitives_split t r ps h
  exact h1.mem_iff.2 (List.mem_append_left _ hp)

theorem exists_primitives_at_of_mem (t : TreeNode n B) (p : Nat) (hp : p ∈ t.all_primitives) :
    ∃ r ps, t.primitives_at r = some ps ∧ p ∈ ps := by
  induction t with
  | null => simp at hp
  | node ch ps b ih =>
    rw [all_primitives_node, List.mem_append] at hp
    rcases hp with hp | hp
    · exact ⟨[], ps, rfl, hp⟩
    · rw [List.mem_flatMap] at hp
      obtain ⟨i, _, hi⟩ := hp
      obtain ⟨r, ps', h1, h2⟩ := ih i hi
      exact ⟨i :: r, ps', by simpa using h1, h2⟩

end TreeNode

/-! ## Lemmas: the methods of a tree index -/

namespace TreeAccelerationStructure

variable {n : Nat} {B : Type}

open TreeNode

theorem add_eq (shape : TreeShape n B) (s : TreeAccelerationStructure n B) (p : Nat)
    (hroot : s.root ≠ null) (hp : p ∉ s.root.all_primitives) :
    ∃ ps, (s.root.find_node shape s.m_max_depth (s.m_bounds p) 0).1.primitives_at
        (s.root.find_node shape s.m_max_depth (s.m_bounds p) 0).2 = some ps ∧ p ∉ ps ∧
      s.add shape p = some { s with
        root := (s.root.find_node shape s.m_max_depth (s.m_bounds p) 0).1.set_primitives_at
          (s.root.find_node shape s.m_max_depth (s.m_bounds p) 0).2 (ps ++ [p])
        m_node := Function.update s.m_node p
          (some (s.root.find_node shape s.m_max_depth (s.m_bounds p) 0).2) } := by
  have hv := find_node_valid shape s.m_max_depth (s.m_bounds p) s.root 0 hroot
  obtain ⟨ps, hps⟩ := Option.isSome_iff_exists.1 hv
  have hnot : p ∉ ps := by
    intro hmem
    have := mem_all_primitives_of_primitives_at _ _ _ hps p hmem
    rw [all_primitives_find_node] at this
    exact hp this
  refine ⟨ps, hps, hnot, ?_⟩
  simp only [add, hps, hnot, if_false]

theorem remove_eq (s : TreeAccelerationStructure n B) (p : Nat) (r : List (Fin n))
    (ps : List Nat) (hr : s.m_node p = some r) (hps : s.root.primitives_at r = some ps)
    (hp : p ∈ ps) :
    ∃ w, vector_erase_swap ps p = some w ∧ w.Perm (ps.erase p) ∧
      s.remove p = some { s with
        root := s.root.set_primitives_at r w
        m_node := Function.update s.m_node p none } := by
  obtain ⟨w, hw, hperm⟩ := vector_erase_swap_perm ps p hp
  refine ⟨w, hw, hperm, ?_⟩
  simp only [remove, hr, hps, hw]

theorem update_eq_stay (shape : TreeShape n B) (s : TreeAccelerationStructure n B) (p : Nat)
    (r : List (Fin n)) (ps : List Nat) (b : B) (hr : s.m_node p = some r)
    (hps : s.root.primitives_at r = some ps) (hb : s.root.bounds_at r = some b)
    (hout : shape.outside (s.m_bounds p) b = false) :
    s.update shape p = some s := by
  simp only [update, hr, hps, hb, hout]
  simp

theorem update_eq_move (shape : TreeShape n B) (s : TreeAccelerationStructure n B) (p : Nat)
    (r : List (Fin n)) (ps : List Nat) (b : B) (hr : s.m_node p = some r)
    (hps : s.root.primitives_at r = some ps) (hb : s.root.bounds_at r = some b)
    (hout : shape.outside (s.m_bounds p) b = true) (hp : p ∈ ps) :
    ∃ w ps', vector_erase_swap ps p = some w ∧ w.Perm (ps.erase p) ∧
      ((s.root.set_primitives_at r w).find_node shape s.m_max_depth (s.m_bounds p) 0).1.primitives_at
        ((s.root.set_primitives_at r w).find_node shape s.m_max_depth (s.m_bounds p) 0).2
          = some ps' ∧
      s.update shape p = some { s with
        root := ((s.root.set_primitives_at r w).find_node shape s.m_max_depth
            (s.m_bounds p) 0).1.set_primitives_at
          ((s.root.set_primitives_at r w).find_node shape s.m_max_depth (s.m_bounds p) 0).2
          (ps' ++ [p])
        m_node := Function.update s.m_node p
          (some ((s.root.set_primitives_at r w).find_node shape s.m_max_depth
            (s.m_bounds p) 0).2) } := by
  obtain ⟨w, hw, hperm⟩ := vector_erase_swap_perm ps p hp
  have hroot : s.root ≠ null := by
    intro h; rw [h] at hps; simp at hps
  have hv := find_node_valid shape s.m_max_depth (s.m_bounds p) (s.root.set_primitives_at r w) 0
    (set_primitives_at_ne_null _ _ _ hroot)
  obtain ⟨ps', hps'⟩ := Option.isSome_iff_exists.1 hv
  refine ⟨w, ps', hw, hperm, hps', ?_⟩
  simp only [update, hr, hps, hb, hout, hw, hps']
  simp

end TreeAccelerationStructure

/-! ## Lemmas: what the methods keep -/

namespace TreeNode

variable {n : Nat} {B : Type}

theorem primitives_at_set (t : TreeNode n B) (r : List (Fin n)) (new : List Nat) :
    (t.set_primitives_at r new).primitives_at r = (t.primitives_at r).map (fun _ => new) := by
  induction r generalizing t with
  | nil => cases t <;> simp
  | cons i r ih =>
    cases t with
    | null => simp
    | node ch ps b => simpa using ih (ch i)

theorem primitives_at_set_cases (t : TreeNode n B) (r r' : List (Fin n)) (new qs : List Nat)
    (h : (t.set_primitives_at r new).primitives_at r' = some qs) :
    (r' = r ∧ qs = new) ∨ (r' ≠ r ∧ t.primitives_at r' = some qs) := by
  by_cases hr : r' = r
  · subst hr
    rw [primitives_at_set] at h
    cases ht : t.primitives_at r' with
    | none => rw [ht] at h; simp at h
    | some old => rw [ht] at h; simp at h; exact Or.inl ⟨rfl, h.symm⟩
  · rw [primitives_at_set_ne _ _ _ _ hr] at h
    exact Or.inr ⟨hr, h⟩

theorem primitives_at_find_node_of_mem (shape : TreeShape n B) (D : Nat) (x : aabbox3)
    (t : TreeNode n B) (d : Nat) (r : List (Fin n)) (qs : List Nat) (q : Nat)
    (h : (find_node shape D x t d).1.primitives_at r = some qs) (hq : q ∈ qs) :
    t.primitives_at r = some qs := by
  rcases primitives_at_find_node shape D x t d r with h1 | ⟨_, h2⟩
  · rw [← h1]; exact h
  · rw [h2] at h
    simp only [Option.some.injEq] at h
    subst h
    simp at hq

theorem bounds_at_of_primitives_at (t : TreeNode n B) (r : List (Fin n)) (qs : List Nat)
    (h : t.primitives_at r = some qs) : ∃ b, t.bounds_at r = some b := by
  have := bounds_at_isSome t r
  rw [h] at this
  exact Option.isSome_iff_exists.1 (by simpa using this)

theorem shaped_fresh (shape : TreeShape n B) (good : B → Prop) (b : B) (hb : good b) :
    (fresh b : TreeNode n B).Shaped shape good := by
  simp [fresh, Shaped, hb]

theorem shaped_set (shape : TreeShape n B) (good : B → Prop) (t : TreeNode n B)
    (r : List (Fin n)) (new : List Nat) (h : t.Shaped shape good) :
    (t.set_primitives_at r new).Shaped shape good := by
  induction r generalizing t with
  | nil =>
    cases t with
    | null => simpa using h
    | node ch ps b => simpa [Shaped] using h
  | cons i r ih =>
    cases t with
    | null => simpa using h
    | node ch ps b =>
      simp only [set_primitives_at_cons, Shaped] at h ⊢
      refine ⟨h.1, fun j => ?_⟩
      by_cases hj : j = i
      · subst hj
        rw [Function.update_same]
        refine ⟨?_, ih _ (h.2 j).2⟩
        intro b' hb'
        rw [bounds_at_set] at hb'
        exact (h.2 j).1 b' hb'
      · rw [Function.update_noteq hj]
        exact h.2 j

theorem shaped_find_node (shape : TreeShape n B) (inside : aabbox3 → B → Prop)
    (good : B → Prop) (geo : shape.Geometry inside good) (D : Nat) (x : aabbox3)
    (t : TreeNode n B) (d : Nat) (h : t.Shaped shape good) :
    (find_node shape D x t d).1.Shaped shape good := by
  induction t, d using find_node.induct shape D x with
  | case1 d => simpa using h
  | case2 ch ps b d hd => rw [find_node_depth _ _ _ _ _ _ _ hd]; exact h
  | case3 ch ps b d hd hi => rw [find_node_straddle _ _ _ _ _ _ _ hd hi]; exact h
  | case4 ch ps b d hd i hi child ih =>
    rw [find_node_descend _ _ _ _ _ _ _ hd i hi]
    simp only [Shaped] at h ⊢
    refine ⟨h.1, fun j => ?_⟩
    by_cases hj : j = i
    · subst hj
      rw [Function.update_same]
      have hchild : child.Shaped shape good := by
        simp only [child]
        cases hc : ch j with
        | null => exact shaped_fresh _ _ _ (geo.child_good _ _ h.1)
        | node ch' ps' b' => simpa [hc] using (h.2 j).2
      refine ⟨?_, ih hchild⟩
      intro b' hb'
      cases hc : ch j with
      | null =>
        simp only [child, hc, create_if_null_null, fresh] at hb'
        obtain ⟨ch'', hr⟩ := find_node_root shape D x (fun _ => null) []
          (shape.child_bounds b j) (d + 1)
        rw [hr] at hb'
        simpa using hb'.symm
      | node ch' ps' b'' =>
        simp only [child, hc, create_if_null_node] at hb'
        obtain ⟨ch'', hr⟩ := find_node_root shape D x ch' ps' b'' (d + 1)
        rw [hr] at hb'
        simp only [bounds_at_nil, Option.some.injEq] at hb'
        subst hb'
        exact (h.2 j).1 b'' (by simp [hc])
    · rw [Function.update_noteq hj]
      exact h.2 j

/-- A box inside the region of a node is inside the region of the node that
`find_node` returns for it. -/
theorem find_node_inside (shape : TreeShape n B) (inside : aabbox3 → B → Prop)
    (good : B → Prop) (geo : shape.Geometry inside good) (D : Nat) (x : aabbox3)
    (t : TreeNode n B) (d : Nat) (h : t.Shaped shape good) (b : B)
    (hb : t.bounds_at [] = some b) (hx : inside x b) :
    ∃ b', (find_node shape D x t d).1.bounds_at (find_node shape D x t d).2 = some b' ∧
      inside x b' := by
  induction t, d using find_node.induct shape D x generalizing b with
  | case1 d => simp at hb
  | case2 ch ps nb d hd =>
    rw [find_node_depth _ _ _ _ _ _ _ hd]; exact ⟨b, hb, hx⟩
  | case3 ch ps nb d hd hi =>
    rw [find_node_straddle _ _ _ _ _ _ _ hd hi]; exact ⟨b, hb, hx⟩
  | case4 ch ps nb d hd i hi child ih =>
    rw [find_node_descend _ _ _ _ _ _ _ hd i hi]
    simp only [bounds_at_nil, Option.some.injEq] at hb
    subst hb
    simp only [bounds_at_cons, Function.update_same]
    simp only [Shaped] at h
    have hchild : child.Shaped shape good ∧
        child.bounds_at [] = some (shape.child_bounds nb i) := by
      simp only [child]
      cases hc : ch i with
      | null =>
        exact ⟨shaped_fresh _ _ _ (geo.child_good _ _ h.1), by simp [fresh]⟩
      | node ch' ps' b' =>
        have := (h.2 i).1 b' (by simp [hc])
        subst this
        refine ⟨by simpa [hc] using (h.2 i).2, by simp⟩
    exact ih hchild.1 _ hchild.2 (geo.descend _ _ _ hx hi)

end TreeNode

namespace TreeAccelerationStructure

variable {n : Nat} {B : Type}

open TreeNode

/-- The common part of `add` and of the relocation branch of `update`: from a tree
`t1` that holds what the root holds except the primitive `p`, `find_node` and
`push_back` give a state in which `p` is held by the node found. -/
theorem sim_place {shape : TreeShape n B} {inside : aabbox3 → B → Prop} {good : B → Prop}
    (geo : shape.Geometry inside good) {rb : B} {D : Nat} {c : Caller}
    {s : TreeAccelerationStructure n B} (hsim : Sim shape inside good rb D c s)
    (t1 : TreeNode n B) (p : Nat)
    (h1 : ∀ r qs, t1.primitives_at r = some qs → ∀ q ∈ qs,
      ∃ qs0, s.root.primitives_at r = some qs0 ∧ q ∈ qs0)
    (h2 : p ∉ t1.all_primitives) (h3 : ∀ r, t1.bounds_at r = s.root.bounds_at r)
    (h4 : t1.Shaped shape good) (hx : inside (s.m_bounds p) rb) (ps' : List Nat)
    (hps' : (t1.find_node shape s.m_max_depth (s.m_bounds p) 0).1.primitives_at
      (t1.find_node shape s.m_max_depth (s.m_bounds p) 0).2 = some ps')
    (present' stale' : List Nat) (hperm : (p :: t1.all_primitives).Perm present')
    (hnodup : present'.Nodup) (hstale : ∀ q, q ≠ p → q ∉ stale' → q ∉ c.stale) :
    Sim shape inside good rb D ⟨c.m_bounds, present', stale'⟩
      { s with
        root := (t1.find_node shape s.m_max_depth (s.m_bounds p) 0).1.set_primitives_at
          (t1.find_node shape s.m_max_depth (s.m_bounds p) 0).2 (ps' ++ [p])
        m_node := Function.update s.m_node p
          (some (t1.find_node shape s.m_max_depth (s.m_bounds p) 0).2) } := by
  have hallR : (t1.find_node shape s.m_max_depth (s.m_bounds p) 0).1.all_primitives =
      t1.all_primitives := all_primitives_find_node _ _ _ _ _
  have hrb1 : t1.bounds_at [] = some rb := by rw [h3]; exact hsim.root_eq
  -- every primitive other than `p` of the new tree was in the same node of the old root
  have hold : ∀ r qs, ((t1.find_node shape s.m_max_depth (s.m_bounds p) 0).1.set_primitives_at
      (t1.find_node shape s.m_max_depth (s.m_bounds p) 0).2 (ps' ++ [p])).primitives_at r
        = some qs → ∀ q ∈ qs,
      (q = p ∧ r = (t1.find_node shape s.m_max_depth (s.m_bounds p) 0).2) ∨
      (q ≠ p ∧ ∃ qs0, s.root.primitives_at r = some qs0 ∧ q ∈ qs0) := by
    intro r qs hqs q hq
    rcases primitives_at_set_cases _ _ _ _ _ hqs with ⟨hr, hnew⟩ | ⟨hr, hR⟩
    · subst hnew
      rcases List.mem_append.1 hq with hq' | hq'
      · have ht1 := primitives_at_find_node_of_mem _ _ _ _ _ _ _ q hps' hq'
        have hne : q ≠ p := by
          intro e; subst e
          exact h2 (mem_all_primitives_of_primitives_at _ _ _ ht1 q hq')
        right
        rw [hr]
        exact ⟨hne, h1 _ _ ht1 q hq'⟩
      · left
        exact ⟨by simpa using hq', hr⟩
    · have ht1 := primitives_at_find_node_of_mem _ _ _ _ _ _ _ q hR hq
      have hne : q ≠ p := by
        intro e; subst e
        exact h2 (mem_all_primitives_of_primitives_at _ _ _ ht1 q hq)
      right
      exact ⟨hne, h1 _ _ ht1 q hq⟩
  refine ⟨hsim.bounds_eq, ?_, hnodup, ?_, hsim.depth_eq, ?_, ?_, ?_⟩
  · obtain ⟨rest, hr1, hr2⟩ := all_primitives_split _ _ _ hps'
    refine (hr2 (ps' ++ [p])).trans (List.Perm.trans ?_ hperm)
    rw [hallR] at hr1
    refine List.Perm.trans ?_ (List.Perm.cons p hr1.symm)
    simp only [List.append_assoc, List.singleton_append]
    exact List.perm_middle
  · simp only [bounds_at_set]
    exact bounds_at_find_node_of_some _ _ _ _ _ _ _ hrb1
  · intro r qs hqs q hq
    rcases hold r qs hqs q hq with ⟨hqp, hr⟩ | ⟨hne, qs0, hqs0, hq0⟩
    · subst hqp; subst hr
      simp
    · simp only [Function.update_noteq hne]
      exact hsim.back_refs r qs0 hqs0 q hq0
  · exact shaped_set _ _ _ _ _ (shaped_find_node _ _ _ geo _ _ _ _ h4)
  · intro r qs b hqs hb q hq hqs'
    simp only [bounds_at_set] at hb
    rcases hold r qs hqs q hq with ⟨hqp, hr⟩ | ⟨hne, qs0, hqs0, hq0⟩
    · subst hqp; subst hr
      obtain ⟨b', hb', hin⟩ := find_node_inside shape inside good geo s.m_max_depth
        (s.m_bounds q) t1 0 h4 rb hrb1 hx
      rw [hb'] at hb
      simp only [Option.some.injEq] at hb
      subst hb
      exact hin
    · obtain ⟨b0, hb0⟩ := bounds_at_of_primitives_at _ _ _ hqs0
      have hb1 : (t1.find_node shape s.m_max_depth (s.m_bounds p) 0).1.bounds_at r = some b0 :=
        bounds_at_find_node_of_some _ _ _ _ _ _ _ (by rw [h3]; exact hb0)
      rw [hb1] at hb
      simp only [Option.some.injEq] at hb
      subst hb
      exact hsim.contained r qs0 b0 hqs0 hb0 q hq0 (hstale q hne hqs')

end TreeAccelerationStructure

namespace TreeAccelerationStructure

variable {n : Nat} {B : Type}

open TreeNode

theorem Sim.nodup_all {shape : TreeShape n B} {inside : aabbox3 → B → Prop} {good : B → Prop}
    {rb : B} {D : Nat} {c : Caller} {s : TreeAccelerationStructure n B}
    (hsim : Sim shape inside good rb D c s) : s.root.all_primitives.Nodup :=
  hsim.perm.nodup_iff.2 hsim.nodup

/-- A present primitive is held by the node its back-reference names. -/
theorem Sim.owner {shape : TreeShape n B} {inside : aabbox3 → B → Prop} {good : B → Prop}
    {rb : B} {D : Nat} {c : Caller} {s : TreeAccelerationStructure n B}
    (hsim : Sim shape inside good rb D c s) (p : Nat) (hp : p ∈ c.present) :
    ∃ r ps b, s.m_node p = some r ∧ s.root.primitives_at r = some ps ∧
      s.root.bounds_at r = some b ∧ p ∈ ps ∧ ps.Nodup := by
  have hmem : p ∈ s.root.all_primitives := hsim.perm.mem_iff.2 hp
  obtain ⟨r, ps, hps, hpps⟩ := exists_primitives_at_of_mem _ _ hmem
  obtain ⟨b, hb⟩ := bounds_at_of_primitives_at _ _ _ hps
  obtain ⟨rest, h1, _⟩ := all_primitives_split _ _ _ hps
  exact ⟨r, ps, b, hsim.back_refs r ps hps p hpps, hps, hb, hpps,
    (List.Nodup.of_append_left (h1.nodup_iff.1 hsim.nodup_all))⟩

/-- The tree after the primitive `p` has been erased from the node that holds it. -/
theorem sim_erase {shape : TreeShape n B} {inside : aabbox3 → B → Prop} {good : B → Prop}
    {rb : B} {D : Nat} {c : Caller} {s : TreeAccelerationStructure n B}
    (hsim : Sim shape inside good rb D c s) (p : Nat) (r : List (Fin n)) (ps w : List Nat)
    (hps : s.root.primitives_at r = some ps) (hp : p ∈ ps) (hw : w.Perm (ps.erase p)) :
    (s.root.set_primitives_at r w).all_primitives.Perm (s.root.all_primitives.erase p) ∧
    p ∉ (s.root.set_primitives_at r w).all_primitives ∧
    (∀ r' qs, (s.root.set_primitives_at r w).primitives_at r' = some qs → ∀ q ∈ qs,
      q ≠ p ∧ ∃ qs0, s.root.primitives_at r' = some qs0 ∧ q ∈ qs0) := by
  obtain ⟨rest, h1, h2⟩ := all_primitives_split _ _ _ hps
  have hnd : (ps ++ rest).Nodup := h1.nodup_iff.1 hsim.nodup_all
  have hpsnd : ps.Nodup := List.Nodup.of_append_left hnd
  have hperm : (s.root.set_primitives_at r w).all_primitives.Perm
      (s.root.all_primitives.erase p) := by
    refine (h2 w).trans ?_
    refine List.Perm.trans ?_ (h1.erase p).symm
    rw [List.erase_append_left _ hp]
    exact hw.append_right rest
  have hnot : p ∉ (s.root.set_primitives_at r w).all_primitives := by
    intro h
    have := hperm.mem_iff.1 h
    exact (List.Nodup.not_mem_erase hsim.nodup_all) this
  refine ⟨hperm, hnot, ?_⟩
  intro r' qs hqs q hq
  have hne : q ≠ p := by
    intro e; subst e
    exact hnot (mem_all_primitives_of_primitives_at _ _ _ hqs q hq)
  refine ⟨hne, ?_⟩
  rcases primitives_at_set_cases _ _ _ _ _ hqs with ⟨hr, hnew⟩ | ⟨hr, hR⟩
  · subst hnew; subst hr
    exact ⟨ps, hps, List.mem_of_mem_erase (hw.mem_iff.1 hq)⟩
  · exact ⟨qs, hR, hq⟩

theorem tree_sim_step {shape : TreeShape n B} {inside : aabbox3 → B → Prop} {good : B → Prop}
    (geo : shape.Geometry inside good) {rb : B} {D : Nat} (admissible : aabbox3 → Bool)
    (hadm : ∀ x, admissible x = true → inside x rb) {c : Caller}
    {s : TreeAccelerationStructure n B} (hsim : Sim shape inside good rb D c s)
    (call : Call) (c' : Caller) (hc : c.step admissible call = some c') :
    ∃ s', s.step shape call = some s' ∧ Sim shape inside good rb D c' s' := by
  cases call with
  | add p =>
    simp only [Caller.step] at hc
    split at hc
    · rename_i hcond
      simp only [Option.some.injEq] at hc
      subst hc
      have hp : p ∉ s.root.all_primitives := fun h => hcond.1 (hsim.perm.mem_iff.1 h)
      have hroot : s.root ≠ null := by
        intro h; have := hsim.root_eq; rw [h] at this; simp at this
      obtain ⟨ps, hps, _, heq⟩ := add_eq shape s p hroot hp
      refine ⟨_, heq, ?_⟩
      refine sim_place geo hsim s.root p (fun r qs h q hq => ⟨qs, h, hq⟩) hp (fun _ => rfl)
        hsim.shaped (hadm _ (by rw [hsim.bounds_eq]; exact hcond.2)) ps hps _ _
        (List.Perm.cons p hsim.perm) (List.nodup_cons.2 ⟨hcond.1, hsim.nodup⟩)
        (fun q _ h => h)
    · simp at hc
  | remove p =>
    simp only [Caller.step] at hc
    split at hc
    · rename_i hcond
      simp only [Option.some.injEq] at hc
      subst hc
      obtain ⟨r, ps, b, hr, hps, hb, hp, hnd⟩ := hsim.owner p hcond
      obtain ⟨w, hw, hperm, heq⟩ := remove_eq s p r ps hr hps hp
      obtain ⟨e1, e2, e3⟩ := sim_erase hsim p r ps w hps hp hperm
      refine ⟨_, heq, ⟨hsim.bounds_eq, e1.trans (hsim.perm.erase p), hsim.nodup.erase p, ?_,
        hsim.depth_eq, ?_, shaped_set _ _ _ _ _ hsim.shaped, ?_⟩⟩
      · simp only [bounds_at_set]; exact hsim.root_eq
      · intro r' qs hqs q hq
        obtain ⟨hne, qs0, hqs0, hq0⟩ := e3 r' qs hqs q hq
        simp only [Function.update_noteq hne]
        exact hsim.back_refs r' qs0 hqs0 q hq0
      · intro r' qs b' hqs hb' q hq hst
        simp only [bounds_at_set] at hb'
        obtain ⟨hne, qs0, hqs0, hq0⟩ := e3 r' qs hqs q hq
        refine hsim.contained r' qs0 b' hqs0 hb' q hq0 ?_
        intro hmem
        exact hst (List.mem_filter.2 ⟨hmem, by simpa using hne⟩)
    · simp at hc
  | update p =>
    simp only [Caller.step] at hc
    split at hc
    · rename_i hcond
      simp only [Option.some.injEq] at hc
      subst hc
      obtain ⟨r, ps, b, hr, hps, hb, hp, hnd⟩ := hsim.owner p hcond.1
      have hstale : ∀ q, q ≠ p → q ∉ c.stale.filter (fun q => q ≠ p) → q ∉ c.stale := by
        intro q hne hq hmem
        exact hq (List.mem_filter.2 ⟨hmem, by simpa using hne⟩)
      cases hout : shape.outside (s.m_bounds p) b with
      | false =>
        refine ⟨s, update_eq_stay shape s p r ps b hr hps hb hout, ?_⟩
        refine ⟨hsim.bounds_eq, hsim.perm, hsim.nodup, hsim.root_eq, hsim.depth_eq,
          hsim.back_refs, hsim.shaped, ?_⟩
        intro r' qs b' hqs hb' q hq hst
        by_cases hqp : q = p
        · subst hqp
          have := hsim.back_refs r' qs hqs q hq
          rw [hr] at this
          simp only [Option.some.injEq] at this
          subst this
          rw [hb] at hb'
          simp only [Option.some.injEq] at hb'
          subst hb'
          exact geo.stay _ _ hout
        · exact hsim.contained r' qs b' hqs hb' q hq (hstale q hqp hst)
      | true =>
        obtain ⟨w, ps', hw, hperm, hps', heq⟩ :=
          update_eq_move shape s p r ps b hr hps hb hout hp
        obtain ⟨e1, e2, e3⟩ := sim_erase hsim p r ps w hps hp hperm
        refine ⟨_, heq, ?_⟩
        have hmem : p ∈ s.root.all_primitives := hsim.perm.mem_iff.2 hcond.1
        refine sim_place geo hsim (s.root.set_primitives_at r w) p
          (fun r' qs h q hq => (e3 r' qs h q hq).2) e2 (fun _ => bounds_at_set _ _ _ _)
          (shaped_set _ _ _ _ _ hsim.shaped)
          (hadm _ (by rw [hsim.bounds_eq]; exact hcond.2)) ps' hps' _ _ ?_ hsim.nodup hstale
        exact ((List.Perm.cons p e1).trans (List.perm_cons_erase hmem).symm).trans hsim.perm
    · simp at hc
  | set_bounds p x =>
    simp only [Caller.step, Option.some.injEq] at hc
    subst hc
    refine ⟨_, rfl, ⟨?_, hsim.perm, hsim.nodup, hsim.root_eq, hsim.depth_eq, hsim.back_refs,
      hsim.shaped, ?_⟩⟩
    · simp only [hsim.bounds_eq]
    · intro r qs b hqs hb q hq hst
      have hqall : q ∈ s.root.all_primitives :=
        mem_all_primitives_of_primitives_at _ _ _ hqs q hq
      have hqpres : q ∈ c.present := hsim.perm.mem_iff.1 hqall
      have hne : q ≠ p := by
        intro e; subst e
        simp only [hqpres, if_true] at hst
        exact hst (List.mem_cons_self _ _)
      simp only [Function.update_noteq hne]
      refine hsim.contained r qs b hqs hb q hq ?_
      intro hmem
      apply hst
      split
      · exact List.mem_cons_of_mem _ hmem
      · exact hmem

theorem tree_sim_run {shape : TreeShape n B} {inside : aabbox3 → B → Prop} {good : B → Prop}
    (geo : shape.Geometry inside good) {rb : B} {D : Nat} (admissible : aabbox3 → Bool)
    (hadm : ∀ x, admissible x = true → inside x rb) (calls : List Call) {c : Caller}
    {s : TreeAccelerationStructure n B} (hsim : Sim shape inside good rb D c s)
    (c' : Caller) (hc : c.run admissible calls = some c') :
    ∃ s', s.run shape calls = some s' ∧ Sim shape inside good rb D c' s' := by
  induction calls generalizing c s with
  | nil =>
    simp only [Caller.run, Option.some.injEq] at hc
    subst hc
    exact ⟨s, rfl, hsim⟩
  | cons call calls ih =>
    simp only [Caller.run] at hc
    cases hstep : c.step admissible call with
    | none => rw [hstep] at hc; simp at hc
    | some c1 =>
      rw [hstep] at hc
      obtain ⟨s1, hs1, hsim1⟩ := tree_sim_step geo admissible hadm hsim call c1 hstep
      obtain ⟨s', hs', hsim'⟩ := ih hsim1 hc
      exact ⟨s', by simp only [run, hs1, hs'], hsim'⟩

end TreeAccelerationStructure

/-! ## Lemmas: geometry predicates -/

theorem interval_overlap_iff (ca ea cb eb : ℚ) (ha : 0 ≤ ea) (hb : 0 ≤ eb) :
    |ca - cb| ≤ ea + eb ↔ ∃ t : ℚ, |t - ca| ≤ ea ∧ |t - cb| ≤ eb := by
  constructor
  · intro h
    rw [abs_le] at h
    refine ⟨max (ca - ea) (cb - eb), ?_, ?_⟩
    · rw [abs_le]
      constructor
      · have := le_max_left (ca - ea) (cb - eb)
        linarith
      · have : max (ca - ea) (cb - eb) ≤ ca + ea := max_le (by linarith) (by linarith)
        linarith
    · rw [abs_le]
      constructor
      · have := le_max_right (ca - ea) (cb - eb)
        linarith
      · have : max (ca - ea) (cb - eb) ≤ cb + eb := max_le (by linarith) (by linarith)
        linarith
  · rintro ⟨t, h1, h2⟩
    rw [abs_le] at h1 h2 ⊢
    constructor <;> linarith [h1.1, h1.2, h2.1, h2.2]

section

variable [FloatArithmetic ℚ] [FloatArithmetic.Exact ℚ]

theorem intersect_aabbox3_aabbox3_iff (A B : aabbox3) :
    intersect_aabbox3_aabbox3 A B = true ↔
      |A.center.x - B.center.x| ≤ A.extent.x + B.extent.x ∧
      |A.center.y - B.center.y| ≤ A.extent.y + B.extent.y ∧
      |A.center.z - B.center.z| ≤ A.extent.z + B.extent.z := by
  simp [intersect_aabbox3_aabbox3, and_assoc]

end

section

variable [FloatArithmetic ℚ]

theorem intersect_aabbox3_frustum_iff (b : aabbox3) (f : frustum) :
    intersect_aabbox3_frustum b f = true ↔ ∀ i : Fin 6, plane_rejects b (f.data i) = false := by
  simp [intersect_aabbox3_frustum, List.all_eq_true]

end

theorem axis_le_support (t c e n : ℚ) (h : |t - c| ≤ e) : t * n ≤ c * n + e * |n| := by
  have h1 : (t - c) * n ≤ |t - c| * |n| := by
    rw [← abs_mul]; exact le_abs_self _
  have h2 : |t - c| * |n| ≤ e * |n| := mul_le_mul_of_nonneg_right h (abs_nonneg n)
  nlinarith

theorem axis_support_attained (c e n : ℚ) (he : 0 ≤ e) :
    ∃ t : ℚ, |t - c| ≤ e ∧ t * n = c * n + e * |n| := by
  by_cases hn : 0 ≤ n
  · refine ⟨c + e, ?_, ?_⟩
    · simp [abs_of_nonneg he]
    · rw [abs_of_nonneg hn]; ring
  · push_neg at hn
    refine ⟨c - e, ?_, ?_⟩
    · simp [abs_of_nonneg he]
    · rw [abs_of_neg hn]; ring

section

variable [FloatArithmetic ℚ] [FloatArithmetic.Exact ℚ]

theorem plane_rejects_iff (b : aabbox3) (p : plane) (hb : b.nonneg) :
    plane_rejects b p = true ↔
      ∀ pt : float3, b.contains pt → dot pt p.normal + p.distance < 0 := by
  simp only [fadd_exact, fsub_exact, fmul_exact, fdiv_exact, plane_rejects, dot, decide_eq_true_eq, fadd_exact, fmul_exact]
  constructor
  · rintro h pt ⟨hx, hy, hz⟩
    have := axis_le_support pt.x b.center.x b.extent.x p.normal.x hx
    have := axis_le_support pt.y b.center.y b.extent.y p.normal.y hy
    have := axis_le_support pt.z b.center.z b.extent.z p.normal.z hz
    linarith
  · intro h
    obtain ⟨x, hx, hx2⟩ := axis_support_attained b.center.x b.extent.x p.normal.x hb.1
    obtain ⟨y, hy, hy2⟩ := axis_support_attained b.center.y b.extent.y p.normal.y hb.2.1
    obtain ⟨z, hz, hz2⟩ := axis_support_attained b.center.z b.extent.z p.normal.z hb.2.2
    have := h ⟨x, y, z⟩ ⟨hx, hy, hz⟩
    simp only at this
    linarith

end

/-! ## Lemmas: geometry of the two trees -/

theorem axis_inside_overlap (cx ex cb eb cq eq : ℚ) (h : |cx - cq| ≤ ex + eq)
    (h1 : cb - eb ≤ cx - ex) (h2 : cx + ex ≤ cb + eb) : |cb - cq| ≤ eb + eq := by
  rw [abs_le] at h ⊢
  constructor <;> linarith [h.1, h.2]

theorem axis_inside_support (cx ex cb eb nrm : ℚ) (h1 : cb - eb ≤ cx - ex)
    (h2 : cx + ex ≤ cb + eb) : cx * nrm + ex * |nrm| ≤ cb * nrm + eb * |nrm| := by
  have h : |cx - cb| ≤ eb - ex := by
    rw [abs_le]; constructor <;> linarith
  have := axis_le_support cx cb (eb - ex) nrm h
  linarith

section

variable [FloatArithmetic ℚ] [FloatArithmetic.Exact ℚ]

theorem intersect_aabbox3_of_inside (x b q : aabbox3) (hx : intersect_aabbox3_aabbox3 x q = true)
    (hin : x.inside b) : intersect_aabbox3_aabbox3 b q = true := by
  rw [intersect_aabbox3_aabbox3_iff] at hx ⊢
  obtain ⟨h1, h2, h3, h4, h5, h6⟩ := hin
  exact ⟨axis_inside_overlap _ _ _ _ _ _ hx.1 h1 h2, axis_inside_overlap _ _ _ _ _ _ hx.2.1 h3 h4,
    axis_inside_overlap _ _ _ _ _ _ hx.2.2 h5 h6⟩

theorem intersect_frustum_of_inside (x b : aabbox3) (f : frustum)
    (hx : intersect_aabbox3_frustum x f = true) (hin : x.inside b) :
    intersect_aabbox3_frustum b f = true := by
  rw [intersect_aabbox3_frustum_iff] at hx ⊢
  intro i
  have hi := hx i
  obtain ⟨h1, h2, h3, h4, h5, h6⟩ := hin
  simp only [fadd_exact, fsub_exact, fmul_exact, fdiv_exact, plane_rejects, dot, decide_eq_false_iff_not, not_lt] at hi ⊢
  have := axis_inside_support _ _ _ _ (f.data i).normal.x h1 h2
  have := axis_inside_support _ _ _ _ (f.data i).normal.y h3 h4
  have := axis_inside_support _ _ _ _ (f.data i).normal.z h5 h6
  linarith

theorem intersect_footprint_of_inside (x : aabbox3) (b : aabbox2) (q : aabbox3)
    (hx : intersect_aabbox3_aabbox3 x q = true) (hin : x.inside_footprint b) :
    intersect_aabbox2_aabbox3 b q = true := by
  rw [intersect_aabbox3_aabbox3_iff] at hx
  obtain ⟨h1, h2, h3, h4⟩ := hin
  simp only [fadd_exact, fsub_exact, fmul_exact, fdiv_exact, intersect_aabbox2_aabbox3, Bool.and_eq_true, decide_eq_true_eq]
  exact ⟨axis_inside_overlap _ _ _ _ _ _ hx.1 h1 h2, axis_inside_overlap _ _ _ _ _ _ hx.2.2 h3 h4⟩

theorem OctreeAccelerationStructure.octree_geometry :
    OctreeAccelerationStructure.shape.Geometry aabbox3.inside aabbox3.nonneg where
  child_good := by
    intro b i hb
    obtain ⟨h1, h2, h3⟩ := hb
    simp only [fadd_exact, fsub_exact, fmul_exact, fdiv_exact, OctreeAccelerationStructure.shape, OctreeAccelerationStructure.child_bounds,
      aabbox3.nonneg]
    refine ⟨by linarith, by linarith, by linarith⟩
  descend := by
    intro x b i hin hi
    obtain ⟨h1, h2, h3, h4, h5, h6⟩ := hin
    simp only [fadd_exact, fsub_exact, fmul_exact, fdiv_exact, OctreeAccelerationStructure.shape, OctreeAccelerationStructure.child_index,
      OCTREE_POSITIVE_X, OCTREE_NEGATIVE_X, OCTREE_POSITIVE_Y, OCTREE_NEGATIVE_Y,
      OCTREE_POSITIVE_Z, OCTREE_NEGATIVE_Z, bind, Option.bind, pure] at hi
    simp only [fadd_exact, fsub_exact, fmul_exact, fdiv_exact, OctreeAccelerationStructure.shape, OctreeAccelerationStructure.child_bounds,
      aabbox3.inside]
    split_ifs at hi <;> simp only [fadd_exact, fsub_exact, fmul_exact, fdiv_exact, Option.some.injEq] at hi <;> subst hi <;>
      simp only [fadd_exact, fsub_exact, fmul_exact, fdiv_exact, OCTREE_EXTENT_FACTORS, Fin.ofNat] <;>
      (refine ⟨?_, ?_, ?_, ?_, ?_, ?_⟩ <;> linarith)
  ascend := by
    intro x b i hb hin
    obtain ⟨g1, g2, g3⟩ := hb
    simp only [fadd_exact, fsub_exact, fmul_exact, fdiv_exact, OctreeAccelerationStructure.shape, OctreeAccelerationStructure.child_bounds,
      aabbox3.inside] at hin
    unfold aabbox3.inside
    fin_cases i <;> simp only [fadd_exact, fsub_exact, fmul_exact, fdiv_exact, OCTREE_EXTENT_FACTORS] at hin <;>
      obtain ⟨h1, h2, h3, h4, h5, h6⟩ := hin <;>
      (refine ⟨?_, ?_, ?_, ?_, ?_, ?_⟩ <;> linarith)
  stay := by
    intro x b h
    simp only [fadd_exact, fsub_exact, fmul_exact, fdiv_exact, OctreeAccelerationStructure.shape, OctreeAccelerationStructure.outside,
      Bool.or_eq_false_iff, decide_eq_false_iff_not, not_lt, ge_iff_le, not_le] at h
    obtain ⟨⟨⟨⟨⟨h1, h2⟩, h3⟩, h4⟩, h5⟩, h6⟩ := h
    exact ⟨h1, h4.le, h2, h5.le, h3, h6.le⟩

end

section

variable [FloatArithmetic ℚ] [FloatArithmetic.Exact ℚ]

theorem QuadtreeAccelerationStructure.quadtree_geometry :
    QuadtreeAccelerationStructure.shape.Geometry aabbox3.inside_footprint aabbox2.nonneg where
  child_good := by
    intro b i hb
    obtain ⟨h1, h2⟩ := hb
    simp only [fadd_exact, fsub_exact, fmul_exact, fdiv_exact, QuadtreeAccelerationStructure.shape, QuadtreeAccelerationStructure.child_bounds,
      aabbox2.nonneg]
    refine ⟨by linarith, by linarith⟩
  descend := by
    intro x b i hin hi
    obtain ⟨h1, h2, h3, h4⟩ := hin
    simp only [fadd_exact, fsub_exact, fmul_exact, fdiv_exact, QuadtreeAccelerationStructure.shape, QuadtreeAccelerationStructure.child_index,
      QUADTREE_POSITIVE_X, QUADTREE_NEGATIVE_X, QUADTREE_POSITIVE_Y, QUADTREE_NEGATIVE_Y,
      bind, Option.bind, pure] at hi
    simp only [fadd_exact, fsub_exact, fmul_exact, fdiv_exact, QuadtreeAccelerationStructure.shape, QuadtreeAccelerationStructure.child_bounds,
      aabbox3.inside_footprint]
    split_ifs at hi <;> simp only [fadd_exact, fsub_exact, fmul_exact, fdiv_exact, Option.some.injEq] at hi <;> subst hi <;>
      simp only [fadd_exact, fsub_exact, fmul_exact, fdiv_exact, QUADTREE_EXTENT_FACTORS, Fin.ofNat] <;>
      (refine ⟨?_, ?_, ?_, ?_⟩ <;> linarith)
  ascend := by
    intro x b i hb hin
    obtain ⟨g1, g2⟩ := hb
    simp only [fadd_exact, fsub_exact, fmul_exact, fdiv_exact, QuadtreeAccelerationStructure.shape, QuadtreeAccelerationStructure.child_bounds,
      aabbox3.inside_footprint] at hin
    unfold aabbox3.inside_footprint
    fin_cases i <;> simp only [fadd_exact, fsub_exact, fmul_exact, fdiv_exact, QUADTREE_EXTENT_FACTORS] at hin <;>
      obtain ⟨h1, h2, h3, h4⟩ := hin <;>
      (refine ⟨?_, ?_, ?_, ?_⟩ <;> linarith)
  stay := by
    intro x b h
    simp only [fadd_exact, fsub_exact, fmul_exact, fdiv_exact, QuadtreeAccelerationStructure.shape, QuadtreeAccelerationStructure.outside,
      Bool.or_eq_false_iff, decide_eq_false_iff_not, not_lt, ge_iff_le, not_le] at h
    obtain ⟨⟨⟨h1, h2⟩, h3⟩, h4⟩ := h
    exact ⟨h1, h3.le, h2, h4.le⟩

end

/-- With no condition on where the primitives lie, every shape has a geometry. -/
theorem TreeShape.geometry_trivial {n : Nat} {B : Type} (shape : TreeShape n B) :
    shape.Geometry (fun _ _ => True) (fun _ => True) where
  child_good := fun _ _ _ => trivial
  descend := fun _ _ _ _ _ => trivial
  ascend := fun _ _ _ _ _ => trivial
  stay := fun _ _ _ => trivial

namespace TreeNode

variable {n : Nat} {B : Type}

theorem filter_flatMap {α : Type} (l : List α) (f : α → List Nat) (hp : Nat → Bool) :
    (l.flatMap f).filter hp = l.flatMap (fun a => (f a).filter hp) := by
  induction l with
  | nil => simp
  | cons a l ih => simp [List.flatMap_cons, List.filter_append, ih]

/-- When every primitive lies in the region of the node that holds it, and a
primitive that passes the test of the query lies only in regions that pass it,
the query meets exactly the primitives of the tree that pass the test. -/
theorem query_matches_eq_filter {shape : TreeShape n B} {inside : aabbox3 → B → Prop}
    {good : B → Prop} (geo : shape.Geometry inside good) (bd : Nat → aabbox3)
    (hp : Nat → Bool) (hn : B → Bool)
    (hgeo : ∀ p b, hp p = true → inside (bd p) b → hn b = true) (t : TreeNode n B)
    (hS : t.Shaped shape good)
    (hC : ∀ r ps b, t.primitives_at r = some ps → t.bounds_at r = some b →
      ∀ p ∈ ps, inside (bd p) b) :
    t.query_matches hp hn = t.all_primitives.filter hp ∧
      ∀ b, t.bounds_at [] = some b → ∀ p ∈ t.all_primitives, inside (bd p) b := by
  induction t with
  | null => simp
  | node ch ps b ih =>
    simp only [Shaped] at hS
    have hchild : ∀ i, (ch i).query_matches hp hn = (ch i).all_primitives.filter hp ∧
        ∀ b', (ch i).bounds_at [] = some b' → ∀ p ∈ (ch i).all_primitives, inside (bd p) b' :=
      fun i => ih i (hS.2 i).2 (fun r qs b' h1 h2 => hC (i :: r) qs b' (by simpa using h1)
        (by simpa using h2))
    constructor
    · rw [query_matches_node, all_primitives_node, List.filter_append, filter_flatMap]
      congr 2
      funext i
      cases hc : ch i with
      | null => simp
      | node ch' ps' b' =>
        have h1 := (hchild i).1
        have h2 := (hchild i).2 b' (by simp [hc])
        rw [hc] at h1 h2
        simp only [slot_matches]
        by_cases hh : hn b' = true
        · simp only [hh, if_true]; exact h1
        · have hnil : (node ch' ps' b').all_primitives.filter hp = [] := by
            rw [List.filter_eq_nil_iff]
            intro p hpm hpt
            exact hh (hgeo p b' hpt (h2 p hpm))
          rw [hnil]
          simp [hh]
    · intro b0 hb0 p hpm
      simp only [bounds_at_nil, Option.some.injEq] at hb0
      subst hb0
      rw [all_primitives_node, List.mem_append] at hpm
      rcases hpm with hpm | hpm
      · exact hC [] ps b rfl rfl p hpm
      · rw [List.mem_flatMap] at hpm
        obtain ⟨i, _, hi⟩ := hpm
        cases hc : ch i with
        | null => rw [hc] at hi; simp at hi
        | node ch' ps' b' =>
          have hb' := (hS.2 i).1 b' (by simp [hc])
          have h2 := (hchild i).2 b' (by simp [hc]) p hi
          rw [hb'] at h2
          exact geo.ascend _ _ _ hS.1 h2

/-- With no condition, a query meets only primitives of the tree that pass the test. -/
theorem query_matches_sublist (hp : Nat → Bool) (hn : B → Bool) (t : TreeNode n B) :
    (t.query_matches hp hn).Sublist (t.all_primitives.filter hp) := by
  induction t with
  | null => simp
  | node ch ps b ih =>
    rw [query_matches_node, all_primitives_node, List.filter_append, filter_flatMap]
    refine List.Sublist.append (List.Sublist.refl _) ?_
    have : ∀ l : List (Fin n), (l.flatMap (fun i => slot_matches hp hn (ch i))).Sublist
        (l.flatMap (fun i => (ch i).all_primitives.filter hp)) := by
      intro l
      induction l with
      | nil => simp
      | cons i l ihl =>
        simp only [List.flatMap_cons]
        refine List.Sublist.append ?_ ihl
        cases hc : ch i with
        | null => simp
        | node ch' ps' b' =>
          simp only [slot_matches]
          split
          · rw [← hc]; exact ih i
          · exact List.nil_sublist _
    exact this _

end TreeNode

/-! ## Lemmas: the contract and the linear index -/

namespace Caller

theorem run_bounds (admissible : aabbox3 → Bool) (calls : List Call) (c c' : Caller)
    (h : c.run admissible calls = some c') : c'.m_bounds = bounds_after c.m_bounds calls := by
  induction calls generalizing c with
  | nil =>
    simp only [run, Option.some.injEq] at h
    subst h; rfl
  | cons call calls ih =>
    simp only [run] at h
    cases hstep : c.step admissible call with
    | none => rw [hstep] at h; simp at h
    | some c1 =>
      rw [hstep] at h
      have := ih c1 h
      rw [this]
      cases call with
      | add p =>
        simp only [step] at hstep
        split at hstep
        · simp only [Option.some.injEq] at hstep; subst hstep; rfl
        · simp at hstep
      | remove p =>
        simp only [step] at hstep
        split at hstep
        · simp only [Option.some.injEq] at hstep; subst hstep; rfl
        · simp at hstep
      | update p =>
        simp only [step] at hstep
        split at hstep
        · simp only [Option.some.injEq] at hstep; subst hstep; rfl
        · simp at hstep
      | set_bounds p x =>
        simp only [step, Option.some.injEq] at hstep
        subst hstep; rfl

theorem respects_iff (admissible : aabbox3 → Bool) (m_bounds : Nat → aabbox3)
    (calls : List Call) (h : respects admissible m_bounds calls = true) :
    ∃ c, run admissible ⟨m_bounds, [], []⟩ calls = some c ∧
      present_after admissible m_bounds calls = c.present := by
  simp only [respects] at h
  obtain ⟨c, hc⟩ := Option.isSome_iff_exists.1 h
  exact ⟨c, hc, by simp only [present_after, hc]⟩

theorem settled_iff (admissible : aabbox3 → Bool) (m_bounds : Nat → aabbox3)
    (calls : List Call) (h : settled admissible m_bounds calls = true) :
    ∃ c, run admissible ⟨m_bounds, [], []⟩ calls = some c ∧ c.stale = [] := by
  simp only [settled] at h
  split at h
  · simp at h
  · rename_i c hc
    exact ⟨c, hc, by simpa using h⟩

end Caller

namespace LinearAccelerationStructure

theorem linear_sim_step (admissible : aabbox3 → Bool) {c : Caller} {s : LinearAccelerationStructure}
    (hsim : Sim c s) (call : Call) (c' : Caller) (hc : c.step admissible call = some c') :
    ∃ s', s.step call = some s' ∧ Sim c' s' := by
  cases call with
  | add p =>
    simp only [Caller.step] at hc
    split at hc
    · rename_i hcond
      simp only [Option.some.injEq] at hc
      subst hc
      have hp : p ∉ s.m_primitives := fun h => hcond.1 (hsim.perm.mem_iff.1 h)
      refine ⟨{ s with m_primitives := s.m_primitives ++ [p] },
        by simp only [step, add, hp, if_false], hsim.bounds_eq, ?_,
        List.nodup_cons.2 ⟨hcond.1, hsim.nodup⟩⟩
      exact (List.perm_append_singleton p s.m_primitives).trans (List.Perm.cons p hsim.perm)
    · simp at hc
  | remove p =>
    simp only [Caller.step] at hc
    split at hc
    · rename_i hcond
      simp only [Option.some.injEq] at hc
      subst hc
      have hp : p ∈ s.m_primitives := hsim.perm.mem_iff.2 hcond
      obtain ⟨w, hw, hperm⟩ := vector_erase_swap_perm s.m_primitives p hp
      exact ⟨{ s with m_primitives := w }, by simp only [step, remove, hw], hsim.bounds_eq,
        hperm.trans (hsim.perm.erase p), hsim.nodup.erase p⟩
    · simp at hc
  | update p =>
    simp only [Caller.step] at hc
    split at hc
    · simp only [Option.some.injEq] at hc
      subst hc
      exact ⟨s, rfl, hsim.bounds_eq, hsim.perm, hsim.nodup⟩
    · simp at hc
  | set_bounds p x =>
    simp only [Caller.step, Option.some.injEq] at hc
    subst hc
    exact ⟨{ s with m_bounds := Function.update s.m_bounds p x }, rfl,
      by simp only [hsim.bounds_eq], hsim.perm, hsim.nodup⟩

theorem linear_sim_run (admissible : aabbox3 → Bool) (calls : List Call) {c : Caller}
    {s : LinearAccelerationStructure} (hsim : Sim c s) (c' : Caller)
    (hc : c.run admissible calls = some c') :
    ∃ s', s.run calls = some s' ∧ Sim c' s' := by
  induction calls generalizing c s with
  | nil =>
    simp only [Caller.run, Option.some.injEq] at hc
    subst hc
    exact ⟨s, rfl, hsim⟩
  | cons call calls ih =>
    simp only [Caller.run] at hc
    cases hstep : c.step admissible call with
    | none => rw [hstep] at hc; simp at hc
    | some c1 =>
      rw [hstep] at hc
      obtain ⟨s1, hs1, hsim1⟩ := linear_sim_step admissible hsim call c1 hstep
      obtain ⟨s', hs', hsim'⟩ := ih hsim1 hc
      exact ⟨s', by simp only [run, hs1, hs'], hsim'⟩

theorem linear_sim_create (m_bounds : Nat → aabbox3) : Sim ⟨m_bounds, [], []⟩ (create m_bounds) :=
  ⟨rfl, List.Perm.refl _, List.nodup_nil⟩

section

variable [FloatArithmetic ℚ]

theorem linear_query_aabbox_eq (s : LinearAccelerationStructure) (q : aabbox3) (out : List Nat) :
    s.query_aabbox q out =
      out ++ s.m_primitives.filter (fun p => intersect_aabbox3_aabbox3 (s.m_bounds p) q) :=
  push_back_matches_eq _ _ _

theorem linear_query_frustum_eq (s : LinearAccelerationStructure) (f : frustum) (out : List Nat) :
    s.query_frustum f out =
      out ++ s.m_primitives.filter (fun p => intersect_aabbox3_frustum (s.m_bounds p) f) :=
  push_back_matches_eq _ _ _

end

theorem linear_add_remove (s : LinearAccelerationStructure) (p : Nat) (hp : p ∉ s.m_primitives) :
    ∃ s1, s.add p = some s1 ∧ s1.remove p = some s := by
  refine ⟨{ s with m_primitives := s.m_primitives ++ [p] },
    by simp only [add, hp, if_false], ?_⟩
  simp only [remove, vector_erase_swap_concat _ _ hp]

end LinearAccelerationStructure

theorem count_filter_nodup (l : List Nat) (hl : l.Nodup) (hit : Nat → Bool) (p : Nat) :
    (l.filter hit).count p = if p ∈ l ∧ hit p = true then 1 else 0 := by
  by_cases h : p ∈ l ∧ hit p = true
  · rw [if_pos h]
    exact List.count_eq_one_of_mem (hl.filter _) (List.mem_filter.2 h)
  · rw [if_neg h]
    exact List.count_eq_zero_of_not_mem (fun hm => h (List.mem_filter.1 hm))

/-! ## Lemmas: reachable states of a tree index -/

namespace TreeAccelerationStructure

variable {n : Nat} {B : Type}

open TreeNode

theorem tree_sim_create (shape : TreeShape n B) (inside : aabbox3 → B → Prop) (good : B → Prop)
    (rb : B) (hgood : good rb) (D : Nat) (mb : Nat → aabbox3)
    (mn : Nat → Option (List (Fin n))) :
    Sim shape inside good rb D ⟨mb, [], []⟩ ⟨fresh rb, D, mb, mn⟩ := by
  have hempty : ∀ r ps, (fresh rb : TreeNode n B).primitives_at r = some ps → ps = [] := by
    intro r ps h
    cases r with
    | nil => simpa [fresh] using h.symm
    | cons i r => simp [fresh] at h
  refine ⟨rfl, by simp, List.nodup_nil, by simp [fresh], rfl, ?_, shaped_fresh _ _ _ hgood, ?_⟩
  · intro r ps h p hp
    rw [hempty r ps h] at hp
    simp at hp
  · intro r ps b h _ p hp
    rw [hempty r ps h] at hp
    simp at hp

/-- Every call sequence that respects the contract runs without a failed assertion
on a new tree index and ends in a state related to the bookkeeping of the contract. -/
theorem tree_reach {shape : TreeShape n B} {inside : aabbox3 → B → Prop} {good : B → Prop}
    (geo : shape.Geometry inside good) (rb : B) (hgood : good rb) (D : Nat)
    (mb : Nat → aabbox3) (mn : Nat → Option (List (Fin n))) (admissible : aabbox3 → Bool)
    (hadm : ∀ x, admissible x = true → inside x rb) (calls : List Call) (c : Caller)
    (hc : Caller.run admissible ⟨mb, [], []⟩ calls = some c) :
    ∃ s, run shape ⟨fresh rb, D, mb, mn⟩ calls = some s ∧ Sim shape inside good rb D c s :=
  tree_sim_run geo admissible hadm calls (tree_sim_create shape inside good rb hgood D mb mn) c hc

theorem root_ne_of_sim {shape : TreeShape n B} {inside : aabbox3 → B → Prop} {good : B → Prop}
    {rb : B} {D : Nat} {c : Caller} {s : TreeAccelerationStructure n B}
    (hsim : Sim shape inside good rb D c s) : s.root ≠ null := by
  intro h
  have := hsim.root_eq
  rw [h] at this
  simp at this

/-- After `add` and `remove` of an absent primitive the tree is the tree that
`find_node` left, and every query meets what it met before. -/
theorem tree_add_remove (shape : TreeShape n B) (s : TreeAccelerationStructure n B) (p : Nat)
    (hroot : s.root ≠ null) (hp : p ∉ s.root.all_primitives) :
    ∃ s1 s2, s.add shape p = some s1 ∧ s1.remove p = some s2 ∧ s2.m_bounds = s.m_bounds ∧
      ∀ (hit : Nat → Bool) (hn : B → Bool),
        s2.root.query_matches hit hn = s.root.query_matches hit hn := by
  obtain ⟨ps, hps, hnot, heq⟩ := add_eq shape s p hroot hp
  have hv : ((s.root.find_node shape s.m_max_depth (s.m_bounds p) 0).1.primitives_at
      (s.root.find_node shape s.m_max_depth (s.m_bounds p) 0).2).isSome := by
    rw [hps]; rfl
  obtain ⟨w, hw, _, hrem⟩ := remove_eq
    { s with
      root := (s.root.find_node shape s.m_max_depth (s.m_bounds p) 0).1.set_primitives_at
        (s.root.find_node shape s.m_max_depth (s.m_bounds p) 0).2 (ps ++ [p])
      m_node := Function.update s.m_node p
        (some (s.root.find_node shape s.m_max_depth (s.m_bounds p) 0).2) }
    p (s.root.find_node shape s.m_max_depth (s.m_bounds p) 0).2 (ps ++ [p])
    (by simp) (primitives_at_set_same _ _ _ hv) (by simp)
  rw [vector_erase_swap_concat _ _ hnot] at hw
  simp only [Option.some.injEq] at hw
  subst hw
  refine ⟨_, _, heq, hrem, rfl, ?_⟩
  intro hit hn
  simp only [set_primitives_at_set, set_primitives_at_self _ _ _ hps,
    query_matches_find_node]

end TreeAccelerationStructure

namespace TreeAccelerationStructure

variable {n : Nat} {B : Type}

open TreeNode

/-- Two states hold the same primitives in every node, up to the order in a node. -/
theorem same_nodes_refl (t : TreeNode n B) (r : List (Fin n)) :
    (t.primitives_at r = none ∧ t.primitives_at r = none) ∨
      ∃ ps1 ps2, t.primitives_at r = some ps1 ∧ t.primitives_at r = some ps2 ∧ ps2.Perm ps1 := by
  cases h : t.primitives_at r with
  | none => exact Or.inl ⟨rfl, rfl⟩
  | some ps => exact Or.inr ⟨ps, ps, rfl, rfl, List.Perm.refl _⟩

/-- A second `update` of a present primitive, with no write to its bounds in
between, leaves every back-reference and the content of every node as the first
`update` left them. -/
theorem update_twice {shape : TreeShape n B} {inside : aabbox3 → B → Prop} {good : B → Prop}
    {rb : B} {D : Nat} {c : Caller} {s : TreeAccelerationStructure n B}
    (hsim : Sim shape inside good rb D c s) (p : Nat) (hp : p ∈ c.present) :
    ∃ s1 s2, s.update shape p = some s1 ∧ s1.update shape p = some s2 ∧
      s2.m_node = s1.m_node ∧
      (∀ r, (s1.root.primitives_at r = none ∧ s2.root.primitives_at r = none) ∨
        ∃ ps1 ps2, s1.root.primitives_at r = some ps1 ∧ s2.root.primitives_at r = some ps2 ∧
          ps2.Perm ps1) ∧
      (∀ r, s2.root.bounds_at r = s1.root.bounds_at r) := by
  obtain ⟨r, ps, b, hr, hps, hb, hpm, _⟩ := hsim.owner p hp
  cases hout : shape.outside (s.m_bounds p) b with
  | false =>
    have h1 := update_eq_stay shape s p r ps b hr hps hb hout
    exact ⟨s, s, h1, h1, rfl, fun r' => same_nodes_refl _ r', fun _ => rfl⟩
  | true =>
    obtain ⟨w, ps', hw, hperm, hps', heq⟩ := update_eq_move shape s p r ps b hr hps hb hout hpm
    generalize hR : (s.root.set_primitives_at r w).find_node shape s.m_max_depth
      (s.m_bounds p) 0 = R at hps' heq
    have hvalid : (R.1.primitives_at R.2).isSome := by rw [hps']; rfl
    have hidem : R.1.find_node shape s.m_max_depth (s.m_bounds p) 0 = R := by
      rw [← hR]; exact find_node_idem _ _ _ _ _
    -- the state after the first update
    have hps1 : (R.1.set_primitives_at R.2 (ps' ++ [p])).primitives_at R.2 =
        some (ps' ++ [p]) := primitives_at_set_same _ _ _ hvalid
    obtain ⟨b1, hb1⟩ := bounds_at_of_primitives_at _ _ _ hps1
    refine ⟨{ s with
      root := R.1.set_primitives_at R.2 (ps' ++ [p])
      m_node := Function.update s.m_node p (some R.2) }, ?_⟩
    · cases hout1 : shape.outside (s.m_bounds p) b1 with
      | false =>
        have h2 := update_eq_stay shape
          { s with
            root := R.1.set_primitives_at R.2 (ps' ++ [p])
            m_node := Function.update s.m_node p (some R.2) }
          p R.2 (ps' ++ [p]) b1 (by simp) hps1 hb1 hout1
        exact ⟨_, heq, h2, rfl, fun r' => same_nodes_refl _ r', fun _ => rfl⟩
      | true =>
        obtain ⟨w', ps'', hw', hperm', hps'', heq'⟩ := update_eq_move shape
          { s with
            root := R.1.set_primitives_at R.2 (ps' ++ [p])
            m_node := Function.update s.m_node p (some R.2) }
          p R.2 (ps' ++ [p]) b1 (by simp) hps1 hb1 hout1 (by simp)
        simp only [set_primitives_at_set] at hps'' heq'
        rw [find_node_set _ _ _ _ _ _ _ hvalid, hidem] at hps'' heq'
        simp only at hps'' heq'
        rw [primitives_at_set_same _ _ _ hvalid] at hps''
        simp only [Option.some.injEq] at hps''
        subst hps''
        simp only [set_primitives_at_set, Function.update_idem] at heq'
        refine ⟨_, heq, heq', rfl, ?_, ?_⟩
        · intro r'
          by_cases hr' : r' = R.2
          · subst hr'
            right
            refine ⟨ps' ++ [p], w' ++ [p], hps1, primitives_at_set_same _ _ _ hvalid, ?_⟩
            have hmem : p ∈ ps' ++ [p] := by simp
            refine (List.perm_append_singleton p w').trans ?_
            exact ((List.Perm.cons p hperm').trans (List.perm_cons_erase hmem).symm)
          · simp only [primitives_at_set_ne _ _ _ _ hr']
            exact same_nodes_refl _ r'
        · intro r'
          simp only [bounds_at_set]

/-- In a reachable state a present primitive is held by exactly one node, once,
and its back-reference names that node; an absent primitive is held by no node. -/
theorem single_owner_of_sim {shape : TreeShape n B} {inside : aabbox3 → B → Prop}
    {good : B → Prop} {rb : B} {D : Nat} {c : Caller} {s : TreeAccelerationStructure n B}
    (hsim : Sim shape inside good rb D c s) (p : Nat) :
    (p ∈ c.present → ∃ r ps, s.m_node p = some r ∧ s.root.primitives_at r = some ps ∧
      ps.count p = 1 ∧ ∀ r' ps', s.root.primitives_at r' = some ps' → p ∈ ps' → r' = r) ∧
    (p ∉ c.present → ∀ r' ps', s.root.primitives_at r' = some ps' → p ∉ ps') := by
  constructor
  · intro hp
    obtain ⟨r, ps, b, hr, hps, hb, hpm, hnd⟩ := hsim.owner p hp
    refine ⟨r, ps, hr, hps, List.count_eq_one_of_mem hnd hpm, ?_⟩
    intro r' ps' hps' hp'
    have := hsim.back_refs r' ps' hps' p hp'
    rw [hr] at this
    simpa using this.symm
  · intro hp r' ps' hps' hp'
    exact hp (hsim.perm.mem_iff.1 (mem_all_primitives_of_primitives_at _ _ _ hps' p hp'))

end TreeAccelerationStructure

/-! ## Lemmas: reachable states of the three indexes -/

section

variable [FloatArithmetic ℚ]

theorem OctreeAccelerationStructure.octree_reach {inside : aabbox3 → aabbox3 → Prop}
    {good : aabbox3 → Prop}
    (geo : OctreeAccelerationStructure.shape.Geometry inside good)
    (m_bounds : Nat → aabbox3) (m_node : Nat → Option (List (Fin 8))) (center extent : float3)
    (max_depth : Nat) (hext : extent.x > 0 ∧ extent.y > 0 ∧ extent.z > 0)
    (hgood : good ⟨center, extent⟩) (admissible : aabbox3 → Bool)
    (hadm : ∀ x, admissible x = true → inside x ⟨center, extent⟩) (calls : List Call)
    (c : Caller) (hc : Caller.run admissible ⟨m_bounds, [], []⟩ calls = some c) :
    ∃ s, OctreeAccelerationStructure.reached m_bounds m_node center extent max_depth calls
        = some s ∧
      TreeAccelerationStructure.Sim OctreeAccelerationStructure.shape inside good
        ⟨center, extent⟩ max_depth c s := by
  obtain ⟨s, hs, hsim⟩ := TreeAccelerationStructure.tree_reach geo ⟨center, extent⟩ hgood max_depth
    m_bounds m_node admissible hadm calls c hc
  refine ⟨s, ?_, hsim⟩
  simp only [OctreeAccelerationStructure.reached, OctreeAccelerationStructure.create, hext,
    and_self, if_true, OctreeAccelerationStructure.run]
  exact hs

theorem QuadtreeAccelerationStructure.quadtree_reach {inside : aabbox3 → aabbox2 → Prop}
    {good : aabbox2 → Prop}
    (geo : QuadtreeAccelerationStructure.shape.Geometry inside good)
    (m_bounds : Nat → aabbox3) (m_node : Nat → Option (List (Fin 4))) (center extent : float2)
    (max_depth : Nat) (hext : extent.x > 0 ∧ extent.y > 0)
    (hgood : good ⟨center, extent⟩) (admissible : aabbox3 → Bool)
    (hadm : ∀ x, admissible x = true → inside x ⟨center, extent⟩) (calls : List Call)
    (c : Caller) (hc : Caller.run admissible ⟨m_bounds, [], []⟩ calls = some c) :
    ∃ s, QuadtreeAccelerationStructure.reached m_bounds m_node center extent max_depth calls
        = some s ∧
      TreeAccelerationStructure.Sim QuadtreeAccelerationStructure.shape inside good
        ⟨center, extent⟩ max_depth c s := by
  obtain ⟨s, hs, hsim⟩ := TreeAccelerationStructure.tree_reach geo ⟨center, extent⟩ hgood max_depth
    m_bounds m_node admissible hadm calls c hc
  refine ⟨s, ?_, hsim⟩
  simp only [QuadtreeAccelerationStructure.reached, QuadtreeAccelerationStructure.create, hext,
    and_self, if_true, QuadtreeAccelerationStructure.run]
  exact hs

end

theorem LinearAccelerationStructure.linear_reach (m_bounds : Nat → aabbox3)
    (admissible : aabbox3 → Bool) (calls : List Call) (c : Caller)
    (hc : Caller.run admissible ⟨m_bounds, [], []⟩ calls = some c) :
    ∃ s, LinearAccelerationStructure.reached m_bounds calls = some s ∧
      LinearAccelerationStructure.Sim c s :=
  LinearAccelerationStructure.linear_sim_run admissible calls
    (LinearAccelerationStructure.linear_sim_create m_bounds) c hc

section

variable [FloatArithmetic ℚ]

theorem OctreeAccelerationStructure.octree_query_aabbox_eq (s : OctreeAccelerationStructure)
    (q : aabbox3) (out : List Nat) :
    OctreeAccelerationStructure.query_aabbox s q out =
      out ++ s.root.query_matches (fun p => intersect_aabbox3_aabbox3 (s.m_bounds p) q)
        (fun b => intersect_aabbox3_aabbox3 b q) :=
  TreeNode.collect_primitives_eq _ _ _ _

theorem OctreeAccelerationStructure.octree_query_frustum_eq (s : OctreeAccelerationStructure)
    (f : frustum) (out : List Nat) :
    OctreeAccelerationStructure.query_frustum s f out =
      out ++ s.root.query_matches (fun p => intersect_aabbox3_frustum (s.m_bounds p) f)
        (fun b => intersect_aabbox3_frustum b f) :=
  TreeNode.collect_primitives_eq _ _ _ _

theorem QuadtreeAccelerationStructure.quadtree_query_aabbox_eq (s : QuadtreeAccelerationStructure)
    (q : aabbox3) (out : List Nat) :
    QuadtreeAccelerationStructure.query_aabbox s q out =
      out ++ s.root.query_matches (fun p => intersect_aabbox3_aabbox3 (s.m_bounds p) q)
        (fun b => intersect_aabbox2_aabbox3 b q) :=
  TreeNode.collect_primitives_eq _ _ _ _

theorem QuadtreeAccelerationStructure.quadtree_query_frustum_eq (s : QuadtreeAccelerationStructure)
    (f : frustum) (out : List Nat) :
    QuadtreeAccelerationStructure.query_frustum s f out =
      out ++ s.root.query_matches (fun p => intersect_aabbox3_frustum (s.m_bounds p) f)
        (fun b => intersect_aabbox3_frustum
          (QuadtreeAccelerationStructure.ersatz_bounds b
            (QuadtreeAccelerationStructure.y_center f)
            (QuadtreeAccelerationStructure.y_extent f)) f) :=
  TreeNode.collect_primitives_eq _ _ _ _

end

/-! ## Lemmas: a tree index against the linear index -/

namespace TreeAccelerationStructure

variable {n : Nat} {B : Type}

open TreeNode

/-- When every present primitive has been updated since its bounds were written,
a query whose node test is implied by its primitive test on every region that
contains the primitive meets, up to order, what the linear index meets. -/
theorem query_matches_perm_linear {shape : TreeShape n B} {inside : aabbox3 → B → Prop}
    {good : B → Prop} (geo : shape.Geometry inside good) {rb : B} {D : Nat} {c : Caller}
    {s : TreeAccelerationStructure n B} {l : LinearAccelerationStructure}
    (hsim : Sim shape inside good rb D c s) (hlin : LinearAccelerationStructure.Sim c l)
    (hstale : c.stale = []) (hit : aabbox3 → Bool) (hn : B → Bool)
    (hgeo : ∀ x b, hit x = true → inside x b → hn b = true) :
    (s.root.query_matches (fun p => hit (s.m_bounds p)) hn).Perm
      (l.m_primitives.filter (fun p => hit (l.m_bounds p))) := by
  have hC : ∀ r ps b, s.root.primitives_at r = some ps → s.root.bounds_at r = some b →
      ∀ p ∈ ps, inside (s.m_bounds p) b := by
    intro r ps b h1 h2 p hp
    exact hsim.contained r ps b h1 h2 p hp (by rw [hstale]; simp)
  have h := (query_matches_eq_filter geo s.m_bounds (fun p => hit (s.m_bounds p)) hn
    (fun p b hp hin => hgeo _ b hp hin) s.root hsim.shaped hC).1
  rw [h, hsim.bounds_eq, hlin.bounds_eq]
  exact (hsim.perm.trans hlin.perm.symm).filter _

/-- With no condition on where the primitives lie, a query of a tree index meets,
up to order, part of what the linear index meets. -/
theorem query_matches_subperm_linear {shape : TreeShape n B} {inside : aabbox3 → B → Prop}
    {good : B → Prop} {rb : B} {D : Nat} {c : Caller}
    {s : TreeAccelerationStructure n B} {l : LinearAccelerationStructure}
    (hsim : Sim shape inside good rb D c s) (hlin : LinearAccelerationStructure.Sim c l)
    (hit : aabbox3 → Bool) (hn : B → Bool) :
    (s.root.query_matches (fun p => hit (s.m_bounds p)) hn).Subperm
      (l.m_primitives.filter (fun p => hit (l.m_bounds p))) := by
  have h := query_matches_sublist (fun p => hit (s.m_bounds p)) hn s.root
  refine h.subperm.trans ?_
  rw [hsim.bounds_eq, hlin.bounds_eq]
  exact ((hsim.perm.trans hlin.perm.symm).filter _).subperm

end TreeAccelerationStructure

theorem OctreeAccelerationStructure.octree_in_region_inside (center extent : float3) (x : aabbox3)
    (h : OctreeAccelerationStructure.in_region center extent x = true) :
    x.inside ⟨center, extent⟩ := by
  simpa [OctreeAccelerationStructure.in_region] using h

theorem QuadtreeAccelerationStructure.quadtree_in_region_inside (center extent : float2) (x : aabbox3)
    (h : QuadtreeAccelerationStructure.in_region center extent x = true) :
    x.inside_footprint ⟨center, extent⟩ := by
  simpa [QuadtreeAccelerationStructure.in_region] using h
/-! ## Lemmas: depth of the nodes and the nodes `find_node` creates -/

namespace TreeNode

variable {n : Nat} {B : Type}

theorem find_node_length (shape : TreeShape n B) (D : Nat) (x : aabbox3) (t : TreeNode n B)
    (d : Nat) : (find_node shape D x t d).2.length ≤ D - d := by
  induction t, d using find_node.induct shape D x with
  | case1 d => simp
  | case2 ch ps b d hd => rw [find_node_depth _ _ _ _ _ _ _ hd]; simp
  | case3 ch ps b d hd hi => rw [find_node_straddle _ _ _ _ _ _ _ hd hi]; simp
  | case4 ch ps b d hd i hi child ih =>
    rw [find_node_descend _ _ _ _ _ _ _ hd i hi]
    simp only [List.length_cons]
    simp only [child] at ih
    omega

/-- A node of the tree after `find_node` was there before or lies within the
depth limit. -/
theorem bounds_at_find_node_depth (shape : TreeShape n B) (D : Nat) (x : aabbox3)
    (t : TreeNode n B) (d : Nat) (r : List (Fin n))
    (h : ((find_node shape D x t d).1.bounds_at r).isSome) :
    (t.bounds_at r).isSome ∨ r.length + d ≤ D := by
  induction t, d using find_node.induct shape D x generalizing r with
  | case1 d => simp at h
  | case2 ch ps b d hd => rw [find_node_depth _ _ _ _ _ _ _ hd] at h; exact Or.inl h
  | case3 ch ps b d hd hi => rw [find_node_straddle _ _ _ _ _ _ _ hd hi] at h; exact Or.inl h
  | case4 ch ps b d hd i hi child ih =>
    rw [find_node_descend _ _ _ _ _ _ _ hd i hi] at h
    cases r with
    | nil => left; simp
    | cons j r =>
      by_cases hj : j = i
      · subst hj
        simp only [bounds_at, Function.update_same] at h
        have ih' := ih r
        simp only [child] at ih'
        cases hc : ch j with
        | null =>
          rw [hc] at ih' h
          rcases ih' h with h1 | h1
          · right
            cases r with
            | nil => simp; omega
            | cons k r => simp [create_if_null, fresh] at h1
          · right; simp only [List.length_cons]; omega
        | node ch' ps' b' =>
          rw [hc] at ih' h
          rcases ih' h with h1 | h1
          · left; simpa [bounds_at, hc, create_if_null] using h1
          · right; simp only [List.length_cons]; omega
      · left
        simpa [bounds_at, Function.update_noteq hj] using h

/-- The nodes along the reference `find_node` returns: at each of them above the
last the depth limit is not reached and the child index is the next step; at the
last the depth limit is reached or there is no child index. -/
theorem find_node_path (shape : TreeShape n B) (D : Nat) (x : aabbox3) (t : TreeNode n B)
    (d : Nat) (h : t ≠ null) :
    (∀ k j, (find_node shape D x t d).2[k]? = some j →
      ∃ b, (find_node shape D x t d).1.bounds_at ((find_node shape D x t d).2.take k) = some b ∧
        shape.child_index x b = some j ∧ k + d < D) ∧
    ∃ b, (find_node shape D x t d).1.bounds_at (find_node shape D x t d).2 = some b ∧
      ((find_node shape D x t d).2.length + d ≥ D ∨ shape.child_index x b = none) := by
  induction t, d using find_node.induct shape D x with
  | case1 d => exact absurd rfl h
  | case2 ch ps b d hd =>
    rw [find_node_depth _ _ _ _ _ _ _ hd]
    exact ⟨by simp, b, rfl, Or.inl (by simpa using hd)⟩
  | case3 ch ps b d hd hi =>
    rw [find_node_straddle _ _ _ _ _ _ _ hd hi]
    exact ⟨by simp, b, rfl, Or.inr hi⟩
  | case4 ch ps b d hd i hi child ih =>
    rw [find_node_descend _ _ _ _ _ _ _ hd i hi]
    have hne : child ≠ null := by
      simp only [child]
      cases ch i <;> simp [create_if_null, fresh]
    obtain ⟨ih1, b', hb', hstop⟩ := ih hne
    simp only [child] at ih1 hb' hstop
    constructor
    · intro k j hk
      cases k with
      | zero =>
        simp only [List.getElem?_cons_zero, Option.some.injEq] at hk
        subst hk
        exact ⟨b, by simp, hi, by omega⟩
      | succ k =>
        simp only [List.getElem?_cons_succ] at hk
        obtain ⟨b1, hb1, hi1, hk1⟩ := ih1 k j hk
        exact ⟨b1, by simpa [bounds_at] using hb1, hi1, by omega⟩
    · refine ⟨b', by simpa [bounds_at] using hb', ?_⟩
      rcases hstop with h1 | h1
      · left; simp only [List.length_cons]; omega
      · right; exact h1

theorem sum_map_update (f : Fin n → Nat) (i : Fin n) (v : Nat) :
    ((List.finRange n).map (Function.update f i v)).sum + f i =
      ((List.finRange n).map f).sum + v := by
  rw [← Fin.sum_univ_def, ← Fin.sum_univ_def, Finset.sum_update_of_mem (Finset.mem_univ i),
    ← Finset.add_sum_erase _ f (Finset.mem_univ i), Finset.sdiff_singleton_eq_erase]
  omega

theorem count_nodes_node (ch : Fin n → TreeNode n B) (ps : List Nat) (b : B) :
    (node ch ps b).count_nodes = 1 + ((List.finRange n).map (fun i => (ch i).count_nodes)).sum := by
  rw [count_nodes]

theorem count_nodes_update (ch : Fin n → TreeNode n B) (ps ps' : List Nat) (b : B) (i : Fin n)
    (t : TreeNode n B) :
    (node (Function.update ch i t) ps' b).count_nodes + (ch i).count_nodes =
      (node ch ps b).count_nodes + t.count_nodes := by
  rw [count_nodes_node, count_nodes_node]
  have hf : (fun j => (Function.update ch i t j).count_nodes) =
      Function.update (fun j => (ch j).count_nodes) i t.count_nodes := by
    funext j
    by_cases hj : j = i
    · subst hj; simp
    · simp [Function.update_noteq hj]
  rw [hf]
  have := sum_map_update (fun j => (ch j).count_nodes) i t.count_nodes
  simp only at this
  omega

theorem count_nodes_set (t : TreeNode n B) (r : List (Fin n)) (new : List Nat) :
    (t.set_primitives_at r new).count_nodes = t.count_nodes := by
  induction r generalizing t with
  | nil =>
    cases t with
    | null => simp [set_primitives_at]
    | node ch ps b => simp [set_primitives_at, count_nodes_node]
  | cons i r ih =>
    cases t with
    | null => simp [set_primitives_at]
    | node ch ps b =>
      simp only [set_primitives_at]
      have := count_nodes_update ch ps ps b i ((ch i).set_primitives_at r new)
      rw [ih] at this
      omega

/-- The call `find_node` creates some number `k` of nodes and makes `k` calls of
`allocate(sizeof_node)`. -/
theorem find_node_count (size_bits sizeof_node : Nat) (shape : TreeShape n B) (D : Nat)
    (x : aabbox3) (t : TreeNode n B) (d : Nat) (mr : CountMemoryResource) :
    ∃ k, (find_node shape D x t d).1.count_nodes = t.count_nodes + k ∧
      find_node_memory size_bits sizeof_node shape D x t d mr =
        (fun m => CountMemoryResource.allocate size_bits m sizeof_node)^[k] mr := by
  induction t, d using find_node.induct shape D x generalizing mr with
  | case1 d => exact ⟨0, by simp, by simp [find_node_memory]⟩
  | case2 ch ps b d hd =>
    refine ⟨0, by rw [find_node_depth _ _ _ _ _ _ _ hd]; simp, ?_⟩
    rw [find_node_memory, if_pos hd]; simp
  | case3 ch ps b d hd hi =>
    refine ⟨0, by rw [find_node_straddle _ _ _ _ _ _ _ hd hi]; simp, ?_⟩
    rw [find_node_memory, if_neg hd, hi]; simp
  | case4 ch ps b d hd i hi child ih =>
    rw [find_node_descend _ _ _ _ _ _ _ hd i hi]
    rw [find_node_memory, if_neg hd, hi]
    simp only
    have hcount := count_nodes_update ch ps ps b i
      (find_node shape D x ((ch i).create_if_null (shape.child_bounds b i)) (d + 1)).1
    cases hc : ch i with
    | null =>
      obtain ⟨k, hk1, hk2⟩ := ih (mr.allocate size_bits sizeof_node)
      simp only [child, hc] at hk1 hk2
      rw [hc] at hcount
      refine ⟨k + 1, ?_, ?_⟩
      · simp only [create_if_null, fresh, count_nodes_node] at hk1 hcount ⊢
        simp only [count_nodes] at hk1 hcount ⊢
        simp at hk1 hcount ⊢
        omega
      · rw [hk2, Function.iterate_succ_apply]
    | node ch' ps' b' =>
      obtain ⟨k, hk1, hk2⟩ := ih mr
      simp only [child, hc] at hk1 hk2
      rw [hc] at hcount
      refine ⟨k, ?_, ?_⟩
      · simp only [create_if_null] at hk1 hcount ⊢
        omega
      · rw [hk2]

theorem count_nodes_fresh (b : B) : (fresh b : TreeNode n B).count_nodes = 1 := by
  simp [fresh, count_nodes_node, count_nodes]

end TreeNode
/-! ## Lemmas: what one call does to the root and to the memory resource -/

namespace TreeAccelerationStructure

variable {n : Nat} {B : Type}

open TreeNode

/-- A call that passes its assertions leaves `m_max_depth` as it is; the new root
is the old one, possibly with one list replaced, or that tree after a `find_node`
from the root with one list replaced.  The memory resource is called in the
second case only, by `find_node`. -/
theorem step_cases (size_bits sizeof_node : Nat) (shape : TreeShape n B)
    (s s' : TreeAccelerationStructure n B) (mr : CountMemoryResource) (call : Call)
    (h : s.step shape call = some s') :
    s'.m_max_depth = s.m_max_depth ∧
    ∃ t, (t = s.root ∨ ∃ r w, t = s.root.set_primitives_at r w) ∧
      ((s'.root = t ∧ s.memory_after size_bits sizeof_node shape mr call = mr) ∨
        ∃ x r w, s'.root = (t.find_node shape s.m_max_depth x 0).1.set_primitives_at r w ∧
          s.memory_after size_bits sizeof_node shape mr call =
            t.find_node_memory size_bits sizeof_node shape s.m_max_depth x 0 mr) := by
  cases call with
  | add p =>
    simp only [step, add] at h
    cases hps : (s.root.find_node shape s.m_max_depth (s.m_bounds p) 0).1.primitives_at
        (s.root.find_node shape s.m_max_depth (s.m_bounds p) 0).2 with
    | none => rw [hps] at h; simp at h
    | some ps =>
      rw [hps] at h
      by_cases hp : p ∈ ps
      · simp [hp] at h
      · simp only [hp, if_false, Option.some.injEq] at h
        subst h
        exact ⟨rfl, s.root, Or.inl rfl, Or.inr ⟨s.m_bounds p, _, _, rfl, rfl⟩⟩
  | remove p =>
    cases hmn : s.m_node p with
    | none => simp [step, remove, hmn] at h
    | some r =>
      cases hps : s.root.primitives_at r with
      | none => simp [step, remove, hmn, hps] at h
      | some ps =>
        cases hw : vector_erase_swap ps p with
        | none => simp [step, remove, hmn, hps, hw] at h
        | some w =>
          simp only [step, remove, hmn, hps, hw, Option.some.injEq] at h
          subst h
          exact ⟨rfl, s.root.set_primitives_at r w, Or.inr ⟨r, w, rfl⟩, Or.inl ⟨rfl, rfl⟩⟩
  | update p =>
    cases hmn : s.m_node p with
    | none => simp [step, update, hmn] at h
    | some r =>
      cases hb : s.root.bounds_at r with
      | none => simp [step, update, hmn, hb] at h
      | some b =>
        cases hps : s.root.primitives_at r with
        | none => simp [step, update, hmn, hb, hps] at h
        | some ps =>
          cases hout : shape.outside (s.m_bounds p) b with
          | false =>
            simp only [step, update, hmn, hb, hps, hout, Bool.false_eq_true, if_false,
              Option.some.injEq] at h
            subst h
            refine ⟨rfl, s.root, Or.inl rfl, Or.inl ⟨rfl, ?_⟩⟩
            simp [memory_after, hmn, hb, hps, hout]
          | true =>
            cases hw : vector_erase_swap ps p with
            | none => simp [step, update, hmn, hb, hps, hout, hw] at h
            | some w =>
              cases hps' : ((s.root.set_primitives_at r w).find_node shape s.m_max_depth
                  (s.m_bounds p) 0).1.primitives_at
                  ((s.root.set_primitives_at r w).find_node shape s.m_max_depth
                    (s.m_bounds p) 0).2 with
              | none => simp [step, update, hmn, hb, hps, hout, hw, hps'] at h
              | some ps' =>
                simp only [step, update, hmn, hb, hps, hout, hw, hps', if_true,
                  Option.some.injEq] at h
                subst h
                refine ⟨rfl, s.root.set_primitives_at r w, Or.inr ⟨r, w, rfl⟩,
                  Or.inr ⟨s.m_bounds p, _, _, rfl, ?_⟩⟩
                simp [memory_after, hmn, hb, hps, hout, hw]
  | set_bounds p x =>
    simp only [step, Option.some.injEq] at h
    subst h
    exact ⟨rfl, s.root, Or.inl rfl, Or.inl ⟨rfl, rfl⟩⟩

theorem run_invariant (shape : TreeShape n B) (P : TreeAccelerationStructure n B → Prop)
    (hstep : ∀ s call s', P s → s.step shape call = some s' → P s') (calls : List Call)
    (s s' : TreeAccelerationStructure n B) (h0 : P s) (h : s.run shape calls = some s') :
    P s' := by
  induction calls generalizing s with
  | nil => simp only [run, Option.some.injEq] at h; subst h; exact h0
  | cons call calls ih =>
    simp only [run] at h
    cases hs : s.step shape call with
    | none => rw [hs] at h; simp at h
    | some s1 => rw [hs] at h; exact ih s1 (hstep s call s1 h0 hs) h

/-- No call puts a node deeper than `m_max_depth` below the root. -/
theorem depth_step (shape : TreeShape n B) (D : Nat) (s s' : TreeAccelerationStructure n B)
    (call : Call)
    (h0 : s.m_max_depth = D ∧ ∀ r, (s.root.bounds_at r).isSome → r.length ≤ D)
    (h : s.step shape call = some s') :
    s'.m_max_depth = D ∧ ∀ r, (s'.root.bounds_at r).isSome → r.length ≤ D := by
  obtain ⟨hD, t, ht, hroot⟩ := step_cases 0 0 shape s s' ⟨0⟩ call h
  have htb : ∀ r, (t.bounds_at r).isSome → r.length ≤ D := by
    intro r hr
    rcases ht with rfl | ⟨r0, w, rfl⟩
    · exact h0.2 r hr
    · rw [bounds_at_set] at hr; exact h0.2 r hr
  refine ⟨hD.trans h0.1, ?_⟩
  intro r hr
  rcases hroot with ⟨h1, _⟩ | ⟨x, r1, w1, h1, _⟩
  · rw [h1] at hr; exact htb r hr
  · rw [h1, bounds_at_set] at hr
    rcases bounds_at_find_node_depth shape _ x t 0 r hr with h2 | h2
    · exact htb r h2
    · rw [h0.1] at h2; simpa using h2

theorem depth_fresh (b : B) (D : Nat) (r : List (Fin n))
    (h : ((fresh b : TreeNode n B).bounds_at r).isSome) : r.length ≤ D := by
  cases r with
  | nil => simp
  | cons i r => simp [fresh, bounds_at] at h

theorem depth_run (shape : TreeShape n B) (D : Nat) (b : B) (mb : Nat → aabbox3)
    (mn : Nat → Option (List (Fin n))) (calls : List Call) (s : TreeAccelerationStructure n B)
    (h : run shape ⟨fresh b, D, mb, mn⟩ calls = some s) :
    s.m_max_depth = D ∧ ∀ r, (s.root.bounds_at r).isSome → r.length ≤ D :=
  run_invariant shape
    (fun s => s.m_max_depth = D ∧ ∀ r, (s.root.bounds_at r).isSome → r.length ≤ D)
    (fun s call s' h0 h => depth_step shape D s s' call h0 h) calls _ s
    ⟨rfl, fun r hr => depth_fresh b D r hr⟩ h

/-- One call creates some number `k` of nodes and makes `k` calls of
`allocate(sizeof_node)`. -/
theorem memory_after_count (size_bits sizeof_node : Nat) (shape : TreeShape n B)
    (s s' : TreeAccelerationStructure n B) (mr : CountMemoryResource) (call : Call)
    (h : s.step shape call = some s') :
    ∃ k, s'.root.count_nodes = s.root.count_nodes + k ∧
      s.memory_after size_bits sizeof_node shape mr call =
        (fun m => CountMemoryResource.allocate size_bits m sizeof_node)^[k] mr := by
  obtain ⟨_, t, ht, hroot⟩ := step_cases size_bits sizeof_node shape s s' mr call h
  have htc : t.count_nodes = s.root.count_nodes := by
    rcases ht with rfl | ⟨r0, w, rfl⟩
    · rfl
    · exact count_nodes_set _ _ _
  rcases hroot with ⟨h1, h2⟩ | ⟨x, r1, w1, h1, h2⟩
  · exact ⟨0, by rw [h1, htc]; rfl, by rw [h2]; rfl⟩
  · obtain ⟨k, hk1, hk2⟩ := find_node_count size_bits sizeof_node shape s.m_max_depth x t 0 mr
    exact ⟨k, by rw [h1, count_nodes_set, hk1, htc], by rw [h2, hk2]⟩

end TreeAccelerationStructure

namespace CountMemoryResource

theorem allocate_iterate (size_bits size : Nat) (mr : CountMemoryResource)
    (h : mr.allocated < 2 ^ size_bits) (k : Nat) :
    ((fun m => allocate size_bits m size)^[k] mr).allocated =
      (mr.allocated + size * k) % 2 ^ size_bits := by
  induction k with
  | zero => simp [Nat.mod_eq_of_lt h]
  | succ k ih =>
    rw [Function.iterate_succ_apply']
    show (((fun m => allocate size_bits m size)^[k] mr).allocated + size) % 2 ^ size_bits = _
    rw [ih, Nat.mod_add_mod]
    congr 1
    ring

end CountMemoryResource
/-! ## Lemmas: the child index, the boundary rule and the octants -/

namespace OctreeAccelerationStructure

section

variable [FloatArithmetic ℚ]

theorem octree_child_index_none_iff (x b : aabbox3) :
    child_index x b = none ↔ straddles x b := by
  simp only [child_index, straddles, axis_straddles, bind, Option.bind, pure]
  split_ifs <;> simp <;>
    first
    | (refine ⟨fun h => ?_, fun h => ?_, fun h => ?_⟩ <;> linarith)
    | (left; constructor <;> linarith)
    | (right; left; constructor <;> linarith)
    | (right; right; constructor <;> linarith)

end

theorem octree_bits_eq (i j : Fin 8) (h0 : i.val.testBit 0 = j.val.testBit 0)
    (h1 : i.val.testBit 1 = j.val.testBit 1) (h2 : i.val.testBit 2 = j.val.testBit 2) :
    i = j := by
  revert i j; decide

section

variable [FloatArithmetic ℚ]

theorem octree_child_index_bits (x b : aabbox3) (i : Fin 8) (h : child_index x b = some i) :
    negative_bits x b i := by
  simp only [child_index, bind, Option.bind, pure] at h
  simp only [negative_bits, axis_negative]
  split_ifs at h <;> simp only [Option.some.injEq] at h <;> subst h <;>
    simp only [ge_iff_le, *, not_true_eq_false, not_false_eq_true, and_self, and_true, true_and,
      false_and, and_false, iff_true, iff_false, Bool.not_eq_true] <;> decide

theorem octree_negative_bits_unique (x b : aabbox3) (i j : Fin 8) (hi : negative_bits x b i)
    (hj : negative_bits x b j) : i = j := by
  obtain ⟨a0, a1, a2⟩ := hi
  obtain ⟨b0, b1, b2⟩ := hj
  apply octree_bits_eq
  · exact Bool.eq_iff_iff.2 (a0.trans b0.symm)
  · exact Bool.eq_iff_iff.2 (a1.trans b1.symm)
  · exact Bool.eq_iff_iff.2 (a2.trans b2.symm)

theorem octree_child_index_some_iff (x b : aabbox3) (i : Fin 8) :
    child_index x b = some i ↔ ¬ straddles x b ∧ negative_bits x b i := by
  constructor
  · intro h
    refine ⟨fun hs => ?_, octree_child_index_bits x b i h⟩
    rw [← octree_child_index_none_iff, h] at hs; simp at hs
  · rintro ⟨hs, hb⟩
    cases hc : child_index x b with
    | none => exact absurd ((octree_child_index_none_iff x b).1 hc) hs
    | some j => rw [octree_negative_bits_unique x b i j hb (octree_child_index_bits x b j hc)]

theorem octree_outside_iff (x b : aabbox3) : outside x b = false ↔ fits x b := by
  simp only [outside, fits, axis_fits, Bool.or_eq_false_iff, decide_eq_false_iff_not, not_lt,
    ge_iff_le, not_le]
  tauto

end

section

variable [FloatArithmetic ℚ] [FloatArithmetic.Exact ℚ]

/-- The geometry of the octree with no condition on where the primitives lie: node
extents stay non-negative. -/
theorem octree_geometry_good : shape.Geometry (fun _ _ => True) aabbox3.nonneg where
  child_good := octree_geometry.child_good
  descend := fun _ _ _ _ _ => trivial
  ascend := fun _ _ _ _ _ => trivial
  stay := fun _ _ _ => trivial

end

theorem octree_rev_bit (i : Fin 8) : (Fin.rev i).val.testBit 0 = !(i.val.testBit 0) := by
  revert i; decide

theorem octree_rev_ne (i : Fin 8) : Fin.rev i ≠ i := by
  revert i; decide

theorem octree_factor_x (i : Fin 8) :
    (OCTREE_EXTENT_FACTORS i).x = if i.val.testBit 0 = true then -1 else 1 := by
  fin_cases i <;> simp [OCTREE_EXTENT_FACTORS]

section

variable [FloatArithmetic ℚ] [FloatArithmetic.Exact ℚ]

theorem child_index_of_strictly (b : aabbox3) (i : Fin 8) (x : aabbox3)
    (h : strictly_in_octant b i x) : child_index x b = some i := by
  rw [octree_child_index_some_iff]
  obtain ⟨⟨h0, h0'⟩, ⟨h1, h1'⟩, ⟨h2, h2'⟩⟩ := h
  simp only [fadd_exact, fsub_exact, fmul_exact, fdiv_exact, straddles, axis_straddles, negative_bits, axis_negative]
  cases hb0 : i.val.testBit 0 <;> cases hb1 : i.val.testBit 1 <;> cases hb2 : i.val.testBit 2 <;>
    simp only [fadd_exact, fsub_exact, fmul_exact, fdiv_exact, hb0, hb1, hb2, Bool.false_eq_true, if_false, if_true] at h0' h1' h2' <;>
    (refine ⟨?_, ?_, ?_, ?_⟩ <;>
      first
      | (rintro (h | h | h) <;> linarith [h.1, h.2, h0'.1, h0'.2, h1'.1, h1'.2, h2'.1, h2'.2])
      | (simp only [fadd_exact, fsub_exact, fmul_exact, fdiv_exact, Bool.false_eq_true, false_iff, true_iff, not_and, not_lt, not_le, ge_iff_le]
         first
         | (intro _; linarith [h0'.1, h0'.2, h1'.1, h1'.2, h2'.1, h2'.2])
         | (constructor <;> linarith [h0'.1, h0'.2, h1'.1, h1'.2, h2'.1, h2'.2])))

/-- A box strictly inside one octant does not lie in the region of the child of the
diagonally opposite octant. -/
theorem not_inside_opposite (b : aabbox3) (i : Fin 8) (x : aabbox3)
    (h : strictly_in_octant b (Fin.rev i) x) : ¬ x.inside (child_bounds b i) := by
  intro hin
  obtain ⟨h1, h2, _⟩ := hin
  obtain ⟨⟨h0, h0'⟩, _⟩ := h
  rw [octree_rev_bit] at h0'
  simp only [fadd_exact, fsub_exact, fmul_exact, fdiv_exact, child_bounds, octree_factor_x] at h1 h2
  cases hb0 : i.val.testBit 0 <;>
    simp only [fadd_exact, fsub_exact, fmul_exact, fdiv_exact, hb0, Bool.false_eq_true, if_false, if_true, Bool.not_false, Bool.not_true] at h0' h1 h2 <;>
    linarith [h0'.1, h0'.2]

/-- Boxes strictly inside two diagonally opposite octants do not intersect. -/
theorem no_hit_opposite (b : aabbox3) (i : Fin 8) (x q : aabbox3)
    (hx : strictly_in_octant b (Fin.rev i) x) (hq : strictly_in_octant b i q) :
    intersect_aabbox3_aabbox3 x q = false := by
  cases hh : intersect_aabbox3_aabbox3 x q with
  | false => rfl
  | true =>
    exfalso
    rw [intersect_aabbox3_aabbox3_iff] at hh
    obtain ⟨h1, _⟩ := hh
    rw [abs_le] at h1
    obtain ⟨⟨hx0, hx0'⟩, _⟩ := hx
    obtain ⟨⟨hq0, hq0'⟩, _⟩ := hq
    rw [octree_rev_bit] at hx0'
    cases hb0 : i.val.testBit 0 <;>
      simp only [fadd_exact, fsub_exact, fmul_exact, fdiv_exact, hb0, Bool.false_eq_true, if_false, if_true, Bool.not_false, Bool.not_true]
        at hx0' hq0' <;>
      linarith [hx0'.1, hx0'.2, hq0'.1, hq0'.2, h1.1, h1.2]

end

end OctreeAccelerationStructure

namespace QuadtreeAccelerationStructure

section

variable [FloatArithmetic ℚ]

theorem quadtree_child_index_none_iff (x : aabbox3) (b : aabbox2) :
    child_index x b = none ↔ straddles x b := by
  simp only [child_index, straddles, axis_straddles, bind, Option.bind, pure]
  split_ifs <;> simp <;>
    first
    | (refine ⟨fun h => ?_, fun h => ?_⟩ <;> linarith)
    | (left; constructor <;> linarith)
    | (right; constructor <;> linarith)

end

theorem quadtree_bits_eq (i j : Fin 4) (h0 : i.val.testBit 0 = j.val.testBit 0)
    (h1 : i.val.testBit 1 = j.val.testBit 1) : i = j := by
  revert i j; decide

section

variable [FloatArithmetic ℚ]

theorem quadtree_child_index_bits (x : aabbox3) (b : aabbox2) (i : Fin 4)
    (h : child_index x b = some i) : negative_bits x b i := by
  simp only [child_index, bind, Option.bind, pure] at h
  simp only [negative_bits, axis_negative]
  split_ifs at h <;> simp only [Option.some.injEq] at h <;> subst h <;>
    simp only [ge_iff_le, *, not_true_eq_false, not_false_eq_true, and_self, and_true, true_and,
      false_and, and_false, iff_true, iff_false, Bool.not_eq_true] <;> decide

theorem quadtree_negative_bits_unique (x : aabbox3) (b : aabbox2) (i j : Fin 4)
    (hi : negative_bits x b i) (hj : negative_bits x b j) : i = j := by
  obtain ⟨a0, a1⟩ := hi
  obtain ⟨b0, b1⟩ := hj
  apply quadtree_bits_eq
  · exact Bool.eq_iff_iff.2 (a0.trans b0.symm)
  · exact Bool.eq_iff_iff.2 (a1.trans b1.symm)

theorem quadtree_child_index_some_iff (x : aabbox3) (b : aabbox2) (i : Fin 4) :
    child_index x b = some i ↔ ¬ straddles x b ∧ negative_bits x b i := by
  constructor
  · intro h
    refine ⟨fun hs => ?_, quadtree_child_index_bits x b i h⟩
    rw [← quadtree_child_index_none_iff, h] at hs; simp at hs
  · rintro ⟨hs, hb⟩
    cases hc : child_index x b with
    | none => exact absurd ((quadtree_child_index_none_iff x b).1 hc) hs
    | some j => rw [quadtree_negative_bits_unique x b i j hb (quadtree_child_index_bits x b j hc)]

theorem quadtree_outside_iff (x : aabbox3) (b : aabbox2) : outside x b = false ↔ fits x b := by
  simp only [outside, fits, axis_fits, Bool.or_eq_false_iff, decide_eq_false_iff_not, not_lt,
    ge_iff_le, not_le]
  tauto

end

end QuadtreeAccelerationStructure

namespace TreeNode

variable {n : Nat} {B : Type}

/-- In a shaped tree the region of a node lies in the region of the root. -/
theorem inside_root_of_bounds_at {shape : TreeShape n B} {inside : aabbox3 → B → Prop}
    {good : B → Prop} (geo : shape.Geometry inside good) (t : TreeNode n B)
    (ht : t.Shaped shape good) (r : List (Fin n)) (b b0 : B) (hb : t.bounds_at r = some b)
    (h0 : t.bounds_at [] = some b0) (x : aabbox3) (hx : inside x b) : inside x b0 := by
  induction r generalizing t b0 with
  | nil => rw [hb] at h0; simp only [Option.some.injEq] at h0; subst h0; exact hx
  | cons i r ih =>
    cases t with
    | null => simp at hb
    | node ch ps nb =>
      simp only [bounds_at, Option.some.injEq] at h0
      subst h0
      simp only [bounds_at] at hb
      simp only [Shaped] at ht
      obtain ⟨hgood, hch⟩ := ht
      obtain ⟨hcb, hcs⟩ := hch i
      obtain ⟨b1, hb1⟩ : ∃ b1, (ch i).bounds_at [] = some b1 := by
        cases hc : ch i with
        | null => rw [hc] at hb; simp at hb
        | node ch' ps' b' => exact ⟨b', rfl⟩
      have := ih (ch i) hcs b1 hb hb1
      rw [hcb b1 hb1] at this
      exact geo.ascend x nb i hgood this

/-- In a shaped tree the region of a node below the child in slot `i` of the root
lies in the region `find_node` gives to that child. -/
theorem inside_child_of_bounds_at {shape : TreeShape n B} {inside : aabbox3 → B → Prop}
    {good : B → Prop} (geo : shape.Geometry inside good) (t : TreeNode n B)
    (ht : t.Shaped shape good) (i : Fin n) (r : List (Fin n)) (b b0 : B)
    (hb : t.bounds_at (i :: r) = some b) (h0 : t.bounds_at [] = some b0) (x : aabbox3)
    (hx : inside x b) : inside x (shape.child_bounds b0 i) := by
  cases t with
  | null => simp at hb
  | node ch ps nb =>
    simp only [bounds_at, Option.some.injEq] at h0
    subst h0
    simp only [bounds_at] at hb
    simp only [Shaped] at ht
    obtain ⟨hgood, hch⟩ := ht
    obtain ⟨hcb, hcs⟩ := hch i
    obtain ⟨b1, hb1⟩ : ∃ b1, (ch i).bounds_at [] = some b1 := by
      cases hc : ch i with
      | null => rw [hc] at hb; simp at hb
      | node ch' ps' b' => exact ⟨b', rfl⟩
    have := inside_root_of_bounds_at geo (ch i) hcs r b b1 hb hb1 x hx
    rw [hcb b1 hb1] at this
    exact this

end TreeNode
/-! ## Lemmas: a new index and its runs -/

section

variable [FloatArithmetic ℚ]

theorem OctreeAccelerationStructure.octree_reached_eq (m_bounds : Nat → aabbox3)
    (m_node : Nat → Option (List (Fin 8))) (center extent : float3) (max_depth : Nat)
    (hext : extent.x > 0 ∧ extent.y > 0 ∧ extent.z > 0) (calls : List Call) :
    OctreeAccelerationStructure.reached m_bounds m_node center extent max_depth calls =
      TreeAccelerationStructure.run OctreeAccelerationStructure.shape
        ⟨TreeNode.fresh ⟨center, extent⟩, max_depth, m_bounds, m_node⟩ calls := by
  simp only [OctreeAccelerationStructure.reached, OctreeAccelerationStructure.create, hext,
    and_self, if_true, OctreeAccelerationStructure.run]

theorem QuadtreeAccelerationStructure.quadtree_reached_eq (m_bounds : Nat → aabbox3)
    (m_node : Nat → Option (List (Fin 4))) (center extent : float2) (max_depth : Nat)
    (hext : extent.x > 0 ∧ extent.y > 0) (calls : List Call) :
    QuadtreeAccelerationStructure.reached m_bounds m_node center extent max_depth calls =
      TreeAccelerationStructure.run QuadtreeAccelerationStructure.shape
        ⟨TreeNode.fresh ⟨center, extent⟩, max_depth, m_bounds, m_node⟩ calls := by
  simp only [QuadtreeAccelerationStructure.reached, QuadtreeAccelerationStructure.create, hext,
    and_self, if_true, QuadtreeAccelerationStructure.run]

end

namespace TreeAccelerationStructure

variable {n : Nat} {B : Type}

open TreeNode

/-- In a state reached from a new index no node lies deeper than `max_depth`, and
`find_node` from the root returns a node within that depth; with `max_depth = 0`
it returns the root and leaves the tree as it is. -/
theorem depth_of_run (shape : TreeShape n B) (D : Nat) (b : B) (mb : Nat → aabbox3)
    (mn : Nat → Option (List (Fin n))) (calls : List Call) (s : TreeAccelerationStructure n B)
    (h : run shape ⟨fresh b, D, mb, mn⟩ calls = some s) (hroot : s.root ≠ null) :
    s.m_max_depth = D ∧
    (∀ r, (s.root.bounds_at r).isSome → r.length ≤ D) ∧
    ∀ x, (s.root.find_node shape D x 0).2.length ≤ D ∧
      ((s.root.find_node shape D x 0).1.bounds_at (s.root.find_node shape D x 0).2).isSome ∧
      (∀ r, ((s.root.find_node shape D x 0).1.bounds_at r).isSome → r.length ≤ D) ∧
      (D = 0 → s.root.find_node shape D x 0 = (s.root, [])) := by
  obtain ⟨hD, hdepth⟩ := depth_run shape D b mb mn calls s h
  refine ⟨hD, hdepth, fun x => ⟨?_, ?_, ?_, ?_⟩⟩
  · simpa using find_node_length shape D x s.root 0
  · rw [bounds_at_isSome]; exact find_node_valid shape D x s.root 0 hroot
  · intro r hr
    rcases bounds_at_find_node_depth shape D x s.root 0 r hr with h1 | h1
    · exact hdepth r h1
    · simpa using h1
  · intro h0
    cases hr : s.root with
    | null => exact absurd hr hroot
    | node ch ps nb => exact find_node_depth shape D x ch ps nb 0 (by omega)

end TreeAccelerationStructure
/-! ## Lemmas: where `add` and `update` leave a primitive -/

namespace TreeAccelerationStructure

variable {n : Nat} {B : Type}

open TreeNode

/-- The node `find_node` returns from the root is at depth `D` or gives the box no
child index. -/
theorem find_node_stop (shape : TreeShape n B) (D : Nat) (x : aabbox3) (t : TreeNode n B)
    (h : t ≠ null) :
    ∃ b, (find_node shape D x t 0).1.bounds_at (find_node shape D x t 0).2 = some b ∧
      (shape.child_index x b = none ∨ (find_node shape D x t 0).2.length = D) := by
  obtain ⟨_, b, hb, hstop⟩ := find_node_path shape D x t 0 h
  refine ⟨b, hb, ?_⟩
  rcases hstop with h1 | h1
  · right
    have := find_node_length shape D x t 0
    omega
  · left; exact h1

theorem add_placed {shape : TreeShape n B} {inside : aabbox3 → B → Prop} {good : B → Prop}
    {rb : B} {D : Nat} {c : Caller} {s : TreeAccelerationStructure n B}
    (hsim : Sim shape inside good rb D c s) (p : Nat) (hp : p ∉ c.present) :
    ∃ s' r ps b, s.add shape p = some s' ∧ s'.m_node p = some r ∧
      s'.root.primitives_at r = some ps ∧ p ∈ ps ∧ s'.root.bounds_at r = some b ∧
      (shape.child_index (s.m_bounds p) b = none ∨ r.length = D) := by
  have hroot := root_ne_of_sim hsim
  have hnot : p ∉ s.root.all_primitives := fun h => hp (hsim.perm.mem_iff.1 h)
  obtain ⟨ps, hps, _, heq⟩ := add_eq shape s p hroot hnot
  obtain ⟨b, hb, hstop⟩ := find_node_stop shape s.m_max_depth (s.m_bounds p) s.root hroot
  refine ⟨_, _, ps ++ [p], b, heq, by simp, ?_, by simp, ?_,
    hstop.imp id (fun h => h.trans hsim.depth_eq)⟩
  · exact primitives_at_set_same _ _ _ (by rw [hps]; rfl)
  · simp only [bounds_at_set]; exact hb

theorem update_placed {shape : TreeShape n B} {inside : aabbox3 → B → Prop} {good : B → Prop}
    {rb : B} {D : Nat} {c : Caller} {s : TreeAccelerationStructure n B}
    (hsim : Sim shape inside good rb D c s) (p : Nat) (hp : p ∈ c.present) :
    ∃ s' r ps b, s.update shape p = some s' ∧ s'.m_node p = some r ∧
      s'.root.primitives_at r = some ps ∧ p ∈ ps ∧ s'.root.bounds_at r = some b ∧
      ((s' = s ∧ shape.outside (s.m_bounds p) b = false) ∨
        shape.child_index (s.m_bounds p) b = none ∨ r.length = D) := by
  obtain ⟨r, ps, b, hr, hps, hb, hpm, _⟩ := hsim.owner p hp
  cases hout : shape.outside (s.m_bounds p) b with
  | false =>
    exact ⟨s, r, ps, b, update_eq_stay shape s p r ps b hr hps hb hout, hr, hps, hpm, hb,
      Or.inl ⟨rfl, hout⟩⟩
  | true =>
    obtain ⟨w, ps', _, _, hps', heq⟩ := update_eq_move shape s p r ps b hr hps hb hout hpm
    have hroot : s.root.set_primitives_at r w ≠ null :=
      set_primitives_at_ne_null _ _ _ (root_ne_of_sim hsim)
    obtain ⟨b', hb', hstop⟩ := find_node_stop shape s.m_max_depth (s.m_bounds p)
      (s.root.set_primitives_at r w) hroot
    refine ⟨_, _, ps' ++ [p], b', heq, by simp, ?_, by simp, ?_,
      Or.inr (hstop.imp id (fun h => h.trans hsim.depth_eq))⟩
    · exact primitives_at_set_same _ _ _ (by rw [hps']; rfl)
    · simp only [bounds_at_set]; exact hb'

/-- An `update` right after the `add` of a primitive leaves the index as it is,
whatever the bounds of the primitive. -/
theorem update_after_add (shape : TreeShape n B) (s : TreeAccelerationStructure n B) (p : Nat)
    (hroot : s.root ≠ null) (hp : p ∉ s.root.all_primitives) :
    ∃ s1, s.add shape p = some s1 ∧ s1.update shape p = some s1 := by
  obtain ⟨ps, hps, hnot, heq⟩ := add_eq shape s p hroot hp
  generalize hR : s.root.find_node shape s.m_max_depth (s.m_bounds p) 0 = R at hps heq
  have hvalid : (R.1.primitives_at R.2).isSome := by rw [hps]; rfl
  have hidem : R.1.find_node shape s.m_max_depth (s.m_bounds p) 0 = R := by
    rw [← hR]; exact find_node_idem _ _ _ _ _
  have hps1 : (R.1.set_primitives_at R.2 (ps ++ [p])).primitives_at R.2 = some (ps ++ [p]) :=
    primitives_at_set_same _ _ _ hvalid
  obtain ⟨b1, hb1⟩ := bounds_at_of_primitives_at _ _ _ hps1
  refine ⟨_, heq, ?_⟩
  cases hout : shape.outside (s.m_bounds p) b1 with
  | false =>
    exact update_eq_stay shape
      { s with
        root := R.1.set_primitives_at R.2 (ps ++ [p])
        m_node := Function.update s.m_node p (some R.2) }
      p R.2 (ps ++ [p]) b1 (by simp) hps1 hb1 hout
  | true =>
    obtain ⟨w, ps', hw, _, hps', heq'⟩ := update_eq_move shape
      { s with
        root := R.1.set_primitives_at R.2 (ps ++ [p])
        m_node := Function.update s.m_node p (some R.2) }
      p R.2 (ps ++ [p]) b1 (by simp) hps1 hb1 hout (by simp)
    rw [vector_erase_swap_concat ps p hnot] at hw
    simp only [Option.some.injEq] at hw
    subst hw
    simp only [set_primitives_at_set] at hps' heq'
    rw [set_primitives_at_self _ _ _ hps, hidem] at hps' heq'
    rw [hps] at hps'
    simp only [Option.some.injEq] at hps'
    subst hps'
    simp only [Function.update_idem] at heq'
    exact heq'

end TreeAccelerationStructure
/-! ## Lemmas: relocation from one octant to the opposite one -/

namespace OctreeAccelerationStructure

open TreeNode TreeAccelerationStructure

section

variable [FloatArithmetic ℚ] [FloatArithmetic.Exact ℚ]

/-- A present primitive held below the child of one root octant, whose bounds are
then written to lie strictly inside the opposite octant, is moved by `update` to
a node below the child of that octant, and no box query strictly inside the old
octant returns it. -/
theorem octree_relocate {center extent : float3} {D : Nat} {c : Caller}
    {s : OctreeAccelerationStructure}
    (hsim : Sim shape (fun _ _ => True) aabbox3.nonneg ⟨center, extent⟩ D c s) (hD : 1 ≤ D)
    (p : Nat) (hp : p ∈ c.present) (i : Fin 8) (rest : List (Fin 8))
    (hnode : s.m_node p = some (i :: rest)) (x : aabbox3)
    (hx : strictly_in_octant ⟨center, extent⟩ (Fin.rev i) x) :
    ∃ s' rest',
      update { s with m_bounds := Function.update s.m_bounds p x } p = some s' ∧
      s'.m_node p = some (Fin.rev i :: rest') ∧
      ∀ q, strictly_in_octant ⟨center, extent⟩ i q → p ∉ query_aabbox s' q [] := by
  obtain ⟨s1, hs1, hsim1⟩ := tree_sim_step octree_geometry_good any_bounds
    (fun _ _ => trivial) hsim (.set_bounds p x)
    { c with
      m_bounds := Function.update c.m_bounds p x
      stale := if p ∈ c.present then p :: c.stale else c.stale } rfl
  simp only [fadd_exact, fsub_exact, fmul_exact, fdiv_exact, TreeAccelerationStructure.step, Option.some.injEq] at hs1
  subst hs1
  obtain ⟨r, ps, b, hr, hps, hb, hpm, _⟩ := hsim1.owner p hp
  simp only [fadd_exact, fsub_exact, fmul_exact, fdiv_exact, hnode, Option.some.injEq] at hr
  subst hr
  have hbx : Function.update s.m_bounds p x p = x := by simp
  have hout : shape.outside (Function.update s.m_bounds p x p) b = true := by
    cases hout : shape.outside (Function.update s.m_bounds p x p) b with
    | true => rfl
    | false =>
      exfalso
      rw [hbx] at hout
      have hin : x.inside b := octree_geometry.stay x b hout
      have := inside_child_of_bounds_at octree_geometry _ hsim1.shaped i rest b ⟨center, extent⟩
        hb hsim1.root_eq x hin
      exact not_inside_opposite ⟨center, extent⟩ i x hx this
  obtain ⟨w, ps', _, _, _, heq⟩ := update_eq_move shape
    { s with m_bounds := Function.update s.m_bounds p x } p (i :: rest) ps b hnode hps hb hout hpm
  simp only [fadd_exact, fsub_exact, fmul_exact, fdiv_exact, hbx] at heq
  have hdepth : s.m_max_depth = D := hsim.depth_eq
  obtain ⟨ch, ps0, hroot⟩ : ∃ ch ps0, s.root.set_primitives_at (i :: rest) w =
      node ch ps0 ⟨center, extent⟩ := by
    have hre := hsim.root_eq
    cases hs : s.root with
    | null => rw [hs] at hre; simp at hre
    | node ch ps0 rb =>
      rw [hs] at hre
      simp only [fadd_exact, fsub_exact, fmul_exact, fdiv_exact, bounds_at, Option.some.injEq] at hre
      subst hre
      exact ⟨_, _, rfl⟩
  have hci : shape.child_index x ⟨center, extent⟩ = some (Fin.rev i) :=
    child_index_of_strictly _ _ _ hx
  have hpath : ((s.root.set_primitives_at (i :: rest) w).find_node shape s.m_max_depth x 0).2 =
      Fin.rev i :: (find_node shape s.m_max_depth x
        ((ch (Fin.rev i)).create_if_null (shape.child_bounds ⟨center, extent⟩ (Fin.rev i))) 1).2 := by
    rw [hroot, find_node_descend shape s.m_max_depth x ch ps0 ⟨center, extent⟩ 0 (by omega)
      (Fin.rev i) hci]
  refine ⟨_, _, heq, by simp only [fadd_exact, fsub_exact, fmul_exact, fdiv_exact, Function.update_same]; rw [hpath], ?_⟩
  intro q hq hmem
  rw [octree_query_aabbox_eq] at hmem
  simp only [fadd_exact, fsub_exact, fmul_exact, fdiv_exact, List.nil_append] at hmem
  have := (query_matches_sublist _ _ _).subset hmem
  simp only [fadd_exact, fsub_exact, fmul_exact, fdiv_exact, List.mem_filter, Function.update_same] at this
  rw [no_hit_opposite ⟨center, extent⟩ i x q hx hq] at this
  simp at this

end

end OctreeAccelerationStructure
/-! ## Lemmas: the two branches of `update` -/

namespace TreeAccelerationStructure

variable {n : Nat} {B : Type}

open TreeNode

theorem update_rule {shape : TreeShape n B} {inside : aabbox3 → B → Prop} {good : B → Prop}
    {rb : B} {D : Nat} {c : Caller} {s : TreeAccelerationStructure n B}
    (hsim : Sim shape inside good rb D c s) (p : Nat) (hp : p ∈ c.present) :
    ∃ r ps b, s.m_node p = some r ∧ s.root.primitives_at r = some ps ∧ p ∈ ps ∧
      s.root.bounds_at r = some b ∧
      (shape.outside (s.m_bounds p) b = false → s.update shape p = some s) ∧
      (shape.outside (s.m_bounds p) b = true →
        ∃ w ps', vector_erase_swap ps p = some w ∧ w.Perm (ps.erase p) ∧
          ((s.root.set_primitives_at r w).find_node shape s.m_max_depth
            (s.m_bounds p) 0).1.primitives_at
            ((s.root.set_primitives_at r w).find_node shape s.m_max_depth (s.m_bounds p) 0).2
            = some ps' ∧
          s.update shape p = some { s with
            root := ((s.root.set_primitives_at r w).find_node shape s.m_max_depth
                (s.m_bounds p) 0).1.set_primitives_at
              ((s.root.set_primitives_at r w).find_node shape s.m_max_depth (s.m_bounds p) 0).2
              (ps' ++ [p])
            m_node := Function.update s.m_node p
              (some ((s.root.set_primitives_at r w).find_node shape s.m_max_depth
                (s.m_bounds p) 0).2) }) := by
  obtain ⟨r, ps, b, hr, hps, hb, hpm, _⟩ := hsim.owner p hp
  exact ⟨r, ps, b, hr, hps, hpm, hb, fun hout => update_eq_stay shape s p r ps b hr hps hb hout,
    fun hout => update_eq_move shape s p r ps b hr hps hb hout hpm⟩

end TreeAccelerationStructure
/-! ## Lemmas: corner heights and child regions -/

namespace QuadtreeAccelerationStructure

section

variable [FloatArithmetic ℚ] [FloatArithmetic.Exact ℚ]

/-- A point on three planes has the height `find_y` computes, when the normals of
the planes have a non-zero determinant. -/
theorem find_y_of_on_planes (p1 p2 p3 : plane) (hdet : plane.normals_det p1 p2 p3 ≠ 0)
    (q : float3) (h1 : dot q p1.normal + p1.distance = 0)
    (h2 : dot q p2.normal + p2.distance = 0) (h3 : dot q p3.normal + p3.distance = 0) :
    q.y = find_y p1 p2 p3 := by
  simp only [fadd_exact, fsub_exact, fmul_exact, fdiv_exact, dot] at h1 h2 h3
  simp only [fadd_exact, fsub_exact, fmul_exact, fdiv_exact, plane.normals_det] at hdet
  simp only [fadd_exact, fsub_exact, fmul_exact, fdiv_exact, find_y]
  rw [eq_div_iff hdet]
  linear_combination
    (p2.normal.z * p3.normal.x - p2.normal.x * p3.normal.z) * h1 +
    (p1.normal.x * p3.normal.z - p1.normal.z * p3.normal.x) * h2 +
    (p1.normal.z * p2.normal.x - p1.normal.x * p2.normal.z) * h3

/-- Three planes whose normals have a non-zero determinant meet in a point. -/
theorem exists_on_planes (p1 p2 p3 : plane) (hdet : plane.normals_det p1 p2 p3 ≠ 0) :
    ∃ q : float3, dot q p1.normal + p1.distance = 0 ∧ dot q p2.normal + p2.distance = 0 ∧
      dot q p3.normal + p3.distance = 0 := by
  simp only [fadd_exact, fsub_exact, fmul_exact, fdiv_exact, plane.normals_det] at hdet
  refine ⟨⟨(-(p1.distance * (p2.normal.y * p3.normal.z - p2.normal.z * p3.normal.y)) +
        p2.distance * (p1.normal.y * p3.normal.z - p1.normal.z * p3.normal.y) -
        p3.distance * (p1.normal.y * p2.normal.z - p1.normal.z * p2.normal.y)) /
        plane.normals_det p1 p2 p3,
      find_y p1 p2 p3,
      (-(p1.distance * (p2.normal.x * p3.normal.y - p2.normal.y * p3.normal.x)) +
        p2.distance * (p1.normal.x * p3.normal.y - p1.normal.y * p3.normal.x) -
        p3.distance * (p1.normal.x * p2.normal.y - p1.normal.y * p2.normal.x)) /
        plane.normals_det p1 p2 p3⟩, ?_, ?_, ?_⟩ <;>
    · simp only [fadd_exact, fsub_exact, fmul_exact, fdiv_exact, dot, find_y, plane.normals_det]
      field_simp
      ring

/-- The point on three planes whose normals have a non-zero determinant is unique. -/
theorem on_planes_unique (p1 p2 p3 : plane) (hdet : plane.normals_det p1 p2 p3 ≠ 0)
    (q q' : float3) (h1 : dot q p1.normal + p1.distance = 0)
    (h2 : dot q p2.normal + p2.distance = 0) (h3 : dot q p3.normal + p3.distance = 0)
    (h1' : dot q' p1.normal + p1.distance = 0) (h2' : dot q' p2.normal + p2.distance = 0)
    (h3' : dot q' p3.normal + p3.distance = 0) : q = q' := by
  simp only [fadd_exact, fsub_exact, fmul_exact, fdiv_exact, dot] at h1 h2 h3 h1' h2' h3'
  simp only [fadd_exact, fsub_exact, fmul_exact, fdiv_exact, plane.normals_det] at hdet
  have hx : (q.x - q'.x) * (p1.normal.x * p2.normal.y * p3.normal.z +
      p1.normal.y * p2.normal.z * p3.normal.x + p1.normal.z * p2.normal.x * p3.normal.y -
      p1.normal.z * p2.normal.y * p3.normal.x - p1.normal.x * p2.normal.z * p3.normal.y -
      p1.normal.y * p2.normal.x * p3.normal.z) = 0 := by
    linear_combination
      (p2.normal.y * p3.normal.z - p2.normal.z * p3.normal.y) * (h1 - h1') -
      (p1.normal.y * p3.normal.z - p1.normal.z * p3.normal.y) * (h2 - h2') +
      (p1.normal.y * p2.normal.z - p1.normal.z * p2.normal.y) * (h3 - h3')
  have hy : (q.y - q'.y) * (p1.normal.x * p2.normal.y * p3.normal.z +
      p1.normal.y * p2.normal.z * p3.normal.x + p1.normal.z * p2.normal.x * p3.normal.y -
      p1.normal.z * p2.normal.y * p3.normal.x - p1.normal.x * p2.normal.z * p3.normal.y -
      p1.normal.y * p2.normal.x * p3.normal.z) = 0 := by
    linear_combination
      (p2.normal.z * p3.normal.x - p2.normal.x * p3.normal.z) * (h1 - h1') +
      (p1.normal.x * p3.normal.z - p1.normal.z * p3.normal.x) * (h2 - h2') +
      (p1.normal.z * p2.normal.x - p1.normal.x * p2.normal.z) * (h3 - h3')
  have hz : (q.z - q'.z) * (p1.normal.x * p2.normal.y * p3.normal.z +
      p1.normal.y * p2.normal.z * p3.normal.x + p1.normal.z * p2.normal.x * p3.normal.y -
      p1.normal.z * p2.normal.y * p3.normal.x - p1.normal.x * p2.normal.z * p3.normal.y -
      p1.normal.y * p2.normal.x * p3.normal.z) = 0 := by
    linear_combination
      (p2.normal.x * p3.normal.y - p2.normal.y * p3.normal.x) * (h1 - h1') -
      (p1.normal.x * p3.normal.y - p1.normal.y * p3.normal.x) * (h2 - h2') +
      (p1.normal.x * p2.normal.y - p1.normal.y * p2.normal.x) * (h3 - h3')
  have ex := (mul_eq_zero.1 hx).resolve_right hdet
  have ey := (mul_eq_zero.1 hy).resolve_right hdet
  have ez := (mul_eq_zero.1 hz).resolve_right hdet
  cases q; cases q'
  simp only [fadd_exact, fsub_exact, fmul_exact, fdiv_exact, float3_of.mk.injEq]
  simp only at ex ey ez
  exact ⟨by linarith, by linarith, by linarith⟩

end

theorem min_mem_cons (a m : ℚ) (l : List ℚ) (h : m ∈ l) : min a m ∈ a :: l := by
  rcases min_choice a m with h1 | h1 <;> rw [h1] <;> simp [h]

theorem max_mem_cons (a m : ℚ) (l : List ℚ) (h : m ∈ l) : max a m ∈ a :: l := by
  rcases max_choice a m with h1 | h1 <;> rw [h1] <;> simp [h]

theorem min8_mem (y0 y1 y2 y3 y4 y5 y6 y7 : ℚ) :
    min y0 (min y1 (min y2 (min y3 (min y4 (min y5 (min y6 y7)))))) ∈
      [y0, y1, y2, y3, y4, y5, y6, y7] :=
  min_mem_cons _ _ _ (min_mem_cons _ _ _ (min_mem_cons _ _ _ (min_mem_cons _ _ _
    (min_mem_cons _ _ _ (min_mem_cons _ _ _ (min_mem_cons _ _ _
      (List.mem_singleton_self y7)))))))

theorem max8_mem (y0 y1 y2 y3 y4 y5 y6 y7 : ℚ) :
    max y0 (max y1 (max y2 (max y3 (max y4 (max y5 (max y6 y7)))))) ∈
      [y0, y1, y2, y3, y4, y5, y6, y7] :=
  max_mem_cons _ _ _ (max_mem_cons _ _ _ (max_mem_cons _ _ _ (max_mem_cons _ _ _
    (max_mem_cons _ _ _ (max_mem_cons _ _ _ (max_mem_cons _ _ _
      (List.mem_singleton_self y7)))))))

end QuadtreeAccelerationStructure
/-! ## Lemmas: child regions, the footprint test, plane extraction -/

namespace OctreeAccelerationStructure

section

variable [FloatArithmetic ℚ] [FloatArithmetic.Exact ℚ]

theorem octree_child_bounds_formula (b : aabbox3) (i : Fin 8) :
    (child_bounds b i).extent = ⟨b.extent.x / 2, b.extent.y / 2, b.extent.z / 2⟩ ∧
    (child_bounds b i).center.x =
      b.center.x + (if i.val.testBit 0 = true then -1 else 1) * (b.extent.x / 2) ∧
    (child_bounds b i).center.y =
      b.center.y + (if i.val.testBit 1 = true then -1 else 1) * (b.extent.y / 2) ∧
    (child_bounds b i).center.z =
      b.center.z + (if i.val.testBit 2 = true then -1 else 1) * (b.extent.z / 2) := by
  fin_cases i <;> simp [child_bounds, OCTREE_EXTENT_FACTORS, Nat.testBit]

theorem octree_child_region (b : aabbox3) (i : Fin 8) :
    ((child_bounds b i).center.x - (child_bounds b i).extent.x =
        if i.val.testBit 0 = true then b.center.x - b.extent.x else b.center.x) ∧
    ((child_bounds b i).center.x + (child_bounds b i).extent.x =
        if i.val.testBit 0 = true then b.center.x else b.center.x + b.extent.x) ∧
    ((child_bounds b i).center.y - (child_bounds b i).extent.y =
        if i.val.testBit 1 = true then b.center.y - b.extent.y else b.center.y) ∧
    ((child_bounds b i).center.y + (child_bounds b i).extent.y =
        if i.val.testBit 1 = true then b.center.y else b.center.y + b.extent.y) ∧
    ((child_bounds b i).center.z - (child_bounds b i).extent.z =
        if i.val.testBit 2 = true then b.center.z - b.extent.z else b.center.z) ∧
    ((child_bounds b i).center.z + (child_bounds b i).extent.z =
        if i.val.testBit 2 = true then b.center.z else b.center.z + b.extent.z) := by
  refine ⟨?_, ?_, ?_, ?_, ?_, ?_⟩ <;> fin_cases i <;>
    simp [child_bounds, OCTREE_EXTENT_FACTORS, Nat.testBit] <;> ring

theorem octree_children_cover (b : aabbox3) (pt : float3) (h : b.contains pt) :
    ∃ i, (child_bounds b i).contains pt := by
  obtain ⟨hx, hy, hz⟩ := h
  rw [abs_le] at hx hy hz
  by_cases gx : pt.x < b.center.x <;> by_cases gy : pt.y < b.center.y <;>
    by_cases gz : pt.z < b.center.z <;>
    first
    | (refine ⟨0, ?_⟩
       simp only [fadd_exact, fsub_exact, fmul_exact, fdiv_exact, aabbox3.contains, child_bounds, OCTREE_EXTENT_FACTORS, abs_le]
       refine ⟨⟨?_, ?_⟩, ⟨?_, ?_⟩, ⟨?_, ?_⟩⟩ <;> linarith)
    | (refine ⟨1, ?_⟩
       simp only [fadd_exact, fsub_exact, fmul_exact, fdiv_exact, aabbox3.contains, child_bounds, OCTREE_EXTENT_FACTORS, abs_le]
       refine ⟨⟨?_, ?_⟩, ⟨?_, ?_⟩, ⟨?_, ?_⟩⟩ <;> linarith)
    | (refine ⟨2, ?_⟩
       simp only [fadd_exact, fsub_exact, fmul_exact, fdiv_exact, aabbox3.contains, child_bounds, OCTREE_EXTENT_FACTORS, abs_le]
       refine ⟨⟨?_, ?_⟩, ⟨?_, ?_⟩, ⟨?_, ?_⟩⟩ <;> linarith)
    | (refine ⟨3, ?_⟩
       simp only [fadd_exact, fsub_exact, fmul_exact, fdiv_exact, aabbox3.contains, child_bounds, OCTREE_EXTENT_FACTORS, abs_le]
       refine ⟨⟨?_, ?_⟩, ⟨?_, ?_⟩, ⟨?_, ?_⟩⟩ <;> linarith)
    | (refine ⟨4, ?_⟩
       simp only [fadd_exact, fsub_exact, fmul_exact, fdiv_exact, aabbox3.contains, child_bounds, OCTREE_EXTENT_FACTORS, abs_le]
       refine ⟨⟨?_, ?_⟩, ⟨?_, ?_⟩, ⟨?_, ?_⟩⟩ <;> linarith)
    | (refine ⟨5, ?_⟩
       simp only [fadd_exact, fsub_exact, fmul_exact, fdiv_exact, aabbox3.contains, child_bounds, OCTREE_EXTENT_FACTORS, abs_le]
       refine ⟨⟨?_, ?_⟩, ⟨?_, ?_⟩, ⟨?_, ?_⟩⟩ <;> linarith)
    | (refine ⟨6, ?_⟩
       simp only [fadd_exact, fsub_exact, fmul_exact, fdiv_exact, aabbox3.contains, child_bounds, OCTREE_EXTENT_FACTORS, abs_le]
       refine ⟨⟨?_, ?_⟩, ⟨?_, ?_⟩, ⟨?_, ?_⟩⟩ <;> linarith)
    | (refine ⟨7, ?_⟩
       simp only [fadd_exact, fsub_exact, fmul_exact, fdiv_exact, aabbox3.contains, child_bounds, OCTREE_EXTENT_FACTORS, abs_le]
       refine ⟨⟨?_, ?_⟩, ⟨?_, ?_⟩, ⟨?_, ?_⟩⟩ <;> linarith)

end

end OctreeAccelerationStructure

namespace QuadtreeAccelerationStructure

section

variable [FloatArithmetic ℚ] [FloatArithmetic.Exact ℚ]

theorem quadtree_child_bounds_formula (b : aabbox2) (i : Fin 4) :
    (child_bounds b i).extent = ⟨b.extent.x / 2, b.extent.y / 2⟩ ∧
    (child_bounds b i).center.x =
      b.center.x + (if i.val.testBit 0 = true then -1 else 1) * (b.extent.x / 2) ∧
    (child_bounds b i).center.y =
      b.center.y + (if i.val.testBit 1 = true then -1 else 1) * (b.extent.y / 2) := by
  fin_cases i <;> simp [child_bounds, QUADTREE_EXTENT_FACTORS, Nat.testBit]

theorem quadtree_child_region (b : aabbox2) (i : Fin 4) :
    ((child_bounds b i).center.x - (child_bounds b i).extent.x =
        if i.val.testBit 0 = true then b.center.x - b.extent.x else b.center.x) ∧
    ((child_bounds b i).center.x + (child_bounds b i).extent.x =
        if i.val.testBit 0 = true then b.center.x else b.center.x + b.extent.x) ∧
    ((child_bounds b i).center.y - (child_bounds b i).extent.y =
        if i.val.testBit 1 = true then b.center.y - b.extent.y else b.center.y) ∧
    ((child_bounds b i).center.y + (child_bounds b i).extent.y =
        if i.val.testBit 1 = true then b.center.y else b.center.y + b.extent.y) := by
  refine ⟨?_, ?_, ?_, ?_⟩ <;> fin_cases i <;>
    simp [child_bounds, QUADTREE_EXTENT_FACTORS, Nat.testBit] <;> ring

theorem quadtree_children_cover (b : aabbox2) (pt : float2) (h : b.contains pt) :
    ∃ i, (child_bounds b i).contains pt := by
  obtain ⟨hx, hy⟩ := h
  rw [abs_le] at hx hy
  by_cases gx : pt.x < b.center.x <;> by_cases gy : pt.y < b.center.y <;>
    first
    | (refine ⟨0, ?_⟩
       simp only [fadd_exact, fsub_exact, fmul_exact, fdiv_exact, aabbox2.contains, child_bounds, QUADTREE_EXTENT_FACTORS, abs_le]
       refine ⟨⟨?_, ?_⟩, ⟨?_, ?_⟩⟩ <;> linarith)
    | (refine ⟨1, ?_⟩
       simp only [fadd_exact, fsub_exact, fmul_exact, fdiv_exact, aabbox2.contains, child_bounds, QUADTREE_EXTENT_FACTORS, abs_le]
       refine ⟨⟨?_, ?_⟩, ⟨?_, ?_⟩⟩ <;> linarith)
    | (refine ⟨2, ?_⟩
       simp only [fadd_exact, fsub_exact, fmul_exact, fdiv_exact, aabbox2.contains, child_bounds, QUADTREE_EXTENT_FACTORS, abs_le]
       refine ⟨⟨?_, ?_⟩, ⟨?_, ?_⟩⟩ <;> linarith)
    | (refine ⟨3, ?_⟩
       simp only [fadd_exact, fsub_exact, fmul_exact, fdiv_exact, aabbox2.contains, child_bounds, QUADTREE_EXTENT_FACTORS, abs_le]
       refine ⟨⟨?_, ?_⟩, ⟨?_, ?_⟩⟩ <;> linarith)

end

end QuadtreeAccelerationStructure

namespace TreeNode

variable {n : Nat} {B : Type}

/-- The child that `find_node` creates in an empty slot has the bounds
`child_bounds` of the node and the slot. -/
theorem find_node_creates (shape : TreeShape n B) (D : Nat) (x : aabbox3)
    (ch : Fin n → TreeNode n B) (ps : List Nat) (b : B) (d : Nat) (hd : d < D) (i : Fin n)
    (hi : shape.child_index x b = some i) (hnull : ch i = null) :
    (find_node shape D x (node ch ps b) d).1.bounds_at [i] = some (shape.child_bounds b i) := by
  rw [find_node_descend shape D x ch ps b d (by omega) i hi, hnull]
  simp only [bounds_at, Function.update_same, create_if_null]
  obtain ⟨ch', h⟩ := find_node_root shape D x (fun _ => null) [] (shape.child_bounds b i) (d + 1)
  simp only [fresh]
  rw [h]
  rfl

end TreeNode
/-! ## Lemmas: the effect of `remove`, and the nodes a call keeps and creates -/

namespace TreeNode

variable {n : Nat} {B : Type}

/-- A node of the tree after `find_node` was there before or lies on the way to
the node that `find_node` returns. -/
theorem bounds_at_find_node_on_path (shape : TreeShape n B) (D : Nat) (x : aabbox3)
    (t : TreeNode n B) (d : Nat) (r : List (Fin n))
    (h : ((find_node shape D x t d).1.bounds_at r).isSome) :
    (t.bounds_at r).isSome ∨ ∃ rest, (find_node shape D x t d).2 = r ++ rest := by
  induction t, d using find_node.induct shape D x generalizing r with
  | case1 d => simp at h
  | case2 ch ps b d hd => rw [find_node_depth _ _ _ _ _ _ _ hd] at h; exact Or.inl h
  | case3 ch ps b d hd hi => rw [find_node_straddle _ _ _ _ _ _ _ hd hi] at h; exact Or.inl h
  | case4 ch ps b d hd i hi child ih =>
    rw [find_node_descend _ _ _ _ _ _ _ hd i hi] at h ⊢
    cases r with
    | nil => left; simp
    | cons j r =>
      by_cases hj : j = i
      · subst hj
        simp only [bounds_at, Function.update_same] at h
        have ih' := ih r
        simp only [child] at ih'
        rcases ih' h with h1 | ⟨rest, h1⟩
        · cases hc : ch j with
          | null =>
            rw [hc] at h1
            cases r with
            | nil => right; exact ⟨_, rfl⟩
            | cons k r => simp [create_if_null, fresh] at h1
          | node ch' ps' b' =>
            rw [hc] at h1
            left; simpa [bounds_at, hc, create_if_null] using h1
        · right
          exact ⟨rest, by simp only [List.cons_append, h1]⟩
      · left
        simpa [bounds_at, Function.update_noteq hj] using h

/-- The call `find_node` creates at most as many nodes as its reference is long. -/
theorem find_node_count_le (shape : TreeShape n B) (D : Nat) (x : aabbox3)
    (t : TreeNode n B) (d : Nat) :
    (find_node shape D x t d).1.count_nodes ≤
      t.count_nodes + (find_node shape D x t d).2.length := by
  induction t, d using find_node.induct shape D x with
  | case1 d => simp
  | case2 ch ps b d hd => rw [find_node_depth _ _ _ _ _ _ _ hd]; simp
  | case3 ch ps b d hd hi => rw [find_node_straddle _ _ _ _ _ _ _ hd hi]; simp
  | case4 ch ps b d hd i hi child ih =>
    rw [find_node_descend _ _ _ _ _ _ _ hd i hi]
    have hcount := count_nodes_update ch ps ps b i
      (find_node shape D x ((ch i).create_if_null (shape.child_bounds b i)) (d + 1)).1
    simp only [child] at ih
    simp only [List.length_cons]
    cases hc : ch i with
    | null =>
      rw [hc] at ih hcount
      simp only [create_if_null] at ih hcount ⊢
      rw [count_nodes_fresh] at ih
      have h0 : (null : TreeNode n B).count_nodes = 0 := by simp [count_nodes]
      rw [h0] at hcount
      omega
    | node ch' ps' b' =>
      rw [hc] at ih hcount
      simp only [create_if_null] at ih hcount ⊢
      omega

end TreeNode

namespace Caller

theorem run_append (admissible : aabbox3 → Bool) (c : Caller) (calls1 calls2 : List Call) :
    c.run admissible (calls1 ++ calls2) =
      (c.run admissible calls1).bind (fun c1 => c1.run admissible calls2) := by
  induction calls1 generalizing c with
  | nil => simp [run]
  | cons call calls1 ih =>
    simp only [List.cons_append, run]
    cases c.step admissible call with
    | none => simp
    | some c1 => exact ih c1

end Caller

namespace TreeAccelerationStructure

variable {n : Nat} {B : Type}

open TreeNode

theorem tree_run_append (shape : TreeShape n B) (s : TreeAccelerationStructure n B)
    (calls1 calls2 : List Call) :
    s.run shape (calls1 ++ calls2) = (s.run shape calls1).bind (fun s1 => s1.run shape calls2) := by
  induction calls1 generalizing s with
  | nil => simp [run]
  | cons call calls1 ih =>
    simp only [List.cons_append, run]
    cases s.step shape call with
    | none => simp
    | some s1 => exact ih s1

/-- What `remove` of a present primitive does. -/
theorem remove_effect {shape : TreeShape n B} {inside : aabbox3 → B → Prop} {good : B → Prop}
    {rb : B} {D : Nat} {c : Caller} {s : TreeAccelerationStructure n B}
    (hsim : Sim shape inside good rb D c s) (p : Nat) (hp : p ∈ c.present) :
    ∃ s' r ps w, s.m_node p = some r ∧ s.root.primitives_at r = some ps ∧ p ∈ ps ∧
      s.remove p = some s' ∧ s'.root.primitives_at r = some w ∧ w.Perm (ps.erase p) ∧
      p ∉ w ∧ (∀ q, q ≠ p → (q ∈ w ↔ q ∈ ps)) ∧
      (∀ r', r' ≠ r → s'.root.primitives_at r' = s.root.primitives_at r') ∧
      (∀ r', s'.root.bounds_at r' = s.root.bounds_at r') ∧
      s'.m_node p = none ∧ (∀ q, q ≠ p → s'.m_node q = s.m_node q) ∧
      s'.m_bounds = s.m_bounds ∧ s'.m_max_depth = s.m_max_depth := by
  obtain ⟨r, ps, b, hr, hps, hb, hpm, hnd⟩ := hsim.owner p hp
  obtain ⟨w, hw, hperm, heq⟩ := remove_eq s p r ps hr hps hpm
  have hmem : ∀ q, q ∈ w ↔ q ∈ ps.erase p := fun q => hperm.mem_iff
  refine ⟨_, r, ps, w, hr, hps, hpm, heq, ?_, hperm, ?_, ?_, ?_, ?_, ?_, ?_, rfl, rfl⟩
  · exact primitives_at_set_same _ _ _ (by rw [hps]; rfl)
  · rw [hmem, hnd.mem_erase_iff]; simp
  · intro q hq
    rw [hmem, hnd.mem_erase_iff]
    simp [hq]
  · intro r' hr'
    exact primitives_at_set_ne _ _ _ _ hr'
  · intro r'
    exact bounds_at_set _ _ _ _
  · simp
  · intro q hq
    simp [Function.update_noteq hq]

/-- One call under the contract keeps every node in its slot with its bounds, and
creates nodes only on the way to the node where `add` or `update` leaves the
primitive, at most `D` of them. -/
theorem step_nodes {shape : TreeShape n B} {inside : aabbox3 → B → Prop} {good : B → Prop}
    (geo : shape.Geometry inside good) {rb : B} {D : Nat} (admissible : aabbox3 → Bool)
    (hadm : ∀ x, admissible x = true → inside x rb) {c : Caller}
    {s : TreeAccelerationStructure n B} (hsim : Sim shape inside good rb D c s)
    (call : Call) (c' : Caller) (hc : c.step admissible call = some c') :
    ∃ s', s.step shape call = some s' ∧
      (∀ r b, s.root.bounds_at r = some b → s'.root.bounds_at r = some b) ∧
      s'.root.count_nodes ≤ s.root.count_nodes + D ∧
      (∀ p, call = .remove p → ∀ r, s'.root.bounds_at r = s.root.bounds_at r) ∧
      (∀ p x, call = .set_bounds p x → s'.root = s.root) ∧
      (∀ p, call = .add p ∨ call = .update p → ∀ r, (s'.root.bounds_at r).isSome →
        (s.root.bounds_at r).isSome ∨ ∃ rest, s'.m_node p = some (r ++ rest)) := by
  obtain ⟨s', hs', _⟩ := tree_sim_step geo admissible hadm hsim call c' hc
  refine ⟨s', hs', ?_⟩
  have hD : s.m_max_depth = D := hsim.depth_eq
  cases call with
  | add p =>
    have hp : p ∉ c.present := by
      simp only [Caller.step] at hc
      split_ifs at hc with h
      exact h.1
    have hnot : p ∉ s.root.all_primitives := fun h => hp (hsim.perm.mem_iff.1 h)
    obtain ⟨ps, _, _, heq⟩ := add_eq shape s p (root_ne_of_sim hsim) hnot
    simp only [step, heq, Option.some.injEq] at hs'
    subst hs'
    refine ⟨?_, ?_, ?_, ?_, ?_⟩
    · intro r b hb
      simp only [bounds_at_set]
      exact bounds_at_find_node_of_some shape _ _ _ 0 r b hb
    · simp only [count_nodes_set]
      have h1 := find_node_count_le shape s.m_max_depth (s.m_bounds p) s.root 0
      have h2 := find_node_length shape s.m_max_depth (s.m_bounds p) s.root 0
      omega
    · intro q hq; cases hq
    · intro q x hq; cases hq
    · intro q hq r hr
      have hqp : q = p := by
        rcases hq with h | h
        · cases h; rfl
        · cases h
      subst hqp
      simp only [bounds_at_set] at hr
      rcases bounds_at_find_node_on_path shape _ _ _ 0 r hr with h1 | ⟨rest, h1⟩
      · exact Or.inl h1
      · right
        exact ⟨rest, by simp only [Function.update_same, h1]⟩
  | remove p =>
    have hp : p ∈ c.present := by
      simp only [Caller.step] at hc
      split_ifs at hc with h
      exact h
    obtain ⟨s1, r, ps, w, _, _, _, heq, _, _, _, _, _, hb, _⟩ := remove_effect hsim p hp
    simp only [step, heq, Option.some.injEq] at hs'
    subst hs'
    refine ⟨?_, ?_, ?_, ?_, ?_⟩
    · intro r' b hb'; rw [hb r']; exact hb'
    · have : s1.root.count_nodes = s.root.count_nodes := by
        obtain ⟨r0, ps0, b0, hr0, hps0, _, hpm0, _⟩ := hsim.owner p hp
        obtain ⟨w0, _, _, heq0⟩ := remove_eq s p r0 ps0 hr0 hps0 hpm0
        rw [heq0] at heq
        simp only [Option.some.injEq] at heq
        rw [← heq]
        exact count_nodes_set _ _ _
      omega
    · intro q _ r'; exact hb r'
    · intro q x hq; cases hq
    · intro q hq
      rcases hq with h | h <;> cases h
  | update p =>
    have hp : p ∈ c.present := by
      simp only [Caller.step] at hc
      split_ifs at hc with h
      exact h.1
    obtain ⟨r, ps, b, hr, hps, hpm, hb, hstay, hmove⟩ := update_rule hsim p hp
    cases hout : shape.outside (s.m_bounds p) b with
    | false =>
      have heq := hstay hout
      simp only [step, heq, Option.some.injEq] at hs'
      subst hs'
      exact ⟨fun _ _ h => h, by omega, fun _ _ _ => rfl, fun _ _ _ => rfl,
        fun _ _ _ h => Or.inl h⟩
    | true =>
      obtain ⟨w, ps', _, _, _, heq⟩ := hmove hout
      simp only [step, heq, Option.some.injEq] at hs'
      subst hs'
      refine ⟨?_, ?_, ?_, ?_, ?_⟩
      · intro r' b' hb'
        simp only [bounds_at_set]
        exact bounds_at_find_node_of_some shape _ _ _ 0 r' b' (by rw [bounds_at_set]; exact hb')
      · simp only [count_nodes_set]
        have h1 := find_node_count_le shape s.m_max_depth (s.m_bounds p)
          (s.root.set_primitives_at r w) 0
        have h2 := find_node_length shape s.m_max_depth (s.m_bounds p)
          (s.root.set_primitives_at r w) 0
        rw [count_nodes_set] at h1
        omega
      · intro q hq; cases hq
      · intro q x hq; cases hq
      · intro q hq r' hr'
        have hqp : q = p := by
          rcases hq with h | h
          · cases h
          · cases h; rfl
        subst hqp
        simp only [bounds_at_set] at hr'
        rcases bounds_at_find_node_on_path shape _ _ _ 0 r' hr' with h1 | ⟨rest, h1⟩
        · left; rw [bounds_at_set] at h1; exact h1
        · right
          exact ⟨rest, by simp only [Function.update_same, h1]⟩
  | set_bounds p x =>
    simp only [step, Option.some.injEq] at hs'
    subst hs'
    refine ⟨fun _ _ h => h, by simp, fun _ _ _ => rfl, fun _ _ _ => rfl, ?_⟩
    intro q hq
    rcases hq with h | h <;> cases h

end TreeAccelerationStructure
/-! ## Lemmas: containment in the ancestors, and what a query of a tree meets -/

namespace TreeNode

variable {n : Nat} {B : Type}

/-- In a shaped tree a box in the region of a node is in the region of every node
on the way from the root to it. -/
theorem inside_ancestors {shape : TreeShape n B} {inside : aabbox3 → B → Prop}
    {good : B → Prop} (geo : shape.Geometry inside good) (t : TreeNode n B)
    (ht : t.Shaped shape good) (r rest : List (Fin n)) (b : B)
    (hb : t.bounds_at (r ++ rest) = some b) (x : aabbox3) (hx : inside x b) :
    ∃ b', t.bounds_at r = some b' ∧ inside x b' := by
  induction r generalizing t with
  | nil =>
    cases t with
    | null => simp at hb
    | node ch ps nb =>
      exact ⟨nb, rfl, inside_root_of_bounds_at geo _ ht rest b nb hb rfl x hx⟩
  | cons i r ih =>
    cases t with
    | null => simp at hb
    | node ch ps nb =>
      simp only [List.cons_append, bounds_at] at hb
      simp only [Shaped] at ht
      obtain ⟨b', hb', hin⟩ := ih (ch i) (ht.2 i).2 hb
      exact ⟨b', by simpa [bounds_at] using hb', hin⟩

end TreeNode

namespace TreeAccelerationStructure

variable {n : Nat} {B : Type}

open TreeNode

/-- With no condition on where the primitives lie, a query of a tree index meets
no primitive twice, and only present primitives whose bounds pass the test. -/
theorem query_matches_sound {shape : TreeShape n B} {inside : aabbox3 → B → Prop}
    {good : B → Prop} {rb : B} {D : Nat} {c : Caller} {s : TreeAccelerationStructure n B}
    (hsim : Sim shape inside good rb D c s) (hit : aabbox3 → Bool) (hn : B → Bool) :
    (s.root.query_matches (fun p => hit (s.m_bounds p)) hn).Nodup ∧
    ∀ p ∈ s.root.query_matches (fun p => hit (s.m_bounds p)) hn,
      p ∈ c.present ∧ hit (c.m_bounds p) = true := by
  have h := query_matches_sublist (fun p => hit (s.m_bounds p)) hn s.root
  refine ⟨h.nodup (hsim.nodup_all.filter _), ?_⟩
  intro p hp
  have := h.subset hp
  simp only [List.mem_filter] at this
  exact ⟨hsim.perm.mem_iff.1 this.1, by rw [← hsim.bounds_eq]; exact this.2⟩

/-- When every present primitive has been updated since its bounds were written,
a query whose node test is implied by its primitive test on every region that
contains the primitive meets exactly the present primitives whose bounds pass
the test. -/
theorem query_matches_exact {shape : TreeShape n B} {inside : aabbox3 → B → Prop}
    {good : B → Prop} (geo : shape.Geometry inside good) {rb : B} {D : Nat} {c : Caller}
    {s : TreeAccelerationStructure n B} (hsim : Sim shape inside good rb D c s)
    (hstale : c.stale = []) (hit : aabbox3 → Bool) (hn : B → Bool)
    (hgeo : ∀ x b, hit x = true → inside x b → hn b = true) (p : Nat) :
    p ∈ s.root.query_matches (fun p => hit (s.m_bounds p)) hn ↔
      p ∈ c.present ∧ hit (c.m_bounds p) = true := by
  have hC : ∀ r ps b, s.root.primitives_at r = some ps → s.root.bounds_at r = some b →
      ∀ p ∈ ps, inside (s.m_bounds p) b := by
    intro r ps b h1 h2 p hp
    exact hsim.contained r ps b h1 h2 p hp (by rw [hstale]; simp)
  have h := (query_matches_eq_filter geo s.m_bounds (fun p => hit (s.m_bounds p)) hn
    (fun p b hp hin => hgeo _ b hp hin) s.root hsim.shaped hC).1
  rw [h, List.mem_filter, hsim.perm.mem_iff, hsim.bounds_eq]

end TreeAccelerationStructure
/-! ## Lemmas: one more call after a call sequence -/

namespace Caller

theorem run_concat (admissible : aabbox3 → Bool) (c c' : Caller) (calls : List Call)
    (call : Call) (h : c.run admissible (calls ++ [call]) = some c') :
    ∃ c1, c.run admissible calls = some c1 ∧ c1.step admissible call = some c' := by
  rw [run_append] at h
  obtain ⟨c1, h1, h2⟩ := Option.bind_eq_some.1 h
  refine ⟨c1, h1, ?_⟩
  simp only [run] at h2
  cases hs : c1.step admissible call with
  | none => rw [hs] at h2; simp at h2
  | some c2 => rw [hs] at h2; simpa using h2

end Caller

namespace TreeAccelerationStructure

variable {n : Nat} {B : Type}

theorem tree_run_concat (shape : TreeShape n B) (s s1 s' : TreeAccelerationStructure n B)
    (calls : List Call) (call : Call) (h1 : s.run shape calls = some s1)
    (h2 : s1.step shape call = some s') : s.run shape (calls ++ [call]) = some s' := by
  rw [tree_run_append, h1]
  simp [run, h2]

end TreeAccelerationStructure

/-! ## Two shapes that agree on the nodes of a tree -/

namespace TreeNode

variable {n : Nat} {B : Type}

/-- If two shapes compute the same child index and the same child bounds on every
node that satisfies `P`, and `P` holds at every node of the tree for its depth,
then `find_node` does the same with both shapes, and `P` holds in the tree it
leaves. -/
theorem find_node_congr (shape1 shape2 : TreeShape n B) (D : Nat) (x : aabbox3)
    (P : Nat → B → Prop)
    (hidx : ∀ d b, P d b → d < D → shape1.child_index x b = shape2.child_index x b)
    (hbnd : ∀ d b i, P d b → d < D →
      shape1.child_bounds b i = shape2.child_bounds b i ∧ P (d + 1) (shape2.child_bounds b i))
    (t : TreeNode n B) (d : Nat) (ht : ∀ r b, t.bounds_at r = some b → P (d + r.length) b) :
    find_node shape1 D x t d = find_node shape2 D x t d ∧
    ∀ r b, (find_node shape2 D x t d).1.bounds_at r = some b → P (d + r.length) b := by
  induction t, d using find_node.induct shape2 D x with
  | case1 d => simp [find_node_null]
  | case2 ch ps nb d hd =>
    rw [find_node_depth _ _ _ _ _ _ _ hd, find_node_depth _ _ _ _ _ _ _ hd]
    exact ⟨rfl, ht⟩
  | case3 ch ps nb d hd hi =>
    have hP : P d nb := by simpa using ht [] nb (by simp)
    have hi1 : shape1.child_index x nb = none := by
      rw [hidx d nb hP (by omega)]; exact hi
    rw [find_node_straddle _ _ _ _ _ _ _ hd hi, find_node_straddle _ _ _ _ _ _ _ hd hi1]
    exact ⟨rfl, ht⟩
  | case4 ch ps nb d hd i hi child ih =>
    have hP : P d nb := by simpa using ht [] nb (by simp)
    have hi1 : shape1.child_index x nb = some i := by
      rw [hidx d nb hP (by omega)]; exact hi
    have hb := hbnd d nb i hP (by omega)
    have hchild : ∀ r b, child.bounds_at r = some b → P (d + 1 + r.length) b := by
      intro r b hr
      simp only [child] at hr
      cases hc : ch i with
      | null =>
        rw [hc] at hr
        simp only [create_if_null, fresh] at hr
        cases r with
        | nil =>
          simp only [bounds_at_nil, Option.some.injEq] at hr
          subst hr
          simpa using hb.2
        | cons j rest => simp [bounds_at_cons, bounds_at_null] at hr
      | node ch' ps' b' =>
        rw [hc] at hr
        simp only [create_if_null] at hr
        have := ht (i :: r) b (by simpa [bounds_at_cons, hc] using hr)
        simpa [add_assoc, add_comm 1] using this
    obtain ⟨ih1, ih2⟩ := ih hchild
    rw [find_node_descend _ _ _ _ _ _ _ hd i hi, find_node_descend _ _ _ _ _ _ _ hd i hi1]
    constructor
    · rw [hb.1]
      simp only [child] at ih1
      rw [ih1]
    · intro r b hr
      cases r with
      | nil =>
        simp only [bounds_at_nil, Option.some.injEq] at hr
        subst hr
        simpa using hP
      | cons j rest =>
        simp only [bounds_at_cons] at hr
        by_cases hj : j = i
        · subst hj
          simp only [Function.update_same] at hr
          have := ih2 rest b hr
          simpa [add_assoc, add_comm 1] using this
        · simp only [Function.update_noteq hj] at hr
          exact ht (j :: rest) b (by simpa [bounds_at_cons] using hr)

end TreeNode

/-! ## Two shapes that agree on the nodes of a tree: call sequences and queries -/

namespace TreeAccelerationStructure

variable {n : Nat} {B : Type}

open TreeNode

/-- One call does the same with two shapes that agree on the nodes of the tree. -/
theorem step_congr (shape1 shape2 : TreeShape n B) (D : Nat) (P : Nat → B → Prop)
    (Q : aabbox3 → Prop)
    (hidx : ∀ x d b, Q x → P d b → d < D → shape1.child_index x b = shape2.child_index x b)
    (hout : ∀ x d b, Q x → P d b → shape1.outside x b = shape2.outside x b)
    (hbnd : ∀ d b i, P d b → d < D →
      shape1.child_bounds b i = shape2.child_bounds b i ∧ P (d + 1) (shape2.child_bounds b i))
    (s : TreeAccelerationStructure n B) (hD : s.m_max_depth = D)
    (hinv : ∀ r b, s.root.bounds_at r = some b → P r.length b) (call : Call)
    (hcall : ∀ p, call = .add p ∨ call = .update p → Q (s.m_bounds p)) :
    s.step shape1 call = s.step shape2 call ∧
    ∀ s', s.step shape2 call = some s' →
      s'.m_max_depth = D ∧ ∀ r b, s'.root.bounds_at r = some b → P r.length b := by
  cases call with
  | add p =>
    have hQ := hcall p (Or.inl rfl)
    obtain ⟨h1, h2⟩ := find_node_congr shape1 shape2 D (s.m_bounds p) P
      (fun d b => hidx _ d b hQ) hbnd s.root 0 (by simpa using hinv)
    simp only [step, add, hD]
    rw [h1]
    refine ⟨rfl, ?_⟩
    intro s' hs'
    cases hps : (s.root.find_node shape2 D (s.m_bounds p) 0).1.primitives_at
        (s.root.find_node shape2 D (s.m_bounds p) 0).2 with
    | none => rw [hps] at hs'; simp at hs'
    | some ps =>
      rw [hps] at hs'
      by_cases hp : p ∈ ps
      · simp [hp] at hs'
      · simp only [hp, if_false, Option.some.injEq] at hs'
        subst hs'
        refine ⟨rfl, ?_⟩
        intro r b hr
        simp only [bounds_at_set] at hr
        simpa using h2 r b hr
  | remove p =>
    refine ⟨rfl, ?_⟩
    intro s' hs'
    simp only [step, remove] at hs'
    cases hmn : s.m_node p with
    | none => simp [hmn] at hs'
    | some r =>
      cases hps : s.root.primitives_at r with
      | none => simp [hmn, hps] at hs'
      | some ps =>
        cases hw : vector_erase_swap ps p with
        | none => simp [hmn, hps, hw] at hs'
        | some w =>
          simp only [hmn, hps, hw, Option.some.injEq] at hs'
          subst hs'
          refine ⟨hD, ?_⟩
          intro r' b hr
          simp only [bounds_at_set] at hr
          exact hinv r' b hr
  | update p =>
    have hQ := hcall p (Or.inr rfl)
    simp only [step, update, hD]
    cases hmn : s.m_node p with
    | none => simp
    | some r =>
      cases hb : s.root.bounds_at r with
      | none => simp [hb]
      | some nb =>
        cases hps : s.root.primitives_at r with
        | none => simp [hb, hps]
        | some ps =>
          simp only [hb, hps]
          rw [hout _ _ _ hQ (hinv r nb hb)]
          by_cases ho : shape2.outside (s.m_bounds p) nb = true
          · simp only [ho, if_true]
            cases hw : vector_erase_swap ps p with
            | none => simp
            | some w =>
              simp only []
              obtain ⟨h1, h2⟩ := find_node_congr shape1 shape2 D (s.m_bounds p) P
                (fun d b => hidx _ d b hQ) hbnd (s.root.set_primitives_at r w) 0
                (by
                  intro r' b hr
                  simp only [bounds_at_set] at hr
                  simpa using hinv r' b hr)
              rw [h1]
              refine ⟨rfl, ?_⟩
              intro s' hs'
              cases hps2 : ((s.root.set_primitives_at r w).find_node shape2 D
                  (s.m_bounds p) 0).1.primitives_at
                  ((s.root.set_primitives_at r w).find_node shape2 D (s.m_bounds p) 0).2 with
              | none => rw [hps2] at hs'; simp at hs'
              | some ps2 =>
                rw [hps2] at hs'
                simp only [Option.some.injEq] at hs'
                subst hs'
                refine ⟨rfl, ?_⟩
                intro r' b hr
                simp only [bounds_at_set] at hr
                simpa using h2 r' b hr
          · simp only [ho, Bool.false_eq_true, if_false, true_and]
            intro s' hs'
            simp only [Option.some.injEq] at hs'
            subst hs'
            exact ⟨hD, hinv⟩
  | set_bounds p x =>
    refine ⟨rfl, ?_⟩
    intro s' hs'
    simp only [step, Option.some.injEq] at hs'
    subst hs'
    exact ⟨hD, hinv⟩

/-- The bounds of the primitives are what the bookkeeping of the contract says,
after one more call. -/
theorem step_m_bounds (shape : TreeShape n B) (admissible : aabbox3 → Bool)
    (s s' : TreeAccelerationStructure n B) (c c' : Caller) (call : Call)
    (hb : s.m_bounds = c.m_bounds) (hs : s.step shape call = some s')
    (hc : c.step admissible call = some c') : s'.m_bounds = c'.m_bounds := by
  cases call with
  | add p =>
    simp only [step, add] at hs
    simp only [Caller.step] at hc
    split at hs
    · simp at hs
    · split at hs
      · simp at hs
      · split at hc
        · simp only [Option.some.injEq] at hs hc
          subst hs; subst hc; exact hb
        · simp at hc
  | remove p =>
    simp only [step, remove] at hs
    simp only [Caller.step] at hc
    split at hs
    · simp at hs
    · split at hs
      · simp at hs
      · split at hs
        · simp at hs
        · split at hc
          · simp only [Option.some.injEq] at hs hc
            subst hs; subst hc; exact hb
          · simp at hc
  | update p =>
    simp only [Caller.step] at hc
    split at hc
    · simp only [Option.some.injEq] at hc
      subst hc
      simp only [step, update] at hs
      split at hs
      · simp at hs
      · split at hs
        · split at hs
          · split at hs
            · simp at hs
            · split at hs
              · simp at hs
              · simp only [Option.some.injEq] at hs
                subst hs; exact hb
          · simp only [Option.some.injEq] at hs
            subst hs; exact hb
        · simp at hs
    · simp at hc
  | set_bounds p x =>
    simp only [step, Option.some.injEq] at hs
    simp only [Caller.step, Option.some.injEq] at hc
    subst hs; subst hc
    simp only [hb]

/-- A call sequence under the contract does the same with two shapes that agree on
the nodes of the tree and on the boxes the contract admits. -/
theorem run_congr (shape1 shape2 : TreeShape n B) (D : Nat) (P : Nat → B → Prop)
    (Q : aabbox3 → Prop)
    (hidx : ∀ x d b, Q x → P d b → d < D → shape1.child_index x b = shape2.child_index x b)
    (hout : ∀ x d b, Q x → P d b → shape1.outside x b = shape2.outside x b)
    (hbnd : ∀ d b i, P d b → d < D →
      shape1.child_bounds b i = shape2.child_bounds b i ∧ P (d + 1) (shape2.child_bounds b i))
    (admissible : aabbox3 → Bool) (hadm : ∀ x, admissible x = true → Q x) :
    ∀ (calls : List Call) (c c' : Caller) (s : TreeAccelerationStructure n B),
      s.m_bounds = c.m_bounds → s.m_max_depth = D →
      (∀ r b, s.root.bounds_at r = some b → P r.length b) →
      Caller.run admissible c calls = some c' →
      s.run shape1 calls = s.run shape2 calls ∧
      ∀ s', s.run shape2 calls = some s' →
        s'.m_max_depth = D ∧ (∀ r b, s'.root.bounds_at r = some b → P r.length b) ∧
        s'.m_bounds = c'.m_bounds := by
  intro calls
  induction calls with
  | nil =>
    intro c c' s hb hD hinv hc
    simp only [Caller.run, Option.some.injEq] at hc
    subst hc
    refine ⟨rfl, ?_⟩
    intro s' hs'
    simp only [run, Option.some.injEq] at hs'
    subst hs'
    exact ⟨hD, hinv, hb⟩
  | cons call calls ih =>
    intro c c' s hb hD hinv hc
    simp only [Caller.run] at hc
    cases hc1 : c.step admissible call with
    | none => simp [hc1] at hc
    | some c1 =>
      simp only [hc1] at hc
      have hcall : ∀ p, call = .add p ∨ call = .update p → Q (s.m_bounds p) := by
        intro p hp
        apply hadm
        rw [hb]
        rcases hp with rfl | rfl
        · simp only [Caller.step] at hc1
          split at hc1
          · rename_i h; exact h.2
          · simp at hc1
        · simp only [Caller.step] at hc1
          split at hc1
          · rename_i h; exact h.2
          · simp at hc1
      obtain ⟨h1, h2⟩ := step_congr shape1 shape2 D P Q hidx hout hbnd s hD hinv call hcall
      simp only [run]
      rw [h1]
      cases hs1 : s.step shape2 call with
      | none => simp
      | some s1 =>
        simp only []
        obtain ⟨hD1, hinv1⟩ := h2 s1 hs1
        exact ih c1 c' s1 (step_m_bounds shape2 admissible s s1 c c1 call hb hs1 hc1) hD1 hinv1 hc

/-- A query finds the same primitives with two pairs of tests that agree on the
primitives and on the nodes of the tree. -/
theorem query_matches_congr (hp1 hp2 : Nat → Bool) (hn1 hn2 : B → Bool) :
    ∀ t : TreeNode n B, (∀ p ∈ t.all_primitives, hp1 p = hp2 p) →
      (∀ r b, t.bounds_at r = some b → hn1 b = hn2 b) →
      t.query_matches hp1 hn1 = t.query_matches hp2 hn2
  | .null, _, _ => by simp [query_matches]
  | .node ch ps nb, hp, hn => by
    simp only [query_matches]
    congr 1
    · apply List.filter_congr
      intro p hpm
      exact hp p (by simp [all_primitives, hpm])
    · apply List.flatMap_congr
      intro i _
      cases hc : ch i with
      | null => rfl
      | node ch' ps' b' =>
        simp only []
        have hb' : hn1 b' = hn2 b' := hn [i] b' (by simp [bounds_at_cons, hc])
        rw [hb']
        split_ifs
        · rw [← hc]
          apply query_matches_congr hp1 hp2 hn1 hn2 (ch i)
          · intro p hpm
            apply hp
            simp only [all_primitives, List.mem_append, List.mem_flatMap, List.mem_finRange,
              true_and]
            exact Or.inr ⟨i, hpm⟩
          · intro r b hr
            exact hn (i :: r) b (by simpa [bounds_at_cons] using hr)
        · rfl

end TreeAccelerationStructure

namespace Caller

/-- A call sequence that respects a contract respects every weaker contract. -/
theorem run_weaken (admissible1 admissible2 : aabbox3 → Bool)
    (h : ∀ x, admissible1 x = true → admissible2 x = true) :
    ∀ (calls : List Call) (c c' : Caller), run admissible1 c calls = some c' →
      run admissible2 c calls = some c' := by
  intro calls
  induction calls with
  | nil => intro c c' hc; exact hc
  | cons call calls ih =>
    intro c c' hc
    simp only [run] at hc ⊢
    cases hc1 : c.step admissible1 call with
    | none => simp [hc1] at hc
    | some c1 =>
      simp only [hc1] at hc
      have : c.step admissible2 call = some c1 := by
        cases call with
        | add p =>
          simp only [step] at hc1 ⊢
          split at hc1
          · rename_i hh
            rw [if_pos ⟨hh.1, h _ hh.2⟩]; exact hc1
          · simp at hc1
        | remove p => exact hc1
        | update p =>
          simp only [step] at hc1 ⊢
          split at hc1
          · rename_i hh
            rw [if_pos ⟨hh.1, h _ hh.2⟩]; exact hc1
          · simp at hc1
        | set_bounds p x => exact hc1
      simp only [this]
      exact ih c1 c' hc

/-- Every present primitive whose bounds were not written since its last `add` or
`update` has bounds that the contract admits. -/
theorem run_admissible (admissible : aabbox3 → Bool) :
    ∀ (calls : List Call) (c c' : Caller), run admissible c calls = some c' →
      c.present.Nodup →
      (∀ p ∈ c.present, p ∉ c.stale → admissible (c.m_bounds p) = true) →
      c'.present.Nodup ∧
      ∀ p ∈ c'.present, p ∉ c'.stale → admissible (c'.m_bounds p) = true := by
  intro calls
  induction calls with
  | nil =>
    intro c c' hc hnd h
    simp only [run, Option.some.injEq] at hc
    subst hc
    exact ⟨hnd, h⟩
  | cons call calls ih =>
    intro c c' hc hnd h
    simp only [run] at hc
    cases hc1 : c.step admissible call with
    | none => simp [hc1] at hc
    | some c1 =>
      simp only [hc1] at hc
      apply ih c1 c' hc
      · cases call with
        | add p =>
          simp only [step] at hc1
          split at hc1
          · rename_i hh
            simp only [Option.some.injEq] at hc1
            subst hc1
            exact List.nodup_cons.mpr ⟨hh.1, hnd⟩
          · simp at hc1
        | remove p =>
          simp only [step] at hc1
          split at hc1
          · simp only [Option.some.injEq] at hc1
            subst hc1
            exact hnd.erase p
          · simp at hc1
        | update p =>
          simp only [step] at hc1
          split at hc1
          · simp only [Option.some.injEq] at hc1
            subst hc1
            exact hnd
          · simp at hc1
        | set_bounds p x =>
          simp only [step, Option.some.injEq] at hc1
          subst hc1
          exact hnd
      · cases call with
        | add p =>
          simp only [step] at hc1
          split at hc1
          · rename_i hh
            simp only [Option.some.injEq] at hc1
            subst hc1
            intro q hq hqs
            simp only [List.mem_cons] at hq
            rcases hq with rfl | hq
            · exact hh.2
            · exact h q hq hqs
          · simp at hc1
        | remove p =>
          simp only [step] at hc1
          split at hc1
          · simp only [Option.some.injEq] at hc1
            subst hc1
            intro q hq hqs
            have hne : q ≠ p := fun e => by
              subst e
              exact (List.Nodup.not_mem_erase hnd) hq
            apply h q (List.mem_of_mem_erase hq)
            intro hst
            exact hqs (List.mem_filter.mpr ⟨hst, by simpa using hne⟩)
          · simp at hc1
        | update p =>
          simp only [step] at hc1
          split at hc1
          · rename_i hh
            simp only [Option.some.injEq] at hc1
            subst hc1
            intro q hq hqs
            by_cases hne : q = p
            · subst hne; exact hh.2
            · apply h q hq
              intro hst
              exact hqs (List.mem_filter.mpr ⟨hst, by simpa using hne⟩)
          · simp at hc1
        | set_bounds p x =>
          simp only [step, Option.some.injEq] at hc1
          subst hc1
          intro q hq hqs
          simp only at hq hqs ⊢
          have hne : q ≠ p := by
            intro e
            subst e
            simp only [hq, if_true, List.mem_cons, true_or, not_true_eq_false] at hqs
          rw [Function.update_noteq hne]
          apply h q hq
          intro hst
          apply hqs
          split_ifs
          · exact List.mem_cons_of_mem _ hst
          · exact hst

end Caller

/-! ## On a dyadic grid binary32 does not round -/

theorem den_div_pow2 (k : ℤ) (v : ℚ) : (v / pow2 k).den = 1 ↔ ∃ n : ℤ, v = n * pow2 k := by
  constructor
  · intro h
    refine ⟨(v / pow2 k).num, ?_⟩
    have h1 : ((v / pow2 k).num : ℚ) = v / pow2 k := by
      have := Rat.num_div_den (v / pow2 k)
      rw [h] at this
      simpa using this
    rw [h1, div_mul_cancel₀ _ (pow2_pos k).ne']
  · rintro ⟨n, rfl⟩
    rw [mul_div_assoc, div_self (pow2_pos k).ne', mul_one]
    exact Rat.den_intCast n

theorem binary32_of_den (k : ℤ) (hk : -149 ≤ k) (v : ℚ) (hden : (v / pow2 k).den = 1)
    (hv : |v| < 2 ^ 24 * pow2 k) : binary32 v = v := by
  obtain ⟨n, rfl⟩ := (den_div_pow2 k v).mp hden
  apply binary32_of_multiple n k hk
  rw [abs_mul, abs_of_pos (pow2_pos k)] at hv
  have := lt_of_mul_lt_mul_right hv (pow2_pos k).le
  exact_mod_cast this

theorem den_add (k : ℤ) (a b : ℚ) (ha : (a / pow2 k).den = 1) (hb : (b / pow2 k).den = 1) :
    ((a + b) / pow2 k).den = 1 := by
  obtain ⟨m, rfl⟩ := (den_div_pow2 k a).mp ha
  obtain ⟨n, rfl⟩ := (den_div_pow2 k b).mp hb
  exact (den_div_pow2 k _).mpr ⟨m + n, by push_cast; ring⟩

theorem den_sub (k : ℤ) (a b : ℚ) (ha : (a / pow2 k).den = 1) (hb : (b / pow2 k).den = 1) :
    ((a - b) / pow2 k).den = 1 := by
  obtain ⟨m, rfl⟩ := (den_div_pow2 k a).mp ha
  obtain ⟨n, rfl⟩ := (den_div_pow2 k b).mp hb
  exact (den_div_pow2 k _).mpr ⟨m - n, by push_cast; ring⟩

theorem den_neg (k : ℤ) (a : ℚ) (ha : (a / pow2 k).den = 1) : ((-a) / pow2 k).den = 1 := by
  obtain ⟨m, rfl⟩ := (den_div_pow2 k a).mp ha
  exact (den_div_pow2 k _).mpr ⟨-m, by push_cast; ring⟩

theorem den_coarse (k : ℤ) (j : ℕ) (a : ℚ) (ha : (a / pow2 (k + j)).den = 1) :
    (a / pow2 k).den = 1 := by
  obtain ⟨m, rfl⟩ := (den_div_pow2 _ a).mp ha
  refine (den_div_pow2 k _).mpr ⟨m * 2 ^ j, ?_⟩
  rw [pow2_add, pow2_natCast]
  push_cast
  ring

theorem den_half (k : ℤ) (j : ℕ) (a : ℚ) (ha : (a / pow2 (k + (j + 1 : ℕ))).den = 1) :
    (a / 2 / pow2 (k + j)).den = 1 := by
  obtain ⟨m, rfl⟩ := (den_div_pow2 _ a).mp ha
  refine (den_div_pow2 _ _).mpr ⟨m, ?_⟩
  have : pow2 (k + ((j + 1 : ℕ) : ℤ)) = pow2 (k + j) * 2 := by
    have e : k + ((j + 1 : ℕ) : ℤ) = (k + j) + 1 := by push_cast; ring
    rw [e, pow2_add]
    congr 1
  rw [this]
  ring

/-- On the grid, binary32 holds the sum of two numbers without rounding. -/
theorem fadd_of_grid (k : ℤ) (hk : -149 ≤ k) (a b : ℚ) (ha : (a / pow2 k).den = 1)
    (hb : (b / pow2 k).den = 1) (h : |a + b| < 2 ^ 24 * pow2 k) : fadd a b = a + b := by
  rw [fadd_binary32]
  exact binary32_of_den k hk _ (den_add k a b ha hb) h

/-- On the grid, binary32 holds the difference of two numbers without rounding. -/
theorem fsub_of_grid (k : ℤ) (hk : -149 ≤ k) (a b : ℚ) (ha : (a / pow2 k).den = 1)
    (hb : (b / pow2 k).den = 1) (h : |a - b| < 2 ^ 24 * pow2 k) : fsub a b = a - b := by
  rw [fsub_binary32]
  exact binary32_of_den k hk _ (den_sub k a b ha hb) h

theorem grid_value_den {k : ℤ} {v : ℚ} (h : grid_value k v) : (v / pow2 k).den = 1 := h.1

theorem grid_value_sub_lt {k : ℤ} {a b : ℚ} (ha : grid_value k a) (hb : grid_value k b) :
    |a - b| < 2 ^ 24 * pow2 k := by
  have h1 := ha.2
  have h2 := hb.2
  have hp := pow2_pos k
  have : |a - b| ≤ |a| + |b| := abs_sub a b
  nlinarith

theorem grid_value_add_lt {k : ℤ} {a b : ℚ} (ha : grid_value k a) (hb : grid_value k b) :
    |a + b| < 2 ^ 24 * pow2 k := by
  have h1 := ha.2
  have h2 := hb.2
  have hp := pow2_pos k
  have : |a + b| ≤ |a| + |b| := abs_add a b
  nlinarith

theorem fsub_grid_value (k : ℤ) (hk : -149 ≤ k) {a b : ℚ} (ha : grid_value k a)
    (hb : grid_value k b) : fsub a b = a - b :=
  fsub_of_grid k hk a b ha.1 hb.1 (grid_value_sub_lt ha hb)

theorem fadd_grid_value (k : ℤ) (hk : -149 ≤ k) {a b : ℚ} (ha : grid_value k a)
    (hb : grid_value k b) : fadd a b = a + b :=
  fadd_of_grid k hk a b ha.1 hb.1 (grid_value_add_lt ha hb)

theorem grid_axis_den {k : ℤ} {level : ℕ} {c e : ℚ} (h : grid_axis k level c e) :
    (c / pow2 k).den = 1 ∧ (e / pow2 k).den = 1 :=
  ⟨h.1, den_coarse k level e h.2.1⟩

theorem grid_axis_bounds {k : ℤ} {level : ℕ} {c e : ℚ} (h : grid_axis k level c e) :
    |c| ≤ 2 ^ 23 * pow2 k ∧ |e| ≤ 2 ^ 23 * pow2 k ∧ |c - e| ≤ 2 ^ 23 * pow2 k ∧
    |c + e| ≤ 2 ^ 23 * pow2 k := by
  obtain ⟨_, _, he, hb⟩ := h
  have h0 := abs_nonneg c
  refine ⟨by linarith, by rw [abs_of_nonneg he]; linarith, ?_, ?_⟩
  · have : |c - e| ≤ |c| + |e| := abs_sub c e
    rw [abs_of_nonneg he] at this
    linarith
  · have : |c + e| ≤ |c| + |e| := abs_add c e
    rw [abs_of_nonneg he] at this
    linarith

theorem fsub_grid_axis (k : ℤ) (hk : -149 ≤ k) {level : ℕ} {c e : ℚ}
    (h : grid_axis k level c e) : fsub c e = c - e := by
  have hp := pow2_pos k
  apply fsub_of_grid k hk c e (grid_axis_den h).1 (grid_axis_den h).2
  have := (grid_axis_bounds h).2.2.1
  nlinarith

theorem fadd_grid_axis (k : ℤ) (hk : -149 ≤ k) {level : ℕ} {c e : ℚ}
    (h : grid_axis k level c e) : fadd c e = c + e := by
  have hp := pow2_pos k
  apply fadd_of_grid k hk c e (grid_axis_den h).1 (grid_axis_den h).2
  have := (grid_axis_bounds h).2.2.2
  nlinarith

theorem fsub_node_query (k : ℤ) (hk : -149 ≤ k) {level : ℕ} {c e q : ℚ}
    (h : grid_axis k level c e) (hq : grid_value k q) : fsub c q = c - q := by
  have hp := pow2_pos k
  apply fsub_of_grid k hk c q (grid_axis_den h).1 hq.1
  have h1 := (grid_axis_bounds h).1
  have h2 := hq.2
  have : |c - q| ≤ |c| + |q| := abs_sub c q
  nlinarith

theorem fadd_node_query (k : ℤ) (hk : -149 ≤ k) {level : ℕ} {c e q : ℚ}
    (h : grid_axis k level c e) (hq : grid_value k q) : fadd e q = e + q := by
  have hp := pow2_pos k
  apply fadd_of_grid k hk e q (grid_axis_den h).2 hq.1
  have h1 := (grid_axis_bounds h).2.1
  have h2 := hq.2
  have : |e + q| ≤ |e| + |q| := abs_add e q
  nlinarith

/-- The child of a node of the grid, on one axis: the half extent and the new
center are held by binary32 without rounding, and the child is a node of the
grid one level further down. -/
theorem child_axis_grid (k : ℤ) (hk : -149 ≤ k) {level : ℕ} {c e : ℚ}
    (h : grid_axis k (level + 1) c e) (factor : ℚ) (hf : factor = 1 ∨ factor = -1) :
    fdiv e 2 = e / 2 ∧ fadd c (fmul factor (fdiv e 2)) = c + factor * (e / 2) ∧
    grid_axis k level (c + factor * (e / 2)) (e / 2) := by
  have hp := pow2_pos k
  obtain ⟨hc, he, he0, hb⟩ := h
  have hhalf : (e / 2 / pow2 (k + level)).den = 1 := den_half k level e he
  have hhalf' : (e / 2 / pow2 k).den = 1 := den_coarse k level _ hhalf
  have habs : |c| + e ≤ 2 ^ 23 * pow2 k := hb
  have hc0 := abs_nonneg c
  have h1 : fdiv e 2 = e / 2 := by
    rw [fdiv_binary32]
    apply binary32_of_den k hk _ hhalf'
    rw [abs_of_nonneg (by linarith)]
    nlinarith
  have hfe : (factor * (e / 2) / pow2 k).den = 1 := by
    rcases hf with rfl | rfl
    · simpa using hhalf'
    · have := den_neg k _ hhalf'
      simpa using this
  have hfabs : |factor * (e / 2)| = e / 2 := by
    rcases hf with rfl | rfl
    · rw [one_mul, abs_of_nonneg (by linarith)]
    · rw [neg_one_mul, abs_neg, abs_of_nonneg (by linarith)]
  have h2 : fmul factor (e / 2) = factor * (e / 2) := by
    rw [fmul_binary32]
    apply binary32_of_den k hk _ hfe
    rw [hfabs]
    nlinarith
  have hsum : |c + factor * (e / 2)| ≤ |c| + e / 2 := by
    have := abs_add c (factor * (e / 2))
    rw [hfabs] at this
    exact this
  have h3 : fadd c (factor * (e / 2)) = c + factor * (e / 2) := by
    apply fadd_of_grid k hk _ _ hc hfe
    nlinarith
  refine ⟨h1, by rw [h1, h2, h3], den_add k _ _ hc hfe, hhalf, by linarith, by linarith⟩

namespace OctreeAccelerationStructure

theorem octree_factor_cases (i : Fin 8) :
    ((OCTREE_EXTENT_FACTORS i).x = 1 ∨ (OCTREE_EXTENT_FACTORS i).x = -1) ∧
    ((OCTREE_EXTENT_FACTORS i).y = 1 ∨ (OCTREE_EXTENT_FACTORS i).y = -1) ∧
    ((OCTREE_EXTENT_FACTORS i).z = 1 ∨ (OCTREE_EXTENT_FACTORS i).z = -1) := by
  fin_cases i <;> simp [OCTREE_EXTENT_FACTORS]

/-- For a box on the grid, `find_node` computes the same child index in binary32
as in exact arithmetic. -/
theorem octree_child_index_grid (k : ℤ) (hk : -149 ≤ k) (x : aabbox3) (hx : x.on_grid k)
    (b : aabbox3) : child_index x b = @child_index exact_arithmetic x b := by
  obtain ⟨h1, h2, h3, h4, h5, h6⟩ := hx
  unfold child_index
  rw [fsub_grid_value k hk h1 h4, fadd_grid_value k hk h1 h4, fsub_grid_value k hk h2 h5,
    fadd_grid_value k hk h2 h5, fsub_grid_value k hk h3 h6, fadd_grid_value k hk h3 h6]
  rfl

/-- For a node of the grid above the deepest level, `find_node` computes the same
child bounds in binary32 as in exact arithmetic, and they are those of a node of
the grid one level further down. -/
theorem octree_child_bounds_grid (k : ℤ) (hk : -149 ≤ k) (level : ℕ) (b : aabbox3)
    (hb : b.grid_node k (level + 1)) (i : Fin 8) :
    child_bounds b i = @child_bounds exact_arithmetic b i ∧
    (@child_bounds exact_arithmetic b i).grid_node k level := by
  obtain ⟨hx, hy, hz⟩ := hb
  obtain ⟨fx, fy, fz⟩ := octree_factor_cases i
  obtain ⟨x1, x2, x3⟩ := child_axis_grid k hk hx _ fx
  obtain ⟨y1, y2, y3⟩ := child_axis_grid k hk hy _ fy
  obtain ⟨z1, z2, z3⟩ := child_axis_grid k hk hz _ fz
  constructor
  · unfold child_bounds
    simp only []
    rw [x2, y2, z2, x1, y1, z1]
    rfl
  · exact ⟨x3, y3, z3⟩

/-- For a box on the grid and a node of the grid, `update` decides the same in
binary32 as in exact arithmetic. -/
theorem octree_outside_grid (k : ℤ) (hk : -149 ≤ k) (x : aabbox3) (hx : x.on_grid k)
    (level : ℕ) (b : aabbox3) (hb : b.grid_node k level) :
    outside x b = @outside exact_arithmetic x b := by
  obtain ⟨h1, h2, h3, h4, h5, h6⟩ := hx
  obtain ⟨bx, by', bz⟩ := hb
  unfold outside
  rw [fsub_grid_value k hk h1 h4, fadd_grid_value k hk h1 h4, fsub_grid_value k hk h2 h5,
    fadd_grid_value k hk h2 h5, fsub_grid_value k hk h3 h6, fadd_grid_value k hk h3 h6,
    fsub_grid_axis k hk bx, fadd_grid_axis k hk bx, fsub_grid_axis k hk by',
    fadd_grid_axis k hk by', fsub_grid_axis k hk bz, fadd_grid_axis k hk bz]
  rfl

end OctreeAccelerationStructure

/-- For two boxes on the grid, the box test gives the same in binary32 as in exact
arithmetic. -/
theorem intersect_aabbox3_aabbox3_grid (k : ℤ) (hk : -149 ≤ k) (x q : aabbox3)
    (hx : x.on_grid k) (hq : q.on_grid k) :
    intersect_aabbox3_aabbox3 x q = @intersect_aabbox3_aabbox3 exact_arithmetic x q := by
  obtain ⟨h1, h2, h3, h4, h5, h6⟩ := hx
  obtain ⟨q1, q2, q3, q4, q5, q6⟩ := hq
  unfold intersect_aabbox3_aabbox3
  rw [fsub_grid_value k hk h1 q1, fadd_grid_value k hk h4 q4, fsub_grid_value k hk h2 q2,
    fadd_grid_value k hk h5 q5, fsub_grid_value k hk h3 q3, fadd_grid_value k hk h6 q6]
  rfl

/-- For a node of the grid and a box on the grid, the box test gives the same in
binary32 as in exact arithmetic. -/
theorem intersect_aabbox3_node_grid (k : ℤ) (hk : -149 ≤ k) (level : ℕ) (b q : aabbox3)
    (hb : b.grid_node k level) (hq : q.on_grid k) :
    intersect_aabbox3_aabbox3 b q = @intersect_aabbox3_aabbox3 exact_arithmetic b q := by
  obtain ⟨bx, by', bz⟩ := hb
  obtain ⟨q1, q2, q3, q4, q5, q6⟩ := hq
  unfold intersect_aabbox3_aabbox3
  rw [fsub_node_query k hk bx q1, fadd_node_query k hk bx q4, fsub_node_query k hk by' q2,
    fadd_node_query k hk by' q5, fsub_node_query k hk bz q3, fadd_node_query k hk bz q6]
  rfl

namespace QuadtreeAccelerationStructure

theorem quadtree_factor_cases (i : Fin 4) :
    ((QUADTREE_EXTENT_FACTORS i).x = 1 ∨ (QUADTREE_EXTENT_FACTORS i).x = -1) ∧
    ((QUADTREE_EXTENT_FACTORS i).y = 1 ∨ (QUADTREE_EXTENT_FACTORS i).y = -1) := by
  fin_cases i <;> simp [QUADTREE_EXTENT_FACTORS]

/-- For a box on the grid, `find_node` computes the same child index in binary32
as in exact arithmetic. -/
theorem quadtree_child_index_grid (k : ℤ) (hk : -149 ≤ k) (x : aabbox3) (hx : x.on_grid k)
    (b : aabbox2) : child_index x b = @child_index exact_arithmetic x b := by
  obtain ⟨h1, h2, h3, h4, h5, h6⟩ := hx
  unfold child_index
  rw [fsub_grid_value k hk h1 h4, fadd_grid_value k hk h1 h4, fsub_grid_value k hk h3 h6,
    fadd_grid_value k hk h3 h6]
  rfl

/-- For a node of the grid above the deepest level, `find_node` computes the same
child bounds in binary32 as in exact arithmetic, and they are those of a node of
the grid one level further down. -/
theorem quadtree_child_bounds_grid (k : ℤ) (hk : -149 ≤ k) (level : ℕ) (b : aabbox2)
    (hb : b.grid_node k (level + 1)) (i : Fin 4) :
    child_bounds b i = @child_bounds exact_arithmetic b i ∧
    (@child_bounds exact_arithmetic b i).grid_node k level := by
  obtain ⟨hx, hy⟩ := hb
  obtain ⟨fx, fy⟩ := quadtree_factor_cases i
  obtain ⟨x1, x2, x3⟩ := child_axis_grid k hk hx _ fx
  obtain ⟨y1, y2, y3⟩ := child_axis_grid k hk hy _ fy
  constructor
  · unfold child_bounds
    simp only []
    rw [x2, y2, x1, y1]
    rfl
  · exact ⟨x3, y3⟩

/-- For a box on the grid and a node of the grid, `update` decides the same in
binary32 as in exact arithmetic. -/
theorem quadtree_outside_grid (k : ℤ) (hk : -149 ≤ k) (x : aabbox3) (hx : x.on_grid k)
    (level : ℕ) (b : aabbox2) (hb : b.grid_node k level) :
    outside x b = @outside exact_arithmetic x b := by
  obtain ⟨h1, h2, h3, h4, h5, h6⟩ := hx
  obtain ⟨bx, by'⟩ := hb
  unfold outside
  rw [fsub_grid_value k hk h1 h4, fadd_grid_value k hk h1 h4, fsub_grid_value k hk h3 h6,
    fadd_grid_value k hk h3 h6, fsub_grid_axis k hk bx, fadd_grid_axis k hk bx,
    fsub_grid_axis k hk by', fadd_grid_axis k hk by']
  rfl

end QuadtreeAccelerationStructure

/-- For a quadtree node of the grid and a box on the grid, the footprint test gives
the same in binary32 as in exact arithmetic. -/
theorem intersect_aabbox2_node_grid (k : ℤ) (hk : -149 ≤ k) (level : ℕ) (b : aabbox2)
    (q : aabbox3) (hb : b.grid_node k level) (hq : q.on_grid k) :
    intersect_aabbox2_aabbox3 b q = @intersect_aabbox2_aabbox3 exact_arithmetic b q := by
  obtain ⟨bx, by'⟩ := hb
  obtain ⟨q1, q2, q3, q4, q5, q6⟩ := hq
  unfold intersect_aabbox2_aabbox3
  rw [fsub_node_query k hk bx q1, fadd_node_query k hk bx q4, fsub_node_query k hk by' q3,
    fadd_node_query k hk by' q6]
  rfl

/-- The bounds of a root of the grid with non-negative extents are those of a node
of the grid `max_depth` levels above the deepest level. -/
theorem aabbox3.grid_node_of_root (k : ℤ) (max_depth : ℕ) (b : aabbox3)
    (h : b.grid_root k max_depth) (hb : b.nonneg) : b.grid_node k max_depth := by
  obtain ⟨⟨c1, c2, c3, e1, e2, e3⟩, m1, m2, m3⟩ := h
  obtain ⟨n1, n2, n3⟩ := hb
  have hp := pow2_pos k
  refine ⟨⟨c1.1, m1, n1, ?_⟩, ⟨c2.1, m2, n2, ?_⟩, ⟨c3.1, m3, n3, ?_⟩⟩
  · have := c1.2; have := e1.2; rw [abs_of_nonneg n1] at *; nlinarith
  · have := c2.2; have := e2.2; rw [abs_of_nonneg n2] at *; nlinarith
  · have := c3.2; have := e3.2; rw [abs_of_nonneg n3] at *; nlinarith

theorem aabbox2.footprint_node_of_root (k : ℤ) (max_depth : ℕ) (b : aabbox2)
    (h : b.grid_root k max_depth) (hb : b.nonneg) : b.grid_node k max_depth := by
  obtain ⟨⟨c1, c2, e1, e2⟩, m1, m2⟩ := h
  obtain ⟨n1, n2⟩ := hb
  have hp := pow2_pos k
  refine ⟨⟨c1.1, m1, n1, ?_⟩, ⟨c2.1, m2, n2, ?_⟩⟩
  · have := c1.2; have := e1.2; rw [abs_of_nonneg n1] at *; nlinarith
  · have := c2.2; have := e2.2; rw [abs_of_nonneg n2] at *; nlinarith

/-! ## On a dyadic grid the three indexes behave in binary32 as in exact arithmetic -/

namespace OctreeAccelerationStructure

open TreeAccelerationStructure

/-- On the grid, the calls to the octree do the same in binary32 as in exact
arithmetic, whatever else the contract asks of the boxes, and every node of the
reached tree is on the grid. -/
theorem octree_reached_grid_of (k : ℤ) (hk : -149 ≤ k) (m_bounds : Nat → aabbox3)
    (m_node : Nat → Option (List (Fin 8))) (center extent : float3) (max_depth : Nat)
    (calls : List Call) (hroot : aabbox3.grid_root k max_depth ⟨center, extent⟩)
    (admissible : aabbox3 → Bool) (hadm : ∀ x, admissible x = true → x.on_grid k) (c : Caller)
    (hc : Caller.run admissible ⟨m_bounds, [], []⟩ calls = some c) :
    reached m_bounds m_node center extent max_depth calls =
      @reached exact_arithmetic m_bounds m_node center extent max_depth calls ∧
    ∀ s, @reached exact_arithmetic m_bounds m_node center extent max_depth calls = some s →
      ∀ r b, s.root.bounds_at r = some b →
        r.length ≤ max_depth ∧ b.grid_node k (max_depth - r.length) := by
  unfold reached create
  by_cases hext : extent.x > 0 ∧ extent.y > 0 ∧ extent.z > 0
  · simp only [hext, and_self, if_true, run]
    have hnode : aabbox3.grid_node k max_depth ⟨center, extent⟩ :=
      aabbox3.grid_node_of_root k max_depth _ hroot ⟨hext.1.le, hext.2.1.le, hext.2.2.le⟩
    obtain ⟨h1, h2⟩ := run_congr shape (@shape exact_arithmetic) max_depth
      (fun d b => d ≤ max_depth ∧ b.grid_node k (max_depth - d)) (fun x => x.on_grid k)
      (fun x d b hx _ _ => octree_child_index_grid k hk x hx b)
      (fun x d b hx hb => octree_outside_grid k hk x hx _ b hb.2)
      (fun d b i hb hd => by
        have e : max_depth - d = (max_depth - (d + 1)) + 1 := by omega
        have hb' := hb.2
        rw [e] at hb'
        obtain ⟨g1, g2⟩ := octree_child_bounds_grid k hk _ b hb' i
        exact ⟨g1, by omega, g2⟩)
      admissible hadm
      calls ⟨m_bounds, [], []⟩ c ⟨TreeNode.fresh ⟨center, extent⟩, max_depth, m_bounds, m_node⟩
      rfl rfl
      (by
        intro r b hr
        cases r with
        | nil =>
          simp only [TreeNode.fresh, TreeNode.bounds_at_nil, Option.some.injEq] at hr
          subst hr
          exact ⟨by simp, by simpa using hnode⟩
        | cons j rest => simp [TreeNode.fresh, TreeNode.bounds_at_cons] at hr)
      hc
    refine ⟨h1, ?_⟩
    intro s hs r b hr
    exact (h2 s hs).2.1 r b hr
  · simp [hext]

/-- On the grid, a call sequence under the contract takes a new octree to the same
state in binary32 as in exact arithmetic, and every node of that state is a node
of the grid. -/
theorem octree_reached_grid (k : ℤ) (hk : -149 ≤ k) (m_bounds : Nat → aabbox3)
    (m_node : Nat → Option (List (Fin 8))) (center extent : float3) (max_depth : Nat)
    (calls : List Call) (hroot : aabbox3.grid_root k max_depth ⟨center, extent⟩) (c : Caller)
    (hc : Caller.run (in_grid_region k center extent) ⟨m_bounds, [], []⟩ calls = some c) :
    reached m_bounds m_node center extent max_depth calls =
      @reached exact_arithmetic m_bounds m_node center extent max_depth calls ∧
    ∀ s, @reached exact_arithmetic m_bounds m_node center extent max_depth calls = some s →
      ∀ r b, s.root.bounds_at r = some b →
        r.length ≤ max_depth ∧ b.grid_node k (max_depth - r.length) :=
  octree_reached_grid_of k hk m_bounds m_node center extent max_depth calls hroot _
    (fun x hx => by
      simp only [in_grid_region, Bool.and_eq_true, decide_eq_true_eq] at hx
      exact hx.2) c hc


/-- On the grid, a box query of the octree returns the same in binary32 as in exact
arithmetic. -/
theorem octree_query_aabbox_grid (k : ℤ) (hk : -149 ≤ k) (s : OctreeAccelerationStructure)
    (max_depth : Nat)
    (hnodes : ∀ r b, s.root.bounds_at r = some b →
      r.length ≤ max_depth ∧ b.grid_node k (max_depth - r.length))
    (hprims : ∀ p ∈ s.root.all_primitives, (s.m_bounds p).on_grid k) (q : aabbox3)
    (hq : q.on_grid k) (output : List Nat) :
    query_aabbox s q output = @query_aabbox exact_arithmetic s q output := by
  rw [octree_query_aabbox_eq, @octree_query_aabbox_eq exact_arithmetic]
  congr 1
  apply query_matches_congr
  · intro p hp
    exact intersect_aabbox3_aabbox3_grid k hk _ q (hprims p hp) hq
  · intro r b hr
    exact intersect_aabbox3_node_grid k hk _ b q (hnodes r b hr).2 hq

end OctreeAccelerationStructure

namespace QuadtreeAccelerationStructure

open TreeAccelerationStructure

/-- On the grid, a call sequence under the contract takes a new quadtree to the
same state in binary32 as in exact arithmetic, and every node of that state is a
node of the grid. -/
theorem quadtree_reached_grid (k : ℤ) (hk : -149 ≤ k) (m_bounds : Nat → aabbox3)
    (m_node : Nat → Option (List (Fin 4))) (center extent : float2) (max_depth : Nat)
    (calls : List Call) (hroot : aabbox2.grid_root k max_depth ⟨center, extent⟩) (c : Caller)
    (hc : Caller.run (in_grid_region k center extent) ⟨m_bounds, [], []⟩ calls = some c) :
    reached m_bounds m_node center extent max_depth calls =
      @reached exact_arithmetic m_bounds m_node center extent max_depth calls ∧
    ∀ s, @reached exact_arithmetic m_bounds m_node center extent max_depth calls = some s →
      ∀ r b, s.root.bounds_at r = some b →
        r.length ≤ max_depth ∧ b.grid_node k (max_depth - r.length) := by
  unfold reached create
  by_cases hext : extent.x > 0 ∧ extent.y > 0
  · simp only [hext, and_self, if_true, run]
    have hnode : aabbox2.grid_node k max_depth ⟨center, extent⟩ :=
      aabbox2.footprint_node_of_root k max_depth _ hroot ⟨hext.1.le, hext.2.le⟩
    obtain ⟨h1, h2⟩ := run_congr shape (@shape exact_arithmetic) max_depth
      (fun d b => d ≤ max_depth ∧ b.grid_node k (max_depth - d)) (fun x => x.on_grid k)
      (fun x d b hx _ _ => quadtree_child_index_grid k hk x hx b)
      (fun x d b hx hb => quadtree_outside_grid k hk x hx _ b hb.2)
      (fun d b i hb hd => by
        have e : max_depth - d = (max_depth - (d + 1)) + 1 := by omega
        have hb' := hb.2
        rw [e] at hb'
        obtain ⟨g1, g2⟩ := quadtree_child_bounds_grid k hk _ b hb' i
        exact ⟨g1, by omega, g2⟩)
      (in_grid_region k center extent)
      (fun x hx => by
        simp only [in_grid_region, Bool.and_eq_true, decide_eq_true_eq] at hx
        exact hx.2)
      calls ⟨m_bounds, [], []⟩ c ⟨TreeNode.fresh ⟨center, extent⟩, max_depth, m_bounds, m_node⟩
      rfl rfl
      (by
        intro r b hr
        cases r with
        | nil =>
          simp only [TreeNode.fresh, TreeNode.bounds_at_nil, Option.some.injEq] at hr
          subst hr
          exact ⟨by simp, by simpa using hnode⟩
        | cons j rest => simp [TreeNode.fresh, TreeNode.bounds_at_cons] at hr)
      hc
    refine ⟨h1, ?_⟩
    intro s hs r b hr
    exact (h2 s hs).2.1 r b hr
  · simp [hext]

/-- On the grid, a box query of the quadtree returns the same in binary32 as in
exact arithmetic. -/
theorem quadtree_query_aabbox_grid (k : ℤ) (hk : -149 ≤ k) (s : QuadtreeAccelerationStructure)
    (max_depth : Nat)
    (hnodes : ∀ r b, s.root.bounds_at r = some b →
      r.length ≤ max_depth ∧ b.grid_node k (max_depth - r.length))
    (hprims : ∀ p ∈ s.root.all_primitives, (s.m_bounds p).on_grid k) (q : aabbox3)
    (hq : q.on_grid k) (output : List Nat) :
    query_aabbox s q output = @query_aabbox exact_arithmetic s q output := by
  rw [quadtree_query_aabbox_eq, @quadtree_query_aabbox_eq exact_arithmetic]
  congr 1
  apply query_matches_congr
  · intro p hp
    exact intersect_aabbox3_aabbox3_grid k hk _ q (hprims p hp) hq
  · intro r b hr
    exact intersect_aabbox2_node_grid k hk _ b q (hnodes r b hr).2 hq

end QuadtreeAccelerationStructure

namespace LinearAccelerationStructure

/-- On the grid, a box query of the linear index returns the same in binary32 as in
exact arithmetic. -/
theorem linear_query_aabbox_grid (k : ℤ) (hk : -149 ≤ k) (s : LinearAccelerationStructure)
    (hprims : ∀ p ∈ s.m_primitives, (s.m_bounds p).on_grid k) (q : aabbox3)
    (hq : q.on_grid k) (output : List Nat) :
    s.query_aabbox q output = @query_aabbox exact_arithmetic s q output := by
  rw [linear_query_aabbox_eq, @linear_query_aabbox_eq exact_arithmetic]
  congr 1
  apply List.filter_congr
  intro p hp
  exact intersect_aabbox3_aabbox3_grid k hk _ q (hprims p hp) hq

end LinearAccelerationStructure

/-! ## On the grid, `find_node` and the test of `update` are exact -/

namespace OctreeAccelerationStructure

/-- On the grid, `find_node` of the octree does the same in binary32 as in exact
arithmetic. -/
theorem octree_find_node_grid (k : ℤ) (hk : -149 ≤ k) (t : TreeNode 8 aabbox3)
    (max_depth : Nat)
    (hnodes : ∀ r b, t.bounds_at r = some b →
      r.length ≤ max_depth ∧ b.grid_node k (max_depth - r.length))
    (x : aabbox3) (hx : x.on_grid k) :
    t.find_node shape max_depth x 0 = t.find_node (@shape exact_arithmetic) max_depth x 0 :=
  (TreeNode.find_node_congr shape (@shape exact_arithmetic) max_depth x
    (fun d b => d ≤ max_depth ∧ b.grid_node k (max_depth - d))
    (fun _ b _ _ => octree_child_index_grid k hk x hx b)
    (fun d b i hb hd => by
      have e : max_depth - d = (max_depth - (d + 1)) + 1 := by omega
      have hb' := hb.2
      rw [e] at hb'
      obtain ⟨g1, g2⟩ := octree_child_bounds_grid k hk _ b hb' i
      exact ⟨g1, by omega, g2⟩)
    t 0 (by simpa using hnodes)).1

end OctreeAccelerationStructure

namespace QuadtreeAccelerationStructure

/-- On the grid, `find_node` of the quadtree does the same in binary32 as in exact
arithmetic. -/
theorem quadtree_find_node_grid (k : ℤ) (hk : -149 ≤ k) (t : TreeNode 4 aabbox2)
    (max_depth : Nat)
    (hnodes : ∀ r b, t.bounds_at r = some b →
      r.length ≤ max_depth ∧ b.grid_node k (max_depth - r.length))
    (x : aabbox3) (hx : x.on_grid k) :
    t.find_node shape max_depth x 0 = t.find_node (@shape exact_arithmetic) max_depth x 0 :=
  (TreeNode.find_node_congr shape (@shape exact_arithmetic) max_depth x
    (fun d b => d ≤ max_depth ∧ b.grid_node k (max_depth - d))
    (fun _ b _ _ => quadtree_child_index_grid k hk x hx b)
    (fun d b i hb hd => by
      have e : max_depth - d = (max_depth - (d + 1)) + 1 := by omega
      have hb' := hb.2
      rw [e] at hb'
      obtain ⟨g1, g2⟩ := quadtree_child_bounds_grid k hk _ b hb' i
      exact ⟨g1, by omega, g2⟩)
    t 0 (by simpa using hnodes)).1

end QuadtreeAccelerationStructure

/-! ## The box tests in binary32: no false negative, exact on the grid -/

/-- Rounding keeps the order of a distance and a sum: if the exact distance is at
most the exact sum, the rounded distance is at most the rounded sum. -/
theorem abs_fsub_le_fadd (a b e1 e2 : ℚ) (h : |a - b| ≤ e1 + e2) :
    |fsub a b| ≤ fadd e1 e2 := by
  rw [fsub_binary32, fadd_binary32, binary32_abs]
  exact binary32_mono h

theorem intersect_aabbox3_aabbox3_rounded_iff (A B : aabbox3) :
    intersect_aabbox3_aabbox3 A B = true ↔
      |fsub A.center.x B.center.x| ≤ fadd A.extent.x B.extent.x ∧
      |fsub A.center.y B.center.y| ≤ fadd A.extent.y B.extent.y ∧
      |fsub A.center.z B.center.z| ≤ fadd A.extent.z B.extent.z := by
  simp [intersect_aabbox3_aabbox3, and_assoc]

theorem intersect_aabbox2_aabbox3_rounded_iff (F : aabbox2) (B : aabbox3) :
    intersect_aabbox2_aabbox3 F B = true ↔
      |fsub F.center.x B.center.x| ≤ fadd F.extent.x B.extent.x ∧
      |fsub F.center.y B.center.z| ≤ fadd F.extent.y B.extent.z := by
  simp [intersect_aabbox2_aabbox3]

/-- The box test has no false negative: boxes that meet the exact condition pass
the test of the machine. -/
theorem intersect_aabbox3_aabbox3_of_exact (A B : aabbox3)
    (hx : |A.center.x - B.center.x| ≤ A.extent.x + B.extent.x)
    (hy : |A.center.y - B.center.y| ≤ A.extent.y + B.extent.y)
    (hz : |A.center.z - B.center.z| ≤ A.extent.z + B.extent.z) :
    intersect_aabbox3_aabbox3 A B = true :=
  (intersect_aabbox3_aabbox3_rounded_iff A B).2
    ⟨abs_fsub_le_fadd _ _ _ _ hx, abs_fsub_le_fadd _ _ _ _ hy, abs_fsub_le_fadd _ _ _ _ hz⟩

theorem intersect_aabbox2_aabbox3_of_exact (F : aabbox2) (B : aabbox3)
    (hx : |F.center.x - B.center.x| ≤ F.extent.x + B.extent.x)
    (hz : |F.center.y - B.center.z| ≤ F.extent.y + B.extent.z) :
    intersect_aabbox2_aabbox3 F B = true :=
  (intersect_aabbox2_aabbox3_rounded_iff F B).2
    ⟨abs_fsub_le_fadd _ _ _ _ hx, abs_fsub_le_fadd _ _ _ _ hz⟩

/-- On the grid the footprint test computes the exact condition. -/
theorem intersect_aabbox2_aabbox3_grid (k : ℤ) (hk : -149 ≤ k) (F : aabbox2) (B : aabbox3)
    (hF : F.on_grid k) (hB : B.on_grid k) :
    intersect_aabbox2_aabbox3 F B = @intersect_aabbox2_aabbox3 exact_arithmetic F B := by
  obtain ⟨f1, f2, f3, f4⟩ := hF
  obtain ⟨q1, q2, q3, q4, q5, q6⟩ := hB
  unfold intersect_aabbox2_aabbox3
  rw [fsub_grid_value k hk f1 q1, fadd_grid_value k hk f3 q4, fsub_grid_value k hk f2 q3,
    fadd_grid_value k hk f4 q6]
  rfl

/-- In exact arithmetic, boxes with non-negative extents pass the box test exactly
when they share a point. -/
theorem exact_overlap_iff_common_point (A B : aabbox3) (hA : A.nonneg) (hB : B.nonneg) :
    (|A.center.x - B.center.x| ≤ A.extent.x + B.extent.x ∧
      |A.center.y - B.center.y| ≤ A.extent.y + B.extent.y ∧
      |A.center.z - B.center.z| ≤ A.extent.z + B.extent.z) ↔
    ∃ pt : float3, A.contains pt ∧ B.contains pt := by
  rw [interval_overlap_iff _ _ _ _ hA.1 hB.1,
    interval_overlap_iff _ _ _ _ hA.2.1 hB.2.1,
    interval_overlap_iff _ _ _ _ hA.2.2 hB.2.2]
  constructor
  · rintro ⟨⟨x, hx1, hx2⟩, ⟨y, hy1, hy2⟩, ⟨z, hz1, hz2⟩⟩
    exact ⟨⟨x, y, z⟩, ⟨hx1, hy1, hz1⟩, ⟨hx2, hy2, hz2⟩⟩
  · rintro ⟨pt, ⟨hx1, hy1, hz1⟩, ⟨hx2, hy2, hz2⟩⟩
    exact ⟨⟨pt.x, hx1, hx2⟩, ⟨pt.y, hy1, hy2⟩, ⟨pt.z, hz1, hz2⟩⟩

/-! ## On the grid the edges of a box are computed without rounding -/

theorem aabbox3.exact_edges_of_on_grid (k : ℤ) (hk : -149 ≤ k) (x : aabbox3)
    (hx : x.on_grid k) : x.exact_edges := by
  obtain ⟨h1, h2, h3, h4, h5, h6⟩ := hx
  exact ⟨fsub_grid_value k hk h1 h4, fadd_grid_value k hk h1 h4, fsub_grid_value k hk h2 h5,
    fadd_grid_value k hk h2 h5, fsub_grid_value k hk h3 h6, fadd_grid_value k hk h3 h6⟩

theorem aabbox3.exact_edges_of_grid_node (k : ℤ) (hk : -149 ≤ k) (level : ℕ) (b : aabbox3)
    (hb : b.grid_node k level) : b.exact_edges := by
  obtain ⟨bx, by', bz⟩ := hb
  exact ⟨fsub_grid_axis k hk bx, fadd_grid_axis k hk bx, fsub_grid_axis k hk by',
    fadd_grid_axis k hk by', fsub_grid_axis k hk bz, fadd_grid_axis k hk bz⟩

theorem aabbox2.exact_edges_of_footprint_node (k : ℤ) (hk : -149 ≤ k) (level : ℕ) (b : aabbox2)
    (hb : b.grid_node k level) : b.exact_edges := by
  obtain ⟨bx, by'⟩ := hb
  exact ⟨fsub_grid_axis k hk bx, fadd_grid_axis k hk bx, fsub_grid_axis k hk by',
    fadd_grid_axis k hk by'⟩

/-! ## On a small grid the box/frustum test is exact -/

theorem dyadic_within_mul {e1 e2 : ℤ} {m1 m2 a b : ℚ} (ha : dyadic_within e1 m1 a)
    (hb : dyadic_within e2 m2 b) (hm1 : 0 ≤ m1) :
    dyadic_within (e1 + e2) (m1 * m2) (a * b) := by
  obtain ⟨ha1, ha2⟩ := ha
  obtain ⟨hb1, hb2⟩ := hb
  obtain ⟨x, rfl⟩ := (den_div_pow2 e1 a).mp ha1
  obtain ⟨y, rfl⟩ := (den_div_pow2 e2 b).mp hb1
  refine ⟨(den_div_pow2 _ _).mpr ⟨x * y, by rw [pow2_add]; push_cast; ring⟩, ?_⟩
  rw [abs_mul, pow2_add]
  have h1 : 0 ≤ m1 * pow2 e1 := mul_nonneg hm1 (pow2_pos e1).le
  calc |(x : ℚ) * pow2 e1| * |(y : ℚ) * pow2 e2|
      ≤ (m1 * pow2 e1) * (m2 * pow2 e2) :=
        mul_le_mul ha2 hb2 (abs_nonneg _) h1
    _ = m1 * m2 * (pow2 e1 * pow2 e2) := by ring

theorem dyadic_within_add {e : ℤ} {m1 m2 a b : ℚ} (ha : dyadic_within e m1 a)
    (hb : dyadic_within e m2 b) : dyadic_within e (m1 + m2) (a + b) := by
  refine ⟨den_add e a b ha.1 hb.1, ?_⟩
  have := abs_add a b
  have h1 := ha.2
  have h2 := hb.2
  linarith

theorem dyadic_within_abs {e : ℤ} {m a : ℚ} (ha : dyadic_within e m a) :
    dyadic_within e m |a| := by
  rcases abs_choice a with h | h
  · rw [h]; exact ha
  · rw [h]; exact ⟨den_neg e a ha.1, by rw [abs_neg]; exact ha.2⟩

theorem dyadic_within_exact {e : ℤ} {m v : ℚ} (h : dyadic_within e m v) (he : -149 ≤ e)
    (hm : m < 2 ^ 24) : binary32 v = v := by
  apply binary32_of_den e he v h.1
  have := h.2
  have hp := pow2_pos e
  nlinarith

theorem fmul_dyadic {e1 e2 : ℤ} {m1 m2 a b : ℚ} (ha : dyadic_within e1 m1 a)
    (hb : dyadic_within e2 m2 b) (hm1 : 0 ≤ m1) (he : -149 ≤ e1 + e2)
    (hm : m1 * m2 < 2 ^ 24) : fmul a b = a * b := by
  rw [fmul_binary32]
  exact dyadic_within_exact (dyadic_within_mul ha hb hm1) he hm

theorem fadd_dyadic {e : ℤ} {m1 m2 a b : ℚ} (ha : dyadic_within e m1 a)
    (hb : dyadic_within e m2 b) (he : -149 ≤ e) (hm : m1 + m2 < 2 ^ 24) :
    fadd a b = a + b := by
  rw [fadd_binary32]
  exact dyadic_within_exact (dyadic_within_add ha hb) he hm

/-- On the small grid `dot` of a vector of the box and a normal is exact. -/
theorem dot_dyadic {k j : ℤ} (hkj : -149 ≤ k + j) (a n : float3)
    (hax : dyadic_within k (2 ^ 11) a.x) (hay : dyadic_within k (2 ^ 11) a.y)
    (haz : dyadic_within k (2 ^ 11) a.z) (hnx : dyadic_within j (2 ^ 10) n.x)
    (hny : dyadic_within j (2 ^ 10) n.y) (hnz : dyadic_within j (2 ^ 10) n.z) :
    dot a n = a.x * n.x + a.y * n.y + a.z * n.z ∧
    dyadic_within (k + j) (2 ^ 11 * 2 ^ 10 + 2 ^ 11 * 2 ^ 10 + 2 ^ 11 * 2 ^ 10)
      (a.x * n.x + a.y * n.y + a.z * n.z) := by
  have px := dyadic_within_mul hax hnx (by norm_num)
  have py := dyadic_within_mul hay hny (by norm_num)
  have pz := dyadic_within_mul haz hnz (by norm_num)
  have pxy := dyadic_within_add px py
  have pxyz := dyadic_within_add pxy pz
  refine ⟨?_, pxyz⟩
  unfold dot
  rw [fmul_dyadic hax hnx (by norm_num) hkj (by norm_num),
    fmul_dyadic hay hny (by norm_num) hkj (by norm_num),
    fmul_dyadic haz hnz (by norm_num) hkj (by norm_num),
    fadd_dyadic px py hkj (by norm_num), fadd_dyadic pxy pz hkj (by norm_num)]

/-- On the small grid the test of one plane is computed without rounding. -/
theorem plane_rejects_small (k j : ℤ) (hkj : -149 ≤ k + j) (b : aabbox3)
    (hb : b.small_grid k) (p : plane) (hp : plane.small_grid k j p) :
    plane_rejects b p = @plane_rejects exact_arithmetic b p := by
  obtain ⟨c1, c2, c3, e1, e2, e3⟩ := hb
  obtain ⟨n1, n2, n3, hd⟩ := hp
  obtain ⟨d1, d2⟩ := dot_dyadic hkj b.center p.normal c1 c2 c3 n1 n2 n3
  obtain ⟨g1, g2⟩ := dot_dyadic hkj b.extent ⟨|p.normal.x|, |p.normal.y|, |p.normal.z|⟩
    e1 e2 e3 (dyadic_within_abs n1) (dyadic_within_abs n2) (dyadic_within_abs n3)
  have s1 := dyadic_within_add d2 hd
  unfold plane_rejects
  simp only []
  rw [d1, g1, fadd_dyadic d2 hd hkj (by norm_num), fadd_dyadic s1 g2 hkj (by norm_num)]
  simp [dot, fadd, fmul, exact_arithmetic]

/-- On the small grid a box with non-negative extents is rejected by a plane
exactly when every point of the box is strictly on the negative side of it. -/
theorem plane_rejects_small_iff (k j : ℤ) (hkj : -149 ≤ k + j) (b : aabbox3)
    (hb : b.small_grid k) (hnn : b.nonneg) (p : plane) (hp : plane.small_grid k j p) :
    plane_rejects b p = true ↔
      ∀ pt : float3, b.contains pt →
        pt.x * p.normal.x + pt.y * p.normal.y + pt.z * p.normal.z + p.distance < 0 := by
  rw [plane_rejects_small k j hkj b hb p hp,
    @plane_rejects_iff exact_arithmetic exact_arithmetic_exact b p hnn]
  simp [dot, fadd, fmul, exact_arithmetic]

/-! ## Lemmas: the capacities of the vectors -/

namespace TreeNode

variable {n : Nat} {B : Type}

theorem total_capacity_null (c : List (Fin n) → Nat) :
    total_capacity c (null : TreeNode n B) = 0 := by
  rw [total_capacity]

theorem total_capacity_node (c : List (Fin n) → Nat) (ch : Fin n → TreeNode n B)
    (ps : List Nat) (b : B) :
    total_capacity c (node ch ps b) =
      c [] + ((List.finRange n).map
        (fun i => total_capacity (fun r => c (i :: r)) (ch i))).sum := by
  rw [total_capacity]

theorem total_capacity_update_child (c : List (Fin n) → Nat) (ch : Fin n → TreeNode n B)
    (ps ps' : List Nat) (b : B) (i : Fin n) (t : TreeNode n B) :
    total_capacity c (node (Function.update ch i t) ps' b) +
        total_capacity (fun r => c (i :: r)) (ch i) =
      total_capacity c (node ch ps b) + total_capacity (fun r => c (i :: r)) t := by
  rw [total_capacity_node, total_capacity_node]
  have hf : (fun j => total_capacity (fun r => c (j :: r)) (Function.update ch i t j)) =
      Function.update (fun j => total_capacity (fun r => c (j :: r)) (ch j)) i
        (total_capacity (fun r => c (i :: r)) t) := by
    funext j
    by_cases hj : j = i
    · subst hj; simp
    · simp [Function.update_noteq hj]
  rw [hf]
  have := sum_map_update (fun j => total_capacity (fun r => c (j :: r)) (ch j)) i
    (total_capacity (fun r => c (i :: r)) t)
  simp only at this
  omega

theorem total_capacity_set (c : List (Fin n) → Nat) (t : TreeNode n B) (r : List (Fin n))
    (new : List Nat) : total_capacity c (t.set_primitives_at r new) = total_capacity c t := by
  induction r generalizing t c with
  | nil =>
    cases t with
    | null => simp [set_primitives_at]
    | node ch ps b => simp [set_primitives_at, total_capacity_node]
  | cons i r ih =>
    cases t with
    | null => simp [set_primitives_at]
    | node ch ps b =>
      simp only [set_primitives_at]
      have := total_capacity_update_child c ch ps ps b i ((ch i).set_primitives_at r new)
      rw [ih] at this
      omega

/-- A new capacity for the vector of one node changes the sum by the difference. -/
theorem total_capacity_update (c : List (Fin n) → Nat) (t : TreeNode n B) (r : List (Fin n))
    (v : Nat) (b : B) (h : t.bounds_at r = some b) :
    total_capacity (Function.update c r v) t + c r = total_capacity c t + v := by
  induction r generalizing t c with
  | nil =>
    cases t with
    | null => simp at h
    | node ch ps nb =>
      rw [total_capacity_node, total_capacity_node]
      have hf : ∀ i : Fin n, (fun r => Function.update c [] v (i :: r)) = fun r => c (i :: r) := by
        intro i
        funext r
        simp [Function.update]
      simp only [hf, Function.update_same]
      omega
  | cons i r ih =>
    cases t with
    | null => simp at h
    | node ch ps nb =>
      simp only [bounds_at_cons] at h
      rw [total_capacity_node, total_capacity_node]
      have h0 : Function.update c (i :: r) v [] = c [] := by simp [Function.update]
      have hf : (fun j => total_capacity (fun r' => Function.update c (i :: r) v (j :: r'))
            (ch j)) =
          Function.update (fun j => total_capacity (fun r' => c (j :: r')) (ch j)) i
            (total_capacity (Function.update (fun r' => c (i :: r')) r v) (ch i)) := by
        funext j
        by_cases hj : j = i
        · subst hj
          rw [Function.update_same]
          congr 1
          funext r'
          by_cases hr : r' = r
          · subst hr; simp
          · simp [Function.update, hr]
        · rw [Function.update_noteq hj]
          congr 1
          funext r'
          have : j :: r' ≠ i :: r := by
            intro e
            simp only [List.cons.injEq] at e
            exact hj e.1
          simp [Function.update, this]
      rw [h0, hf]
      have h1 := sum_map_update (fun j => total_capacity (fun r' => c (j :: r')) (ch j)) i
        (total_capacity (Function.update (fun r' => c (i :: r')) r v) (ch i))
      have h2 := ih (fun r' => c (i :: r')) (ch i) h
      simp only at h1 h2
      omega

/-- `find_node` keeps the sum of the capacities: the nodes it creates have vectors
without a buffer. -/
theorem total_capacity_find_node (shape : TreeShape n B) (D : Nat) (x : aabbox3)
    (t : TreeNode n B) (d : Nat) (c : List (Fin n) → Nat)
    (hZ : ∀ r, t.bounds_at r = none → c r = 0) :
    total_capacity c (find_node shape D x t d).1 = total_capacity c t := by
  induction t, d using find_node.induct shape D x generalizing c with
  | case1 d => simp
  | case2 ch ps b d hd => rw [find_node_depth _ _ _ _ _ _ _ hd]
  | case3 ch ps b d hd hi => rw [find_node_straddle _ _ _ _ _ _ _ hd hi]
  | case4 ch ps b d hd i hi child ih =>
    rw [find_node_descend _ _ _ _ _ _ _ hd i hi]
    simp only
    have hcount := total_capacity_update_child c ch ps ps b i
      (find_node shape D x ((ch i).create_if_null (shape.child_bounds b i)) (d + 1)).1
    have hZ' : ∀ r, child.bounds_at r = none → c (i :: r) = 0 := by
      intro r hr
      apply hZ
      simp only [bounds_at_cons]
      simp only [child] at hr
      cases hc : ch i with
      | null => simp
      | node ch' ps' b' => rw [hc] at hr; simpa using hr
    have ih' := ih (fun r => c (i :: r)) hZ'
    simp only [child] at ih'
    have hchild : total_capacity (fun r => c (i :: r))
          ((ch i).create_if_null (shape.child_bounds b i)) =
        total_capacity (fun r => c (i :: r)) (ch i) := by
      cases hc : ch i with
      | null =>
        have h0 : c [i] = 0 := by
          apply hZ
          simp [bounds_at_cons, hc]
        simp [fresh, total_capacity_node, total_capacity_null, h0]
      | node ch' ps' b' => simp [create_if_null]
    rw [ih', hchild] at hcount
    omega

/-- When the capacity of every vector is at least its size, the sum of the
capacities is at least the number of primitives in the tree. -/
theorem all_primitives_length_le (c : List (Fin n) → Nat) (t : TreeNode n B)
    (h : ∀ r ps, t.primitives_at r = some ps → ps.length ≤ c r) :
    t.all_primitives.length ≤ total_capacity c t := by
  induction t generalizing c with
  | null => simp
  | node ch ps b ih =>
    rw [all_primitives_node, total_capacity_node, List.length_append]
    have h0 : ps.length ≤ c [] := h [] ps (by simp)
    have hsum : ∀ l : List (Fin n),
        (l.flatMap (fun i => (ch i).all_primitives)).length ≤
          (l.map (fun i => total_capacity (fun r => c (i :: r)) (ch i))).sum := by
      intro l
      induction l with
      | nil => simp
      | cons j l ihl =>
        simp only [List.flatMap_cons, List.length_append, List.map_cons, List.sum_cons]
        have := ih j (fun r => c (j :: r)) (fun r qs hr => h (j :: r) qs (by simpa using hr))
        omega
    have := hsum (List.finRange n)
    omega

end TreeNode

theorem vector_erase_swap_length (v : List Nat) (p : Nat) (w : List Nat)
    (h : vector_erase_swap v p = some w) : w.length ≤ v.length := by
  unfold vector_erase_swap at h
  split_ifs at h
  simp only [Option.some.injEq] at h
  subst h
  simp

theorem vector_push_back_capacity_ge (layout : MemoryLayout)
    (hgrow : ∀ c, c < layout.grow c) (size capacity : Nat) :
    capacity ≤ vector_push_back_capacity layout size capacity := by
  unfold vector_push_back_capacity
  split_ifs
  · exact le_refl _
  · exact (hgrow capacity).le

theorem vector_push_back_capacity_gt (layout : MemoryLayout)
    (hgrow : ∀ c, c < layout.grow c) (size capacity : Nat) (h : size ≤ capacity) :
    size + 1 ≤ vector_push_back_capacity layout size capacity := by
  unfold vector_push_back_capacity
  split_ifs with h1
  · omega
  · have := hgrow capacity
    omega

namespace TreeAccelerationStructure

variable {n : Nat} {B : Type}

open TreeNode

/-- A call that passes its assertions either leaves the tree as it is up to one
list that does not grow, and pushes to no vector, or runs `find_node` on such a
tree and pushes the primitive to the vector of the node it returns. -/
theorem step_push_cases (size_bits sizeof_node : Nat) (shape : TreeShape n B)
    (s s' : TreeAccelerationStructure n B) (mr : CountMemoryResource) (call : Call)
    (h : s.step shape call = some s') :
    ∃ t, (t = s.root ∨ ∃ r ps w, s.root.primitives_at r = some ps ∧ w.length ≤ ps.length ∧
        t = s.root.set_primitives_at r w) ∧
      ((s'.root = t ∧ s.memory_after size_bits sizeof_node shape mr call = mr ∧
          s.push_back_at shape call = none) ∨
        ∃ x ps w, (t.find_node shape s.m_max_depth x 0).1.primitives_at
              (t.find_node shape s.m_max_depth x 0).2 = some ps ∧
          w.length = ps.length + 1 ∧
          s'.root = (t.find_node shape s.m_max_depth x 0).1.set_primitives_at
            (t.find_node shape s.m_max_depth x 0).2 w ∧
          s.memory_after size_bits sizeof_node shape mr call =
            t.find_node_memory size_bits sizeof_node shape s.m_max_depth x 0 mr ∧
          s.push_back_at shape call =
            some ((t.find_node shape s.m_max_depth x 0).2, ps.length)) := by
  cases call with
  | add p =>
    simp only [step, add] at h
    cases hps : (s.root.find_node shape s.m_max_depth (s.m_bounds p) 0).1.primitives_at
        (s.root.find_node shape s.m_max_depth (s.m_bounds p) 0).2 with
    | none => rw [hps] at h; simp at h
    | some ps =>
      rw [hps] at h
      by_cases hp : p ∈ ps
      · simp [hp] at h
      · simp only [hp, if_false, Option.some.injEq] at h
        subst h
        refine ⟨s.root, Or.inl rfl, Or.inr ⟨s.m_bounds p, ps, ps ++ [p], hps, by simp, rfl, rfl,
          ?_⟩⟩
        simp [push_back_at, hps]
  | remove p =>
    cases hmn : s.m_node p with
    | none => simp [step, remove, hmn] at h
    | some r =>
      cases hps : s.root.primitives_at r with
      | none => simp [step, remove, hmn, hps] at h
      | some ps =>
        cases hw : vector_erase_swap ps p with
        | none => simp [step, remove, hmn, hps, hw] at h
        | some w =>
          simp only [step, remove, hmn, hps, hw, Option.some.injEq] at h
          subst h
          exact ⟨s.root.set_primitives_at r w,
            Or.inr ⟨r, ps, w, hps, vector_erase_swap_length ps p w hw, rfl⟩,
            Or.inl ⟨rfl, rfl, rfl⟩⟩
  | update p =>
    cases hmn : s.m_node p with
    | none => simp [step, update, hmn] at h
    | some r =>
      cases hb : s.root.bounds_at r with
      | none => simp [step, update, hmn, hb] at h
      | some b =>
        cases hps : s.root.primitives_at r with
        | none => simp [step, update, hmn, hb, hps] at h
        | some ps =>
          cases hout : shape.outside (s.m_bounds p) b with
          | false =>
            simp only [step, update, hmn, hb, hps, hout, Bool.false_eq_true, if_false,
              Option.some.injEq] at h
            subst h
            refine ⟨s.root, Or.inl rfl, Or.inl ⟨rfl, ?_, ?_⟩⟩
            · simp [memory_after, hmn, hb, hps, hout]
            · simp [push_back_at, hmn, hb, hps, hout]
          | true =>
            cases hw : vector_erase_swap ps p with
            | none => simp [step, update, hmn, hb, hps, hout, hw] at h
            | some w =>
              cases hps' : ((s.root.set_primitives_at r w).find_node shape s.m_max_depth
                  (s.m_bounds p) 0).1.primitives_at
                  ((s.root.set_primitives_at r w).find_node shape s.m_max_depth
                    (s.m_bounds p) 0).2 with
              | none => simp [step, update, hmn, hb, hps, hout, hw, hps'] at h
              | some ps' =>
                simp only [step, update, hmn, hb, hps, hout, hw, hps', if_true,
                  Option.some.injEq] at h
                subst h
                refine ⟨s.root.set_primitives_at r w,
                  Or.inr ⟨r, ps, w, hps, vector_erase_swap_length ps p w hw, rfl⟩,
                  Or.inr ⟨s.m_bounds p, ps', ps' ++ [p], hps', by simp, rfl, ?_, ?_⟩⟩
                · simp [memory_after, hmn, hb, hps, hout, hw]
                · simp [push_back_at, hmn, hb, hps, hout, hw, hps']
  | set_bounds p x =>
    simp only [step, Option.some.injEq] at h
    subst h
    exact ⟨s.root, Or.inl rfl, Or.inl ⟨rfl, rfl, rfl⟩⟩

/-- What one call that passes its assertions does to the nodes and to the
capacities: the vectors of the references that name no node stay without a
buffer, every capacity stays at least the size of its vector, the nodes and the
capacities do not shrink. -/
theorem capacity_step (layout : MemoryLayout) (hgrow : ∀ c, c < layout.grow c)
    (shape : TreeShape n B) (s s' : TreeAccelerationStructure n B)
    (c : List (Fin n) → Nat) (mr : CountMemoryResource) (call : Call)
    (h : s.step shape call = some s')
    (hZ : ∀ r, s.root.bounds_at r = none → c r = 0)
    (hC : ∀ r ps, s.root.primitives_at r = some ps → ps.length ≤ c r) :
    (∀ r, s'.root.bounds_at r = none → s.capacity_after layout shape c call r = 0) ∧
    (∀ r ps, s'.root.primitives_at r = some ps →
      ps.length ≤ s.capacity_after layout shape c call r) ∧
    (∃ k, s'.root.count_nodes = s.root.count_nodes + k ∧
      s.memory_after layout.size_bits layout.sizeof_node shape mr call =
        (fun m => CountMemoryResource.allocate layout.size_bits m layout.sizeof_node)^[k] mr) ∧
    ((s.push_back_at shape call = none ∧
        s'.root.total_capacity (s.capacity_after layout shape c call) =
          s.root.total_capacity c) ∨
      ∃ r size, s.push_back_at shape call = some (r, size) ∧
        s'.root.total_capacity (s.capacity_after layout shape c call) + c r =
          s.root.total_capacity c + vector_push_back_capacity layout size (c r) ∧
        c r ≤ s.root.total_capacity c) := by
  obtain ⟨t, ht, hroot⟩ := step_push_cases layout.size_bits layout.sizeof_node shape s s' mr
    call h
  have htb : ∀ r, t.bounds_at r = s.root.bounds_at r := by
    intro r
    rcases ht with rfl | ⟨r0, ps0, w, _, _, rfl⟩
    · rfl
    · exact bounds_at_set _ _ _ _
  have htZ : ∀ r, t.bounds_at r = none → c r = 0 := fun r hr => hZ r (by rw [← htb]; exact hr)
  have htC : ∀ r ps, t.primitives_at r = some ps → ps.length ≤ c r := by
    intro r ps hr
    rcases ht with rfl | ⟨r0, ps0, w, hps0, hw, rfl⟩
    · exact hC r ps hr
    · rcases primitives_at_set_cases _ _ _ _ _ hr with ⟨h1, h2⟩ | ⟨_, h2⟩
      · subst h1 h2
        exact le_trans hw (hC _ ps0 hps0)
      · exact hC r ps h2
  have htn : t.count_nodes = s.root.count_nodes := by
    rcases ht with rfl | ⟨r0, ps0, w, _, _, rfl⟩
    · rfl
    · exact count_nodes_set _ _ _
  have htt : t.total_capacity c = s.root.total_capacity c := by
    rcases ht with rfl | ⟨r0, ps0, w, _, _, rfl⟩
    · rfl
    · exact total_capacity_set _ _ _ _
  rcases hroot with ⟨h1, h2, h3⟩ | ⟨x, ps, w, hps, hw, h1, h2, h3⟩
  · have hc : s.capacity_after layout shape c call = c := by
      simp only [capacity_after, h3]
    rw [hc, h1]
    exact ⟨htZ, htC, ⟨0, by rw [htn]; rfl, by rw [h2]; rfl⟩, Or.inl ⟨h3, htt⟩⟩
  · have hc : s.capacity_after layout shape c call =
        Function.update c (t.find_node shape s.m_max_depth x 0).2
          (vector_push_back_capacity layout ps.length
            (c (t.find_node shape s.m_max_depth x 0).2)) := by
      simp only [capacity_after, h3]
    obtain ⟨b, hb⟩ := bounds_at_of_primitives_at _ _ _ hps
    have hfC : ∀ r qs, (t.find_node shape s.m_max_depth x 0).1.primitives_at r = some qs →
        qs.length ≤ c r := by
      intro r qs hr
      rcases primitives_at_find_node shape s.m_max_depth x t 0 r with e | ⟨_, e⟩
      · exact htC r qs (by rw [← e]; exact hr)
      · rw [e] at hr
        simp only [Option.some.injEq] at hr
        subst hr
        simp
    have hft : (t.find_node shape s.m_max_depth x 0).1.total_capacity c =
        s.root.total_capacity c := by
      rw [total_capacity_find_node shape s.m_max_depth x t 0 c htZ, htt]
    have hupd := total_capacity_update c (t.find_node shape s.m_max_depth x 0).1
      (t.find_node shape s.m_max_depth x 0).2
      (vector_push_back_capacity layout ps.length (c (t.find_node shape s.m_max_depth x 0).2))
      b hb
    rw [hft] at hupd
    refine ⟨?_, ?_, ?_, Or.inr ⟨_, _, h3, ?_, ?_⟩⟩
    · intro r hr
      rw [h1, bounds_at_set] at hr
      have hne : r ≠ (t.find_node shape s.m_max_depth x 0).2 := by
        intro e
        rw [e, hb] at hr
        simp at hr
      rw [hc, Function.update_noteq hne]
      apply htZ
      cases hh : t.bounds_at r with
      | none => rfl
      | some b' =>
        rw [bounds_at_find_node_of_some shape s.m_max_depth x t 0 r b' hh] at hr
        simp at hr
    · intro r qs hr
      rw [h1] at hr
      rcases primitives_at_set_cases _ _ _ _ _ hr with ⟨e1, e2⟩ | ⟨e1, e2⟩
      · subst e1 e2
        rw [hc, Function.update_same, hw]
        exact vector_push_back_capacity_gt layout hgrow _ _ (hfC _ ps hps)
      · rw [hc, Function.update_noteq e1]
        exact hfC r qs e2
    · obtain ⟨k, hk1, hk2⟩ := find_node_count layout.size_bits layout.sizeof_node shape
        s.m_max_depth x t 0 mr
      exact ⟨k, by rw [h1, count_nodes_set, hk1, htn], by rw [h2, hk2]⟩
    · rw [hc, h1, total_capacity_set]
      exact hupd
    · have hupd0 := total_capacity_update c (t.find_node shape s.m_max_depth x 0).1
        (t.find_node shape s.m_max_depth x 0).2 0 b hb
      rw [hft] at hupd0
      omega

end TreeAccelerationStructure

theorem CountAllocator.allocate_allocated (layout : MemoryLayout) (mr : CountMemoryResource)
    (count : Nat) :
    (CountAllocator.allocate layout mr count).allocated =
      (mr.allocated + (layout.sizeof_pointer * count) % 2 ^ layout.size_bits) %
        2 ^ layout.size_bits := rfl

theorem CountAllocator.deallocate_eq (layout : MemoryLayout) (mr : CountMemoryResource)
    (count : Nat) :
    CountAllocator.deallocate layout mr count =
      if mr.allocated ≥ (layout.sizeof_pointer * count) % 2 ^ layout.size_bits then
        some ⟨mr.allocated - (layout.sizeof_pointer * count) % 2 ^ layout.size_bits⟩
      else none := rfl

namespace TreeAccelerationStructure

variable {n : Nat} {B : Type}

open TreeNode

theorem run_capacity_of_run (layout : MemoryLayout) (shape : TreeShape n B) :
    ∀ (calls : List Call) (s : TreeAccelerationStructure n B) (c : List (Fin n) → Nat)
      (sf : TreeAccelerationStructure n B), s.run shape calls = some sf →
      ∃ cf, s.run_capacity layout shape c calls = some (sf, cf) := by
  intro calls
  induction calls with
  | nil =>
    intro s c sf h
    simp only [run, Option.some.injEq] at h
    subst h
    exact ⟨c, rfl⟩
  | cons call calls ih =>
    intro s c sf h
    simp only [run] at h
    cases hs : s.step shape call with
    | none => rw [hs] at h; simp at h
    | some s1 =>
      rw [hs] at h
      obtain ⟨cf, hcf⟩ := ih s1 (s.capacity_after layout shape c call) sf h
      exact ⟨cf, by simp only [run_capacity, hs]; exact hcf⟩

theorem run_capacity_append (layout : MemoryLayout) (shape : TreeShape n B) :
    ∀ (calls1 calls2 : List Call) (s : TreeAccelerationStructure n B)
      (c : List (Fin n) → Nat) (sf : TreeAccelerationStructure n B) (cf : List (Fin n) → Nat),
      s.run_capacity layout shape c (calls1 ++ calls2) = some (sf, cf) →
      ∃ s1 c1, s.run_capacity layout shape c calls1 = some (s1, c1) ∧
        s1.run_capacity layout shape c1 calls2 = some (sf, cf) := by
  intro calls1
  induction calls1 with
  | nil =>
    intro calls2 s c sf cf h
    exact ⟨s, c, rfl, by simpa using h⟩
  | cons call calls1 ih =>
    intro calls2 s c sf cf h
    simp only [List.cons_append, run_capacity] at h ⊢
    cases hs : s.step shape call with
    | none => rw [hs] at h; simp at h
    | some s1 =>
      rw [hs] at h
      simp only at h ⊢
      exact ih calls2 s1 _ sf cf h

/-- Along the calls the vectors of the references that name no node stay without a
buffer, every capacity stays at least the size of its vector, and neither the
number of nodes nor the sum of the capacities shrinks. -/
theorem capacity_run (layout : MemoryLayout) (hgrow : ∀ c, c < layout.grow c)
    (shape : TreeShape n B) :
    ∀ (calls : List Call) (s : TreeAccelerationStructure n B) (c : List (Fin n) → Nat)
      (sf : TreeAccelerationStructure n B) (cf : List (Fin n) → Nat),
      s.run_capacity layout shape c calls = some (sf, cf) →
      (∀ r, s.root.bounds_at r = none → c r = 0) →
      (∀ r ps, s.root.primitives_at r = some ps → ps.length ≤ c r) →
      (∀ r, sf.root.bounds_at r = none → cf r = 0) ∧
      (∀ r ps, sf.root.primitives_at r = some ps → ps.length ≤ cf r) ∧
      s.root.count_nodes ≤ sf.root.count_nodes ∧
      s.root.total_capacity c ≤ sf.root.total_capacity cf := by
  intro calls
  induction calls with
  | nil =>
    intro s c sf cf h hZ hC
    simp only [run_capacity, Option.some.injEq, Prod.mk.injEq] at h
    obtain ⟨rfl, rfl⟩ := h
    exact ⟨hZ, hC, le_refl _, le_refl _⟩
  | cons call calls ih =>
    intro s c sf cf h hZ hC
    simp only [run_capacity] at h
    cases hs : s.step shape call with
    | none => rw [hs] at h; simp at h
    | some s1 =>
      rw [hs] at h
      simp only at h
      obtain ⟨hZ1, hC1, ⟨k, hk, _⟩, hcase⟩ := capacity_step layout hgrow shape s s1 c ⟨0⟩ call
        hs hZ hC
      obtain ⟨hZf, hCf, hn, ht⟩ := ih s1 _ sf cf h hZ1 hC1
      refine ⟨hZf, hCf, by omega, ?_⟩
      rcases hcase with ⟨_, e⟩ | ⟨r, size, _, e, _⟩
      · omega
      · have := vector_push_back_capacity_ge layout hgrow size (c r)
        omega

/-- One call that passes its assertions, on a memory resource with room: the
memory resource passes its assertion, and afterwards it counts what it counted
before the index was made plus the bytes the index holds. -/
theorem memory_step_spec (layout : MemoryLayout) (hgrow : ∀ c, c < layout.grow c)
    (shape : TreeShape n B) (s s' : TreeAccelerationStructure n B)
    (c : List (Fin n) → Nat) (mr : CountMemoryResource) (call : Call) (base : Nat)
    (h : s.step shape call = some s')
    (hZ : ∀ r, s.root.bounds_at r = none → c r = 0)
    (hC : ∀ r ps, s.root.primitives_at r = some ps → ps.length ≤ c r)
    (hF : mr.allocated = base + s.held_bytes layout c) (hone : 1 ≤ s.root.count_nodes)
    (hroom : base + s'.peak_bytes layout (s.capacity_after layout shape c call) <
      2 ^ layout.size_bits) :
    ∃ mr', s.memory_step layout shape c mr call = some mr' ∧
      mr'.allocated = base + s'.held_bytes layout (s.capacity_after layout shape c call) := by
  obtain ⟨_, _, ⟨k, hk1, hk2⟩, hcase⟩ := capacity_step layout hgrow shape s s' c mr call h hZ hC
  simp only [held_bytes, peak_bytes] at hF hroom ⊢
  have hn : layout.sizeof_node * (s'.root.count_nodes - 1) =
      layout.sizeof_node * (s.root.count_nodes - 1) + layout.sizeof_node * k := by
    rw [← Nat.mul_add]
    congr 1
    omega
  simp only [memory_step]
  rw [hk2]
  rcases hcase with ⟨hp, e⟩ | ⟨r, size, hp, e, hcr⟩
  · rw [hp]
    refine ⟨_, rfl, ?_⟩
    rw [e] at hroom ⊢
    rw [CountMemoryResource.allocate_iterate _ _ _ (by omega), hF, Nat.mod_eq_of_lt (by omega)]
    omega
  · rw [hp]
    simp only
    have hmr1 : ((fun m => CountMemoryResource.allocate layout.size_bits m
          layout.sizeof_node)^[k] mr).allocated =
        base + layout.sizeof_node * (s'.root.count_nodes - 1) +
          layout.sizeof_pointer * s.root.total_capacity c := by
      have hle : layout.sizeof_pointer * s.root.total_capacity c ≤
          layout.sizeof_pointer * (s'.root.total_capacity (s.capacity_after layout shape c call)
            + c r) := Nat.mul_le_mul_left _ (by
              have := vector_push_back_capacity_ge layout hgrow size (c r)
              omega)
      have hle2 : layout.sizeof_pointer * c r ≤ layout.sizeof_pointer *
          s'.root.total_capacity (s.capacity_after layout shape c call) :=
        Nat.mul_le_mul_left _ (by
          have := vector_push_back_capacity_ge layout hgrow size (c r)
          omega)
      rw [Nat.mul_add] at hle
      rw [CountMemoryResource.allocate_iterate _ _ _ (by omega), hF,
        Nat.mod_eq_of_lt (by omega)]
      omega
    unfold vector_push_back_memory
    by_cases hsz : size < c r
    · rw [if_pos hsz]
      refine ⟨_, rfl, ?_⟩
      have hv : vector_push_back_capacity layout size (c r) = c r := by
        simp [vector_push_back_capacity, hsz]
      rw [hv] at e
      have e' : s'.root.total_capacity (s.capacity_after layout shape c call) =
          s.root.total_capacity c := by omega
      rw [hmr1, e']
      omega
    · rw [if_neg hsz]
      have hv : vector_push_back_capacity layout size (c r) = layout.grow (c r) := by
        simp [vector_push_back_capacity, hsz]
      rw [hv] at e
      have hg := hgrow (c r)
      have hmul : layout.sizeof_pointer *
            s'.root.total_capacity (s.capacity_after layout shape c call) +
          layout.sizeof_pointer * c r =
          layout.sizeof_pointer * s.root.total_capacity c +
            layout.sizeof_pointer * layout.grow (c r) := by
        rw [← Nat.mul_add, ← Nat.mul_add, e]
      have hle1 : layout.sizeof_pointer * layout.grow (c r) ≤ layout.sizeof_pointer *
          s'.root.total_capacity (s.capacity_after layout shape c call) :=
        Nat.mul_le_mul_left _ (by omega)
      have hle2 : layout.sizeof_pointer * c r ≤ layout.sizeof_pointer * layout.grow (c r) :=
        Nat.mul_le_mul_left _ hg.le
      have hmod1 : (layout.sizeof_pointer * layout.grow (c r)) % 2 ^ layout.size_bits =
          layout.sizeof_pointer * layout.grow (c r) := Nat.mod_eq_of_lt (by omega)
      have hmod2 : (layout.sizeof_pointer * c r) % 2 ^ layout.size_bits =
          layout.sizeof_pointer * c r := Nat.mod_eq_of_lt (by omega)
      have halloc : (CountAllocator.allocate layout
            ((fun m => CountMemoryResource.allocate layout.size_bits m
              layout.sizeof_node)^[k] mr) (layout.grow (c r))).allocated =
          base + layout.sizeof_node * (s'.root.count_nodes - 1) +
            layout.sizeof_pointer * s.root.total_capacity c +
            layout.sizeof_pointer * layout.grow (c r) := by
        rw [CountAllocator.allocate_allocated, hmod1, hmr1, Nat.mod_eq_of_lt (by omega)]
      simp only
      by_cases hc0 : c r = 0
      · rw [if_pos hc0]
        refine ⟨_, rfl, ?_⟩
        rw [halloc]
        have hz : layout.sizeof_pointer * c r = 0 := by rw [hc0]; rfl
        omega
      · rw [if_neg hc0]
        rw [CountAllocator.deallocate_eq, hmod2, halloc, if_pos (by omega)]
        refine ⟨_, rfl, ?_⟩
        simp only
        omega

/-- The calls, on a memory resource with room for the bytes of the final state:
the memory resource passes every assertion, and afterwards it counts what it
counted before the index was made plus the bytes the index holds. -/
theorem memory_run_spec (layout : MemoryLayout) (hgrow : ∀ c, c < layout.grow c)
    (shape : TreeShape n B) (base : Nat) :
    ∀ (calls : List Call) (s : TreeAccelerationStructure n B) (c : List (Fin n) → Nat)
      (mr : CountMemoryResource) (sf : TreeAccelerationStructure n B)
      (cf : List (Fin n) → Nat),
      s.run_capacity layout shape c calls = some (sf, cf) →
      (∀ r, s.root.bounds_at r = none → c r = 0) →
      (∀ r ps, s.root.primitives_at r = some ps → ps.length ≤ c r) →
      mr.allocated = base + s.held_bytes layout c → 1 ≤ s.root.count_nodes →
      base + sf.peak_bytes layout cf < 2 ^ layout.size_bits →
      ∃ mrf, s.run_memory layout shape c mr calls = some (sf, cf, mrf) ∧
        mrf.allocated = base + sf.held_bytes layout cf := by
  intro calls
  induction calls with
  | nil =>
    intro s c mr sf cf h hZ hC hF hone hroom
    simp only [run_capacity, Option.some.injEq, Prod.mk.injEq] at h
    obtain ⟨rfl, rfl⟩ := h
    exact ⟨mr, rfl, hF⟩
  | cons call calls ih =>
    intro s c mr sf cf h hZ hC hF hone hroom
    simp only [run_capacity] at h
    cases hs : s.step shape call with
    | none => rw [hs] at h; simp at h
    | some s1 =>
      rw [hs] at h
      simp only at h
      obtain ⟨hZ1, hC1, ⟨k, hk, _⟩, _⟩ := capacity_step layout hgrow shape s s1 c mr call
        hs hZ hC
      obtain ⟨_, _, hn, ht⟩ := capacity_run layout hgrow shape calls s1 _ sf cf h hZ1 hC1
      have hroom1 : base + s1.peak_bytes layout (s.capacity_after layout shape c call) <
          2 ^ layout.size_bits := by
        simp only [peak_bytes] at hroom ⊢
        have h1 : layout.sizeof_node * (s1.root.count_nodes - 1) ≤
            layout.sizeof_node * (sf.root.count_nodes - 1) :=
          Nat.mul_le_mul_left _ (by omega)
        have h2 : layout.sizeof_pointer *
              s1.root.total_capacity (s.capacity_after layout shape c call) ≤
            layout.sizeof_pointer * sf.root.total_capacity cf :=
          Nat.mul_le_mul_left _ ht
        omega
      obtain ⟨mr1, hm1, hF1⟩ := memory_step_spec layout hgrow shape s s1 c mr call base hs hZ
        hC hF hone hroom1
      obtain ⟨mrf, hmf, hFf⟩ := ih s1 _ mr1 sf cf h hZ1 hC1 hF1 (by omega) hroom
      refine ⟨mrf, ?_, hFf⟩
      simp only [run_memory, hs, hm1]
      exact hmf

end TreeAccelerationStructure

namespace TreeAccelerationStructure

variable {n : Nat} {B : Type}

open TreeNode

theorem run_of_run_capacity (layout : MemoryLayout) (shape : TreeShape n B) :
    ∀ (calls : List Call) (s : TreeAccelerationStructure n B) (c : List (Fin n) → Nat)
      (sf : TreeAccelerationStructure n B) (cf : List (Fin n) → Nat),
      s.run_capacity layout shape c calls = some (sf, cf) → s.run shape calls = some sf := by
  intro calls
  induction calls with
  | nil =>
    intro s c sf cf h
    simp only [run_capacity, Option.some.injEq, Prod.mk.injEq] at h
    simp only [run, h.1]
  | cons call calls ih =>
    intro s c sf cf h
    simp only [run_capacity] at h
    cases hs : s.step shape call with
    | none => rw [hs] at h; simp at h
    | some s1 =>
      rw [hs] at h
      simp only [run, hs]
      exact ih s1 _ sf cf h

/-- The memory resource after the calls on a new index, when it has room: it
counts what it counted before plus the bytes the index holds, and the vectors
hold a buffer for as many primitives as the index has held at any moment. -/
theorem memory_of_run (layout : MemoryLayout) (hgrow : ∀ c, c < layout.grow c)
    (shape : TreeShape n B) (b : B) (D : Nat) (mb : Nat → aabbox3)
    (mn : Nat → Option (List (Fin n))) (calls : List Call) (mr : CountMemoryResource)
    (sf : TreeAccelerationStructure n B)
    (hrun : run shape ⟨fresh b, D, mb, mn⟩ calls = some sf)
    (hroom : (run_capacity layout shape ⟨fresh b, D, mb, mn⟩ (fun _ => 0) calls).map
      (fun r => decide (mr.allocated + r.1.peak_bytes layout r.2 < 2 ^ layout.size_bits))
      = some true) :
    ∃ cf after,
      run_capacity layout shape ⟨fresh b, D, mb, mn⟩ (fun _ => 0) calls = some (sf, cf) ∧
      run_memory layout shape ⟨fresh b, D, mb, mn⟩ (fun _ => 0) mr calls
        = some (sf, cf, after) ∧
      after.allocated = mr.allocated + sf.held_bytes layout cf ∧
      1 ≤ sf.root.count_nodes ∧
      ∀ calls1 calls2, calls = calls1 ++ calls2 →
        ∃ s1, run shape ⟨fresh b, D, mb, mn⟩ calls1 = some s1 ∧
          s1.root.all_primitives.length ≤ sf.root.total_capacity cf := by
  obtain ⟨cf, hcf⟩ := run_capacity_of_run layout shape calls ⟨fresh b, D, mb, mn⟩
    (fun _ => 0) sf hrun
  rw [hcf] at hroom
  simp only [Option.map_some', Option.some.injEq, decide_eq_true_eq] at hroom
  have hZ : ∀ r, (fresh b : TreeNode n B).bounds_at r = none → (fun _ => 0 : List (Fin n) → Nat) r = 0 :=
    fun _ _ => rfl
  have hC : ∀ r ps, (fresh b : TreeNode n B).primitives_at r = some ps →
      ps.length ≤ (fun _ => 0 : List (Fin n) → Nat) r := by
    intro r ps h
    cases r with
    | nil =>
      simp only [fresh, primitives_at_nil, Option.some.injEq] at h
      subst h
      simp
    | cons i r => simp [fresh, primitives_at_cons] at h
  have hF : mr.allocated = mr.allocated +
      held_bytes layout (⟨fresh b, D, mb, mn⟩ : TreeAccelerationStructure n B) (fun _ => 0) := by
    have h1 : (fresh b : TreeNode n B).count_nodes = 1 := count_nodes_fresh b
    have h2 : (fresh b : TreeNode n B).total_capacity (fun _ => 0) = 0 := by
      simp [fresh, total_capacity_node, total_capacity_null]
    simp only [held_bytes, h1, h2]
    simp
  obtain ⟨after, hafter, hFf⟩ := memory_run_spec layout hgrow shape mr.allocated calls
    ⟨fresh b, D, mb, mn⟩ (fun _ => 0) mr sf cf hcf hZ hC hF
    (by simp [count_nodes_fresh]) hroom
  obtain ⟨_, _, hn, _⟩ := capacity_run layout hgrow shape calls ⟨fresh b, D, mb, mn⟩
    (fun _ => 0) sf cf hcf hZ hC
  refine ⟨cf, after, hcf, hafter, hFf, ?_, ?_⟩
  · simp only [count_nodes_fresh] at hn
    exact hn
  · intro calls1 calls2 hsplit
    subst hsplit
    obtain ⟨s1, c1, h1, h2⟩ := run_capacity_append layout shape calls1 calls2 _ _ sf cf hcf
    obtain ⟨hZ1, hC1, _, _⟩ := capacity_run layout hgrow shape calls1 _ _ s1 c1 h1 hZ hC
    obtain ⟨_, _, _, ht⟩ := capacity_run layout hgrow shape calls2 s1 c1 sf cf h2 hZ1 hC1
    exact ⟨s1, run_of_run_capacity layout shape calls1 _ _ s1 c1 h1,
      le_trans (all_primitives_length_le c1 s1.root hC1) ht⟩

end TreeAccelerationStructure

section

variable [FloatArithmetic ℚ]

theorem OctreeAccelerationStructure.octree_reached_capacity_eq (layout : MemoryLayout)
    (m_bounds : Nat → aabbox3) (m_node : Nat → Option (List (Fin 8))) (center extent : float3)
    (max_depth : Nat) (hext : extent.x > 0 ∧ extent.y > 0 ∧ extent.z > 0)
    (calls : List Call) :
    OctreeAccelerationStructure.reached_capacity layout m_bounds m_node center extent
        max_depth calls =
      TreeAccelerationStructure.run_capacity layout OctreeAccelerationStructure.shape
        ⟨TreeNode.fresh ⟨center, extent⟩, max_depth, m_bounds, m_node⟩ (fun _ => 0) calls := by
  simp only [OctreeAccelerationStructure.reached_capacity, OctreeAccelerationStructure.create,
    hext, and_self, if_true]

theorem OctreeAccelerationStructure.octree_reached_memory_eq (layout : MemoryLayout)
    (m_bounds : Nat → aabbox3) (m_node : Nat → Option (List (Fin 8))) (center extent : float3)
    (max_depth : Nat) (hext : extent.x > 0 ∧ extent.y > 0 ∧ extent.z > 0)
    (mr : CountMemoryResource) (calls : List Call) :
    OctreeAccelerationStructure.reached_memory layout m_bounds m_node center extent max_depth
        mr calls =
      TreeAccelerationStructure.run_memory layout OctreeAccelerationStructure.shape
        ⟨TreeNode.fresh ⟨center, extent⟩, max_depth, m_bounds, m_node⟩ (fun _ => 0) mr
        calls := by
  simp only [OctreeAccelerationStructure.reached_memory, OctreeAccelerationStructure.create,
    hext, and_self, if_true]

theorem QuadtreeAccelerationStructure.quadtree_reached_capacity_eq (layout : MemoryLayout)
    (m_bounds : Nat → aabbox3) (m_node : Nat → Option (List (Fin 4))) (center extent : float2)
    (max_depth : Nat) (hext : extent.x > 0 ∧ extent.y > 0) (calls : List Call) :
    QuadtreeAccelerationStructure.reached_capacity layout m_bounds m_node center extent
        max_depth calls =
      TreeAccelerationStructure.run_capacity layout QuadtreeAccelerationStructure.shape
        ⟨TreeNode.fresh ⟨center, extent⟩, max_depth, m_bounds, m_node⟩ (fun _ => 0) calls := by
  simp only [QuadtreeAccelerationStructure.reached_capacity,
    QuadtreeAccelerationStructure.create, hext, and_self, if_true]

theorem QuadtreeAccelerationStructure.quadtree_reached_memory_eq (layout : MemoryLayout)
    (m_bounds : Nat → aabbox3) (m_node : Nat → Option (List (Fin 4))) (center extent : float2)
    (max_depth : Nat) (hext : extent.x > 0 ∧ extent.y > 0)
    (mr : CountMemoryResource) (calls : List Call) :
    QuadtreeAccelerationStructure.reached_memory layout m_bounds m_node center extent max_depth
        mr calls =
      TreeAccelerationStructure.run_memory layout QuadtreeAccelerationStructure.shape
        ⟨TreeNode.fresh ⟨center, extent⟩, max_depth, m_bounds, m_node⟩ (fun _ => 0) mr
        calls := by
  simp only [QuadtreeAccelerationStructure.reached_memory,
    QuadtreeAccelerationStructure.create, hext, and_self, if_true]

end

/-! ## Lemmas: plane extraction in exact arithmetic over an ordered field -/

theorem sign_div_pos {K : Type} [LinearOrderedField K] (a l : K) (hl : 0 < l) :
    SignType.sign (a / l) = SignType.sign a := by
  rw [div_eq_mul_inv, sign_mul, sign_pos (inv_pos.2 hl), mul_one]

theorem normal_length_squared_eq_zero {K : Type} [LinearOrderedField K] (m : float4x4_of K)
    (i : Fin 6) :
    m.normal_length_squared i = 0 ↔ (m.extracted i).normal = ⟨0, 0, 0⟩ := by
  simp only [float4x4_of.normal_length_squared]
  constructor
  · intro h
    have hx := mul_self_nonneg (m.extracted i).normal.x
    have hy := mul_self_nonneg (m.extracted i).normal.y
    have hz := mul_self_nonneg (m.extracted i).normal.z
    have ex : (m.extracted i).normal.x = 0 := mul_self_eq_zero.1 (by linarith)
    have ey : (m.extracted i).normal.y = 0 := mul_self_eq_zero.1 (by linarith)
    have ez : (m.extracted i).normal.z = 0 := mul_self_eq_zero.1 (by linarith)
    cases hn : (m.extracted i).normal
    rw [hn] at ex ey ez
    simp only at ex ey ez
    rw [ex, ey, ez]
  · intro h
    rw [h]
    simp

/-- A square root gives 1 at 1. -/
theorem sqrt_one_of_exact {K : Type} [LinearOrderedField K] (sqrt : K → K)
    (hsqrt : ∀ v : K, 0 ≤ v → 0 ≤ sqrt v ∧ sqrt v * sqrt v = v) : sqrt 1 = 1 := by
  obtain ⟨h1, h2⟩ := hsqrt 1 zero_le_one
  have h3 : (sqrt 1 - 1) * (sqrt 1 + 1) = 0 := by linear_combination h2
  rcases mul_eq_zero.1 h3 with h | h
  · linarith
  · linarith

section

variable {K : Type} [LinearOrderedField K] [FloatArithmetic K] [FloatArithmetic.Exact K]

theorem dot_exact (a b : float3_of K) : dot a b = a.x * b.x + a.y * b.y + a.z * b.z := by
  simp only [dot, fadd_exact, fmul_exact]

theorem length_exact (sqrt : K → K) (v : float3_of K) :
    length sqrt v = sqrt (v.x * v.x + v.y * v.y + v.z * v.z) := by
  simp only [length, fadd_exact, fmul_exact]

theorem normalize_plane_exact (sqrt : K → K) (pl : plane_of K) :
    normalize_plane sqrt pl =
      ⟨⟨pl.normal.x * (1 / length sqrt pl.normal), pl.normal.y * (1 / length sqrt pl.normal),
        pl.normal.z * (1 / length sqrt pl.normal)⟩,
        pl.distance * (1 / length sqrt pl.normal)⟩ := by
  simp only [normalize_plane, fmul_exact, fdiv_exact]

theorem normalize_plane_side (sqrt : K → K) (pl : plane_of K) (p : float3_of K)
    (hpos : 0 < length sqrt pl.normal) :
    dot p (normalize_plane sqrt pl).normal + (normalize_plane sqrt pl).distance =
      (dot p pl.normal + pl.distance) / length sqrt pl.normal := by
  have hne : length sqrt pl.normal ≠ 0 := hpos.ne'
  rw [normalize_plane_exact, dot_exact, dot_exact]
  field_simp

theorem normalize_plane_unit (sqrt : K → K) (pl : plane_of K)
    (hpos : 0 < length sqrt pl.normal)
    (hs : length sqrt pl.normal * length sqrt pl.normal =
      pl.normal.x * pl.normal.x + pl.normal.y * pl.normal.y + pl.normal.z * pl.normal.z) :
    dot (normalize_plane sqrt pl).normal (normalize_plane sqrt pl).normal = 1 := by
  have hne : length sqrt pl.normal ≠ 0 := hpos.ne'
  rw [normalize_plane_exact, dot_exact]
  field_simp
  linear_combination -hs

theorem frustum_from_float4x4_data (sqrt : K → K) (m : float4x4_of K) (i : Fin 6) :
    (frustum_from_float4x4 sqrt m).data i = normalize_plane sqrt (m.extracted i) := by
  fin_cases i <;>
    simp only [frustum_from_float4x4, float4x4_of.extracted, fadd_exact, fsub_exact]

theorem extracted_side (m : float4x4_of K) (p : float3_of K) (i : Fin 6) :
    dot p (m.extracted i).normal + (m.extracted i).distance = m.side p i := by
  rw [dot_exact]
  fin_cases i <;>
    simp only [float4x4_of.extracted, float4x4_of.side, float4x4_of.clip] <;> ring

end

theorem real_arithmetic_exact : @FloatArithmetic.Exact ℝ real_arithmetic :=
  @FloatArithmetic.Exact.mk ℝ real_arithmetic (fun _ => rfl)

/-! ## On the small grid the frustum queries behave in binary32 as in exact arithmetic -/

/-- On the small grid the box/frustum test is computed without rounding. -/
theorem intersect_aabbox3_frustum_small (k j : ℤ) (hkj : -149 ≤ k + j) (b : aabbox3)
    (hb : b.small_grid k) (f : frustum) (hf : frustum.small_grid k j f) :
    intersect_aabbox3_frustum b f = @intersect_aabbox3_frustum exact_arithmetic b f := by
  have h : (fun i => !plane_rejects b (f.data i)) =
      (fun i => !@plane_rejects exact_arithmetic b (f.data i)) := by
    funext i
    rw [plane_rejects_small k j hkj b hb (f.data i) (hf i)]
  unfold intersect_aabbox3_frustum
  rw [h]

/-- An axis of a node of the grid whose region lies within `m` of zero. -/
theorem dyadic_within_of_grid_axis (k : ℤ) (level : ℕ) (m center extent : ℚ)
    (h : grid_axis k level center extent) (hm : |center| + extent ≤ m * pow2 k) :
    dyadic_within k m center ∧ dyadic_within k m extent := by
  obtain ⟨h1, h2, h3, _⟩ := h
  refine ⟨⟨h1, by have := abs_nonneg center; linarith⟩, ⟨den_coarse k level extent h2, ?_⟩⟩
  rw [abs_of_nonneg h3]
  have := abs_nonneg center
  linarith

/-- An interval inside an interval that lies within `m` of zero lies within `m`
of zero. -/
theorem axis_inside_within (c e c0 e0 m : ℚ) (h1 : c0 - e0 ≤ c - e) (h2 : c + e ≤ c0 + e0)
    (h0 : |c0| + e0 ≤ m) : |c| + e ≤ m := by
  have a1 := le_abs_self c0
  have a2 := neg_abs_le c0
  rcases abs_cases c with ⟨h, _⟩ | ⟨h, _⟩ <;> rw [h] <;> linarith

/-- A node of the grid whose region lies inside a small region is on the small
grid. -/
theorem aabbox3.small_grid_of_grid_node (k : ℤ) (level : ℕ) (b root : aabbox3)
    (hb : b.grid_node k level) (hin : b.inside root) (hroot : root.small_region k) :
    b.small_grid k := by
  obtain ⟨bx, by', bz⟩ := hb
  obtain ⟨i1, i2, i3, i4, i5, i6⟩ := hin
  obtain ⟨r1, r2, r3⟩ := hroot
  obtain ⟨x1, x2⟩ := dyadic_within_of_grid_axis k level (2 ^ 11) _ _ bx
    (axis_inside_within _ _ _ _ _ i1 i2 r1)
  obtain ⟨y1, y2⟩ := dyadic_within_of_grid_axis k level (2 ^ 11) _ _ by'
    (axis_inside_within _ _ _ _ _ i3 i4 r2)
  obtain ⟨z1, z2⟩ := dyadic_within_of_grid_axis k level (2 ^ 11) _ _ bz
    (axis_inside_within _ _ _ _ _ i5 i6 r3)
  exact ⟨x1, y1, z1, x2, y2, z2⟩

namespace OctreeAccelerationStructure

open TreeAccelerationStructure

/-- In an octree on the grid whose root region is small, every node is on the
small grid. -/
theorem octree_nodes_small (k : ℤ) (max_depth : ℕ) (root : aabbox3) (c : Caller)
    (s : OctreeAccelerationStructure)
    (hsim : Sim (@shape exact_arithmetic) aabbox3.inside aabbox3.nonneg root max_depth c s)
    (hnodes : ∀ r b, s.root.bounds_at r = some b →
      r.length ≤ max_depth ∧ b.grid_node k (max_depth - r.length))
    (hroot : root.small_region k) :
    ∀ r b, s.root.bounds_at r = some b → b.small_grid k := by
  intro r b hr
  have hin : b.inside root :=
    TreeNode.inside_root_of_bounds_at
      (@octree_geometry exact_arithmetic exact_arithmetic_exact) s.root hsim.shaped r b root hr
      hsim.root_eq b ⟨le_refl _, le_refl _, le_refl _, le_refl _, le_refl _, le_refl _⟩
  exact aabbox3.small_grid_of_grid_node k _ b root (hnodes r b hr).2 hin hroot

/-- On the small grid, a frustum query of the octree returns the same in binary32
as in exact arithmetic. -/
theorem octree_query_frustum_small (k j : ℤ) (hkj : -149 ≤ k + j)
    (s : OctreeAccelerationStructure)
    (hnodes : ∀ r b, s.root.bounds_at r = some b → b.small_grid k)
    (hprims : ∀ p ∈ s.root.all_primitives, (s.m_bounds p).small_grid k) (f : frustum)
    (hf : frustum.small_grid k j f) (output : List Nat) :
    query_frustum s f output = @query_frustum exact_arithmetic s f output := by
  rw [octree_query_frustum_eq, @octree_query_frustum_eq exact_arithmetic]
  congr 1
  apply query_matches_congr
  · intro p hp
    exact intersect_aabbox3_frustum_small k j hkj _ (hprims p hp) f hf
  · intro r b hr
    exact intersect_aabbox3_frustum_small k j hkj b (hnodes r b hr) f hf

end OctreeAccelerationStructure

namespace LinearAccelerationStructure

/-- On the small grid, a frustum query of the linear index returns the same in
binary32 as in exact arithmetic. -/
theorem linear_query_frustum_small (k j : ℤ) (hkj : -149 ≤ k + j)
    (s : LinearAccelerationStructure)
    (hprims : ∀ p ∈ s.m_primitives, (s.m_bounds p).small_grid k) (f : frustum)
    (hf : frustum.small_grid k j f) (output : List Nat) :
    s.query_frustum f output = @query_frustum exact_arithmetic s f output := by
  rw [linear_query_frustum_eq, @linear_query_frustum_eq exact_arithmetic]
  congr 1
  apply List.filter_congr
  intro p hp
  exact intersect_aabbox3_frustum_small k j hkj _ (hprims p hp) f hf

end LinearAccelerationStructure

/-- C3: for each of the three indexes, in every state reached by calls that respect
the preconditions and for every primitive `p` not present in it, `add(p)` and then
`remove(p)` succeed and every box query and every frustum query then appends
exactly what it appended in the state before `add(p)`. -/
theorem add_remove_inverse (m_bounds : Nat → aabbox3) (calls : List Call) (p : Nat)
    (m_node8 : Nat → Option (List (Fin 8))) (m_node4 : Nat → Option (List (Fin 4)))
    (center3 extent3 : float3) (center2 extent2 : float2) (max_depth : Nat)
    (hext3 : extent3.x > 0 ∧ extent3.y > 0 ∧ extent3.z > 0)
    (hext2 : extent2.x > 0 ∧ extent2.y > 0)
    (hcalls : Caller.respects any_bounds m_bounds calls = true)
    (hp : p ∉ Caller.present_after any_bounds m_bounds calls) :
    (∃ s s1 s2, LinearAccelerationStructure.reached m_bounds calls = some s ∧
      s.add p = some s1 ∧ s1.remove p = some s2 ∧
      (∀ (q : aabbox3) (out : List Nat), s2.query_aabbox q out = s.query_aabbox q out) ∧
      (∀ (f : frustum) (out : List Nat), s2.query_frustum f out = s.query_frustum f out)) ∧
    (∃ s s1 s2,
      OctreeAccelerationStructure.reached m_bounds m_node8 center3 extent3 max_depth calls
        = some s ∧
      OctreeAccelerationStructure.add s p = some s1 ∧
      OctreeAccelerationStructure.remove s1 p = some s2 ∧
      (∀ (q : aabbox3) (out : List Nat),
        OctreeAccelerationStructure.query_aabbox s2 q out =
          OctreeAccelerationStructure.query_aabbox s q out) ∧
      (∀ (f : frustum) (out : List Nat),
        OctreeAccelerationStructure.query_frustum s2 f out =
          OctreeAccelerationStructure.query_frustum s f out)) ∧
    (∃ s s1 s2,
      QuadtreeAccelerationStructure.reached m_bounds m_node4 center2 extent2 max_depth calls
        = some s ∧
      QuadtreeAccelerationStructure.add s p = some s1 ∧
      QuadtreeAccelerationStructure.remove s1 p = some s2 ∧
      (∀ (q : aabbox3) (out : List Nat),
        QuadtreeAccelerationStructure.query_aabbox s2 q out =
          QuadtreeAccelerationStructure.query_aabbox s q out) ∧
      (∀ (f : frustum) (out : List Nat),
        QuadtreeAccelerationStructure.query_frustum s2 f out =
          QuadtreeAccelerationStructure.query_frustum s f out)) := by
  obtain ⟨c, hc, hpres⟩ := Caller.respects_iff _ _ _ hcalls
  rw [hpres] at hp
  refine ⟨?_, ?_, ?_⟩
  · obtain ⟨s, hs, hsim⟩ := LinearAccelerationStructure.linear_reach m_bounds _ calls c hc
    have hps : p ∉ s.m_primitives := fun h => hp (hsim.perm.mem_iff.1 h)
    obtain ⟨s1, h1, h2⟩ := LinearAccelerationStructure.linear_add_remove s p hps
    exact ⟨s, s1, s, hs, h1, h2, fun _ _ => rfl, fun _ _ => rfl⟩
  · obtain ⟨s, hs, hsim⟩ := OctreeAccelerationStructure.octree_reach
      (TreeShape.geometry_trivial _) m_bounds m_node8 center3 extent3 max_depth hext3 trivial
      any_bounds (fun _ _ => trivial) calls c hc
    have hps : p ∉ s.root.all_primitives := fun h => hp (hsim.perm.mem_iff.1 h)
    obtain ⟨s1, s2, h1, h2, hb, hq⟩ := TreeAccelerationStructure.tree_add_remove
      OctreeAccelerationStructure.shape s p (TreeAccelerationStructure.root_ne_of_sim hsim) hps
    refine ⟨s, s1, s2, hs, h1, h2, ?_, ?_⟩
    · intro q out
      rw [OctreeAccelerationStructure.octree_query_aabbox_eq,
        OctreeAccelerationStructure.octree_query_aabbox_eq, hq, hb]
    · intro f out
      rw [OctreeAccelerationStructure.octree_query_frustum_eq,
        OctreeAccelerationStructure.octree_query_frustum_eq, hq, hb]
  · obtain ⟨s, hs, hsim⟩ := QuadtreeAccelerationStructure.quadtree_reach
      (TreeShape.geometry_trivial _) m_bounds m_node4 center2 extent2 max_depth hext2 trivial
      any_bounds (fun _ _ => trivial) calls c hc
    have hps : p ∉ s.root.all_primitives := fun h => hp (hsim.perm.mem_iff.1 h)
    obtain ⟨s1, s2, h1, h2, hb, hq⟩ := TreeAccelerationStructure.tree_add_remove
      QuadtreeAccelerationStructure.shape s p (TreeAccelerationStructure.root_ne_of_sim hsim) hps
    refine ⟨s, s1, s2, hs, h1, h2, ?_, ?_⟩
    · intro q out
      rw [QuadtreeAccelerationStructure.quadtree_query_aabbox_eq,
        QuadtreeAccelerationStructure.quadtree_query_aabbox_eq, hq, hb]
    · intro f out
      rw [QuadtreeAccelerationStructure.quadtree_query_frustum_eq,
        QuadtreeAccelerationStructure.quadtree_query_frustum_eq, hq, hb]

theorem add_remove_inverse_witness :
    Caller.respects any_bounds sample_bounds sample_calls = true ∧
    1 ∉ Caller.present_after any_bounds sample_bounds sample_calls ∧
    ∃ s s1 s2,
      OctreeAccelerationStructure.reached sample_bounds (fun _ => none) world_center3
        world_extent3 5 sample_calls = some s ∧
      OctreeAccelerationStructure.add s 1 = some s1 ∧
      OctreeAccelerationStructure.remove s1 1 = some s2 ∧
      (∀ (q : aabbox3) (out : List Nat),
        OctreeAccelerationStructure.query_aabbox s2 q out =
          OctreeAccelerationStructure.query_aabbox s q out) ∧
      (∀ (f : frustum) (out : List Nat),
        OctreeAccelerationStructure.query_frustum s2 f out =
          OctreeAccelerationStructure.query_frustum s f out) :=
  ⟨by decide!, by decide!,
    (add_remove_inverse sample_bounds sample_calls 1 (fun _ => none) (fun _ => none)
      world_center3 world_extent3 world_center2 world_extent2 5 (by decide!) (by decide!)
      (by decide!) (by decide!)).2.1⟩

/-- C4: for the octree and the quadtree, in every state reached by calls that
respect the preconditions and for every present primitive `p`, two calls of
`update(p)` in a row succeed and leave every back-reference, in particular that of
`p`, and the bounds and the set of primitives of every node as one call leaves
them; only the order inside a node may differ. -/
theorem update_idempotent (m_bounds : Nat → aabbox3) (calls : List Call) (p : Nat)
    (m_node8 : Nat → Option (List (Fin 8))) (m_node4 : Nat → Option (List (Fin 4)))
    (center3 extent3 : float3) (center2 extent2 : float2) (max_depth : Nat)
    (hext3 : extent3.x > 0 ∧ extent3.y > 0 ∧ extent3.z > 0)
    (hext2 : extent2.x > 0 ∧ extent2.y > 0)
    (hcalls : Caller.respects any_bounds m_bounds calls = true)
    (hp : p ∈ Caller.present_after any_bounds m_bounds calls) :
    (∃ s s1 s2,
      OctreeAccelerationStructure.reached m_bounds m_node8 center3 extent3 max_depth calls
        = some s ∧
      OctreeAccelerationStructure.update s p = some s1 ∧
      OctreeAccelerationStructure.update s1 p = some s2 ∧
      s2.m_node = s1.m_node ∧
      (∀ r, (s1.root.primitives_at r = none ∧ s2.root.primitives_at r = none) ∨
        ∃ ps1 ps2, s1.root.primitives_at r = some ps1 ∧ s2.root.primitives_at r = some ps2 ∧
          ps2.Perm ps1) ∧
      (∀ r, s2.root.bounds_at r = s1.root.bounds_at r)) ∧
    (∃ s s1 s2,
      QuadtreeAccelerationStructure.reached m_bounds m_node4 center2 extent2 max_depth calls
        = some s ∧
      QuadtreeAccelerationStructure.update s p = some s1 ∧
      QuadtreeAccelerationStructure.update s1 p = some s2 ∧
      s2.m_node = s1.m_node ∧
      (∀ r, (s1.root.primitives_at r = none ∧ s2.root.primitives_at r = none) ∨
        ∃ ps1 ps2, s1.root.primitives_at r = some ps1 ∧ s2.root.primitives_at r = some ps2 ∧
          ps2.Perm ps1) ∧
      (∀ r, s2.root.bounds_at r = s1.root.bounds_at r)) := by
  obtain ⟨c, hc, hpres⟩ := Caller.respects_iff _ _ _ hcalls
  rw [hpres] at hp
  constructor
  · obtain ⟨s, hs, hsim⟩ := OctreeAccelerationStructure.octree_reach
      (TreeShape.geometry_trivial _) m_bounds m_node8 center3 extent3 max_depth hext3 trivial
      any_bounds (fun _ _ => trivial) calls c hc
    obtain ⟨s1, s2, h1, h2, h3⟩ := TreeAccelerationStructure.update_twice hsim p hp
    exact ⟨s, s1, s2, hs, h1, h2, h3⟩
  · obtain ⟨s, hs, hsim⟩ := QuadtreeAccelerationStructure.quadtree_reach
      (TreeShape.geometry_trivial _) m_bounds m_node4 center2 extent2 max_depth hext2 trivial
      any_bounds (fun _ _ => trivial) calls c hc
    obtain ⟨s1, s2, h1, h2, h3⟩ := TreeAccelerationStructure.update_twice hsim p hp
    exact ⟨s, s1, s2, hs, h1, h2, h3⟩

theorem update_idempotent_witness :
    Caller.respects any_bounds sample_bounds sample_calls = true ∧
    0 ∈ Caller.present_after any_bounds sample_bounds sample_calls ∧
    ∃ s s1 s2,
      OctreeAccelerationStructure.reached sample_bounds (fun _ => none) world_center3
        world_extent3 5 sample_calls = some s ∧
      OctreeAccelerationStructure.update s 0 = some s1 ∧
      OctreeAccelerationStructure.update s1 0 = some s2 ∧
      s2.m_node = s1.m_node ∧
      (∀ r, (s1.root.primitives_at r = none ∧ s2.root.primitives_at r = none) ∨
        ∃ ps1 ps2, s1.root.primitives_at r = some ps1 ∧ s2.root.primitives_at r = some ps2 ∧
          ps2.Perm ps1) ∧
      (∀ r, s2.root.bounds_at r = s1.root.bounds_at r) :=
  ⟨by decide!, by decide!,
    (update_idempotent sample_bounds sample_calls 0 (fun _ => none) (fun _ => none)
      world_center3 world_extent3 world_center2 world_extent2 5 (by decide!) (by decide!)
      (by decide!) (by decide!)).1⟩

/-- C5: box predicate symmetry, `intersect(A, B) = intersect(B, A)` for all 3D boxes,
in the arithmetic of the machine. -/
theorem intersect_aabbox3_aabbox3_comm (A B : aabbox3) :
    intersect_aabbox3_aabbox3 A B = intersect_aabbox3_aabbox3 B A := by
  unfold intersect_aabbox3_aabbox3
  rw [abs_fsub_comm A.center.x, abs_fsub_comm A.center.y, abs_fsub_comm A.center.z,
    fadd_comm A.extent.x, fadd_comm A.extent.y, fadd_comm A.extent.z]

/-- C8: for each of the three indexes and both kinds of query, whatever the output
list given to the query, the output after the call is the output before the call
followed by the matches: the primitives of the vector that pass the test for the
linear index, the primitives the descent reaches and accepts for the trees.  The
query is a function of the state and returns only the output, so the state is not
changed. -/
theorem query_only_appends :
    (∀ (s : LinearAccelerationStructure) (q : aabbox3) (out : List Nat),
      s.query_aabbox q out =
        out ++ s.m_primitives.filter (fun p => intersect_aabbox3_aabbox3 (s.m_bounds p) q) ∧
      s.query_aabbox q out = out ++ s.query_aabbox q []) ∧
    (∀ (s : LinearAccelerationStructure) (f : frustum) (out : List Nat),
      s.query_frustum f out =
        out ++ s.m_primitives.filter (fun p => intersect_aabbox3_frustum (s.m_bounds p) f) ∧
      s.query_frustum f out = out ++ s.query_frustum f []) ∧
    (∀ (s : OctreeAccelerationStructure) (q : aabbox3) (out : List Nat),
      OctreeAccelerationStructure.query_aabbox s q out =
        out ++ s.root.query_matches (fun p => intersect_aabbox3_aabbox3 (s.m_bounds p) q)
          (fun b => intersect_aabbox3_aabbox3 b q) ∧
      OctreeAccelerationStructure.query_aabbox s q out =
        out ++ OctreeAccelerationStructure.query_aabbox s q []) ∧
    (∀ (s : OctreeAccelerationStructure) (f : frustum) (out : List Nat),
      OctreeAccelerationStructure.query_frustum s f out =
        out ++ s.root.query_matches (fun p => intersect_aabbox3_frustum (s.m_bounds p) f)
          (fun b => intersect_aabbox3_frustum b f) ∧
      OctreeAccelerationStructure.query_frustum s f out =
        out ++ OctreeAccelerationStructure.query_frustum s f []) ∧
    (∀ (s : QuadtreeAccelerationStructure) (q : aabbox3) (out : List Nat),
      QuadtreeAccelerationStructure.query_aabbox s q out =
        out ++ s.root.query_matches (fun p => intersect_aabbox3_aabbox3 (s.m_bounds p) q)
          (fun b => intersect_aabbox2_aabbox3 b q) ∧
      QuadtreeAccelerationStructure.query_aabbox s q out =
        out ++ QuadtreeAccelerationStructure.query_aabbox s q []) ∧
    (∀ (s : QuadtreeAccelerationStructure) (f : frustum) (out : List Nat),
      QuadtreeAccelerationStructure.query_frustum s f out =
        out ++ s.root.query_matches (fun p => intersect_aabbox3_frustum (s.m_bounds p) f)
          (fun b => intersect_aabbox3_frustum
            (QuadtreeAccelerationStructure.ersatz_bounds b
              (QuadtreeAccelerationStructure.y_center f)
            (QuadtreeAccelerationStructure.y_extent f)) f) ∧
      QuadtreeAccelerationStructure.query_frustum s f out =
        out ++ QuadtreeAccelerationStructure.query_frustum s f []) := by
  refine ⟨?_, ?_, ?_, ?_, ?_, ?_⟩
  · intro s q out
    refine ⟨LinearAccelerationStructure.linear_query_aabbox_eq s q out, ?_⟩
    rw [LinearAccelerationStructure.linear_query_aabbox_eq s q out,
      LinearAccelerationStructure.linear_query_aabbox_eq s q []]
    simp
  · intro s f out
    refine ⟨LinearAccelerationStructure.linear_query_frustum_eq s f out, ?_⟩
    rw [LinearAccelerationStructure.linear_query_frustum_eq s f out,
      LinearAccelerationStructure.linear_query_frustum_eq s f []]
    simp
  · intro s q out
    refine ⟨OctreeAccelerationStructure.octree_query_aabbox_eq s q out, ?_⟩
    rw [OctreeAccelerationStructure.octree_query_aabbox_eq s q out,
      OctreeAccelerationStructure.octree_query_aabbox_eq s q []]
    simp
  · intro s f out
    refine ⟨OctreeAccelerationStructure.octree_query_frustum_eq s f out, ?_⟩
    rw [OctreeAccelerationStructure.octree_query_frustum_eq s f out,
      OctreeAccelerationStructure.octree_query_frustum_eq s f []]
    simp
  · intro s q out
    refine ⟨QuadtreeAccelerationStructure.quadtree_query_aabbox_eq s q out, ?_⟩
    rw [QuadtreeAccelerationStructure.quadtree_query_aabbox_eq s q out,
      QuadtreeAccelerationStructure.quadtree_query_aabbox_eq s q []]
    simp
  · intro s f out
    refine ⟨QuadtreeAccelerationStructure.quadtree_query_frustum_eq s f out, ?_⟩
    rw [QuadtreeAccelerationStructure.quadtree_query_frustum_eq s f out,
      QuadtreeAccelerationStructure.quadtree_query_frustum_eq s f []]
    simp

/-- C9: after any call sequence on a linear index that respects the preconditions,
a box query (a frustum query) appends exactly the primitives that were added and
not since removed and whose current bounds pass `intersect` with the box (the
frustum), each exactly once. -/
theorem linear_query_is_reference (m_bounds : Nat → aabbox3) (calls : List Call)
    (hcalls : Caller.respects any_bounds m_bounds calls = true) :
    ∃ s, LinearAccelerationStructure.reached m_bounds calls = some s ∧
      (∀ (q : aabbox3) (out : List Nat), ∃ appended,
        s.query_aabbox q out = out ++ appended ∧
        ∀ p, appended.count p =
          if p ∈ Caller.present_after any_bounds m_bounds calls ∧
            intersect_aabbox3_aabbox3 (Caller.bounds_after m_bounds calls p) q = true
          then 1 else 0) ∧
      (∀ (f : frustum) (out : List Nat), ∃ appended,
        s.query_frustum f out = out ++ appended ∧
        ∀ p, appended.count p =
          if p ∈ Caller.present_after any_bounds m_bounds calls ∧
            intersect_aabbox3_frustum (Caller.bounds_after m_bounds calls p) f = true
          then 1 else 0) := by
  obtain ⟨c, hc, hpres⟩ := Caller.respects_iff _ _ _ hcalls
  obtain ⟨s, hs, hsim⟩ := LinearAccelerationStructure.linear_reach m_bounds _ calls c hc
  have hb : s.m_bounds = Caller.bounds_after m_bounds calls := by
    rw [hsim.bounds_eq]; exact Caller.run_bounds _ _ _ _ hc
  have hnd : s.m_primitives.Nodup := hsim.perm.nodup_iff.2 hsim.nodup
  have hmem : ∀ p, p ∈ s.m_primitives ↔ p ∈ Caller.present_after any_bounds m_bounds calls := by
    intro p; rw [hpres]; exact hsim.perm.mem_iff
  refine ⟨s, hs, ?_, ?_⟩
  · intro q out
    refine ⟨_, LinearAccelerationStructure.linear_query_aabbox_eq s q out, ?_⟩
    intro p
    rw [count_filter_nodup _ hnd]
    simp only [hmem, hb]
  · intro f out
    refine ⟨_, LinearAccelerationStructure.linear_query_frustum_eq s f out, ?_⟩
    intro p
    rw [count_filter_nodup _ hnd]
    simp only [hmem, hb]

theorem linear_query_is_reference_witness :
    Caller.respects any_bounds sample_bounds sample_calls = true ∧
    ∃ s, LinearAccelerationStructure.reached sample_bounds sample_calls = some s ∧
      (∀ (q : aabbox3) (out : List Nat), ∃ appended,
        s.query_aabbox q out = out ++ appended ∧
        ∀ p, appended.count p =
          if p ∈ Caller.present_after any_bounds sample_bounds sample_calls ∧
            intersect_aabbox3_aabbox3 (Caller.bounds_after sample_bounds sample_calls p) q = true
          then 1 else 0) ∧
      (∀ (f : frustum) (out : List Nat), ∃ appended,
        s.query_frustum f out = out ++ appended ∧
        ∀ p, appended.count p =
          if p ∈ Caller.present_after any_bounds sample_bounds sample_calls ∧
            intersect_aabbox3_frustum (Caller.bounds_after sample_bounds sample_calls p) f = true
          then 1 else 0) :=
  ⟨by decide!, linear_query_is_reference sample_bounds sample_calls (by decide!)⟩

/-- C10: in every state of an octree or a quadtree reached by calls that respect the
preconditions, each present primitive is in the primitives list of exactly one
node, exactly once, and its back-reference names that node; a primitive that is
not present is in no list.  The call sequence is arbitrary, so each of `add`,
`remove` and `update` keeps this. -/
theorem single_owner (m_bounds : Nat → aabbox3) (calls : List Call)
    (m_node8 : Nat → Option (List (Fin 8))) (m_node4 : Nat → Option (List (Fin 4)))
    (center3 extent3 : float3) (center2 extent2 : float2) (max_depth : Nat)
    (hext3 : extent3.x > 0 ∧ extent3.y > 0 ∧ extent3.z > 0)
    (hext2 : extent2.x > 0 ∧ extent2.y > 0)
    (hcalls : Caller.respects any_bounds m_bounds calls = true) :
    (∃ s,
      OctreeAccelerationStructure.reached m_bounds m_node8 center3 extent3 max_depth calls
        = some s ∧
      ∀ p,
        (p ∈ Caller.present_after any_bounds m_bounds calls →
          ∃ r ps, s.m_node p = some r ∧ s.root.primitives_at r = some ps ∧
            ps.count p = 1 ∧
            ∀ r' ps', s.root.primitives_at r' = some ps' → p ∈ ps' → r' = r) ∧
        (p ∉ Caller.present_after any_bounds m_bounds calls →
          ∀ r' ps', s.root.primitives_at r' = some ps' → p ∉ ps')) ∧
    (∃ s,
      QuadtreeAccelerationStructure.reached m_bounds m_node4 center2 extent2 max_depth calls
        = some s ∧
      ∀ p,
        (p ∈ Caller.present_after any_bounds m_bounds calls →
          ∃ r ps, s.m_node p = some r ∧ s.root.primitives_at r = some ps ∧
            ps.count p = 1 ∧
            ∀ r' ps', s.root.primitives_at r' = some ps' → p ∈ ps' → r' = r) ∧
        (p ∉ Caller.present_after any_bounds m_bounds calls →
          ∀ r' ps', s.root.primitives_at r' = some ps' → p ∉ ps')) := by
  obtain ⟨c, hc, hpres⟩ := Caller.respects_iff _ _ _ hcalls
  rw [hpres]
  constructor
  · obtain ⟨s, hs, hsim⟩ := OctreeAccelerationStructure.octree_reach
      (TreeShape.geometry_trivial _) m_bounds m_node8 center3 extent3 max_depth hext3 trivial
      any_bounds (fun _ _ => trivial) calls c hc
    exact ⟨s, hs, fun p => TreeAccelerationStructure.single_owner_of_sim hsim p⟩
  · obtain ⟨s, hs, hsim⟩ := QuadtreeAccelerationStructure.quadtree_reach
      (TreeShape.geometry_trivial _) m_bounds m_node4 center2 extent2 max_depth hext2 trivial
      any_bounds (fun _ _ => trivial) calls c hc
    exact ⟨s, hs, fun p => TreeAccelerationStructure.single_owner_of_sim hsim p⟩

theorem single_owner_witness :
    Caller.respects any_bounds sample_bounds sample_calls = true ∧
    ∃ s,
      OctreeAccelerationStructure.reached sample_bounds (fun _ => none) world_center3
        world_extent3 5 sample_calls = some s ∧
      ∀ p,
        (p ∈ Caller.present_after any_bounds sample_bounds sample_calls →
          ∃ r ps, s.m_node p = some r ∧ s.root.primitives_at r = some ps ∧
            ps.count p = 1 ∧
            ∀ r' ps', s.root.primitives_at r' = some ps' → p ∈ ps' → r' = r) ∧
        (p ∉ Caller.present_after any_bounds sample_bounds sample_calls →
          ∀ r' ps', s.root.primitives_at r' = some ps' → p ∉ ps') :=
  ⟨by decide!,
    (single_owner sample_bounds sample_calls (fun _ => none) (fun _ => none) world_center3
      world_extent3 world_center2 world_extent2 5 (by decide!) (by decide!) (by decide!)).1⟩

/-! ## Depth of the trees and the memory resource -/

/-- C11: in every state of an octree or a quadtree built with `max_depth` and
reached by calls that respect the preconditions, no node lies more than
`max_depth` child links below the root; for every box `find_node` from the root
returns (it is a total function) a reference of length at most `max_depth` to a
node of the tree it leaves, in which again no node lies deeper than `max_depth`;
with `max_depth = 0` it returns the root and leaves the tree as it is. -/
theorem depth_bound (m_bounds : Nat → aabbox3) (calls : List Call)
    (m_node8 : Nat → Option (List (Fin 8))) (m_node4 : Nat → Option (List (Fin 4)))
    (center3 extent3 : float3) (center2 extent2 : float2) (max_depth : Nat)
    (hext3 : extent3.x > 0 ∧ extent3.y > 0 ∧ extent3.z > 0)
    (hext2 : extent2.x > 0 ∧ extent2.y > 0)
    (hcalls : Caller.respects any_bounds m_bounds calls = true) :
    (∃ s,
      OctreeAccelerationStructure.reached m_bounds m_node8 center3 extent3 max_depth calls
        = some s ∧
      s.m_max_depth = max_depth ∧
      (∀ r, (s.root.bounds_at r).isSome → r.length ≤ max_depth) ∧
      ∀ x,
        (s.root.find_node OctreeAccelerationStructure.shape max_depth x 0).2.length
          ≤ max_depth ∧
        ((s.root.find_node OctreeAccelerationStructure.shape max_depth x 0).1.bounds_at
          (s.root.find_node OctreeAccelerationStructure.shape max_depth x 0).2).isSome ∧
        (∀ r, ((s.root.find_node OctreeAccelerationStructure.shape max_depth x 0).1.bounds_at
          r).isSome → r.length ≤ max_depth) ∧
        (max_depth = 0 →
          s.root.find_node OctreeAccelerationStructure.shape max_depth x 0 = (s.root, []))) ∧
    (∃ s,
      QuadtreeAccelerationStructure.reached m_bounds m_node4 center2 extent2 max_depth calls
        = some s ∧
      s.m_max_depth = max_depth ∧
      (∀ r, (s.root.bounds_at r).isSome → r.length ≤ max_depth) ∧
      ∀ x,
        (s.root.find_node QuadtreeAccelerationStructure.shape max_depth x 0).2.length
          ≤ max_depth ∧
        ((s.root.find_node QuadtreeAccelerationStructure.shape max_depth x 0).1.bounds_at
          (s.root.find_node QuadtreeAccelerationStructure.shape max_depth x 0).2).isSome ∧
        (∀ r, ((s.root.find_node QuadtreeAccelerationStructure.shape max_depth x 0).1.bounds_at
          r).isSome → r.length ≤ max_depth) ∧
        (max_depth = 0 →
          s.root.find_node QuadtreeAccelerationStructure.shape max_depth x 0 = (s.root, []))) := by
  obtain ⟨c, hc, _⟩ := Caller.respects_iff _ _ _ hcalls
  constructor
  · obtain ⟨s, hs, hsim⟩ := OctreeAccelerationStructure.octree_reach
      (TreeShape.geometry_trivial _) m_bounds m_node8 center3 extent3 max_depth hext3 trivial
      any_bounds (fun _ _ => trivial) calls c hc
    have hrun := hs
    rw [OctreeAccelerationStructure.octree_reached_eq _ _ _ _ _ hext3] at hrun
    exact ⟨s, hs, TreeAccelerationStructure.depth_of_run _ _ _ _ _ _ s hrun
      (TreeAccelerationStructure.root_ne_of_sim hsim)⟩
  · obtain ⟨s, hs, hsim⟩ := QuadtreeAccelerationStructure.quadtree_reach
      (TreeShape.geometry_trivial _) m_bounds m_node4 center2 extent2 max_depth hext2 trivial
      any_bounds (fun _ _ => trivial) calls c hc
    have hrun := hs
    rw [QuadtreeAccelerationStructure.quadtree_reached_eq _ _ _ _ _ hext2] at hrun
    exact ⟨s, hs, TreeAccelerationStructure.depth_of_run _ _ _ _ _ _ s hrun
      (TreeAccelerationStructure.root_ne_of_sim hsim)⟩

theorem depth_bound_witness :
    Caller.respects any_bounds sample_bounds sample_calls = true ∧
    ∃ s,
      OctreeAccelerationStructure.reached sample_bounds (fun _ => none) world_center3
        world_extent3 5 sample_calls = some s ∧
      s.m_max_depth = 5 ∧
      (∀ r, (s.root.bounds_at r).isSome → r.length ≤ 5) ∧
      ∀ x,
        (s.root.find_node OctreeAccelerationStructure.shape 5 x 0).2.length ≤ 5 ∧
        ((s.root.find_node OctreeAccelerationStructure.shape 5 x 0).1.bounds_at
          (s.root.find_node OctreeAccelerationStructure.shape 5 x 0).2).isSome ∧
        (∀ r, ((s.root.find_node OctreeAccelerationStructure.shape 5 x 0).1.bounds_at
          r).isSome → r.length ≤ 5) ∧
        (5 = 0 → s.root.find_node OctreeAccelerationStructure.shape 5 x 0 = (s.root, [])) :=
  ⟨by decide!,
    (depth_bound sample_bounds sample_calls (fun _ => none) (fun _ => none) world_center3
      world_extent3 world_center2 world_extent2 5 (by decide!) (by decide!) (by decide!)).1⟩

/-- C12: `allocate(n)` increases `allocated` by exactly `n` when the sum fits in a
`size_t`; `deallocate(memory, n)` fails its assertion exactly when
`allocated < n` and otherwise decreases `allocated` by exactly `n`, so that the
counter never goes below zero; `allocate(n)` followed by `deallocate(_, n)`
restores the previous total. -/
theorem count_memory_resource_counts (size_bits : Nat) (memory_resource : CountMemoryResource)
    (n : Nat) (hfit : memory_resource.allocated + n < 2 ^ size_bits) :
    (memory_resource.allocate size_bits n).allocated = memory_resource.allocated + n ∧
    (memory_resource.deallocate n = none ↔ memory_resource.allocated < n) ∧
    (∀ after, memory_resource.deallocate n = some after →
      n ≤ memory_resource.allocated ∧ after.allocated = memory_resource.allocated - n ∧
        after.allocated + n = memory_resource.allocated) ∧
    (memory_resource.allocate size_bits n).deallocate n = some memory_resource := by
  have hmod : (memory_resource.allocated + n) % 2 ^ size_bits = memory_resource.allocated + n :=
    Nat.mod_eq_of_lt hfit
  refine ⟨?_, ?_, ?_, ?_⟩
  · simp only [CountMemoryResource.allocate, hmod]
  · simp only [CountMemoryResource.deallocate]
    split_ifs with h
    · simp only [reduceCtorEq, false_iff, not_lt]; exact h
    · simp only [true_iff]; omega
  · intro after h
    simp only [CountMemoryResource.deallocate] at h
    split_ifs at h with h1
    simp only [Option.some.injEq] at h
    subst h
    exact ⟨h1, rfl, by simp only; omega⟩
  · simp only [CountMemoryResource.allocate, CountMemoryResource.deallocate, hmod]
    simp

theorem count_memory_resource_counts_witness :
    (10 : Nat) + 5 < 2 ^ 64 ∧
    ((⟨10⟩ : CountMemoryResource).allocate 64 5).allocated = 10 + 5 ∧
    ((⟨10⟩ : CountMemoryResource).deallocate 5 = none ↔ 10 < 5) ∧
    (∀ after, (⟨10⟩ : CountMemoryResource).deallocate 5 = some after →
      5 ≤ 10 ∧ after.allocated = 10 - 5 ∧ after.allocated + 5 = 10) ∧
    ((⟨10⟩ : CountMemoryResource).allocate 64 5).deallocate 5 = some ⟨10⟩ :=
  ⟨by decide, count_memory_resource_counts 64 ⟨10⟩ 5 (by decide)⟩

/-! ## Duplicate insertion, two scenarios, and pruning in the quadtree -/

/-- C14, at the failing input: in the octree and the quadtree of main.cpp primitive
0 is added around the center of the world, so that the root holds it, then moved
to around (100, 100, 100) and updated, which leaves it in the root.  A second
`add(0)` passes its assertion, because `find_node` now leads to a node at depth 5
whose list does not hold the primitive: the primitive is then stored twice, in
the root and in that node.  The linear index fails its assertion on the same
calls. -/
theorem duplicate_add_stored_twice :
    Caller.settled any_bounds center_bounds drift_calls = true ∧
    0 ∈ Caller.present_after any_bounds center_bounds drift_calls ∧
    ((OctreeAccelerationStructure.reached center_bounds (fun _ => none) world_center3
      world_extent3 5 drift_calls).bind (fun s => OctreeAccelerationStructure.add s 0)).map
        (fun s => (s.root.all_primitives, s.root.primitives_at [],
          s.root.primitives_at [0, 7, 7, 7, 0]))
      = some ([0, 0], some [0], some [0]) ∧
    ((QuadtreeAccelerationStructure.reached center_bounds (fun _ => none) world_center2
      world_extent2 5 drift_calls).bind (fun s => QuadtreeAccelerationStructure.add s 0)).map
        (fun s => (s.root.all_primitives, s.root.primitives_at [],
          s.root.primitives_at [0, 3, 3, 3, 0]))
      = some ([0, 0], some [0], some [0]) ∧
    ((LinearAccelerationStructure.reached center_bounds drift_calls).bind
      (fun s => s.add 0)).isSome = false := by
  decide!

/-- C15: in an octree with center (0, 0, 0), extent (1024, 1024, 1024) and
`max_depth` 5, `add` of a primitive with center (0, 0, 0) and extent (1, 1, 1)
stores it in the root: the back-reference names the root, the list of the root
holds the primitive and the root is the only node.  The query with the box of
center (0, 0, 0) and extent (2, 2, 2) returns the primitive, the query with the box
of center (2000, 2000, 2000) and extent (1, 1, 1) returns nothing. -/
theorem root_straddling_scenario :
    ∃ s,
      OctreeAccelerationStructure.reached (fun _ => ⟨⟨0, 0, 0⟩, ⟨1, 1, 1⟩⟩) (fun _ => none)
        ⟨0, 0, 0⟩ ⟨1024, 1024, 1024⟩ 5 [.add 0] = some s ∧
      s.m_node 0 = some [] ∧
      s.root.primitives_at [] = some [0] ∧
      (∀ i : Fin 8, s.root.bounds_at [i] = none) ∧
      s.root.count_nodes = 1 ∧
      OctreeAccelerationStructure.query_aabbox s ⟨⟨0, 0, 0⟩, ⟨2, 2, 2⟩⟩ [] = [0] ∧
      OctreeAccelerationStructure.query_aabbox s ⟨⟨2000, 2000, 2000⟩, ⟨1, 1, 1⟩⟩ [] = [] := by
  have h : (OctreeAccelerationStructure.reached (fun _ => ⟨⟨0, 0, 0⟩, ⟨1, 1, 1⟩⟩) (fun _ => none)
      ⟨0, 0, 0⟩ ⟨1024, 1024, 1024⟩ 5 [.add 0]).map (fun s =>
        decide (s.m_node 0 = some [] ∧
          s.root.primitives_at [] = some [0] ∧
          (∀ i : Fin 8, s.root.bounds_at [i] = none) ∧
          s.root.count_nodes = 1 ∧
          OctreeAccelerationStructure.query_aabbox s ⟨⟨0, 0, 0⟩, ⟨2, 2, 2⟩⟩ [] = [0] ∧
          OctreeAccelerationStructure.query_aabbox s ⟨⟨2000, 2000, 2000⟩, ⟨1, 1, 1⟩⟩ [] = []))
      = some true := by
    decide!
  obtain ⟨s, hs, hf⟩ := Option.map_eq_some'.1 h
  exact ⟨s, hs, of_decide_eq_true hf⟩

/-! ## Corner heights, child regions, the footprint test and plane extraction -/

section

variable [FloatArithmetic ℚ] [FloatArithmetic.Exact ℚ]

end

/-- C23: for every present primitive `p` in an octree or a quadtree, in a state
reached by calls that respect the preconditions, `remove(p)` erases `p` and
nothing else from the list of the node named by the back-reference of `p`, up to
the order in that list, sets the back-reference of `p` to null, and leaves the
list of every other node, the bounds of every node and the back-reference of
every other primitive as they were. -/
theorem remove_erases_only_p (m_bounds : Nat → aabbox3) (calls : List Call) (p : Nat)
    (m_node8 : Nat → Option (List (Fin 8))) (m_node4 : Nat → Option (List (Fin 4)))
    (center3 extent3 : float3) (center2 extent2 : float2) (max_depth : Nat)
    (hext3 : extent3.x > 0 ∧ extent3.y > 0 ∧ extent3.z > 0)
    (hext2 : extent2.x > 0 ∧ extent2.y > 0)
    (hcalls : Caller.respects any_bounds m_bounds calls = true)
    (hp : p ∈ Caller.present_after any_bounds m_bounds calls) :
    (∃ s s' r ps w,
      OctreeAccelerationStructure.reached m_bounds m_node8 center3 extent3 max_depth calls
        = some s ∧
      s.m_node p = some r ∧ s.root.primitives_at r = some ps ∧ p ∈ ps ∧
      OctreeAccelerationStructure.remove s p = some s' ∧
      s'.root.primitives_at r = some w ∧ w.Perm (ps.erase p) ∧
      p ∉ w ∧ (∀ q, q ≠ p → (q ∈ w ↔ q ∈ ps)) ∧
      (∀ r', r' ≠ r → s'.root.primitives_at r' = s.root.primitives_at r') ∧
      (∀ r', s'.root.bounds_at r' = s.root.bounds_at r') ∧
      s'.m_node p = none ∧ (∀ q, q ≠ p → s'.m_node q = s.m_node q)) ∧
    (∃ s s' r ps w,
      QuadtreeAccelerationStructure.reached m_bounds m_node4 center2 extent2 max_depth calls
        = some s ∧
      s.m_node p = some r ∧ s.root.primitives_at r = some ps ∧ p ∈ ps ∧
      QuadtreeAccelerationStructure.remove s p = some s' ∧
      s'.root.primitives_at r = some w ∧ w.Perm (ps.erase p) ∧
      p ∉ w ∧ (∀ q, q ≠ p → (q ∈ w ↔ q ∈ ps)) ∧
      (∀ r', r' ≠ r → s'.root.primitives_at r' = s.root.primitives_at r') ∧
      (∀ r', s'.root.bounds_at r' = s.root.bounds_at r') ∧
      s'.m_node p = none ∧ (∀ q, q ≠ p → s'.m_node q = s.m_node q)) := by
  obtain ⟨c, hc, hpres⟩ := Caller.respects_iff _ _ _ hcalls
  rw [hpres] at hp
  constructor
  · obtain ⟨s, hs, hsim⟩ := OctreeAccelerationStructure.octree_reach
      (TreeShape.geometry_trivial _) m_bounds m_node8 center3 extent3 max_depth hext3 trivial
      any_bounds (fun _ _ => trivial) calls c hc
    obtain ⟨s', r, ps, w, h1, h2, h3, h4, h5, h6, h7, h8, h9, h10, h11, h12, _⟩ :=
      TreeAccelerationStructure.remove_effect hsim p hp
    exact ⟨s, s', r, ps, w, hs, h1, h2, h3, h4, h5, h6, h7, h8, h9, h10, h11, h12⟩
  · obtain ⟨s, hs, hsim⟩ := QuadtreeAccelerationStructure.quadtree_reach
      (TreeShape.geometry_trivial _) m_bounds m_node4 center2 extent2 max_depth hext2 trivial
      any_bounds (fun _ _ => trivial) calls c hc
    obtain ⟨s', r, ps, w, h1, h2, h3, h4, h5, h6, h7, h8, h9, h10, h11, h12, _⟩ :=
      TreeAccelerationStructure.remove_effect hsim p hp
    exact ⟨s, s', r, ps, w, hs, h1, h2, h3, h4, h5, h6, h7, h8, h9, h10, h11, h12⟩

theorem remove_erases_only_p_witness :
    Caller.respects any_bounds sample_bounds sample_calls = true ∧
    0 ∈ Caller.present_after any_bounds sample_bounds sample_calls ∧
    ∃ s s' r ps w,
      OctreeAccelerationStructure.reached sample_bounds (fun _ => none) world_center3
        world_extent3 5 sample_calls = some s ∧
      s.m_node 0 = some r ∧ s.root.primitives_at r = some ps ∧ 0 ∈ ps ∧
      OctreeAccelerationStructure.remove s 0 = some s' ∧
      s'.root.primitives_at r = some w ∧ w.Perm (ps.erase 0) ∧
      0 ∉ w ∧ (∀ q, q ≠ 0 → (q ∈ w ↔ q ∈ ps)) ∧
      (∀ r', r' ≠ r → s'.root.primitives_at r' = s.root.primitives_at r') ∧
      (∀ r', s'.root.bounds_at r' = s.root.bounds_at r') ∧
      s'.m_node 0 = none ∧ (∀ q, q ≠ 0 → s'.m_node q = s.m_node q) :=
  ⟨by decide!, by decide!,
    (remove_erases_only_p sample_bounds sample_calls 0 (fun _ => none) (fun _ => none)
      world_center3 world_extent3 world_center2 world_extent2 5 (by decide!) (by decide!)
      (by decide!) (by decide!)).1⟩

/-- C24: for every octree or quadtree, every call sequence and one more call `call`
that respect the preconditions: each node that exists before `call` exists after
it in the same child slot with the same bounds; `remove` and a write to the
bounds of a primitive leave the set of nodes as it is; `add(p)` and `update(p)`
create nodes only on the way from the root to the node in which they leave `p`,
and no call creates more than `max_depth` nodes.  A query returns an output list
and no state, so it creates and destroys nothing. -/
theorem nodes_never_destroyed (m_bounds : Nat → aabbox3) (calls : List Call) (call : Call)
    (m_node8 : Nat → Option (List (Fin 8))) (m_node4 : Nat → Option (List (Fin 4)))
    (center3 extent3 : float3) (center2 extent2 : float2) (max_depth : Nat)
    (hext3 : extent3.x > 0 ∧ extent3.y > 0 ∧ extent3.z > 0)
    (hext2 : extent2.x > 0 ∧ extent2.y > 0)
    (hcalls : Caller.respects any_bounds m_bounds (calls ++ [call]) = true) :
    (∃ s s',
      OctreeAccelerationStructure.reached m_bounds m_node8 center3 extent3 max_depth calls
        = some s ∧
      OctreeAccelerationStructure.reached m_bounds m_node8 center3 extent3 max_depth
        (calls ++ [call]) = some s' ∧
      (∀ r b, s.root.bounds_at r = some b → s'.root.bounds_at r = some b) ∧
      s'.root.count_nodes ≤ s.root.count_nodes + max_depth ∧
      (∀ p, call = .remove p → ∀ r, s'.root.bounds_at r = s.root.bounds_at r) ∧
      (∀ p x, call = .set_bounds p x → s'.root = s.root) ∧
      (∀ p, call = .add p ∨ call = .update p → ∀ r, (s'.root.bounds_at r).isSome →
        (s.root.bounds_at r).isSome ∨ ∃ rest, s'.m_node p = some (r ++ rest))) ∧
    (∃ s s',
      QuadtreeAccelerationStructure.reached m_bounds m_node4 center2 extent2 max_depth calls
        = some s ∧
      QuadtreeAccelerationStructure.reached m_bounds m_node4 center2 extent2 max_depth
        (calls ++ [call]) = some s' ∧
      (∀ r b, s.root.bounds_at r = some b → s'.root.bounds_at r = some b) ∧
      s'.root.count_nodes ≤ s.root.count_nodes + max_depth ∧
      (∀ p, call = .remove p → ∀ r, s'.root.bounds_at r = s.root.bounds_at r) ∧
      (∀ p x, call = .set_bounds p x → s'.root = s.root) ∧
      (∀ p, call = .add p ∨ call = .update p → ∀ r, (s'.root.bounds_at r).isSome →
        (s.root.bounds_at r).isSome ∨ ∃ rest, s'.m_node p = some (r ++ rest))) := by
  obtain ⟨c', hc', _⟩ := Caller.respects_iff _ _ _ hcalls
  obtain ⟨c, hc, hstep⟩ := Caller.run_concat _ _ _ _ _ hc'
  constructor
  · obtain ⟨s, hs, hsim⟩ := OctreeAccelerationStructure.octree_reach
      (TreeShape.geometry_trivial _) m_bounds m_node8 center3 extent3 max_depth hext3 trivial
      any_bounds (fun _ _ => trivial) calls c hc
    obtain ⟨s', hs', h⟩ := TreeAccelerationStructure.step_nodes (TreeShape.geometry_trivial _)
      any_bounds (fun _ _ => trivial) hsim call c' hstep
    refine ⟨s, s', hs, ?_, h⟩
    rw [OctreeAccelerationStructure.octree_reached_eq _ _ _ _ _ hext3] at hs ⊢
    exact TreeAccelerationStructure.tree_run_concat _ _ _ _ _ _ hs hs'
  · obtain ⟨s, hs, hsim⟩ := QuadtreeAccelerationStructure.quadtree_reach
      (TreeShape.geometry_trivial _) m_bounds m_node4 center2 extent2 max_depth hext2 trivial
      any_bounds (fun _ _ => trivial) calls c hc
    obtain ⟨s', hs', h⟩ := TreeAccelerationStructure.step_nodes (TreeShape.geometry_trivial _)
      any_bounds (fun _ _ => trivial) hsim call c' hstep
    refine ⟨s, s', hs, ?_, h⟩
    rw [QuadtreeAccelerationStructure.quadtree_reached_eq _ _ _ _ _ hext2] at hs ⊢
    exact TreeAccelerationStructure.tree_run_concat _ _ _ _ _ _ hs hs'

theorem nodes_never_destroyed_witness :
    Caller.respects any_bounds sample_bounds ([.add 0, .add 1] ++ [.remove 0]) = true ∧
    ∃ s s',
      OctreeAccelerationStructure.reached sample_bounds (fun _ => none) world_center3
        world_extent3 5 [.add 0, .add 1] = some s ∧
      OctreeAccelerationStructure.reached sample_bounds (fun _ => none) world_center3
        world_extent3 5 ([.add 0, .add 1] ++ [.remove 0]) = some s' ∧
      (∀ r b, s.root.bounds_at r = some b → s'.root.bounds_at r = some b) ∧
      s'.root.count_nodes ≤ s.root.count_nodes + 5 ∧
      (∀ p, Call.remove 0 = .remove p → ∀ r, s'.root.bounds_at r = s.root.bounds_at r) ∧
      (∀ p x, Call.remove 0 = .set_bounds p x → s'.root = s.root) ∧
      (∀ p, Call.remove 0 = .add p ∨ Call.remove 0 = .update p → ∀ r,
        (s'.root.bounds_at r).isSome →
        (s.root.bounds_at r).isSome ∨ ∃ rest, s'.m_node p = some (r ++ rest)) :=
  ⟨by decide!,
    (nodes_never_destroyed sample_bounds [.add 0, .add 1] (.remove 0) (fun _ => none)
      (fun _ => none) world_center3 world_extent3 world_center2 world_extent2 5 (by decide!)
      (by decide!) (by decide!)).1⟩

/-- C30: in every state of an octree or a quadtree reached by calls that respect the
preconditions, with no condition on where the primitives lie, every primitive
that `query(aabbox)` or `query(frustum)` appends is present in the index and its
bounds pass `intersect` with the query shape, no primitive is appended twice by
one call, and what the tree appends is part of what the linear index appends
after the same calls. -/
theorem tree_queries_never_over_report (m_bounds : Nat → aabbox3) (calls : List Call)
    (m_node8 : Nat → Option (List (Fin 8))) (m_node4 : Nat → Option (List (Fin 4)))
    (center3 extent3 : float3) (center2 extent2 : float2) (max_depth : Nat)
    (hext3 : extent3.x > 0 ∧ extent3.y > 0 ∧ extent3.z > 0)
    (hext2 : extent2.x > 0 ∧ extent2.y > 0)
    (hcalls : Caller.respects any_bounds m_bounds calls = true) :
    ∃ lin oct quad,
      LinearAccelerationStructure.reached m_bounds calls = some lin ∧
      OctreeAccelerationStructure.reached m_bounds m_node8 center3 extent3 max_depth calls
        = some oct ∧
      QuadtreeAccelerationStructure.reached m_bounds m_node4 center2 extent2 max_depth calls
        = some quad ∧
      (∀ (q : aabbox3) (output : List Nat), ∃ appended from_linear,
        OctreeAccelerationStructure.query_aabbox oct q output = output ++ appended ∧
        lin.query_aabbox q output = output ++ from_linear ∧
        appended.Nodup ∧ appended.Subperm from_linear ∧
        ∀ p ∈ appended, p ∈ from_linear ∧
          p ∈ Caller.present_after any_bounds m_bounds calls ∧
          intersect_aabbox3_aabbox3 (Caller.bounds_after m_bounds calls p) q = true) ∧
      (∀ (f : frustum) (output : List Nat), ∃ appended from_linear,
        OctreeAccelerationStructure.query_frustum oct f output = output ++ appended ∧
        lin.query_frustum f output = output ++ from_linear ∧
        appended.Nodup ∧ appended.Subperm from_linear ∧
        ∀ p ∈ appended, p ∈ from_linear ∧
          p ∈ Caller.present_after any_bounds m_bounds calls ∧
          intersect_aabbox3_frustum (Caller.bounds_after m_bounds calls p) f = true) ∧
      (∀ (q : aabbox3) (output : List Nat), ∃ appended from_linear,
        QuadtreeAccelerationStructure.query_aabbox quad q output = output ++ appended ∧
        lin.query_aabbox q output = output ++ from_linear ∧
        appended.Nodup ∧ appended.Subperm from_linear ∧
        ∀ p ∈ appended, p ∈ from_linear ∧
          p ∈ Caller.present_after any_bounds m_bounds calls ∧
          intersect_aabbox3_aabbox3 (Caller.bounds_after m_bounds calls p) q = true) ∧
      (∀ (f : frustum) (output : List Nat), ∃ appended from_linear,
        QuadtreeAccelerationStructure.query_frustum quad f output = output ++ appended ∧
        lin.query_frustum f output = output ++ from_linear ∧
        appended.Nodup ∧ appended.Subperm from_linear ∧
        ∀ p ∈ appended, p ∈ from_linear ∧
          p ∈ Caller.present_after any_bounds m_bounds calls ∧
          intersect_aabbox3_frustum (Caller.bounds_after m_bounds calls p) f = true) := by
  obtain ⟨c, hc, hpres⟩ := Caller.respects_iff _ _ _ hcalls
  have hb : c.m_bounds = Caller.bounds_after m_bounds calls := Caller.run_bounds _ _ _ _ hc
  obtain ⟨lin, hlin, hsimL⟩ := LinearAccelerationStructure.linear_reach m_bounds _ calls c hc
  obtain ⟨oct, hoct, hsim8⟩ := OctreeAccelerationStructure.octree_reach
    (TreeShape.geometry_trivial _) m_bounds m_node8 center3 extent3 max_depth hext3 trivial
    any_bounds (fun _ _ => trivial) calls c hc
  obtain ⟨quad, hquad, hsim4⟩ := QuadtreeAccelerationStructure.quadtree_reach
    (TreeShape.geometry_trivial _) m_bounds m_node4 center2 extent2 max_depth hext2 trivial
    any_bounds (fun _ _ => trivial) calls c hc
  rw [hpres, ← hb]
  refine ⟨lin, oct, quad, hlin, hoct, hquad, ?_, ?_, ?_, ?_⟩
  · intro q output
    have hsub := TreeAccelerationStructure.query_matches_subperm_linear hsim8 hsimL
      (fun x => intersect_aabbox3_aabbox3 x q) (fun b => intersect_aabbox3_aabbox3 b q)
    have hsound := TreeAccelerationStructure.query_matches_sound hsim8
      (fun x => intersect_aabbox3_aabbox3 x q) (fun b => intersect_aabbox3_aabbox3 b q)
    exact ⟨_, _, OctreeAccelerationStructure.octree_query_aabbox_eq oct q output,
      LinearAccelerationStructure.linear_query_aabbox_eq lin q output, hsound.1, hsub,
      fun p hp => ⟨hsub.subset hp, hsound.2 p hp⟩⟩
  · intro f output
    have hsub := TreeAccelerationStructure.query_matches_subperm_linear hsim8 hsimL
      (fun x => intersect_aabbox3_frustum x f) (fun b => intersect_aabbox3_frustum b f)
    have hsound := TreeAccelerationStructure.query_matches_sound hsim8
      (fun x => intersect_aabbox3_frustum x f) (fun b => intersect_aabbox3_frustum b f)
    exact ⟨_, _, OctreeAccelerationStructure.octree_query_frustum_eq oct f output,
      LinearAccelerationStructure.linear_query_frustum_eq lin f output, hsound.1, hsub,
      fun p hp => ⟨hsub.subset hp, hsound.2 p hp⟩⟩
  · intro q output
    have hsub := TreeAccelerationStructure.query_matches_subperm_linear hsim4 hsimL
      (fun x => intersect_aabbox3_aabbox3 x q) (fun b => intersect_aabbox2_aabbox3 b q)
    have hsound := TreeAccelerationStructure.query_matches_sound hsim4
      (fun x => intersect_aabbox3_aabbox3 x q) (fun b => intersect_aabbox2_aabbox3 b q)
    exact ⟨_, _, QuadtreeAccelerationStructure.quadtree_query_aabbox_eq quad q output,
      LinearAccelerationStructure.linear_query_aabbox_eq lin q output, hsound.1, hsub,
      fun p hp => ⟨hsub.subset hp, hsound.2 p hp⟩⟩
  · intro f output
    have hsub := TreeAccelerationStructure.query_matches_subperm_linear hsim4 hsimL
      (fun x => intersect_aabbox3_frustum x f)
      (fun b => intersect_aabbox3_frustum (QuadtreeAccelerationStructure.ersatz_bounds b
        (QuadtreeAccelerationStructure.y_center f)
            (QuadtreeAccelerationStructure.y_extent f)) f)
    have hsound := TreeAccelerationStructure.query_matches_sound hsim4
      (fun x => intersect_aabbox3_frustum x f)
      (fun b => intersect_aabbox3_frustum (QuadtreeAccelerationStructure.ersatz_bounds b
        (QuadtreeAccelerationStructure.y_center f)
            (QuadtreeAccelerationStructure.y_extent f)) f)
    exact ⟨_, _, QuadtreeAccelerationStructure.quadtree_query_frustum_eq quad f output,
      LinearAccelerationStructure.linear_query_frustum_eq lin f output, hsound.1, hsub,
      fun p hp => ⟨hsub.subset hp, hsound.2 p hp⟩⟩

theorem tree_queries_never_over_report_witness :
    Caller.respects any_bounds outside_bounds [.add 0, .add 1] = true ∧
    ∃ lin oct quad,
      LinearAccelerationStructure.reached outside_bounds [.add 0, .add 1] = some lin ∧
      OctreeAccelerationStructure.reached outside_bounds (fun _ => none) world_center3
        world_extent3 5 [.add 0, .add 1]
        = some oct ∧
      QuadtreeAccelerationStructure.reached outside_bounds (fun _ => none) world_center2
        world_extent2 5 [.add 0, .add 1]
        = some quad ∧
      (∀ (q : aabbox3) (output : List Nat), ∃ appended from_linear,
        OctreeAccelerationStructure.query_aabbox oct q output = output ++ appended ∧
        lin.query_aabbox q output = output ++ from_linear ∧
        appended.Nodup ∧ appended.Subperm from_linear ∧
        ∀ p ∈ appended, p ∈ from_linear ∧
          p ∈ Caller.present_after any_bounds outside_bounds [.add 0, .add 1] ∧
          intersect_aabbox3_aabbox3 (Caller.bounds_after outside_bounds [.add 0, .add 1] p) q =
            true) ∧
      (∀ (f : frustum) (output : List Nat), ∃ appended from_linear,
        OctreeAccelerationStructure.query_frustum oct f output = output ++ appended ∧
        lin.query_frustum f output = output ++ from_linear ∧
        appended.Nodup ∧ appended.Subperm from_linear ∧
        ∀ p ∈ appended, p ∈ from_linear ∧
          p ∈ Caller.present_after any_bounds outside_bounds [.add 0, .add 1] ∧
          intersect_aabbox3_frustum (Caller.bounds_after outside_bounds [.add 0, .add 1] p) f =
            true) ∧
      (∀ (q : aabbox3) (output : List Nat), ∃ appended from_linear,
        QuadtreeAccelerationStructure.query_aabbox quad q output = output ++ appended ∧
        lin.query_aabbox q output = output ++ from_linear ∧
        appended.Nodup ∧ appended.Subperm from_linear ∧
        ∀ p ∈ appended, p ∈ from_linear ∧
          p ∈ Caller.present_after any_bounds outside_bounds [.add 0, .add 1] ∧
          intersect_aabbox3_aabbox3 (Caller.bounds_after outside_bounds [.add 0, .add 1] p) q =
            true) ∧
      (∀ (f : frustum) (output : List Nat), ∃ appended from_linear,
        QuadtreeAccelerationStructure.query_frustum quad f output = output ++ appended ∧
        lin.query_frustum f output = output ++ from_linear ∧
        appended.Nodup ∧ appended.Subperm from_linear ∧
        ∀ p ∈ appended, p ∈ from_linear ∧
          p ∈ Caller.present_after any_bounds outside_bounds [.add 0, .add 1] ∧
          intersect_aabbox3_frustum (Caller.bounds_after outside_bounds [.add 0, .add 1] p) f =
            true) :=
  ⟨by decide!,
    tree_queries_never_over_report outside_bounds [.add 0, .add 1] (fun _ => none)
      (fun _ => none) world_center3 world_extent3 world_center2 world_extent2 5 (by decide!)
      (by decide!) (by decide!)⟩
/-! ## The trees against the linear index, with and without the condition on the region -/

/-- C16, as stated, fails, in two ways.  (1) In the octree of main.cpp primitive 0
is added around the center of the world, moved to around (100, 100, 100),
strictly inside one octant of the root, and updated; the root still holds it.
Its bounds are then written to lie around (-100, -100, -100), strictly inside the
diagonally opposite octant, and `update(0)` is called: the box fits in the region
of the root, so the back-reference names the root as before.  (2) In the
arithmetic of the machine: primitive 0 is added around (3, 5, 7) and held below
the child of octant 0; its bounds are written to `below_center_box`, strictly
inside the opposite octant, and `update(0)` is called; the query box
`positive_octant_query` lies strictly inside octant 0 and shares no point with
the box, and the query returns primitive 0.  All numbers are binary32 values. -/
theorem update_keeps_primitive_in_root :
    (Caller.settled any_bounds center_bounds drift_calls = true ∧
      0 ∈ Caller.present_after any_bounds center_bounds drift_calls ∧
      OctreeAccelerationStructure.strictly_in_octant ⟨world_center3, world_extent3⟩ 0
        (Caller.bounds_after center_bounds drift_calls 0) ∧
      OctreeAccelerationStructure.strictly_in_octant ⟨world_center3, world_extent3⟩
        (Fin.rev 0) ⟨⟨-100, -100, -100⟩, ⟨1, 1, 1⟩⟩ ∧
      (OctreeAccelerationStructure.reached center_bounds (fun _ => none) world_center3
        world_extent3 5 drift_calls).map (fun s => s.m_node 0) = some (some []) ∧
      (OctreeAccelerationStructure.reached center_bounds (fun _ => none) world_center3
        world_extent3 5
        (drift_calls ++ [.set_bounds 0 ⟨⟨-100, -100, -100⟩, ⟨1, 1, 1⟩⟩, .update 0])).map
          (fun s => s.m_node 0) = some (some [])) ∧
    (below_center_box.binary32_values ∧ positive_octant_query.binary32_values ∧
      OctreeAccelerationStructure.strictly_in_octant ⟨world_center3, world_extent3⟩ 0
        (sample_bounds 0) ∧
      OctreeAccelerationStructure.strictly_in_octant ⟨world_center3, world_extent3⟩
        (Fin.rev 0) below_center_box ∧
      OctreeAccelerationStructure.strictly_in_octant ⟨world_center3, world_extent3⟩ 0
        positive_octant_query ∧
      (OctreeAccelerationStructure.reached sample_bounds (fun _ => none) world_center3
        world_extent3 5 [.add 0]).map (fun s => s.m_node 0) = some (some [0, 7, 7, 7, 7]) ∧
      (OctreeAccelerationStructure.reached sample_bounds (fun _ => none) world_center3
        world_extent3 5 [.add 0, .set_bounds 0 below_center_box, .update 0]).map
          (fun s => (s.m_node 0,
            OctreeAccelerationStructure.query_aabbox s positive_octant_query []))
        = some (some [7, 0, 0, 0, 0], [0])) := by
  decide!

/-- C16, amended: let every number of the root region, of the boxes of the
primitives at each `add` and `update`, of the new bounds and of the query box be
a multiple of `2 ^ k` of magnitude at most `2 ^ 22 * 2 ^ k`, with the half-extents
of the root multiples of `2 ^ (k + max_depth)`.  In an octree with
`max_depth >= 1`, for every present primitive held by a node below the root, in
the subtree of the child of one root octant, if its bounds are changed to lie
strictly inside the diagonally opposite root octant and `update(p)` is called,
then the back-reference names a node in the subtree of the child of that opposite
octant, a different node than before, and a box query whose box lies strictly
inside the old octant does not return `p`.  Here `k` is at least `-149`, the
exponent of the smallest positive binary32 number. -/
theorem relocation_across_octants_on_grid (k : ℤ) (hk : -149 ≤ k)
    (m_bounds : Nat → aabbox3) (calls : List Call)
    (m_node : Nat → Option (List (Fin 8))) (center extent : float3) (max_depth : Nat)
    (p : Nat) (i : Fin 8) (rest : List (Fin 8)) (x : aabbox3)
    (hext : extent.x > 0 ∧ extent.y > 0 ∧ extent.z > 0) (hdepth : 1 ≤ max_depth)
    (hroot : aabbox3.grid_root k max_depth ⟨center, extent⟩)
    (hcalls : Caller.respects (aabbox3.grid_bounds k) m_bounds calls = true)
    (hp : p ∈ Caller.present_after (aabbox3.grid_bounds k) m_bounds calls)
    (hnode : (OctreeAccelerationStructure.reached m_bounds m_node center extent max_depth
      calls).map (fun s => s.m_node p) = some (some (i :: rest)))
    (hxg : x.on_grid k)
    (hx : OctreeAccelerationStructure.strictly_in_octant ⟨center, extent⟩ (Fin.rev i) x) :
    ∃ s s' rest',
      OctreeAccelerationStructure.reached m_bounds m_node center extent max_depth calls
        = some s ∧
      s.m_node p = some (i :: rest) ∧
      OctreeAccelerationStructure.update
        { s with m_bounds := Function.update s.m_bounds p x } p = some s' ∧
      s'.m_node p = some (Fin.rev i :: rest') ∧
      s'.m_node p ≠ s.m_node p ∧
      ∀ q, q.on_grid k →
        OctreeAccelerationStructure.strictly_in_octant ⟨center, extent⟩ i q →
        p ∉ OctreeAccelerationStructure.query_aabbox s' q [] := by
  obtain ⟨c, hc, hpres⟩ := Caller.respects_iff _ _ _ hcalls
  rw [hpres] at hp
  have hc' : Caller.run any_bounds ⟨m_bounds, [], []⟩ calls = some c :=
    Caller.run_weaken _ _ (fun _ _ => rfl) calls _ _ hc
  obtain ⟨s, hs, hsim⟩ := @OctreeAccelerationStructure.octree_reach exact_arithmetic _ _
    (@OctreeAccelerationStructure.octree_geometry_good exact_arithmetic exact_arithmetic_exact)
    m_bounds m_node center extent max_depth hext
    ⟨hext.1.le, hext.2.1.le, hext.2.2.le⟩ any_bounds (fun _ _ => trivial) calls c hc'
  obtain ⟨g1, g2⟩ := OctreeAccelerationStructure.octree_reached_grid_of k hk m_bounds m_node
    center extent max_depth calls hroot (aabbox3.grid_bounds k)
    (fun x hx => by simpa [aabbox3.grid_bounds] using hx) c hc
  have hnodes := g2 s hs
  have hs32 := g1.trans hs
  rw [hs32] at hnode
  simp only [Option.map_some', Option.some.injEq] at hnode
  obtain ⟨s', rest', hupd, hnew, _⟩ := @OctreeAccelerationStructure.octree_relocate
    exact_arithmetic exact_arithmetic_exact _ _ _ _ _ hsim hdepth p hp i rest hnode x hx
  have hstep := TreeAccelerationStructure.step_congr OctreeAccelerationStructure.shape
    (@OctreeAccelerationStructure.shape exact_arithmetic) max_depth
    (fun d b => d ≤ max_depth ∧ b.grid_node k (max_depth - d)) (fun x => x.on_grid k)
    (fun x d b hx _ _ => OctreeAccelerationStructure.octree_child_index_grid k hk x hx b)
    (fun x d b hx hb => OctreeAccelerationStructure.octree_outside_grid k hk x hx _ b hb.2)
    (fun d b i hb hd => by
      have e : max_depth - d = (max_depth - (d + 1)) + 1 := by omega
      have hb' := hb.2
      rw [e] at hb'
      obtain ⟨g1, g2⟩ := OctreeAccelerationStructure.octree_child_bounds_grid k hk _ b hb' i
      exact ⟨g1, by omega, g2⟩)
    { s with m_bounds := Function.update s.m_bounds p x } hsim.depth_eq hnodes (.update p)
    (fun p' hp' => by
      rcases hp' with hp' | hp'
      · cases hp'
      · cases hp'
        simpa using hxg)
  have hupd32 : OctreeAccelerationStructure.update
      { s with m_bounds := Function.update s.m_bounds p x } p = some s' :=
    hstep.1.trans hupd
  have hbounds : s'.m_bounds p = x := by
    have h := TreeAccelerationStructure.step_m_bounds
      (@OctreeAccelerationStructure.shape exact_arithmetic) any_bounds
      { s with m_bounds := Function.update s.m_bounds p x } s'
      { c with m_bounds := Function.update c.m_bounds p x }
      { c with
        m_bounds := Function.update c.m_bounds p x
        stale := c.stale.filter (fun q => q ≠ p) } (.update p)
      (by simp only [hsim.bounds_eq]) hupd
      (by simp [Caller.step, hp, any_bounds])
    rw [h]
    simp
  refine ⟨s, s', rest', hs32, hnode, hupd32, hnew, ?_, ?_⟩
  · rw [hnew, hnode]
    intro h
    simp only [Option.some.injEq, List.cons.injEq] at h
    exact OctreeAccelerationStructure.octree_rev_ne i h.1
  · intro q hqg hq hmem
    rw [OctreeAccelerationStructure.octree_query_aabbox_eq, List.nil_append] at hmem
    have h := (TreeNode.query_matches_sublist _ _ s'.root).subset hmem
    simp only [List.mem_filter] at h
    have hhit := h.2
    rw [hbounds, intersect_aabbox3_aabbox3_grid k hk x q hxg hqg,
      @OctreeAccelerationStructure.no_hit_opposite exact_arithmetic exact_arithmetic_exact
        ⟨center, extent⟩ i x q hx hq] at hhit
    exact absurd hhit (by simp)

theorem relocation_across_octants_on_grid_witness :
    (-149 : ℤ) ≤ 0 ∧
    (world_extent3.x > 0 ∧ world_extent3.y > 0 ∧ world_extent3.z > 0) ∧ 1 ≤ 5 ∧
    aabbox3.grid_root 0 5 ⟨world_center3, world_extent3⟩ ∧
    Caller.respects (aabbox3.grid_bounds 0) sample_bounds [.add 0] = true ∧
    0 ∈ Caller.present_after (aabbox3.grid_bounds 0) sample_bounds [.add 0] ∧
    (OctreeAccelerationStructure.reached sample_bounds (fun _ => none) world_center3
      world_extent3 5 [.add 0]).map (fun s => s.m_node 0) = some (some [0, 7, 7, 7, 7]) ∧
    aabbox3.on_grid 0 ⟨⟨-300, -5, -7⟩, ⟨1, 1, 1⟩⟩ ∧
    OctreeAccelerationStructure.strictly_in_octant ⟨world_center3, world_extent3⟩ (Fin.rev 0)
      ⟨⟨-300, -5, -7⟩, ⟨1, 1, 1⟩⟩ ∧
    ∃ s s' rest',
      OctreeAccelerationStructure.reached sample_bounds (fun _ => none) world_center3
        world_extent3 5 [.add 0] = some s ∧
      s.m_node 0 = some [0, 7, 7, 7, 7] ∧
      OctreeAccelerationStructure.update
        { s with m_bounds := Function.update s.m_bounds 0 ⟨⟨-300, -5, -7⟩, ⟨1, 1, 1⟩⟩ } 0
        = some s' ∧
      s'.m_node 0 = some (Fin.rev 0 :: rest') ∧
      s'.m_node 0 ≠ s.m_node 0 ∧
      ∀ q, q.on_grid 0 →
        OctreeAccelerationStructure.strictly_in_octant ⟨world_center3, world_extent3⟩ 0 q →
        0 ∉ OctreeAccelerationStructure.query_aabbox s' q [] :=
  ⟨by decide, by decide!, by decide, by decide!, by decide!, by decide!, by decide!,
    by decide!, by decide!,
    relocation_across_octants_on_grid 0 (by decide) sample_bounds [.add 0] (fun _ => none)
      world_center3 world_extent3 5 0 0 [7, 7, 7, 7] ⟨⟨-300, -5, -7⟩, ⟨1, 1, 1⟩⟩ (by decide!)
      (by decide) (by decide!) (by decide!) (by decide!) (by decide!) (by decide!)
      (by decide!)⟩
/-- C17, at the failing input: every number of `shifted_planes` and of the
primitive is a binary32 value, and the eight corner triples of the frustum have
non-zero determinant; the corner heights that `query(frustum)` computes span
`[-1.4f, 1.4f]`, so that `y_center` is 0 and `y_extent` is `1.4f`.  In the
quadtree of main.cpp the primitive `edge_bounds 0`, of half-extents at most 1, is
held by the node at depth 5 with 2D bounds of center (96, 32) and extent (32, 32),
and its footprint lies inside these bounds.  The primitive passes
`intersect(primitive bounds, frustum)`, the ersatz box of the node does not, so
the frustum query skips the node and returns nothing, where the linear index
returns the primitive. -/
theorem quadtree_frustum_skips_edge_primitive :
    shifted_planes.binary32_values ∧ (edge_bounds 0).binary32_values ∧
    shifted_planes.non_degenerate ∧
    QuadtreeAccelerationStructure.y_range shifted_planes
      = (-11744051/8388608, 11744051/8388608) ∧
    QuadtreeAccelerationStructure.y_center shifted_planes = 0 ∧
    QuadtreeAccelerationStructure.y_extent shifted_planes = 11744051/8388608 ∧
    (edge_bounds 0).inside_footprint ⟨⟨96, 32⟩, ⟨32, 32⟩⟩ ∧
    intersect_aabbox3_frustum (edge_bounds 0) shifted_planes = true ∧
    intersect_aabbox3_frustum
      (QuadtreeAccelerationStructure.ersatz_bounds ⟨⟨96, 32⟩, ⟨32, 32⟩⟩
        (QuadtreeAccelerationStructure.y_center shifted_planes)
        (QuadtreeAccelerationStructure.y_extent shifted_planes))
      shifted_planes = false ∧
    Caller.settled (QuadtreeAccelerationStructure.in_region world_center2 world_extent2)
      edge_bounds [.add 0] = true ∧
    (QuadtreeAccelerationStructure.reached edge_bounds (fun _ => none) world_center2
      world_extent2 5 [.add 0]).map
        (fun s => (s.m_node 0, s.root.bounds_at [0, 3, 3, 3, 2],
          QuadtreeAccelerationStructure.query_frustum s shifted_planes []))
      = some (some [0, 3, 3, 3, 2], some ⟨⟨96, 32⟩, ⟨32, 32⟩⟩, []) ∧
    (LinearAccelerationStructure.reached edge_bounds [.add 0]).map
      (fun s => s.query_frustum shifted_planes []) = some [0] := by
  decide!
/-- C13, as stated, fails: in the octree of main.cpp, in a 64-bit build with
libstdc++ and nodes of 120 bytes, on a memory resource that starts at 0, `add` of
one primitive around (3, 5, 7) creates five nodes and gives the vector of the
last one a buffer for one pointer; after `remove` of that primitive the index is
empty, the six nodes and the buffer are still there, and `allocated` is 608, not
the 0 it was before the `add`. -/
theorem allocation_stays_after_remove :
    Caller.respects any_bounds sample_bounds [.add 0, .remove 0] = true ∧
    Caller.present_after any_bounds sample_bounds [.add 0, .remove 0] = [] ∧
    (OctreeAccelerationStructure.reached_memory (libstdcxx_layout 120) sample_bounds
      (fun _ => none) world_center3 world_extent3 5 ⟨0⟩ []).map (fun r => r.2.2.allocated)
      = some 0 ∧
    (OctreeAccelerationStructure.reached_memory (libstdcxx_layout 120) sample_bounds
      (fun _ => none) world_center3 world_extent3 5 ⟨0⟩ [.add 0]).map
        (fun r => r.2.2.allocated) = some 608 ∧
    (OctreeAccelerationStructure.reached_memory (libstdcxx_layout 120) sample_bounds
      (fun _ => none) world_center3 world_extent3 5 ⟨0⟩ [.add 0, .remove 0]).map
        (fun r => (r.2.2.allocated, r.1.root.all_primitives, r.1.root.count_nodes,
          r.1.root.total_capacity r.2.1))
      = some (608, [], 6, 1) := by
  decide!

/-- C13, amended: allocation accounting does not return to baseline.  For every
octree or quadtree, every layout in which a vector that grows takes a larger
capacity, and every call sequence that respects the preconditions, such as `add`
of N primitives followed by `remove` of all N, on a memory resource with room for
the bytes in `size_t`: the calls pass the assertion of `deallocate`, and
afterwards `allocated` is its value before the first call plus `sizeof_node` for
every node of the tree except the root plus `sizeof_pointer` for every element of
capacity of the vectors of the nodes.  That capacity is at least the number of
primitives the index held at any moment of the calls, and `remove` gives nothing
back: it leaves `allocated` and every capacity as they are. -/
theorem allocation_accounting_with_vectors (layout : MemoryLayout)
    (hgrow : ∀ capacity, capacity < layout.grow capacity) (m_bounds : Nat → aabbox3)
    (calls : List Call) (m_node8 : Nat → Option (List (Fin 8)))
    (m_node4 : Nat → Option (List (Fin 4))) (center3 extent3 : float3)
    (center2 extent2 : float2) (max_depth : Nat) (memory_resource : CountMemoryResource)
    (hext3 : extent3.x > 0 ∧ extent3.y > 0 ∧ extent3.z > 0)
    (hext2 : extent2.x > 0 ∧ extent2.y > 0)
    (hcalls : Caller.respects any_bounds m_bounds calls = true)
    (hroom8 : (OctreeAccelerationStructure.reached_capacity layout m_bounds m_node8 center3
      extent3 max_depth calls).map
        (fun r => decide (memory_resource.allocated + r.1.peak_bytes layout r.2 <
          2 ^ layout.size_bits)) = some true)
    (hroom4 : (QuadtreeAccelerationStructure.reached_capacity layout m_bounds m_node4 center2
      extent2 max_depth calls).map
        (fun r => decide (memory_resource.allocated + r.1.peak_bytes layout r.2 <
          2 ^ layout.size_bits)) = some true) :
    (∃ s capacity after,
      OctreeAccelerationStructure.reached m_bounds m_node8 center3 extent3 max_depth calls
        = some s ∧
      OctreeAccelerationStructure.reached_memory layout m_bounds m_node8 center3 extent3
        max_depth memory_resource calls = some (s, capacity, after) ∧
      1 ≤ s.root.count_nodes ∧
      after.allocated =
        memory_resource.allocated + (layout.sizeof_node * (s.root.count_nodes - 1) +
          layout.sizeof_pointer * s.root.total_capacity capacity) ∧
      (∀ calls1 calls2, calls = calls1 ++ calls2 →
        ∃ s1, OctreeAccelerationStructure.reached m_bounds m_node8 center3 extent3 max_depth
            calls1 = some s1 ∧
          s1.root.all_primitives.length ≤ s.root.total_capacity capacity) ∧
      (∀ p, TreeAccelerationStructure.memory_step layout OctreeAccelerationStructure.shape s
            capacity after (.remove p) = some after ∧
          TreeAccelerationStructure.capacity_after layout OctreeAccelerationStructure.shape s
            capacity (.remove p) = capacity)) ∧
    (∃ s capacity after,
      QuadtreeAccelerationStructure.reached m_bounds m_node4 center2 extent2 max_depth calls
        = some s ∧
      QuadtreeAccelerationStructure.reached_memory layout m_bounds m_node4 center2 extent2
        max_depth memory_resource calls = some (s, capacity, after) ∧
      1 ≤ s.root.count_nodes ∧
      after.allocated =
        memory_resource.allocated + (layout.sizeof_node * (s.root.count_nodes - 1) +
          layout.sizeof_pointer * s.root.total_capacity capacity) ∧
      (∀ calls1 calls2, calls = calls1 ++ calls2 →
        ∃ s1, QuadtreeAccelerationStructure.reached m_bounds m_node4 center2 extent2 max_depth
            calls1 = some s1 ∧
          s1.root.all_primitives.length ≤ s.root.total_capacity capacity) ∧
      (∀ p, TreeAccelerationStructure.memory_step layout QuadtreeAccelerationStructure.shape s
            capacity after (.remove p) = some after ∧
          TreeAccelerationStructure.capacity_after layout QuadtreeAccelerationStructure.shape
            s capacity (.remove p) = capacity)) := by
  obtain ⟨c, hc, _⟩ := Caller.respects_iff _ _ _ hcalls
  constructor
  · obtain ⟨s, hs, _⟩ := OctreeAccelerationStructure.octree_reach
      (TreeShape.geometry_trivial _) m_bounds m_node8 center3 extent3 max_depth hext3 trivial
      any_bounds (fun _ _ => trivial) calls c hc
    have hrun := hs
    rw [OctreeAccelerationStructure.octree_reached_eq _ _ _ _ _ hext3] at hrun
    rw [OctreeAccelerationStructure.octree_reached_capacity_eq _ _ _ _ _ _ hext3] at hroom8
    obtain ⟨cf, after, _, hmem, hF, hone, hpre⟩ := TreeAccelerationStructure.memory_of_run
      layout hgrow _ _ _ _ _ calls memory_resource s hrun hroom8
    refine ⟨s, cf, after, hs, ?_, hone, hF, ?_, fun p => ⟨rfl, rfl⟩⟩
    · rw [OctreeAccelerationStructure.octree_reached_memory_eq _ _ _ _ _ _ hext3]; exact hmem
    · intro calls1 calls2 hsplit
      obtain ⟨s1, h1, h2⟩ := hpre calls1 calls2 hsplit
      rw [← OctreeAccelerationStructure.octree_reached_eq _ _ _ _ _ hext3] at h1
      exact ⟨s1, h1, h2⟩
  · obtain ⟨s, hs, _⟩ := QuadtreeAccelerationStructure.quadtree_reach
      (TreeShape.geometry_trivial _) m_bounds m_node4 center2 extent2 max_depth hext2 trivial
      any_bounds (fun _ _ => trivial) calls c hc
    have hrun := hs
    rw [QuadtreeAccelerationStructure.quadtree_reached_eq _ _ _ _ _ hext2] at hrun
    rw [QuadtreeAccelerationStructure.quadtree_reached_capacity_eq _ _ _ _ _ _ hext2] at hroom4
    obtain ⟨cf, after, _, hmem, hF, hone, hpre⟩ := TreeAccelerationStructure.memory_of_run
      layout hgrow _ _ _ _ _ calls memory_resource s hrun hroom4
    refine ⟨s, cf, after, hs, ?_, hone, hF, ?_, fun p => ⟨rfl, rfl⟩⟩
    · rw [QuadtreeAccelerationStructure.quadtree_reached_memory_eq _ _ _ _ _ _ hext2]
      exact hmem
    · intro calls1 calls2 hsplit
      obtain ⟨s1, h1, h2⟩ := hpre calls1 calls2 hsplit
      rw [← QuadtreeAccelerationStructure.quadtree_reached_eq _ _ _ _ _ hext2] at h1
      exact ⟨s1, h1, h2⟩

theorem allocation_accounting_with_vectors_witness :
    (∀ capacity, capacity < (libstdcxx_layout 120).grow capacity) ∧
    Caller.respects any_bounds sample_bounds [.add 0, .add 1, .remove 0, .remove 1] = true ∧
    (OctreeAccelerationStructure.reached_capacity (libstdcxx_layout 120) sample_bounds
      (fun _ => none) world_center3 world_extent3 5
      [.add 0, .add 1, .remove 0, .remove 1]).map
        (fun r => decide ((⟨0⟩ : CountMemoryResource).allocated +
          r.1.peak_bytes (libstdcxx_layout 120) r.2 < 2 ^ (libstdcxx_layout 120).size_bits))
      = some true ∧
    ∃ s capacity after,
      OctreeAccelerationStructure.reached sample_bounds (fun _ => none) world_center3
        world_extent3 5 [.add 0, .add 1, .remove 0, .remove 1] = some s ∧
      OctreeAccelerationStructure.reached_memory (libstdcxx_layout 120) sample_bounds
        (fun _ => none) world_center3 world_extent3 5 ⟨0⟩
        [.add 0, .add 1, .remove 0, .remove 1] = some (s, capacity, after) ∧
      1 ≤ s.root.count_nodes ∧
      after.allocated =
        (⟨0⟩ : CountMemoryResource).allocated +
          ((libstdcxx_layout 120).sizeof_node * (s.root.count_nodes - 1) +
            (libstdcxx_layout 120).sizeof_pointer * s.root.total_capacity capacity) ∧
      (∀ calls1 calls2, [Call.add 0, .add 1, .remove 0, .remove 1] = calls1 ++ calls2 →
        ∃ s1, OctreeAccelerationStructure.reached sample_bounds (fun _ => none) world_center3
            world_extent3 5 calls1 = some s1 ∧
          s1.root.all_primitives.length ≤ s.root.total_capacity capacity) ∧
      (∀ p, TreeAccelerationStructure.memory_step (libstdcxx_layout 120)
            OctreeAccelerationStructure.shape s capacity after (.remove p) = some after ∧
          TreeAccelerationStructure.capacity_after (libstdcxx_layout 120)
            OctreeAccelerationStructure.shape s capacity (.remove p) = capacity) :=
  ⟨fun capacity => by simp only [libstdcxx_layout]; omega, by decide!, by decide!,
    (allocation_accounting_with_vectors (libstdcxx_layout 120)
      (fun capacity => by simp only [libstdcxx_layout]; omega) sample_bounds
      [.add 0, .add 1, .remove 0, .remove 1]
      (fun _ => none) (fun _ => none) world_center3 world_extent3 world_center2 world_extent2 5
      ⟨0⟩ (by decide!) (by decide!) (by decide!) (by decide!) (by decide!)).1⟩
/-- C26: in exact arithmetic over an ordered field with a square root (the real
numbers with `Real.sqrt`), for every 4x4 matrix whose six extracted normals are
non-zero and for every point `p`: the value `dot(p, normal) + distance` of each
of the six planes of `frustum_from_float4x4` (left, right, bottom, top, near,
far) has the sign of `cw + cx`, `cw - cx`, `cw + cy`, `cw - cy`, `cz` and
`cw - cz` respectively, where `(cx, cy, cz, cw)` is the row vector
`(p.x, p.y, p.z, 1)` times the matrix; and the normal of every plane has
length 1. -/
theorem frustum_plane_extraction_real {K : Type} [LinearOrderedField K] [FloatArithmetic K]
    [FloatArithmetic.Exact K] (sqrt : K → K) (m : float4x4_of K)
    (hsqrt : ∀ v : K, 0 ≤ v → 0 ≤ sqrt v ∧ sqrt v * sqrt v = v)
    (hnormal : ∀ i, (m.extracted i).normal ≠ ⟨0, 0, 0⟩) :
    (∀ (p : float3_of K) (i : Fin 6),
      SignType.sign (dot p ((frustum_from_float4x4 sqrt m).data i).normal +
        ((frustum_from_float4x4 sqrt m).data i).distance) = SignType.sign (m.side p i)) ∧
    (∀ i : Fin 6,
      dot ((frustum_from_float4x4 sqrt m).data i).normal
        ((frustum_from_float4x4 sqrt m).data i).normal = 1 ∧
      length sqrt ((frustum_from_float4x4 sqrt m).data i).normal = 1) := by
  have hsq : ∀ i, 0 < m.normal_length_squared i := by
    intro i
    have hne : m.normal_length_squared i ≠ 0 :=
      fun h => hnormal i ((normal_length_squared_eq_zero m i).1 h)
    have hx := mul_self_nonneg (m.extracted i).normal.x
    have hy := mul_self_nonneg (m.extracted i).normal.y
    have hz := mul_self_nonneg (m.extracted i).normal.z
    have h0 : 0 ≤ m.normal_length_squared i := by
      simp only [float4x4_of.normal_length_squared]
      linarith
    exact lt_of_le_of_ne h0 (Ne.symm hne)
  have hlen : ∀ i, length sqrt (m.extracted i).normal = sqrt (m.normal_length_squared i) :=
    fun i => length_exact sqrt _
  have hpos : ∀ i, 0 < length sqrt (m.extracted i).normal := by
    intro i
    rw [hlen]
    obtain ⟨h1, h2⟩ := hsqrt _ (hsq i).le
    rcases h1.eq_or_lt with h | h
    · rw [← h] at h2
      have := hsq i
      simp only [mul_zero] at h2
      linarith
    · exact h
  have hunit : ∀ i, dot ((frustum_from_float4x4 sqrt m).data i).normal
      ((frustum_from_float4x4 sqrt m).data i).normal = 1 := by
    intro i
    rw [frustum_from_float4x4_data]
    apply normalize_plane_unit sqrt (m.extracted i) (hpos i)
    rw [hlen]
    exact (hsqrt _ (hsq i).le).2
  refine ⟨?_, fun i => ⟨hunit i, ?_⟩⟩
  · intro p i
    rw [frustum_from_float4x4_data, normalize_plane_side sqrt (m.extracted i) p (hpos i),
      sign_div_pos _ _ (hpos i), extracted_side]
  · have h := hunit i
    rw [dot_exact] at h
    rw [length_exact, h]
    exact sqrt_one_of_exact sqrt hsqrt

theorem frustum_plane_extraction_real_witness :
    (∀ v : ℝ, 0 ≤ v → 0 ≤ Real.sqrt v ∧ Real.sqrt v * Real.sqrt v = v) ∧
    (∀ i, ((⟨fun r c => if r = c ∨ (r = 1 ∧ c = 0) then 1 else 0⟩ :
      float4x4_of ℝ).extracted i).normal ≠ ⟨0, 0, 0⟩) ∧
    ((⟨fun r c => if r = c ∨ (r = 1 ∧ c = 0) then 1 else 0⟩ :
      float4x4_of ℝ).extracted 0).normal = ⟨1, 1, 0⟩ ∧
    (∀ (p : float3_of ℝ) (i : Fin 6),
      SignType.sign
        (@dot ℝ _ _ real_arithmetic p
            ((@frustum_from_float4x4 ℝ _ _ _ _ _ real_arithmetic Real.sqrt
              ⟨fun r c => if r = c ∨ (r = 1 ∧ c = 0) then 1 else 0⟩).data i).normal +
          ((@frustum_from_float4x4 ℝ _ _ _ _ _ real_arithmetic Real.sqrt
            ⟨fun r c => if r = c ∨ (r = 1 ∧ c = 0) then 1 else 0⟩).data i).distance) =
        SignType.sign ((⟨fun r c => if r = c ∨ (r = 1 ∧ c = 0) then 1 else 0⟩ :
          float4x4_of ℝ).side p i)) ∧
    (∀ i : Fin 6,
      @dot ℝ _ _ real_arithmetic
        ((@frustum_from_float4x4 ℝ _ _ _ _ _ real_arithmetic Real.sqrt
          ⟨fun r c => if r = c ∨ (r = 1 ∧ c = 0) then 1 else 0⟩).data i).normal
        ((@frustum_from_float4x4 ℝ _ _ _ _ _ real_arithmetic Real.sqrt
          ⟨fun r c => if r = c ∨ (r = 1 ∧ c = 0) then 1 else 0⟩).data i).normal = 1 ∧
      @length ℝ _ _ real_arithmetic Real.sqrt
        ((@frustum_from_float4x4 ℝ _ _ _ _ _ real_arithmetic Real.sqrt
          ⟨fun r c => if r = c ∨ (r = 1 ∧ c = 0) then 1 else 0⟩).data i).normal = 1) :=
  have hs : ∀ v : ℝ, 0 ≤ v → 0 ≤ Real.sqrt v ∧ Real.sqrt v * Real.sqrt v = v :=
    fun v hv => ⟨Real.sqrt_nonneg v, Real.mul_self_sqrt hv⟩
  have hn : ∀ i, ((⟨fun r c => if r = c ∨ (r = 1 ∧ c = 0) then 1 else 0⟩ :
      float4x4_of ℝ).extracted i).normal ≠ ⟨0, 0, 0⟩ := by
    intro i
    fin_cases i <;> simp [float4x4_of.extracted]
  ⟨hs, hn, by simp [float4x4_of.extracted],
    @frustum_plane_extraction_real ℝ _ real_arithmetic real_arithmetic_exact Real.sqrt
      ⟨fun r c => if r = c ∨ (r = 1 ∧ c = 0) then 1 else 0⟩ hs hn⟩
